import Mathlib

/-!
# MiniZinc pretty-printer (`lib/prettyprinter.cpp`): embedding and verified properties

The development follows the source file top to bottom:

* the precedence oracle (`precedence`, `needParens`);
* the layout documents (`Document`, `addDocumentToList`, `setParent`);
* the expression-to-document mapper (`ExpressionDocumentMapper`, `expressionToDocument`);
* the item-to-document mapper (`ItemDocumentMapper`);
* the layout engine (`Line`, `LinesToSimplify`, `PrettyPrinter`);
* the facade (`Printer`), on documents, expressions, items and models.

The reference parser of operator expressions (`Reference.parse`) is written from the
specification (sections 4.1 and 4.3), not from the source: it is what the printed text is
compared against.

Conventions of the embedding.

* C++ `int` values that may be negative (widths, columns, line lengths, line indices, the
  sentinel `-1`) are `Int`; overflow of `int` is outside the model.
* Document levels and ledger priorities are `Nat`: a level starts at `0` and is only ever
  set to a parent's level plus one.
* `std::string` is `String`, and `s.size()` is the number of bytes (`String.utf8ByteSize`).
* `std::vector` is `List`; `std::map` is an association list kept in ascending key order.
* An access `v[i]` outside the vector has no defined behaviour in the source; the embedding
  reads a default element there and ignores a write.
* `LinesToSimplify::remove` calls itself along the parent table and need not return. It and
  every method that calls it (`simplify`, `printDocument`, `simplifyItem`, `print`, the
  facade) have an optional result: `none` stands for a call that does not return.
-/

namespace MiniZinc

/-! ## AST (the parts of the AST that the printer reads) -/

/-- Binary operator tags: the labels of the two `switch (bo->_op)` statements. -/
inductive BinOpType
  | BOT_PLUS | BOT_MINUS | BOT_MULT | BOT_DIV | BOT_IDIV | BOT_MOD
  | BOT_LE | BOT_LQ | BOT_GR | BOT_GQ | BOT_EQ | BOT_NQ
  | BOT_IN | BOT_SUBSET | BOT_SUPERSET | BOT_UNION | BOT_DIFF | BOT_SYMDIFF
  | BOT_INTERSECT | BOT_PLUSPLUS | BOT_EQUIV | BOT_IMPL | BOT_RIMPL
  | BOT_OR | BOT_AND | BOT_XOR | BOT_DOTDOT
  deriving DecidableEq, Repr

/-- Unary operator tags: the labels of `switch (uo._op)`. -/
inductive UnOpType
  | UOT_NOT | UOT_PLUS | UOT_MINUS
  deriving DecidableEq, Repr

/-- The `Type::_ti` qualifier. -/
inductive TypeTI
  | TI_PAR | TI_VAR | TI_SVAR | TI_ANY
  deriving DecidableEq, Repr

/-- The `Type::_st` qualifier. -/
inductive TypeST
  | ST_PLAIN | ST_SET
  deriving DecidableEq, Repr

/-- The `Type::_bt` base type. -/
inductive TypeBT
  | BT_INT | BT_BOOL | BT_FLOAT | BT_STRING | BT_ANN | BT_BOT | BT_UNKNOWN
  deriving DecidableEq, Repr

/-- The class `Type` (fields read by the printer, and the dimension). -/
structure Type_ where
  _ti : TypeTI
  _bt : TypeBT
  _st : TypeST
  _dim : Int
  deriving DecidableEq, Repr

/-- The constant `Type::parint()`. -/
def Type_.parint : Type_ := ⟨.TI_PAR, .BT_INT, .ST_PLAIN, 0⟩

/-- A float literal value, kept as the text that `oss << fl._v` produces for it. -/
structure FloatVal where
  text : String
  deriving DecidableEq, Repr

mutual
/-- An expression: its node (class and fields) and its annotation chain `_ann`.
A chain is the list of the `_e` fields met by following `_a`; the empty list is `NULL`. -/
inductive Expression : Type
  | mk (node : ExpressionNode) (_ann : List Expression)
/-- The expression classes, one constructor per `Expression::E_...` tag, named after the
class (`Annotation_` is the class `Annotation`, `SetLit` holds both `_v` and `_isv`). -/
inductive ExpressionNode : Type
  | IntLit (_v : Int)
  | FloatLit (_v : FloatVal)
  | SetLit (_v : Option (List Expression)) (_isv : List (Int × Int))
  | BoolLit (_v : Bool)
  | StringLit (_v : String)
  | Id (_v : String)
  | AnonVar
  | ArrayLit (_v : List Expression) (_dims : List (Int × Int))
  | ArrayAccess (_v : Expression) (_idx : List Expression)
  | Comprehension (_e : Expression) (_g : List (List String × Expression))
      (_where : Option Expression) (_set : Bool)
  | ITE (_e_if : List (Expression × Expression)) (_e_else : Expression)
  | BinOp (_e0 : Expression) (_op : BinOpType) (_e1 : Expression)
  | UnOp (_op : UnOpType) (_e0 : Expression)
  | Call (_id : String) (_args : List Expression)
  | VarDecl (_ti : Expression) (_id : String) (_introduced : Bool) (_e : Option Expression)
  | Let (_let : List Expression) (_in : Expression)
  | Annotation_ (_e : Expression) (_a : List Expression)
  | TypeInst (_ranges : List Expression) (_type : Type_) (_domain : Option Expression)
  | TIId (_v : String)
end

/-- The node of an expression. -/
def Expression.node : Expression → ExpressionNode
  | .mk n _ => n

/-- The test `e->isa<BinOp>()`. -/
def Expression.isBinOp : Expression → Bool
  | .mk (.BinOp _ _ _) _ => true
  | _ => false

/-- The test `e->isa<UnOp>()`. -/
def Expression.isUnOp : Expression → Bool
  | .mk (.UnOp _ _) _ => true
  | _ => false

/-- The test `e->isa<Let>()`. -/
def Expression.isLet : Expression → Bool
  | .mk (.Let _ _) _ => true
  | _ => false

/-- The test `e->isa<VarDecl>()`. -/
def Expression.isVarDecl : Expression → Bool
  | .mk (.VarDecl _ _ _ _) _ => true
  | _ => false

/-! ## Precedence oracle -/

/-- The `switch (bo->_op)` of `precedence`. -/
def precedenceOp : BinOpType → Int
  | .BOT_EQUIV => 1200
  | .BOT_IMPL => 1100
  | .BOT_RIMPL => 1100
  | .BOT_OR => 1000
  | .BOT_XOR => 1000
  | .BOT_AND => 900
  | .BOT_LE => 800
  | .BOT_LQ => 800
  | .BOT_GR => 800
  | .BOT_GQ => 800
  | .BOT_EQ => 800
  | .BOT_NQ => 800
  | .BOT_IN => 700
  | .BOT_SUBSET => 700
  | .BOT_SUPERSET => 700
  | .BOT_UNION => 600
  | .BOT_DIFF => 600
  | .BOT_SYMDIFF => 600
  | .BOT_DOTDOT => 500
  | .BOT_PLUS => 400
  | .BOT_MINUS => 400
  | .BOT_MULT => 300
  | .BOT_IDIV => 300
  | .BOT_MOD => 300
  | .BOT_DIV => 300
  | .BOT_INTERSECT => 300
  | .BOT_PLUSPLUS => 200

/-- The function `precedence(const Expression* e)`. -/
def precedence : Expression → Int
  | .mk (.BinOp _ op _) _ => precedenceOp op
  | .mk (.Let _ _) _ => 1300
  | _ => 0

/-- The enumerator `PN_LEFT`. -/
def PN_LEFT : Nat := 1

/-- The enumerator `PN_RIGHT`. -/
def PN_RIGHT : Nat := 2

/-- The function `needParens(bo, left, right)`; the result is the value of the
`Parentheses` enumeration, a sum of `PN_LEFT` and `PN_RIGHT` bits. -/
def needParens (bo left right : Expression) : Nat :=
  let pbo := precedence bo
  let pl := precedence left
  let pr := precedence right
  let ret : Nat := if pbo < pl ∨ (pbo = pl ∧ pbo = 200) then 1 else 0
  ret + 2 * (if pbo < pr ∨ (pbo = pr ∧ pbo ≠ 200) then 1 else 0)

/-! ## Layout documents -/

/-- The byte count `s.size()` of a `std::string`. -/
def size (s : String) : Int := s.utf8ByteSize

/-- The classes `BreakPoint`, `StringDocument` and `DocumentList`, each with the `level`
field of the base class `Document`. -/
inductive Document : Type
  | BreakPoint (level : Nat) (dontSimplify : Bool)
  | StringDocument (level : Nat) (stringDocument : String)
  | DocumentList (level : Nat) (docs : List Document)
      (beginToken separator endToken : String) (unbreakable alignment : Bool)

instance : Inhabited Document := ⟨.StringDocument 0 ""⟩

/-- The accessor `getLevel()`. -/
def Document.getLevel : Document → Nat
  | .BreakPoint l _ => l
  | .StringDocument l _ => l
  | .DocumentList l _ _ _ _ _ _ => l

/-- The test `dynamic_cast<BreakPoint*>(d)`. -/
def Document.isBreakPoint : Document → Bool
  | .BreakPoint _ _ => true
  | _ => false

mutual
/-- The virtual method `setParent(d)`, given the level of the new parent `d`:
`level = d->level + 1`, and a list then makes itself the parent of each of its children. -/
def Document.setParent : Document → Nat → Document
  | .BreakPoint _ ds, pl => .BreakPoint (pl + 1) ds
  | .StringDocument _ s, pl => .StringDocument (pl + 1) s
  | .DocumentList _ docs b s e u a, pl =>
      .DocumentList (pl + 1) (Document.setParentDocs docs (pl + 1)) b s e u a
/-- The loop of `DocumentList::setParent` over the children. -/
def Document.setParentDocs : List Document → Nat → List Document
  | [], _ => []
  | d :: ds, pl => d.setParent pl :: Document.setParentDocs ds pl
end

/-- The constructor `BreakPoint(bool ds)`; `BreakPoint()` is `newBreakPoint false`. -/
def newBreakPoint (ds : Bool) : Document := .BreakPoint 0 ds

/-- The constructor `StringDocument(std::string s)`. -/
def newStringDocument (s : String) : Document := .StringDocument 0 s

/-- The constructor `DocumentList(beginToken, separator, endToken, alignment)`; the
source's default for `alignment` is `true`, and `unbreakable` starts `false`. -/
def newDocumentList (beginToken separator endToken : String) (alignment : Bool) : Document :=
  .DocumentList 0 [] beginToken separator endToken false alignment

/-- The method `DocumentList::addDocumentToList(d)`. -/
def Document.addDocumentToList (dl d : Document) : Document :=
  match dl with
  | .DocumentList l docs b s e u a => .DocumentList l (docs ++ [d.setParent l]) b s e u a
  | other => other

/-- The method `DocumentList::addStringToList(s)`. -/
def Document.addStringToList (dl : Document) (s : String) : Document :=
  dl.addDocumentToList (newStringDocument s)

/-- The method `DocumentList::addBreakPoint(b)`; the source's default for `b` is `false`. -/
def Document.addBreakPoint (dl : Document) (b : Bool) : Document :=
  dl.addDocumentToList (newBreakPoint b)

/-- The method `DocumentList::setUnbreakable(b)`. -/
def Document.setUnbreakable (dl : Document) (b : Bool) : Document :=
  match dl with
  | .DocumentList l docs bt s e _ a => .DocumentList l docs bt s e b a
  | other => other

/-- Repeated `addDocumentToList`, for the loops that add one document per element. -/
def Document.addDocumentsToList (dl : Document) (ds : List Document) : Document :=
  ds.foldl Document.addDocumentToList dl

/-! ## Expression-to-document mapper -/

/-- The operator text chosen by the `switch (bo._op)` of `mapBinOp`. -/
def binOpText : BinOpType → String
  | .BOT_PLUS => "+"
  | .BOT_MINUS => "-"
  | .BOT_MULT => "*"
  | .BOT_DIV => "/"
  | .BOT_IDIV => " div "
  | .BOT_MOD => " mod "
  | .BOT_LE => "<"
  | .BOT_LQ => "<="
  | .BOT_GR => ">"
  | .BOT_GQ => ">="
  | .BOT_EQ => "=="
  | .BOT_NQ => "!="
  | .BOT_IN => " in "
  | .BOT_SUBSET => " subset "
  | .BOT_SUPERSET => " superset "
  | .BOT_UNION => " union "
  | .BOT_DIFF => " diff "
  | .BOT_SYMDIFF => " symdiff "
  | .BOT_INTERSECT => " intersect "
  | .BOT_PLUSPLUS => "++"
  | .BOT_EQUIV => " <-> "
  | .BOT_IMPL => " -> "
  | .BOT_RIMPL => " <- "
  | .BOT_OR => " \\/ "
  | .BOT_AND => " /\\ "
  | .BOT_XOR => " xor "
  | .BOT_DOTDOT => ".."

/-- The flag `linebreak` set by the `switch (bo._op)` of `mapBinOp`. -/
def binOpLinebreak : BinOpType → Bool
  | .BOT_PLUSPLUS => true
  | .BOT_OR => true
  | .BOT_AND => true
  | _ => false

/-- The operator text chosen by the `switch (uo._op)` of `mapUnOp`. -/
def unOpText : UnOpType → String
  | .UOT_NOT => "not "
  | .UOT_PLUS => "+"
  | .UOT_MINUS => "-"

/-- The values of one range `lo..hi` in increasing order (`Ranges::ToValues`). -/
def rangeValues (r : Int × Int) : List Int :=
  (List.range (r.2 - r.1 + 1).toNat).map (fun k => r.1 + (k : Int))

/-- The body of `tiexpressionToDocument(type, e)`, given the document of `e` when `e` is
not `NULL`. -/
def tiexpressionToDocumentOf (type : Type_) (e : Option Document) : Document :=
  let dl := newDocumentList "" "" "" false
  let dl := match type._ti with
    | .TI_PAR => dl
    | .TI_VAR => dl.addStringToList "var "
    | .TI_SVAR => dl.addStringToList "svar "
    | .TI_ANY => dl.addStringToList "any "
  let dl := if type._st = .ST_SET then dl.addStringToList "set of " else dl
  match e with
  | none =>
    match type._bt with
    | .BT_INT => dl.addStringToList "int"
    | .BT_BOOL => dl.addStringToList "bool"
    | .BT_FLOAT => dl.addStringToList "float"
    | .BT_STRING => dl.addStringToList "string"
    | .BT_ANN => dl.addStringToList "ann"
    | .BT_BOT => dl.addStringToList "bot"
    | .BT_UNKNOWN => dl.addStringToList "???"
  | some d => dl.addDocumentToList d

/-- The document `mapBinOp` builds from the parenthesis bits, the operator and the
documents of the two operands. -/
def mapBinOpOf (ps : Nat) (op : BinOpType) (d0 d1 : Document) : Document :=
  let opLeft :=
    if ps &&& PN_LEFT ≠ 0 then newDocumentList "(" " " ")" true
    else newDocumentList "" " " "" true
  let opLeft := opLeft.addDocumentToList d0
  let dl := newDocumentList "" (binOpText op) "" true
  let opRight :=
    if ps &&& PN_RIGHT ≠ 0 then newDocumentList "(" " " ")" true
    else newDocumentList "" "" "" true
  let opRight := opRight.addDocumentToList d1
  let dl := dl.addDocumentToList opLeft
  let dl := if binOpLinebreak op then dl.addBreakPoint false else dl
  dl.addDocumentToList opRight

/-- The document `mapUnOp` builds from the operator, the test `needParen` and the document
of the operand. -/
def mapUnOpOf (op : UnOpType) (needParen : Bool) (d0 : Document) : Document :=
  let dl := newDocumentList "" "" "" true
  let dl := dl.addStringToList (unOpText op)
  let unop :=
    if needParen then newDocumentList "(" " " ")" true
    else newDocumentList "" " " "" true
  let unop := unop.addDocumentToList d0
  dl.addDocumentToList unop

/-- The document `mapITE` builds from the documents of the condition/branch pairs and of
the else-expression. -/
def mapITEOf (ifs : List (Document × Document)) (els : Document) : Document :=
  let dl := newDocumentList "" "" "" true
  let dl := (List.range ifs.length).zip ifs |>.foldl
    (fun (dl : Document) (p : Nat × Document × Document) =>
      let beg := if p.1 = 0 then "if " else " elseif "
      let dl := dl.addStringToList beg
      let dl := dl.addDocumentToList p.2.1
      let dl := dl.addStringToList " then "
      let ifdoc := newDocumentList "" "" "" false
      let ifdoc := ifdoc.addBreakPoint false
      let ifdoc := ifdoc.addDocumentToList p.2.2
      let dl := dl.addDocumentToList ifdoc
      dl.addStringToList " ") dl
  let dl := dl.addBreakPoint false
  let dl := dl.addStringToList "else "
  let elsedoc := newDocumentList "" "" "" false
  let elsedoc := elsedoc.addBreakPoint false
  let elsedoc := elsedoc.addDocumentToList els
  let dl := dl.addDocumentToList elsedoc
  let dl := dl.addStringToList " "
  let dl := dl.addBreakPoint false
  dl.addStringToList "endif"

/-- The generator-outside form of `mapCall` (one argument, a list comprehension), from the
call name, the generators (declared identifiers, document of the `in` expression), the
document of the where clause when there is one, and the document of the body. -/
def mapCallCompOf (id : String) (gens : List (List String × Document))
    (whr : Option Document) (body : Document) : Document :=
  let dl := newDocumentList "" " " "" true
  let dl := dl.addStringToList id
  let args := newDocumentList "" " " "" false
  let generators := newDocumentList "" ", " "" true
  let generators := gens.foldl
    (fun (generators : Document) (g : List String × Document) =>
      let vds := newDocumentList "" "," "" true
      let vds := g.1.foldl Document.addStringToList vds
      let gen := newDocumentList "" "" "" true
      let gen := gen.addDocumentToList vds
      let gen := gen.addStringToList " in "
      let gen := gen.addDocumentToList g.2
      generators.addDocumentToList gen) generators
  let args := args.addStringToList "("
  let args := args.addDocumentToList generators
  let args := match whr with
    | some w => (args.addStringToList "where").addDocumentToList w
    | none => args
  let args := args.addStringToList ")"
  let args := args.addStringToList "("
  let args := args.addBreakPoint false
  let args := args.addDocumentToList body
  let dl := dl.addDocumentToList args
  let dl := dl.addBreakPoint false
  dl.addStringToList ")"

/-- The document `mapComprehension` builds, from the documents of its parts. -/
def mapComprehensionOf (set : Bool) (e : Document) (gens : List (List String × Document))
    (whr : Option Document) : Document :=
  let dl := if set then newDocumentList "\x7b " " | " " \x7d" true
    else newDocumentList "[ " " | " " ]" true
  let dl := dl.addDocumentToList e
  let head := newDocumentList "" " " "" true
  let generators := newDocumentList "" ", " "" true
  let generators := gens.foldl
    (fun (generators : Document) (g : List String × Document) =>
      let gen := newDocumentList "" "" "" true
      let idents := newDocumentList "" ", " "" true
      let idents := g.1.foldl Document.addStringToList idents
      let gen := gen.addDocumentToList idents
      let gen := gen.addStringToList " in "
      let gen := gen.addDocumentToList g.2
      generators.addDocumentToList gen) generators
  let head := head.addDocumentToList generators
  let head := match whr with
    | some w => (head.addStringToList "where").addDocumentToList w
    | none => head
  dl.addDocumentToList head

/-- The document `mapArrayLit` builds, from the dimension list and the documents of the
stored elements. -/
def mapArrayLitOf (dims : List (Int × Int)) (v : List Document) : Document :=
  let n := dims.length
  if n = 1 ∧ (dims.getD 0 default).1 = 1 then
    (newDocumentList "[" ", " "]" true).addDocumentsToList v
  else if n = 2 ∧ (dims.getD 0 default).1 = 1 ∧ (dims.getD 1 default).1 = 1 then
    let rows := (dims.getD 0 default).2
    let cols := (dims.getD 1 default).2
    (List.range rows.toNat).foldl
      (fun (dl : Document) (i : Nat) =>
        let row := newDocumentList "" ", " "" true
        let row := (List.range cols.toNat).foldl
          (fun (row : Document) (j : Nat) =>
            row.addDocumentToList (v.getD ((i : Int) * cols + (j : Int)).toNat default)) row
        let dl := dl.addDocumentToList row
        if (i : Int) ≠ rows - 1 then dl.addBreakPoint true else dl)
      (newDocumentList "[| " " | " " |]" true)
  else
    let dl := newDocumentList "" "" "" true
    let dl := dl.addStringToList ("array" ++ toString n ++ "d")
    let args := newDocumentList "(" ", " ")" true
    let args := dims.foldl
      (fun (args : Document) (d : Int × Int) =>
        args.addStringToList (toString d.1 ++ ".." ++ toString d.2)) args
    let array := (newDocumentList "[" ", " "]" true).addDocumentsToList v
    let args := args.addDocumentToList array
    dl.addDocumentToList args

/-- The document `mapLet` builds, from the bindings (the test `isa<VarDecl>()` and the
document of each) and the document of the body. -/
def mapLetOf (lets_ : List (Bool × Document)) (inDoc : Document) : Document :=
  let letin := newDocumentList "" "" "" false
  let lets := newDocumentList "" " " "" true
  let inexpr := newDocumentList "" "" "" true
  let ds : Bool := decide (lets_.length > 1)
  let lets := (List.range lets_.length).zip lets_ |>.foldl
    (fun (lets : Document) (p : Nat × Bool × Document) =>
      let lets := if p.1 ≠ 0 then lets.addBreakPoint ds else lets
      let exp := newDocumentList "" " " "," true
      let exp := if !p.2.1 then exp.addStringToList "constraint" else exp
      let exp := exp.addDocumentToList p.2.2
      lets.addDocumentToList exp) lets
  let inexpr := inexpr.addDocumentToList inDoc
  let letin := letin.addBreakPoint ds
  let letin := letin.addDocumentToList lets
  let letin2 := newDocumentList "" "" "" false
  let letin2 := letin2.addBreakPoint false
  let letin2 := letin2.addDocumentToList inexpr
  let dl := newDocumentList "" "" "" true
  let dl := dl.addStringToList "let \x7b"
  let dl := dl.addDocumentToList letin
  let dl := dl.addBreakPoint ds
  let dl := dl.addStringToList "\x7d in ("
  let dl := dl.addDocumentToList letin2
  dl.addStringToList ")"

/-- The document `mapAnnotation` builds from the documents of the chain. -/
def mapAnnotationOf (chain : List Document) : Document :=
  (newDocumentList " :: " " :: " "" true).addDocumentsToList chain

/-- Modelled from the spec: `TypeInst::isarray()` is declared in a header that is not among
the sources; the spec speaks of "arrays", taken here as type-insts that have ranges. -/
def isarray (ranges : List Expression) : Bool := !ranges.isEmpty

mutual
/-- The function `expressionToDocument(e)`: the mapped node wrapped in an outer list,
followed by the mapped annotation chain when `e->_ann` is not `NULL`. -/
def expressionToDocument : Expression → Document
  | .mk node ann =>
    let dl := newDocumentList "" "" "" true
    let s := ExpressionMapper.map node ann
    let dl := dl.addDocumentToList s
    match ann with
    | [] => dl
    | a :: as => dl.addDocumentToList (mapAnnotationOf (mapExpressions (a :: as)))
/-- The dispatch `ExpressionMapper::map(e)` over the methods of `ExpressionDocumentMapper`;
`node` and `ann` are the two parts of `e`. -/
def ExpressionMapper.map : ExpressionNode → List Expression → Document
  | .IntLit v, _ => newStringDocument (toString v)
  | .FloatLit v, _ => newStringDocument v.text
  | .SetLit (some v) _, _ =>
      (newDocumentList "\x7b" ", " "\x7d" true).addDocumentsToList (mapExpressions v)
  | .SetLit none isv, _ =>
      if isv.length = 1 then
        let dl := newDocumentList "" ".." "" true
        let dl := dl.addDocumentToList (newStringDocument (toString (isv.getD 0 default).1))
        dl.addDocumentToList (newStringDocument (toString (isv.getD 0 default).2))
      else
        (newDocumentList "\x7b" ", " "\x7d" true).addDocumentsToList
          ((isv.flatMap rangeValues).map (fun k => newStringDocument (toString k)))
  | .BoolLit v, _ => newStringDocument (if v then "true" else "false")
  | .StringLit v, _ => newStringDocument ("\"" ++ v ++ "\"")
  | .Id v, _ => newStringDocument v
  | .TIId v, _ => newStringDocument ("$" ++ v)
  | .AnonVar, _ => newStringDocument "_"
  | .ArrayLit v dims, _ => mapArrayLitOf dims (mapExpressions v)
  | .ArrayAccess v idx, _ =>
      let dl := newDocumentList "" "" "" true
      let dl := dl.addDocumentToList (expressionToDocument v)
      let args := (newDocumentList "[" ", " "]" true).addDocumentsToList (mapExpressions idx)
      dl.addDocumentToList args
  | .Comprehension e g w set, _ =>
      mapComprehensionOf set (expressionToDocument e) (mapGenerators g) (mapOptional w)
  | .ITE ifs els, _ => mapITEOf (mapIfs ifs) (expressionToDocument els)
  | .BinOp e0 op e1, ann =>
      let ps := needParens (.mk (.BinOp e0 op e1) ann) e0 e1
      mapBinOpOf ps op (expressionToDocument e0) (expressionToDocument e1)
  | .UnOp op e0, _ =>
      mapUnOpOf op (e0.isBinOp || e0.isUnOp) (expressionToDocument e0)
  | .Call id [.mk (.Comprehension ce cg cw false) _], _ =>
      mapCallCompOf id (mapGenerators cg) (mapOptional cw) (expressionToDocument ce)
  | .Call id args, _ =>
      (newDocumentList (id ++ "(") ", " ")" true).addDocumentsToList (mapExpressions args)
  | .VarDecl ti id introduced e, _ =>
      let dl := newDocumentList "" "" "" true
      let dl := dl.addDocumentToList (expressionToDocument ti)
      let dl := dl.addStringToList ": "
      let dl := dl.addStringToList id
      let dl := if introduced then dl.addStringToList " ::var_is_introduced " else dl
      match mapOptional e with
      | some d => (dl.addStringToList " = ").addDocumentToList d
      | none => dl
  | .Let l i, _ => mapLetOf ((l.map Expression.isVarDecl).zip (mapExpressions l))
      (expressionToDocument i)
  | .Annotation_ e a, _ => mapAnnotationOf (expressionToDocument e :: mapExpressions a)
  | .TypeInst ranges type domain, _ =>
      let dl := newDocumentList "" "" "" true
      let dl :=
        if isarray ranges then
          let dl := dl.addStringToList "array["
          let ran := (newDocumentList "" ", " "" true).addDocumentsToList
            ((mapExpressions ranges).map
              (fun d => tiexpressionToDocumentOf Type_.parint (some d)))
          let dl := dl.addDocumentToList ran
          dl.addStringToList "] of "
        else dl
      dl.addDocumentToList (tiexpressionToDocumentOf type (mapOptional domain))
/-- The documents `expressionToDocument(v[i])` of a vector of expressions, in order. -/
def mapExpressions : List Expression → List Document
  | [] => []
  | e :: es => expressionToDocument e :: mapExpressions es
/-- The document of an expression that may be `NULL`. -/
def mapOptional : Option Expression → Option Document
  | none => none
  | some e => some (expressionToDocument e)
/-- The generators of a comprehension: declared identifiers and the document of `_in`. -/
def mapGenerators : List (List String × Expression) → List (List String × Document)
  | [] => []
  | (ids, e) :: gs => (ids, expressionToDocument e) :: mapGenerators gs
/-- The documents of the condition/branch pairs `_e_if`. -/
def mapIfs : List (Expression × Expression) → List (Document × Document)
  | [] => []
  | (c, b) :: r => (expressionToDocument c, expressionToDocument b) :: mapIfs r
end

/-- The function `tiexpressionToDocument(type, e)`. -/
def tiexpressionToDocument (type : Type_) (e : Option Expression) : Document :=
  tiexpressionToDocumentOf type (mapOptional e)

/-! ## Lines -/

/-- The strings of a vector written one after the other. -/
def concatStrings : List String → String
  | [] => ""
  | s :: r => s ++ concatStrings r

/-- The class `Line`. -/
structure Line where
  indentation : Int
  lineLength : Int
  text : List String
  deriving DecidableEq, Repr

/-- The default constructor `Line()`. -/
instance : Inhabited Line := ⟨⟨0, 0, []⟩⟩

/-- The constructor `Line(const int indent)`. -/
def Line.new (indent : Int) : Line := ⟨indent, 0, []⟩

/-- The accessor `getLength()`. -/
def Line.getLength (l : Line) : Int := l.lineLength

/-- The accessor `getIndentation()`. -/
def Line.getIndentation (l : Line) : Int := l.indentation

/-- The method `getSpaceLeft(maxwidth)`. -/
def Line.getSpaceLeft (l : Line) (maxwidth : Int) : Int :=
  maxwidth - l.lineLength - l.indentation

/-- The method `addString(s)`. -/
def Line.addString (l : Line) (s : String) : Line :=
  { l with lineLength := l.lineLength + size s, text := l.text ++ [s] }

/-- The method `concatenateLines(l2)`. -/
def Line.concatenateLines (l l2 : Line) : Line :=
  { l with text := l.text ++ l2.text, lineLength := l.lineLength + l2.lineLength }

/-- The method `Line::print(os)`, as the text it writes: one space per unit of
indentation, the strings in order, a newline. -/
def Line.print (l : Line) : String :=
  String.mk (List.replicate l.getIndentation.toNat ' ') ++ concatStrings l.text ++ "\n"

/-! ## Vectors indexed by `int` -/

/-- The read `v[i]`. -/
def vecGet {α : Type} [Inhabited α] (v : List α) (i : Int) : α :=
  if i < 0 then default else v.getD i.toNat default

/-- An update in place of `v[i]`. -/
def vecModify {α : Type} (v : List α) (i : Int) (f : α → α) : List α :=
  if i < 0 then v else v.modify f i.toNat

/-- The call `v.erase(v.begin() + i)`. -/
def vecErase {α : Type} (v : List α) (i : Int) : List α :=
  if i < 0 then v else v.eraseIdx i.toNat

/-! ## The simplification ledger -/

/-- The class `LinesToSimplify`: `lines` maps a priority to the lines recorded at it,
`parent` holds the pairs pushed by `addLine`, `mostRecentlyAdded` maps a priority to a
line. -/
structure LinesToSimplify where
  lines : List (Nat × List Int)
  parent : List (Int × Int)
  mostRecentlyAdded : List (Nat × Int)
  deriving DecidableEq, Repr

/-- The default constructor `LinesToSimplify()`. -/
instance : Inhabited LinesToSimplify := ⟨⟨[], [], []⟩⟩

/-- The call `m.insert(std::pair(k, v))` of a `std::map`: the pair is put at its place in
key order, and nothing changes when the key is already present. -/
def mapInsert {β : Type} (k : Nat) (v : β) : List (Nat × β) → List (Nat × β)
  | [] => [(k, v)]
  | (k1, v1) :: m =>
    if k < k1 then (k, v) :: (k1, v1) :: m
    else if k = k1 then (k1, v1) :: m
    else (k1, v1) :: mapInsert k v m

/-- The loop `for (int i = p - 1; i >= 0; i--)` of `addLine`, entered with `par == -1`:
the value of `mostRecentlyAdded` at the first key found, else `-1`. -/
def findParent (mostRecentlyAdded : List (Nat × Int)) : Nat → Int
  | 0 => -1
  | i + 1 =>
    match mostRecentlyAdded.lookup i with
    | some v => v
    | none => findParent mostRecentlyAdded i

/-- The last loop of `addLine`: push `l` on the bucket of key `p`; the result is `none`
when no bucket has that key. -/
def pushOnBucket (p : Nat) (l : Int) : List (Nat × List Int) → Option (List (Nat × List Int))
  | [] => none
  | (k, b) :: m =>
    if k = p then some ((k, b ++ [l]) :: m)
    else (pushOnBucket p l m).map (fun m1 => (k, b) :: m1)

/-- The method `addLine(p, l, par)`; the source's default for `par` is `-1`. -/
def LinesToSimplify.addLine (lts : LinesToSimplify) (p : Nat) (l : Int) (par : Int) :
    LinesToSimplify :=
  let par := if par = -1 then findParent lts.mostRecentlyAdded p else par
  let parent := if par ≠ -1 then lts.parent ++ [(l, par)] else lts.parent
  let mostRecentlyAdded := mapInsert p l lts.mostRecentlyAdded
  match pushOnBucket p l lts.lines with
  | some lines => { lines := lines, parent := parent, mostRecentlyAdded := mostRecentlyAdded }
  | none =>
    { lines := mapInsert p [l] lts.lines, parent := parent,
      mostRecentlyAdded := mostRecentlyAdded }

/-- One loop of `decrementLine` over a vector: every entry `>= l` goes down by one. -/
def decrementVec (v : List Int) (l : Int) : List Int :=
  v.map (fun x => if x ≥ l then x - 1 else x)

/-- The method `decrementLine(vec, l)`; the result is the ledger and the vector. -/
def LinesToSimplify.decrementLine (lts : LinesToSimplify) (vec : Option (List Int)) (l : Int) :
    LinesToSimplify × Option (List Int) :=
  let vec := vec.map (fun v => decrementVec v l)
  let lines := lts.lines.map (fun kb => (kb.1, decrementVec kb.2 l))
  let parent := lts.parent.map
    (fun pr => (if pr.1 ≥ l then pr.1 - 1 else pr.1, if pr.2 ≥ l then pr.2 - 1 else pr.2))
  ({ lts with lines := lines, parent := parent }, vec)

/-- The call `v->erase(std::remove(v->begin(), v->end(), i), v->end())`. -/
def eraseValue (v : List Int) (i : Int) : List Int :=
  v.filter (fun x => x ≠ i)

/-- The method `remove(v, i, success)`, followed through at most `fuel` nested calls: `i`
is erased from the vector and from every bucket, and when `success` is false the method
calls itself, in the order of the parent table, on the second component of every pair
whose first component is `i`. The result is `none` when a nested call is needed and no
fuel is left, so a result `some` is the result of a call that returns. -/
def LinesToSimplify.removeFuel : Nat → LinesToSimplify → Option (List Int) → Int → Bool →
    Option (LinesToSimplify × Option (List Int))
  | 0, _, _, _, _ => none
  | fuel + 1, lts, v, i, success =>
    let v := v.map (fun w => eraseValue w i)
    let lts := { lts with lines := lts.lines.map (fun kb => (kb.1, eraseValue kb.2 i)) }
    if success then some (lts, v)
    else
      lts.parent.foldl
        (fun (acc : Option (LinesToSimplify × Option (List Int))) (pr : Int × Int) =>
          match acc with
          | none => none
          | some a =>
            if pr.1 = i ∧ pr.2 ≠ i ∧ pr.2 ≠ -1 then
              LinesToSimplify.removeFuel fuel a.1 a.2 pr.2 false
            else some a)
        (some (lts, v))

/-- The method `remove(v, i, success)`; the result is `none` when the call does not
return. The nested calls do not change the parent table, and each of them is made on the
second component of a pair whose first component is the line of the call before: calls
nested deeper than the table is long have met a line twice, and from that line the calls
repeat without end. With `parent.length + 1` nested calls allowed the result is therefore
`none` exactly when no number of nested calls is enough (`remove_none_iff`), and `some r`
exactly when some number of nested calls gives `r` (`remove_eq_some_iff`). -/
def LinesToSimplify.remove (lts : LinesToSimplify) (v : Option (List Int)) (i : Int)
    (success : Bool) : Option (LinesToSimplify × Option (List Int)) :=
  LinesToSimplify.removeFuel (lts.parent.length + 1) lts v i success

/-- The method `remove(LinesToSimplify& lts)`: every line of every bucket of `other` is
removed with `remove(NULL, line, false)`; the result is `none` when one of these calls
does not return. -/
def LinesToSimplify.removeAll (lts other : LinesToSimplify) : Option LinesToSimplify :=
  (other.lines.flatMap (fun kb => kb.2)).foldl
    (fun (acc : Option LinesToSimplify) (i : Int) =>
      match acc with
      | none => none
      | some a => (a.remove none i false).map Prod.fst) (some lts)

/-- The method `getLinesToSimplify()`: each bucket, in key order, is inserted at the front
of the vector. -/
def LinesToSimplify.getLinesToSimplify (lts : LinesToSimplify) : List Int :=
  lts.lines.foldl (fun (vec : List Int) (kb : Nat × List Int) => kb.2 ++ vec) []

/-! ## The layout engine -/

/-- The class `PrettyPrinter` (the member `currentSubItem` is never read or written). -/
structure PrettyPrinter where
  maxwidth : Int
  indentationBase : Int
  currentLine : Int
  currentItem : Int
  items : List (List Line)
  linesToSimplify : List LinesToSimplify
  linesNotToSimplify : List LinesToSimplify
  simp : Bool
  deeplySimp : Bool
  deriving DecidableEq, Repr

/-- The constructor `PrettyPrinter(_maxwidth, _indentationBase, sim, deepsim)`. -/
def PrettyPrinter.new (maxwidth indentationBase : Int) (sim deepsim : Bool) : PrettyPrinter :=
  { maxwidth := maxwidth, indentationBase := indentationBase, currentLine := -1,
    currentItem := -1, items := [], linesToSimplify := [], linesNotToSimplify := [],
    simp := sim, deeplySimp := deepsim }

/-- The accessor `getCurrentItemLines()`. -/
def PrettyPrinter.getCurrentItemLines (pp : PrettyPrinter) : List Line :=
  vecGet pp.items pp.currentItem

/-- The read `items[item][line]`. -/
def PrettyPrinter.line (pp : PrettyPrinter) (item line : Int) : Line :=
  vecGet (vecGet pp.items item) line

/-- The method `addLine(indentation, bp, ds, level)`; the third parameter is named `simpl`
in the definition, and the source's defaults are `false`, `false`, `0`. -/
def PrettyPrinter.addLine (pp : PrettyPrinter) (indentation : Int) (bp simpl : Bool)
    (level : Nat) : PrettyPrinter :=
  let pp := { pp with
    items := vecModify pp.items pp.currentItem (fun ls => ls ++ [Line.new indentation]) }
  let pp := { pp with currentLine := pp.currentLine + 1 }
  if bp && pp.deeplySimp then
    let pp := { pp with
      linesToSimplify := vecModify pp.linesToSimplify pp.currentItem
        (fun lts => lts.addLine level pp.currentLine (-1)) }
    if !simpl then
      { pp with
        linesNotToSimplify := vecModify pp.linesNotToSimplify pp.currentItem
          (fun lts => lts.addLine 0 pp.currentLine (-1)) }
    else pp
  else pp

/-- The method `addItem()`. -/
def PrettyPrinter.addItem (pp : PrettyPrinter) : PrettyPrinter :=
  { pp with
    items := pp.items ++ [[]]
    linesToSimplify := pp.linesToSimplify ++ [default]
    linesNotToSimplify := pp.linesNotToSimplify ++ [default]
    currentItem := pp.currentItem + 1
    currentLine := -1 }

/-- The method `print(std::ostream& os)`, as the text it writes. -/
def PrettyPrinter.printOs (pp : PrettyPrinter) : String :=
  concatStrings (pp.items.map (fun item => concatStrings (item.map Line.print)))

/-- The method `printString(s, alignment, alignmentCol)`. -/
def PrettyPrinter.printString (pp : PrettyPrinter) (s : String) (alignment : Bool)
    (alignmentCol : Int) : PrettyPrinter :=
  let l := pp.line pp.currentItem pp.currentLine
  let size := size s
  if size ≤ l.getSpaceLeft pp.maxwidth then
    { pp with
      items := vecModify pp.items pp.currentItem
        (fun ls => vecModify ls pp.currentLine (fun l => l.addString s)) }
  else
    let col := if alignment && decide (pp.maxwidth - alignmentCol ≥ size) then alignmentCol
      else pp.indentationBase
    let pp := pp.addLine col false false 0
    { pp with
      items := vecModify pp.items pp.currentItem
        (fun ls => vecModify ls pp.currentLine (fun l => l.addString s)) }

/-- The method `printStringDoc(d, alignment, alignmentCol, before, after)`; `d` is the
string of the document, or `none` for `NULL`. -/
def PrettyPrinter.printStringDoc (pp : PrettyPrinter) (d : Option String) (alignment : Bool)
    (alignmentCol : Int) (before after : String) : PrettyPrinter :=
  let s := match d with
    | some t => t
    | none => ""
  let s := before ++ s ++ after
  pp.printString s alignment alignmentCol

/-- The method `simplify(item, line, vec)`; the result is the returned flag, the engine
and the vector, or `none` when the call of `remove` does not return. -/
def PrettyPrinter.simplify (pp : PrettyPrinter) (item line : Int) (vec : Option (List Int)) :
    Option (Bool × PrettyPrinter × Option (List Int)) :=
  if line = 0 then
    match (vecGet pp.linesToSimplify item).remove vec line false with
    | none => none
    | some r =>
      some (false,
        { pp with linesToSimplify := vecModify pp.linesToSimplify item (fun _ => r.1) }, r.2)
  else if (pp.line item line).getLength > (pp.line item (line - 1)).getSpaceLeft pp.maxwidth then
    match (vecGet pp.linesToSimplify item).remove vec line false with
    | none => none
    | some r =>
      some (false,
        { pp with linesToSimplify := vecModify pp.linesToSimplify item (fun _ => r.1) }, r.2)
  else
    match (vecGet pp.linesToSimplify item).remove vec line true with
    | none => none
    | some r =>
      let pp := { pp with linesToSimplify := vecModify pp.linesToSimplify item (fun _ => r.1) }
      let l := pp.line item line
      let pp := { pp with
        items := vecModify pp.items item
          (fun ls => vecModify ls (line - 1) (fun l1 => l1.concatenateLines l)) }
      let pp := { pp with items := vecModify pp.items item (fun ls => vecErase ls line) }
      let r := (vecGet pp.linesToSimplify item).decrementLine r.2 line
      let pp := { pp with linesToSimplify := vecModify pp.linesToSimplify item (fun _ => r.1) }
      some (true, { pp with currentLine := pp.currentLine - 1 }, r.2)

/-- The first loop of `printDocList`, from child `i` on, with `last` the value that the
variable `lastVisibleElementIndex` holds on entry. -/
def lastVisibleFrom : Int → Int → List Document → Int
  | _, last, [] => last
  | i, last, d :: ld => lastVisibleFrom (i + 1) (if !d.isBreakPoint then i else last) ld

/-- The first loop of `printDocList`: the index of the last child that is not a
`BreakPoint`, or the unassigned initial value `u` of the variable when there is none. -/
def lastVisibleElementIndex (u : Int) (ld : List Document) : Int :=
  lastVisibleFrom 0 u ld

mutual
/-- The method `printDocument(d, alignment, alignmentCol, before, after)`. The case of a
`DocumentList` is the body of `printDocList(d, alignment, alignmentCol, super_before,
super_after)`. The argument `u` is the value that the local variable
`lastVisibleElementIndex` holds before it is first assigned. The result is `none` when
the call does not return, which is when a call of `simplify` made at the end of an
unbreakable list does not return. -/
def PrettyPrinter.printDocument (pp : PrettyPrinter) (u : Int) :
    Document → Bool → Int → String → String → Option PrettyPrinter
  | .DocumentList _ ld beginToken separator endToken unbreakable _alignment,
      _, alignmentCol, super_before, super_after =>
    let pp := if unbreakable then pp.addLine alignmentCol false false 0 else pp
    let currentCol := (pp.line pp.currentItem pp.currentLine).getIndentation
      + (pp.line pp.currentItem pp.currentLine).getLength
    let newAlignmentCol := if _alignment then currentCol + size beginToken else alignmentCol
    let vectorSize : Int := ld.length
    let lastVisible := lastVisibleElementIndex u ld
    let pp :=
      if vectorSize = 0 then
        pp.printStringDoc none true newAlignmentCol (super_before ++ beginToken)
          (endToken ++ super_after)
      else pp
    match PrettyPrinter.printDocListLoop pp u ld 0 vectorSize lastVisible _alignment
      newAlignmentCol separator (endToken ++ super_after) (super_before ++ beginToken) with
    | none => none
    | some pp =>
      if unbreakable then
        match pp.simplify pp.currentItem pp.currentLine none with
        | none => none
        | some r => some r.2.1
      else some pp
  | .StringDocument _ s, alignment, alignmentCol, before, after =>
    some (pp.printStringDoc (some s) alignment alignmentCol before after)
  | .BreakPoint level dontSimplify, alignment, alignmentCol, before, after =>
    let pp := pp.printString before alignment alignmentCol
    let pp := pp.addLine alignmentCol pp.deeplySimp (!dontSimplify) level
    some (pp.printString after alignment alignmentCol)
/-- The second loop of `printDocList`, from child `i` on: `ld` holds the children not yet
printed, `lastAfter` is `endToken + super_after` and `firstBefore` is
`super_before + beginToken`. -/
def PrettyPrinter.printDocListLoop (pp : PrettyPrinter) (u : Int) :
    List Document → Int → Int → Int → Bool → Int → String → String → String →
      Option PrettyPrinter
  | [], _, _, _, _, _, _, _, _ => some pp
  | subdoc :: ld, i, vectorSize, lastVisible, _alignment, newAlignmentCol, separator,
      lastAfter, firstBefore =>
    let bp := subdoc.isBreakPoint
    let newAlignmentCol :=
      if bp && !_alignment then newAlignmentCol + pp.indentationBase else newAlignmentCol
    let af :=
      if i ≠ vectorSize - 1 then
        if bp || decide (lastVisible ≤ i) then "" else separator
      else lastAfter
    let be := if i = 0 then firstBefore else ""
    match PrettyPrinter.printDocument pp u subdoc _alignment newAlignmentCol be af with
    | none => none
    | some pp =>
      PrettyPrinter.printDocListLoop pp u ld (i + 1) vectorSize lastVisible _alignment
        newAlignmentCol separator lastAfter firstBefore
end

/-- The loop `while (!vec->empty())` of `simplifyItem`, run for at most `steps`
iterations: `simplify(item, (*vec)[0], vec)`, and `break` when it returns false. The
result is `none` when a call of `simplify` does not return, or when the vector is not
empty after `steps` iterations. -/
def PrettyPrinter.simplifyLoop :
    Nat → PrettyPrinter → Int → List Int → Option (PrettyPrinter × List Int)
  | _, pp, _, [] => some (pp, [])
  | 0, _, _, _ :: _ => none
  | steps + 1, pp, item, l :: rest =>
    match pp.simplify item l (some (l :: rest)) with
    | none => none
    | some r =>
      if !r.1 then some (r.2.1, r.2.2.getD [])
      else PrettyPrinter.simplifyLoop steps r.2.1 item (r.2.2.getD [])

/-- The method `simplifyItem(item)`; the result is `none` when the call does not return.
Every iteration of the loop that does not leave it erases `(*vec)[0]` from the vector, so
the loop makes no more iterations than the vector is long: allowing more iterations does
not change the result (`simplifyLoop_steps`), and the loop has no result only when a call
of `simplify` does not return (`simplifyLoop_none`). -/
def PrettyPrinter.simplifyItem (pp : PrettyPrinter) (item : Int) : Option PrettyPrinter :=
  match (vecGet pp.linesToSimplify item).removeAll (vecGet pp.linesNotToSimplify item) with
  | none => none
  | some lts =>
    let pp := { pp with linesToSimplify := vecModify pp.linesToSimplify item (fun _ => lts) }
    let vec := (vecGet pp.linesToSimplify item).getLinesToSimplify
    (PrettyPrinter.simplifyLoop vec.length pp item vec).map Prod.fst

/-- The method `print(Document* d)`; the result is `none` when the call does not
return. -/
def PrettyPrinter.print (pp : PrettyPrinter) (u : Int) (d : Document) : Option PrettyPrinter :=
  let pp := pp.addItem
  let pp := pp.addLine 0 false false 0
  match pp.printDocument u d true 0 "" "" with
  | none => none
  | some pp => if pp.simp then pp.simplifyItem pp.currentItem else some pp

/-! ## The facade -/

/-- The class `Printer`: the member `printer` (the member `ism` has no state). -/
structure Printer where
  printer : PrettyPrinter
  deriving DecidableEq, Repr

/-- The constructor `Printer()`. -/
def Printer.new : Printer := { printer := PrettyPrinter.new 80 4 true true }

/-- The method `Printer::print(Document* d, std::ostream& os, int width)`; the result is
the facade after the call and the text written to `os`, or `none` when the call does not
return. -/
def Printer.printDocument (p : Printer) (u : Int) (d : Document) (width : Int) :
    Option (Printer × String) :=
  match p.printer.print u d with
  | none => none
  | some printer => some ({ printer := PrettyPrinter.new width 4 true true }, printer.printOs)

/-- The method `Printer::print(Expression* e, std::ostream& os, int width)`. -/
def Printer.printExpression (p : Printer) (u : Int) (e : Expression) (width : Int) :
    Option (Printer × String) :=
  p.printDocument u (expressionToDocument e) width

/-! ## Reference notions used by the statements -/

/-- Strings joined with a separator between consecutive elements. -/
def joinSep (sep : String) : List String → String
  | [] => ""
  | [a] => a
  | a :: b :: r => a ++ sep ++ joinSep sep (b :: r)

mutual
/-- The flat text of a document: a string is its text, a break is empty, and a list is its
begin token, the flat texts of its children that are not breaks joined with the separator,
and its end token. -/
def flatten : Document → String
  | .StringDocument _ s => s
  | .BreakPoint _ _ => ""
  | .DocumentList _ docs b sep e _ _ => b ++ joinSep sep (flattenDocs docs) ++ e
/-- The flat texts of the children that are not breaks. -/
def flattenDocs : List Document → List String
  | [] => []
  | d :: ds => if d.isBreakPoint then flattenDocs ds else flatten d :: flattenDocs ds
end

/-- The layout of a document by an engine with the given configuration: the lines of the
item that `print(d)` leaves in a freshly constructed engine, or `none` when `print(d)`
does not return. -/
def layout (maxwidth indentationBase : Int) (sim deepsim : Bool) (u : Int) (d : Document) :
    Option (List Line) :=
  ((PrettyPrinter.new maxwidth indentationBase sim deepsim).print u d).map
    PrettyPrinter.getCurrentItemLines

/-- The text of a line: its strings in order. -/
def Line.str (l : Line) : String := concatStrings l.text

/-- The sum of the sizes of the strings of a line. -/
def Line.textSize (l : Line) : Int := (l.text.map size).sum

/-- All strings of all lines, in line order, written one after the other. -/
def allText (ls : List Line) : String := concatStrings (ls.flatMap Line.text)

/-! ## Total functions used in the proofs

The methods that call `remove` need not return. The functions of this section always
have a value: they follow the methods and cut a chain of nested calls of `remove` after
`parent.length + 1` calls. Whenever a method returns, its result is the value of the
function of this section (`remove_eq_some`, `simplify_eq_some`, `printDocument_eq_some`,
`simplifyItem_eq_some`, `print_eq_some`, `layout_eq_some`), so what is proved of the
values holds of the results. The statements about the methods are made on the
definitions of the section before, not on these. -/

/-- The lines erased by `remove(v, i, success)` when its nested calls are cut after
`fuel` calls: `i` is erased from the vector and from every bucket, and when `success` is
false the same is done, in the order of the parent table, for the second component of every
pair whose first component is `i`; with no fuel left nothing is erased. -/
def LinesToSimplify.removeCut : Nat → LinesToSimplify → Option (List Int) → Int → Bool →
    LinesToSimplify × Option (List Int)
  | 0, lts, v, _, _ => (lts, v)
  | fuel + 1, lts, v, i, success =>
    let v := v.map (fun w => eraseValue w i)
    let lts := { lts with lines := lts.lines.map (fun kb => (kb.1, eraseValue kb.2 i)) }
    if success then (lts, v)
    else
      lts.parent.foldl
        (fun (acc : LinesToSimplify × Option (List Int)) (pr : Int × Int) =>
          if pr.1 = i ∧ pr.2 ≠ i ∧ pr.2 ≠ -1 then
            LinesToSimplify.removeCut fuel acc.1 acc.2 pr.2 false
          else acc)
        (lts, v)

/-- The value of `remove(v, i, success)` with the nested calls cut after
`parent.length + 1` calls: the result of `remove` whenever it returns. -/
def LinesToSimplify.removeTotal (lts : LinesToSimplify) (v : Option (List Int)) (i : Int)
    (success : Bool) : LinesToSimplify × Option (List Int) :=
  LinesToSimplify.removeCut (lts.parent.length + 1) lts v i success

/-- The value of `remove(LinesToSimplify& lts)` with the nested calls cut. -/
def LinesToSimplify.removeAllTotal (lts other : LinesToSimplify) : LinesToSimplify :=
  (other.lines.flatMap (fun kb => kb.2)).foldl
    (fun (acc : LinesToSimplify) (i : Int) => (acc.removeTotal none i false).1) lts

/-- The value of `simplify(item, line, vec)` with the nested calls of `remove` cut: the
flag, the engine and the vector. -/
def PrettyPrinter.simplifyTotal (pp : PrettyPrinter) (item line : Int) (vec : Option (List Int)) :
    Bool × PrettyPrinter × Option (List Int) :=
  if line = 0 then
    let r := (vecGet pp.linesToSimplify item).removeTotal vec line false
    (false, { pp with linesToSimplify := vecModify pp.linesToSimplify item (fun _ => r.1) }, r.2)
  else if (pp.line item line).getLength > (pp.line item (line - 1)).getSpaceLeft pp.maxwidth then
    let r := (vecGet pp.linesToSimplify item).removeTotal vec line false
    (false, { pp with linesToSimplify := vecModify pp.linesToSimplify item (fun _ => r.1) }, r.2)
  else
    let r := (vecGet pp.linesToSimplify item).removeTotal vec line true
    let pp := { pp with linesToSimplify := vecModify pp.linesToSimplify item (fun _ => r.1) }
    let l := pp.line item line
    let pp := { pp with
      items := vecModify pp.items item
        (fun ls => vecModify ls (line - 1) (fun l1 => l1.concatenateLines l)) }
    let pp := { pp with items := vecModify pp.items item (fun ls => vecErase ls line) }
    let r := (vecGet pp.linesToSimplify item).decrementLine r.2 line
    let pp := { pp with linesToSimplify := vecModify pp.linesToSimplify item (fun _ => r.1) }
    (true, { pp with currentLine := pp.currentLine - 1 }, r.2)

mutual
/-- The value of `printDocument(d, alignment, alignmentCol, before, after)` with the
nested calls of `remove` cut. -/
def PrettyPrinter.printDocumentTotal (pp : PrettyPrinter) (u : Int) :
    Document → Bool → Int → String → String → PrettyPrinter
  | .DocumentList _ ld beginToken separator endToken unbreakable _alignment,
      _, alignmentCol, super_before, super_after =>
    let pp := if unbreakable then pp.addLine alignmentCol false false 0 else pp
    let currentCol := (pp.line pp.currentItem pp.currentLine).getIndentation
      + (pp.line pp.currentItem pp.currentLine).getLength
    let newAlignmentCol := if _alignment then currentCol + size beginToken else alignmentCol
    let vectorSize : Int := ld.length
    let lastVisible := lastVisibleElementIndex u ld
    let pp :=
      if vectorSize = 0 then
        pp.printStringDoc none true newAlignmentCol (super_before ++ beginToken)
          (endToken ++ super_after)
      else pp
    let pp := PrettyPrinter.printDocListLoopTotal pp u ld 0 vectorSize lastVisible _alignment
      newAlignmentCol separator (endToken ++ super_after) (super_before ++ beginToken)
    if unbreakable then (pp.simplifyTotal pp.currentItem pp.currentLine none).2.1 else pp
  | .StringDocument _ s, alignment, alignmentCol, before, after =>
    pp.printStringDoc (some s) alignment alignmentCol before after
  | .BreakPoint level dontSimplify, alignment, alignmentCol, before, after =>
    let pp := pp.printString before alignment alignmentCol
    let pp := pp.addLine alignmentCol pp.deeplySimp (!dontSimplify) level
    pp.printString after alignment alignmentCol
/-- The value of the second loop of `printDocList`, from child `i` on, with the nested
calls of `remove` cut. -/
def PrettyPrinter.printDocListLoopTotal (pp : PrettyPrinter) (u : Int) :
    List Document → Int → Int → Int → Bool → Int → String → String → String → PrettyPrinter
  | [], _, _, _, _, _, _, _, _ => pp
  | subdoc :: ld, i, vectorSize, lastVisible, _alignment, newAlignmentCol, separator,
      lastAfter, firstBefore =>
    let bp := subdoc.isBreakPoint
    let newAlignmentCol :=
      if bp && !_alignment then newAlignmentCol + pp.indentationBase else newAlignmentCol
    let af :=
      if i ≠ vectorSize - 1 then
        if bp || decide (lastVisible ≤ i) then "" else separator
      else lastAfter
    let be := if i = 0 then firstBefore else ""
    let pp := PrettyPrinter.printDocumentTotal pp u subdoc _alignment newAlignmentCol be af
    PrettyPrinter.printDocListLoopTotal pp u ld (i + 1) vectorSize lastVisible _alignment
      newAlignmentCol separator lastAfter firstBefore
end

/-- The value of the loop of `simplifyItem` after at most `fuel` iterations, with the
nested calls of `remove` cut. -/
def PrettyPrinter.simplifyLoopTotal : Nat → PrettyPrinter → Int → List Int → PrettyPrinter × List Int
  | 0, pp, _, vec => (pp, vec)
  | fuel + 1, pp, item, vec =>
    match vec with
    | [] => (pp, vec)
    | l :: _ =>
      let r := pp.simplifyTotal item l (some vec)
      if !r.1 then (r.2.1, r.2.2.getD [])
      else PrettyPrinter.simplifyLoopTotal fuel r.2.1 item (r.2.2.getD [])

/-- The value of `simplifyItem(item)` with the nested calls of `remove` cut. -/
def PrettyPrinter.simplifyItemTotal (pp : PrettyPrinter) (item : Int) : PrettyPrinter :=
  let lts := (vecGet pp.linesToSimplify item).removeAllTotal (vecGet pp.linesNotToSimplify item)
  let pp := { pp with linesToSimplify := vecModify pp.linesToSimplify item (fun _ => lts) }
  let vec := (vecGet pp.linesToSimplify item).getLinesToSimplify
  (PrettyPrinter.simplifyLoopTotal vec.length pp item vec).1

/-- The value of `print(Document* d)` with the nested calls of `remove` cut. -/
def PrettyPrinter.printTotal (pp : PrettyPrinter) (u : Int) (d : Document) : PrettyPrinter :=
  let pp := pp.addItem
  let pp := pp.addLine 0 false false 0
  let pp := pp.printDocumentTotal u d true 0 "" ""
  if pp.simp then pp.simplifyItemTotal pp.currentItem else pp

/-- The value of `Printer::print(Document* d, std::ostream& os, int width)` with the
nested calls of `remove` cut: the facade after the call and the text written. -/
def Printer.printDocumentTotal (p : Printer) (u : Int) (d : Document) (width : Int) :
    Printer × String :=
  let printer := p.printer.printTotal u d
  let os := printer.printOs
  ({ printer := PrettyPrinter.new width 4 true true }, os)

/-- The value of `Printer::print(Expression* e, std::ostream& os, int width)` with the
nested calls of `remove` cut. -/
def Printer.printExpressionTotal (p : Printer) (u : Int) (e : Expression) (width : Int) :
    Printer × String :=
  p.printDocumentTotal u (expressionToDocument e) width

/-- The lines of the item that `printTotal` leaves in a freshly constructed engine: the
layout of the document whenever `print(d)` returns. -/
def layoutTotal (maxwidth indentationBase : Int) (sim deepsim : Bool) (u : Int) (d : Document) :
    List Line :=
  ((PrettyPrinter.new maxwidth indentationBase sim deepsim).printTotal u d).getCurrentItemLines

/-! ## Notions used by the proofs about the engine -/

/-- The lines of item 0. -/
def PrettyPrinter.L (pp : PrettyPrinter) : List Line := vecGet pp.items 0

/-- The ledger `linesToSimplify` of item 0. -/
def PrettyPrinter.T (pp : PrettyPrinter) : LinesToSimplify := vecGet pp.linesToSimplify 0

/-- The ledger `linesNotToSimplify` of item 0. -/
def PrettyPrinter.N (pp : PrettyPrinter) : LinesToSimplify := vecGet pp.linesNotToSimplify 0

/-- An engine that holds exactly one item, the current one. -/
structure Single (pp : PrettyPrinter) : Prop where
  item : pp.currentItem = 0
  items : pp.items.length = 1
  lts : pp.linesToSimplify.length = 1
  lnts : pp.linesNotToSimplify.length = 1

/-- An engine with one item whose current line is the last line of that item. -/
structure Good (pp : PrettyPrinter) : Prop where
  single : Single pp
  line_nonneg : 0 ≤ pp.currentLine
  line_last : pp.currentLine + 1 = (pp.L.length : Int)

/-- Two engines with the same configuration. -/
def SameConfig (pp pp1 : PrettyPrinter) : Prop :=
  pp1.maxwidth = pp.maxwidth ∧ pp1.indentationBase = pp.indentationBase ∧
    pp1.simp = pp.simp ∧ pp1.deeplySimp = pp.deeplySimp

/-- The test made by `simplify(item, line, vec)` on the lines of the item: the line is not
line 0 and its length is not greater than the space left on the line before it. -/
def canJoin (maxwidth : Int) (ls : List Line) (line : Int) : Bool :=
  decide (line ≠ 0) &&
    !decide ((vecGet ls line).getLength > (vecGet ls (line - 1)).getSpaceLeft maxwidth)

/-- Line `line` appended to line `line - 1` and erased. -/
def joinLines (ls : List Line) (line : Int) : List Line :=
  vecErase (vecModify ls (line - 1) (fun l1 => l1.concatenateLines (vecGet ls line))) line

/-- The effect of `simplify(item, line, vec)` on the lines of the item. -/
def joinAt (maxwidth : Int) (ls : List Line) (line : Int) : List Line :=
  if canJoin maxwidth ls line then joinLines ls line else ls

/-- The ledger and the vector of `simplifyTotal`, given the outcome of the test. -/
def ledgerAfter (ok : Bool) (lts : LinesToSimplify) (vec : Option (List Int)) (line : Int) :
    LinesToSimplify × Option (List Int) :=
  if ok then (lts.removeTotal vec line true).1.decrementLine (lts.removeTotal vec line true).2 line
  else lts.removeTotal vec line false

/-- The indentation that `printString` gives to a line it starts. -/
def overflowCol (pp : PrettyPrinter) (s : String) (alignment : Bool) (alignmentCol : Int) : Int :=
  if alignment && decide (pp.maxwidth - alignmentCol ≥ size s) then alignmentCol
  else pp.indentationBase

/-- The walk step made at the end of an unbreakable list: `simplify(currentItem,
currentLine, NULL)`, keeping the engine only; `none` when the call does not return. -/
def PrettyPrinter.simplifyCurrent (pp : PrettyPrinter) : Option PrettyPrinter :=
  (pp.simplify pp.currentItem pp.currentLine none).map (fun r => r.2.1)

/-- The engine of `simplifyTotal` at the end of an unbreakable list. -/
def PrettyPrinter.simplifyCurrentTotal (pp : PrettyPrinter) : PrettyPrinter :=
  (pp.simplifyTotal pp.currentItem pp.currentLine none).2.1

/-- The test `dynamic_cast<DocumentList*>(d)`. -/
def Document.isList : Document → Bool
  | .DocumentList _ _ _ _ _ _ _ => true
  | _ => false

/-- The accessor `getBeginToken()`. -/
def Document.getBeginToken : Document → String
  | .DocumentList _ _ b _ _ _ _ => b
  | _ => ""

/-- The accessor `getSeparator()`. -/
def Document.getSeparator : Document → String
  | .DocumentList _ _ _ s _ _ _ => s
  | _ => ""

/-- The accessor `getEndToken()`. -/
def Document.getEndToken : Document → String
  | .DocumentList _ _ _ _ e _ _ => e
  | _ => ""

/-- The accessor `getDocs()`. -/
def Document.getDocs : Document → List Document
  | .DocumentList _ docs _ _ _ _ _ => docs
  | _ => []

/-- The flat texts of the children of a list that are not breaks. -/
def Document.visibleTexts (d : Document) : List String := flattenDocs d.getDocs

/-! ## Notions used by the statements about binary-operator trees -/

/-- A leaf of a binary-operator tree: an identifier or a non-negative integer literal. -/
inductive Leaf
  | id (v : String)
  | int (n : Nat)
  deriving DecidableEq, Repr

/-- An expression tree built only from binary operators over leaves. -/
inductive OpTree
  | leaf (a : Leaf)
  | bin (l : OpTree) (op : BinOpType) (r : OpTree)
  deriving DecidableEq, Repr

/-- The expression of a leaf: an `Id` or an `IntLit`, without annotation. -/
def Leaf.toExpression : Leaf → Expression
  | .id v => .mk (.Id v) []
  | .int n => .mk (.IntLit (n : Int)) []

/-- The expression that a tree stands for: `BinOp` nodes without annotations. -/
def OpTree.toExpression : OpTree → Expression
  | .leaf a => a.toExpression
  | .bin l op r => .mk (.BinOp l.toExpression op r.toExpression) []

/-- The text of a leaf. -/
def Leaf.text : Leaf → String
  | .id v => v
  | .int n => toString (n : Int)

/-- The flat rendering of a tree: operands, operator text, and parentheses around an
operand exactly when `needParens` sets its bit. -/
def OpTree.render : OpTree → String
  | .leaf a => a.text
  | .bin l op r =>
    let ps := needParens (OpTree.bin l op r).toExpression l.toExpression r.toExpression
    (if ps &&& PN_LEFT ≠ 0 then "(" ++ l.render ++ ")" else l.render) ++ binOpText op ++
      (if ps &&& PN_RIGHT ≠ 0 then "(" ++ r.render ++ ")" else r.render)

/-- The leaves of a tree, left to right. -/
def OpTree.leaves : OpTree → List Leaf
  | .leaf a => [a]
  | .bin l _ r => l.leaves ++ r.leaves

/-- A line as the pair of its indentation and its text. -/
def lineView (l : Line) : Int × String := (l.indentation, l.str)

mutual
/-- A document in which every list is aligned and breakable and no break carries the
do-not-simplify flag. -/
def Document.plain : Document → Bool
  | .BreakPoint _ ds => !ds
  | .StringDocument _ _ => true
  | .DocumentList _ docs _ _ _ unb al => !unb && al && Document.plainDocs docs
/-- All documents of a list are plain. -/
def Document.plainDocs : List Document → Bool
  | [] => true
  | d :: ds => d.plain && Document.plainDocs ds
end

/-- The sum of the recorded lengths of the lines. -/
def totalLen (ls : List Line) : Int := (ls.map Line.lineLength).sum

/-- Every line is indented by no more than the length of the text before it; `acc` is the
length of the text before the first line of the list. -/
def Cols : Int → List Line → Prop
  | _, [] => True
  | acc, l :: ls => l.indentation ≤ acc ∧ Cols (acc + l.lineLength) ls

/-- All lines recorded in a ledger, bucket after bucket. -/
def allCandidates (lts : LinesToSimplify) : List Int := lts.lines.flatMap (fun kb => kb.2)

/-- The state of the engine while it walks a plain document whose flat text fits in
`mw`: one item, breaks recorded, recorded lengths exact, no line indented beyond the text
before it, the candidates are exactly the lines after the first, and no line is excluded. -/
structure Tidy (mw : Int) (pp : PrettyPrinter) : Prop where
  good : Good pp
  deep : pp.deeplySimp = true
  width : pp.maxwidth = mw
  exact : ∀ l ∈ pp.L, l.lineLength = l.textSize
  cols : Cols 0 pp.L
  first : ∀ l, pp.L.head? = some l → l.indentation = 0
  cand_range : ∀ x ∈ allCandidates pp.T, 1 ≤ x ∧ x < (pp.L.length : Int)
  cand_cover : ∀ k : Int, 1 ≤ k → k < (pp.L.length : Int) → k ∈ allCandidates pp.T
  none_excluded : pp.N.lines = []

/-- The state of the simplification loop on such a layout: the lines fit together in `mw`,
and the vector holds exactly the indices of the lines after the first. -/
structure JoinInv (mw : Int) (ls : List Line) (vec : List Int) : Prop where
  exact : ∀ l ∈ ls, l.lineLength = l.textSize
  cols : Cols 0 ls
  first : ∀ l, ls.head? = some l → l.indentation = 0
  total : totalLen ls ≤ mw
  nonempty : ls ≠ []
  range : ∀ x ∈ vec, 1 ≤ x ∧ x < (ls.length : Int)
  cover : ∀ k : Int, 1 ≤ k → k < (ls.length : Int) → k ∈ vec

/-! ## The scenarios of the specification -/

/-- The tree `a ++ (b ++ c)`. -/
def exampleConcat : OpTree :=
  .bin (.leaf (.id "a")) .BOT_PLUSPLUS (.bin (.leaf (.id "b")) .BOT_PLUSPLUS (.leaf (.id "c")))

/-- The tree `1 + (2 * 3)`. -/
def exampleSum : OpTree :=
  .bin (.leaf (.int 1)) .BOT_PLUS (.bin (.leaf (.int 2)) .BOT_MULT (.leaf (.int 3)))

/-- The tree `(1 + 2) * 3`. -/
def exampleProduct : OpTree :=
  .bin (.bin (.leaf (.int 1)) .BOT_PLUS (.leaf (.int 2))) .BOT_MULT (.leaf (.int 3))

/-- The tree `(a + b) * (c div d)` over identifiers. -/
def exampleGrouped : OpTree :=
  .bin (.bin (.leaf (.id "a")) .BOT_PLUS (.leaf (.id "b"))) .BOT_MULT
    (.bin (.leaf (.id "c")) .BOT_IDIV (.leaf (.id "d")))

/-- The expression `if b then 1 else 2 endif`. -/
def exampleIte : Expression :=
  .mk (.ITE [(.mk (.Id "b") [], .mk (.IntLit 1) [])] (.mk (.IntLit 2) [])) []

/-- The expression `forall([f(i) | i in 1..10])`. -/
def exampleForall : Expression :=
  .mk (.Call "forall" [.mk (.Comprehension (.mk (.Call "f" [.mk (.Id "i") []]) [])
    [(["i"], .mk (.BinOp (.mk (.IntLit 1) []) .BOT_DOTDOT (.mk (.IntLit 10) [])) [])]
    none false) []]) []

/-- The text of the generators of a comprehension in the generator-outside form of a call:
for each generator the declared identifiers joined with `,`, then ` in `, then the flat text
of the document of its `in` expression; the generators are joined with `, `. -/
def generatorsText (g : List (List String × Expression)) : String :=
  joinSep ", "
    (g.map (fun p => joinSep "," p.1 ++ " in " ++ flatten (expressionToDocument p.2)))

/-! ## Reference operator-precedence parser

A parser written from the specification, independent of the printer: the tokens are
identifiers, the operator texts of section 4.3, and parentheses; the grammar is the
precedence table of section 4.1, in which a smaller number binds tighter, every operator
groups to the left except `++`, which groups to the right, and parentheses override. -/

namespace Reference

/-- The tokens of an operator expression. -/
inductive Token
  | ident (v : String)
  | op (o : BinOpType)
  | lparen
  | rparen
  deriving DecidableEq, Repr

/-- A character of an identifier: a letter, a digit or an underscore. -/
def identChar (c : Char) : Bool := c.isAlphanum || c == '_'

/-- A character of a symbolic operator: one of `+ - * / < > = ! .` and the backslash. -/
def symChar (c : Char) : Bool :=
  c == '+' || c == '-' || c == '*' || c == '/' || c == '<' || c == '>' || c == '=' ||
    c == '!' || c == '.' || c == Char.ofNat 92

/-- The operators written as words (the spaced forms of section 4.3). -/
def wordOp (w : String) : Option BinOpType :=
  if w = "div" then some .BOT_IDIV
  else if w = "mod" then some .BOT_MOD
  else if w = "in" then some .BOT_IN
  else if w = "subset" then some .BOT_SUBSET
  else if w = "superset" then some .BOT_SUPERSET
  else if w = "union" then some .BOT_UNION
  else if w = "diff" then some .BOT_DIFF
  else if w = "symdiff" then some .BOT_SYMDIFF
  else if w = "intersect" then some .BOT_INTERSECT
  else if w = "xor" then some .BOT_XOR
  else none

/-- The operators written with symbols (section 4.3). -/
def symOp (w : String) : Option BinOpType :=
  if w = "+" then some .BOT_PLUS
  else if w = "-" then some .BOT_MINUS
  else if w = "*" then some .BOT_MULT
  else if w = "/" then some .BOT_DIV
  else if w = "<=" then some .BOT_LQ
  else if w = ">=" then some .BOT_GQ
  else if w = "<" then some .BOT_LE
  else if w = ">" then some .BOT_GR
  else if w = "==" then some .BOT_EQ
  else if w = "!=" then some .BOT_NQ
  else if w = ".." then some .BOT_DOTDOT
  else if w = "++" then some .BOT_PLUSPLUS
  else if w = "<->" then some .BOT_EQUIV
  else if w = "->" then some .BOT_IMPL
  else if w = "<-" then some .BOT_RIMPL
  else if w = String.mk [Char.ofNat 92, '/'] then some .BOT_OR
  else if w = String.mk ['/', Char.ofNat 92] then some .BOT_AND
  else none

/-- An identifier: a non-empty run of identifier characters that starts with a letter and
is not an operator word. -/
def isIdentifier (v : String) : Bool :=
  match v.data with
  | [] => false
  | c :: cs => c.isAlpha && cs.all identChar && (wordOp v).isNone

/-- What the lexer has read of the token in progress. -/
inductive LexState
  | idle
  | word (acc : List Char)
  | sym (acc : List Char)

/-- The token that ends when the run in progress ends: a word is an operator word or an
identifier, a run of symbols must be an operator. -/
def flush : LexState → Option (List Token)
  | .idle => some []
  | .word acc =>
    match wordOp (String.mk acc) with
    | some o => some [.op o]
    | none => if isIdentifier (String.mk acc) then some [.ident (String.mk acc)] else none
  | .sym acc => (symOp (String.mk acc)).map (fun o => [Token.op o])

/-- Two partial token lists, one after the other. -/
def andThen (a b : Option (List Token)) : Option (List Token) :=
  match a, b with
  | some x, some y => some (x ++ y)
  | _, _ => none

/-- The tokens that end, and the run in progress, when an identifier character is read:
the character goes on a word in progress, and starts a word otherwise. -/
def LexState.addWordChar (st : LexState) (c : Char) : Option (List Token) × LexState :=
  match st with
  | .word acc => (some [], .word (acc ++ [c]))
  | _ => (flush st, .word [c])

/-- The tokens that end, and the run in progress, when a symbol character is read. -/
def LexState.addSymChar (st : LexState) (c : Char) : Option (List Token) × LexState :=
  match st with
  | .sym acc => (some [], .sym (acc ++ [c]))
  | _ => (flush st, .sym [c])

/-- The lexer, character by character: maximal runs of identifier characters and of symbol
characters are tokens, blanks separate, parentheses stand alone. -/
def lexAux : LexState → List Char → Option (List Token)
  | st, [] => flush st
  | st, c :: cs =>
    if identChar c then andThen (st.addWordChar c).1 (lexAux (st.addWordChar c).2 cs)
    else if symChar c then andThen (st.addSymChar c).1 (lexAux (st.addSymChar c).2 cs)
    else if c = ' ' then andThen (flush st) (lexAux .idle cs)
    else if c = '(' then andThen (flush st) (andThen (some [.lparen]) (lexAux .idle cs))
    else if c = ')' then andThen (flush st) (andThen (some [.rparen]) (lexAux .idle cs))
    else none

/-- The tokens of a text. -/
def lex (s : String) : Option (List Token) := lexAux .idle s.data

/-- The precedence table of section 4.1. -/
def opPrec : BinOpType → Nat
  | .BOT_EQUIV => 1200
  | .BOT_IMPL | .BOT_RIMPL => 1100
  | .BOT_OR | .BOT_XOR => 1000
  | .BOT_AND => 900
  | .BOT_LE | .BOT_LQ | .BOT_GR | .BOT_GQ | .BOT_EQ | .BOT_NQ => 800
  | .BOT_IN | .BOT_SUBSET | .BOT_SUPERSET => 700
  | .BOT_UNION | .BOT_DIFF | .BOT_SYMDIFF => 600
  | .BOT_DOTDOT => 500
  | .BOT_PLUS | .BOT_MINUS => 400
  | .BOT_MULT | .BOT_DIV | .BOT_IDIV | .BOT_MOD | .BOT_INTERSECT => 300
  | .BOT_PLUSPLUS => 200

/-- Only `++` groups to the right. -/
def rightAssoc (o : BinOpType) : Bool := o == .BOT_PLUSPLUS

/-- The loosest precedence that the right operand of an operator may have at its top
without parentheses: the operator's own precedence when it groups to the right, anything
strictly tighter when it groups to the left. -/
def rightLevel (o : BinOpType) : Nat :=
  if rightAssoc o then opPrec o else opPrec o - 1

/-- The loosest precedence of the table. -/
def topLevel : Nat := 1200

mutual
/-- An operand: an identifier, or an expression in parentheses. -/
def parsePrimary : Nat → List Token → Option (OpTree × List Token)
  | 0, _ => none
  | _ + 1, .ident v :: rest => some (.leaf (.id v), rest)
  | fuel + 1, .lparen :: rest =>
    match parseExpr fuel topLevel rest with
    | some (e, .rparen :: rest1) => some (e, rest1)
    | _ => none
  | _ + 1, _ => none
/-- An expression whose operators outside parentheses have precedence at most `m`. -/
def parseExpr : Nat → Nat → List Token → Option (OpTree × List Token)
  | 0, _, _ => none
  | fuel + 1, m, toks =>
    match parsePrimary fuel toks with
    | some (lhs, rest) => parseLoop fuel m lhs rest
    | none => none
/-- The operators that follow an operand `lhs`, as long as their precedence is at most
`m`: each takes as right operand an expression of precedence at most its `rightLevel`. -/
def parseLoop : Nat → Nat → OpTree → List Token → Option (OpTree × List Token)
  | 0, _, _, _ => none
  | fuel + 1, m, lhs, .op o :: rest =>
    if opPrec o ≤ m then
      match parseExpr fuel (rightLevel o) rest with
      | some (rhs, rest1) => parseLoop fuel m (.bin lhs o rhs) rest1
      | none => none
    else some (lhs, .op o :: rest)
  | _ + 1, _, lhs, toks => some (lhs, toks)
end

/-- The reference parser: the tree of a text, when the text is an operator expression. The
recursion is bounded by eight steps per token. -/
def parse (s : String) : Option OpTree :=
  match lex s with
  | some toks =>
    match parseExpr (8 * toks.length + 1) topLevel toks with
    | some (e, []) => some e
    | _ => none
  | none => none

end Reference

/-- Every leaf of the tree is an identifier. -/
def OpTree.identifierLeaves (t : OpTree) : Bool :=
  t.leaves.all (fun a =>
    match a with
    | .id v => Reference.isIdentifier v
    | .int _ => false)

/-- The tokens of an operand, in parentheses when `b` is set. -/
def Reference.wrap (b : Bool) (ts : List Reference.Token) : List Reference.Token :=
  if b then .lparen :: ts ++ [.rparen] else ts

/-- The tokens of the flat rendering of a tree: same parentheses as `OpTree.render`. -/
def OpTree.tokens : OpTree → List Reference.Token
  | .leaf a => [.ident a.text]
  | .bin l op r =>
    let ps := needParens (OpTree.bin l op r).toExpression l.toExpression r.toExpression
    Reference.wrap (ps &&& PN_LEFT ≠ 0) l.tokens ++ .op op ::
      Reference.wrap (ps &&& PN_RIGHT ≠ 0) r.tokens

/-- The precedence of the top of a tree in the table of section 4.1; 0 for a leaf. -/
def OpTree.prec : OpTree → Nat
  | .leaf _ => 0
  | .bin _ op _ => Reference.opPrec op

/-- The level at which the right operand of the top of a tree is read; 0 for a leaf. -/
def OpTree.rightLevel : OpTree → Nat
  | .leaf _ => 0
  | .bin _ op _ => Reference.rightLevel op

/-- A bound on the number of nested calls that the reference parser makes on a tree. -/
def OpTree.cost : OpTree → Nat
  | .leaf _ => 2
  | .bin l _ r => l.cost + r.cost + 8

/-- The text does not go on with an identifier character. -/
def Reference.noIdentHead : List Char → Prop
  | [] => True
  | c :: _ => Reference.identChar c = false

/-- The text does not go on with a symbol character. -/
def Reference.noSymHead : List Char → Prop
  | [] => True
  | c :: _ => Reference.symChar c = false

/-- The tokens do not go on with an operator of precedence at most `k`. -/
def Reference.stopsAt (k : Nat) : List Reference.Token → Prop
  | .op o :: _ => k < Reference.opPrec o
  | _ => True

/-! ## Item-to-document mapper and the model facade -/

/-- Modelled from the spec: `Type::parbool()` is declared in a header that is not among the
sources; the spec calls it "par bool". -/
def Type_.parbool : Type_ := ⟨.TI_PAR, .BT_BOOL, .ST_PLAIN, 0⟩

/-- Modelled from the spec: `Type::varbool()` is declared in a header that is not among the
sources; the spec calls it "var bool". -/
def Type_.varbool : Type_ := ⟨.TI_VAR, .BT_BOOL, .ST_PLAIN, 0⟩

/-- Modelled from the spec: `Type::isann()` is declared in a header that is not among the
sources; the spec calls it "ann type", taken here as the base type `ann`. -/
def Type_.isann (t : Type_) : Bool := decide (t._bt = .BT_ANN)

/-- The class `TypeInst` as the item mapper reads it through `fi._ti`: the parts of the
expression node and its annotation chain. -/
structure TypeInst where
  _ranges : List Expression
  _type : Type_
  _domain : Option Expression
  _ann : List Expression

/-- The type-inst as an expression. -/
def TypeInst.toExpression (ti : TypeInst) : Expression :=
  .mk (.TypeInst ti._ranges ti._type ti._domain) ti._ann

/-- The enumeration `SolveI::SolveType`. -/
inductive SolveType
  | ST_SAT | ST_MIN | ST_MAX
  deriving DecidableEq, Repr

/-- The item classes, with the fields that the item mapper reads; a pointer that may be
`NULL` is an `Option`. -/
inductive Item
  | IncludeI (_f : String)
  | VarDeclI (_e : Expression)
  | AssignI (_id : String) (_e : Expression)
  | ConstraintI (_e : Expression)
  | SolveI (_ann : Option Expression) (_st : SolveType) (_e : Option Expression)
  | OutputI (_e : Expression)
  | FunctionI (_ti : TypeInst) (_id : String) (_params : List Expression)
      (_ann : Option Expression) (_e : Option Expression)

/-- The class `Model`: its items. -/
structure Model where
  _items : List Item

/-- The method `mapIncludeI`. -/
def mapIncludeI (f : String) : Document :=
  newStringDocument ("include \"" ++ f ++ "\";")

/-- The method `mapVarDeclI`. -/
def mapVarDeclI (e : Expression) : Document :=
  (newDocumentList "" " " ";" true).addDocumentToList (expressionToDocument e)

/-- The method `mapAssignI`. -/
def mapAssignI (id : String) (e : Expression) : Document :=
  let dl := newDocumentList "" " = " ";" true
  let dl := dl.addStringToList id
  dl.addDocumentToList (expressionToDocument e)

/-- The method `mapConstraintI`. -/
def mapConstraintI (e : Expression) : Document :=
  (newDocumentList "constraint " " " ";" true).addDocumentToList (expressionToDocument e)

/-- The method `mapSolveI`. The source dereferences `si._e` for `ST_MIN` and `ST_MAX`
without a test; a `NULL` there has no defined behaviour, and the embedding adds no
document for it. -/
def mapSolveI (ann : Option Expression) (st : SolveType) (e : Option Expression) :
    Document :=
  let dl := newDocumentList "" "" ";" true
  let dl := dl.addStringToList "solve"
  let dl := match ann with
    | some a => dl.addDocumentToList (expressionToDocument a)
    | none => dl
  match st with
  | .ST_SAT => dl.addStringToList " satisfy"
  | .ST_MIN =>
    let dl := dl.addStringToList " minimize "
    match e with
    | some e => dl.addDocumentToList (expressionToDocument e)
    | none => dl
  | .ST_MAX =>
    let dl := dl.addStringToList " maximize "
    match e with
    | some e => dl.addDocumentToList (expressionToDocument e)
    | none => dl

/-- The method `mapOutputI`. -/
def mapOutputI (e : Expression) : Document :=
  (newDocumentList "output " " " ";" true).addDocumentToList (expressionToDocument e)

/-- The method `mapFunctionI`. -/
def mapFunctionI (ti : TypeInst) (id : String) (params : List Expression)
    (ann : Option Expression) (e : Option Expression) : Document :=
  let dl :=
    if ti._type.isann && e.isNone then newDocumentList "annotation " " " ";" false
    else if ti._type = Type_.parbool then newDocumentList "test " "" ";" false
    else if ti._type = Type_.varbool then newDocumentList "predicate " "" ";" false
    else
      let dl := newDocumentList "function " "" ";" false
      let dl := dl.addDocumentToList (expressionToDocument ti.toExpression)
      dl.addStringToList ": "
  let dl := dl.addStringToList id
  let dl :=
    if !params.isEmpty then
      let ps := params.foldl
        (fun (ps : Document) (p : Expression) =>
          let par := newDocumentList "" "" "" true
          let par := par.setUnbreakable true
          let par := par.addDocumentToList (expressionToDocument p)
          ps.addDocumentToList par) (newDocumentList "(" ", " ")" true)
      dl.addDocumentToList ps
    else dl
  let dl := match ann with
    | some a => dl.addDocumentToList (expressionToDocument a)
    | none => dl
  match e with
  | some e =>
    let dl := dl.addStringToList " = "
    let dl := dl.addBreakPoint false
    dl.addDocumentToList (expressionToDocument e)
  | none => dl

/-- The `switch (i->_iid)` of `Printer::print(Item* i, ...)`: the document of an item. -/
def itemToDocument : Item → Document
  | .IncludeI f => mapIncludeI f
  | .VarDeclI e => mapVarDeclI e
  | .AssignI id e => mapAssignI id e
  | .ConstraintI e => mapConstraintI e
  | .SolveI ann st e => mapSolveI ann st e
  | .OutputI e => mapOutputI e
  | .FunctionI ti id params ann e => mapFunctionI ti id params ann e

/-- The value of `Printer::print(Item* i, std::ostream& os, int width)` with the nested
calls of `remove` cut. -/
def Printer.printItemTotal (p : Printer) (u : Int) (i : Item) (width : Int) : Printer × String :=
  p.printDocumentTotal u (itemToDocument i) width

/-- The value of `Printer::print(Model* m, std::ostream& os, int width)` with the nested
calls of `remove` cut. -/
def Printer.printModelTotal (p : Printer) (u : Int) (m : Model) (width : Int) :
    Printer × String :=
  m._items.foldl
    (fun (acc : Printer × String) (i : Item) =>
      let r := acc.1.printItemTotal u i width
      (r.1, acc.2 ++ r.2)) (p, "")

/-- The text of a list of lines as `Line::print` writes them one after the other. -/
def renderLines (ls : List Line) : String := concatStrings (ls.map Line.print)

mutual
/-- A document without its levels: every `level` field set to 0. -/
def Document.shape : Document → Document
  | .BreakPoint _ ds => .BreakPoint 0 ds
  | .StringDocument _ s => .StringDocument 0 s
  | .DocumentList _ docs b s e u a => .DocumentList 0 (Document.shapeDocs docs) b s e u a
/-- The children without their levels. -/
def Document.shapeDocs : List Document → List Document
  | [] => []
  | d :: ds => d.shape :: Document.shapeDocs ds
end

/-- The flat texts of the documents of a vector of expressions. -/
def textsOf (es : List Expression) : List String :=
  es.map (fun e => flatten (expressionToDocument e))

/-- The text `lo..hi` of an index range, as `oss << first << ".." << second` writes it. -/
def rangeText (d : Int × Int) : String := toString d.1 ++ ".." ++ toString d.2

/-- The widths at which the engines of a facade lay out the items of a model: the width of
the engine in place for the first item, the `width` argument for the others. -/
def itemWidths (w0 width : Int) (n : Nat) : List Int :=
  match n with
  | 0 => []
  | k + 1 => w0 :: List.replicate k width

/-- The expression `if a then 1 elseif b then 2 else 3 endif`. -/
def exampleElseif : Expression :=
  .mk (.ITE [(.mk (.Id "a") [], .mk (.IntLit 1) []), (.mk (.Id "b") [], .mk (.IntLit 2) [])]
    (.mk (.IntLit 3) [])) []

/-- The number of positions of a text at which a pattern starts. -/
def occurrences (p : List Char) : List Char → Nat
  | [] => 0
  | c :: cs => (if p.isPrefixOf (c :: cs) then 1 else 0) + occurrences p cs

/-- The number of times a pattern occurs in a text, overlapping occurrences included. -/
def countOccurrences (p s : String) : Nat := occurrences p.data s.data

/-- An identifier whose name starts with two colons. -/
def exampleColonId : Expression := .mk (.Id ":: x") []

/-- A text that goes on with nothing or with a blank. -/
def blankOrEnd : List Char → Prop
  | [] => True
  | c :: _ => c = ' '

/-- The text starts with the pattern. -/
def startsWith (p s : String) : Bool := p.data.isPrefixOf s.data

/-- The text ends with the pattern. -/
def endsWith (p s : String) : Bool := p.data.isSuffixOf s.data

/-! ## Notions used by the statement about breaks that are not to be simplified -/

mutual
/-- A document that contains no unbreakable list. -/
def Document.breakable : Document → Bool
  | .BreakPoint _ _ => true
  | .StringDocument _ _ => true
  | .DocumentList _ docs _ _ _ unb _ => !unb && Document.breakableDocs docs
/-- No document of the list contains an unbreakable list. -/
def Document.breakableDocs : List Document → Bool
  | [] => true
  | d :: ds => d.breakable && Document.breakableDocs ds
end

/-- Some document of the list is not a break. -/
def hasVisible (ds : List Document) : Bool := ds.any (fun d => !d.isBreakPoint)

mutual
/-- The places of the breaks with do-not-simplify set in the flat text of a document: for
each such break, in document order, the number of bytes of the flat text that stand before
it. In a list a break stands after the begin token, after the children before it, and
after the separator that follows the last child before it that is not a break, when a
later child that is not a break exists. -/
def dsBreakOffsets : Document → List Int
  | .BreakPoint _ ds => if ds then [0] else []
  | .StringDocument _ _ => []
  | .DocumentList _ docs b sep _ _ _ => (dsBreakOffsetsDocs sep docs).map (fun k => size b + k)
/-- The places of such breaks in the children of a list, counted from the first child. -/
def dsBreakOffsetsDocs (sep : String) : List Document → List Int
  | [] => []
  | d :: ds =>
    dsBreakOffsets d ++ (dsBreakOffsetsDocs sep ds).map (fun k =>
      size (flatten d) + (if !d.isBreakPoint && hasVisible ds then size sep else 0) + k)
end

/-- The number of bytes of text on the lines before line `j`. -/
def textBefore (ls : List Line) (j : Nat) : Int := size (allText (ls.take j))

/-- The state of the engine while it walks a document without unbreakable lists, with
`deeplySimp` on: every place of `K` is the start of a line that is recorded in
`linesNotToSimplify`, and every line recorded in `linesToSimplify` is a line of the item
other than the first. -/
structure WalkInv (pp : PrettyPrinter) (K : List Int) : Prop where
  good : Good pp
  deep : pp.deeplySimp = true
  marks : ∀ k ∈ K, ∃ m : Nat, (m : Int) ∈ allCandidates pp.N ∧ 1 ≤ m ∧ m < pp.L.length ∧
    textBefore pp.L m = k
  cand : ∀ x ∈ allCandidates pp.T, 1 ≤ x ∧ x < (pp.L.length : Int)

/-- The state of the simplification loop: every place of `K` is the start of a line whose
index is in `M`, no index of `M` is in the vector, and the vector holds indices of lines
other than the first. -/
structure LoopInv (ls : List Line) (vec : List Int) (M : List Int) (K : List Int) : Prop where
  marks : ∀ k ∈ K, ∃ m : Nat, (m : Int) ∈ M ∧ 1 ≤ m ∧ m < ls.length ∧ textBefore ls m = k
  apart : ∀ x ∈ vec, x ∉ M
  range : ∀ x ∈ vec, 1 ≤ x ∧ x < (ls.length : Int)

/-- The document `a`, a break that is not to be simplified, `b`. -/
def exampleHardBreak : Document :=
  (((newDocumentList "" "" "" true).addStringToList "a").addBreakPoint true).addStringToList "b"

/-! ## Notions used by the statements about levels, the ledgers and the steps of the engine -/

mutual
/-- The document has level `n` and, below it, every child of a list has the level of the
list plus one: the level of every node is `n` plus its depth. -/
def Document.leveled : Nat → Document → Bool
  | n, .BreakPoint l _ => decide (l = n)
  | n, .StringDocument l _ => decide (l = n)
  | n, .DocumentList l docs _ _ _ _ _ => decide (l = n) && Document.leveledDocs (n + 1) docs
/-- Every document of the list is levelled from `n`. -/
def Document.leveledDocs : Nat → List Document → Bool
  | _, [] => true
  | n, d :: ds => d.leveled n && Document.leveledDocs n ds
end

/-- The call `p->addDocumentToList(d)` on a node `p` of a tree that may already hang below
other lists: `p` is reached from the root by the child indices `path`, and the call changes
`p` and `d` only (`docs.push_back(d); d->setParent(this)`). A path that leads to no list
changes nothing. -/
def Document.addAt : List Nat → Document → Document → Document
  | [], root, d => root.addDocumentToList d
  | i :: path, .DocumentList l docs b s e u a, d =>
      .DocumentList l (docs.modify (fun x => Document.addAt path x d) i) b s e u a
  | _ :: _, other, _ => other

/-- A way of building a document tree with the constructors and `addDocumentToList`: the
tree `c`, built so far, is attached to a node of the tree `t`, built so far; the node may
be the root of `t` or any list below it, so children can be attached to a list before or
after the list is attached to its own parent. -/
inductive Build : Type
  | breakPoint (ds : Bool)
  | string (s : String)
  | list (beginToken separator endToken : String) (alignment : Bool)
  | unbreakable (t : Build) (b : Bool)
  | add (t : Build) (path : List Nat) (c : Build)

/-- The tree that a way of building gives. -/
def Build.run : Build → Document
  | .breakPoint ds => newBreakPoint ds
  | .string s => newStringDocument s
  | .list b s e a => newDocumentList b s e a
  | .unbreakable t b => (Build.run t).setUnbreakable b
  | .add t path c => (Build.run t).addAt path (Build.run c)

/-- A list `[ x` with the child `x` attached first, then the list attached to the root `a`,
and the child `y` attached to the list afterwards. -/
def exampleBuild : Build :=
  .add (.add (.add (.list "(" ", " ")" true) [] (.string "a")) []
    (.add (.list "[" ", " "]" true) [] (.string "x"))) [1] (.string "y")

/-- The engine of `print(Document* d)` after the walk of the document, before the test of
`simp`; `none` when the walk does not return. -/
def PrettyPrinter.walk (pp : PrettyPrinter) (u : Int) (d : Document) : Option PrettyPrinter :=
  ((pp.addItem).addLine 0 false false 0).printDocument u d true 0 "" ""

/-- The value of the walk of `print(Document* d)` with the nested calls of `remove`
cut. -/
def PrettyPrinter.walkTotal (pp : PrettyPrinter) (u : Int) (d : Document) : PrettyPrinter :=
  ((pp.addItem).addLine 0 false false 0).printDocumentTotal u d true 0 "" ""

/-- A step of the cascade of `remove(v, i, false)`: a pair `(i, j)` of the parent table
with `j != i` and `j != -1`. -/
def Link (parent : List (Int × Int)) (i j : Int) : Prop :=
  (i, j) ∈ parent ∧ j ≠ i ∧ j ≠ -1

/-- The line `x` is `i` or is reached from `i` by a chain of parent links: the parent of
`i`, the parent of that line, and so on. -/
def Reaches (parent : List (Int × Int)) (i x : Int) : Prop :=
  Relation.ReflTransGen (Link parent) i x

/-- The line `x` is `i` or is reached from `i` by a chain of fewer than `n` parent links. -/
def Within (parent : List (Int × Int)) : Nat → Int → Int → Prop
  | 0, _, _ => False
  | n + 1, i, x => x = i ∨ ∃ j, Link parent i j ∧ Within parent n j x

/-- An unbreakable list `p`, Break (do not simplify), `q`. -/
def exampleUnbreakable : Document :=
  ((((newDocumentList "" "" "" true).addStringToList "p").addBreakPoint true).addStringToList
    "q").setUnbreakable true

/-- The unbreakable list `p`, Break (do not simplify), `q`, then a Break and `r`. -/
def exampleStale : Document :=
  (((newDocumentList "" "" "" true).addDocumentToList exampleUnbreakable).addBreakPoint
    false).addStringToList "r"

/-- A Break, `a`, and a list that holds a Break (do not simplify) and `b`. -/
def exampleExcludedChild : Document :=
  (((newDocumentList "" "" "" true).addBreakPoint false).addStringToList "a").addDocumentToList
    (((newDocumentList "" "" "" true).addBreakPoint true).addStringToList "b")

/-- A Break, `a`, a Break, `b`, and a list that holds a Break and `c`. -/
def exampleTwoBreaks : Document :=
  (((((newDocumentList "" "" "" true).addBreakPoint false).addStringToList "a").addBreakPoint
    false).addStringToList "b").addDocumentToList
    (((newDocumentList "" "" "" true).addBreakPoint false).addStringToList "c")

/-- The ledger after `addLine(1, 1)` and `addLine(2, 2)`: line 1 is the parent of line 2. -/
def exampleLedger : LinesToSimplify :=
  ((default : LinesToSimplify).addLine 1 1 (-1)).addLine 2 2 (-1)

/-- The text `x`, a Break, `aaaa`, and a list that holds `bbbbbbbb`, a Break and
`cccccccc`. -/
def exampleStop : Document :=
  ((((newDocumentList "" "" "" true).addStringToList "x").addBreakPoint false).addStringToList
    "aaaa").addDocumentToList
    ((((newDocumentList "" "" "" true).addStringToList "bbbbbbbb").addBreakPoint
      false).addStringToList "cccccccc")

/-- The number of `BreakPoint` children among the documents. -/
def breakCount (ds : List Document) : Nat := (ds.filter Document.isBreakPoint).length

/-- The cursor column of the engine: the indentation plus the length of the current line
of the current item. -/
def PrettyPrinter.cursor (pp : PrettyPrinter) : Int :=
  (pp.line pp.currentItem pp.currentLine).getIndentation
    + (pp.line pp.currentItem pp.currentLine).getLength

/-- The text `abc` and an unbreakable aligned list that holds `yyyy`, a Break and `xxxx`. -/
def exampleForcedLine : Document :=
  ((newDocumentList "" "" "" true).addStringToList "abc").addDocumentToList
    (((((newDocumentList "" "" "" true).addStringToList "yyyy").addBreakPoint
      false).addStringToList "xxxx").setUnbreakable true)

/-- The test of `simplify` passes at every attempt of the loop of `simplifyItem` run on the
lines `ls` with the working vector `vec`, for at most `fuel` attempts: the head of the
vector can be joined and, on the joined lines and the vector without the head and
renumbered, the same holds. -/
def allAttemptsSucceed (maxwidth : Int) : Nat → List Line → List Int → Bool
  | _, _, [] => true
  | 0, _, _ :: _ => false
  | fuel + 1, ls, l :: rest =>
    canJoin maxwidth ls l &&
      allAttemptsSucceed maxwidth fuel (joinLines ls l)
        (decrementVec (eraseValue (l :: rest) l) l)

/-- The first loops of `remove(v, i, success)` on the ledger: `i` is erased from every
bucket. -/
def LinesToSimplify.eraseLine (lts : LinesToSimplify) (i : Int) : LinesToSimplify :=
  { lts with lines := lts.lines.map (fun kb => (kb.1, eraseValue kb.2 i)) }

/-- The body of the last loop of `remove(v, i, false)` for one pair of the parent table,
with the nested call cut after `fuel` calls as in `removeCut`. -/
def cascadeStep (fuel : Nat) (i : Int) (acc : LinesToSimplify × Option (List Int))
    (pr : Int × Int) : LinesToSimplify × Option (List Int) :=
  if pr.1 = i ∧ pr.2 ≠ i ∧ pr.2 ≠ -1 then
    LinesToSimplify.removeCut fuel acc.1 acc.2 pr.2 false
  else acc

/-- An engine with one item of two lines, `a` and `b`, at width 80. -/
def exampleEngine : PrettyPrinter :=
  { maxwidth := 80, indentationBase := 4, currentLine := 1, currentItem := 0,
    items := [[(Line.new 0).addString "a", (Line.new 0).addString "b"]],
    linesToSimplify := [default], linesNotToSimplify := [default],
    simp := true, deeplySimp := true }

/-- The engine of `printDocList` when it reads the cursor column: an unbreakable list has
first started a line at the alignment column. -/
def PrettyPrinter.enterList (pp : PrettyPrinter) (unbreakable : Bool) (alignmentCol : Int) :
    PrettyPrinter :=
  if unbreakable then pp.addLine alignmentCol false false 0 else pp

/-- The indentation stated for the line that the `k`-th Break child of a list starts: the
cursor column `c` plus the size of the begin token for an aligned list, the alignment
column `a` plus `k` times `indentationBase` for a list that is not aligned. -/
def breakColumn (alignment : Bool) (c a indentationBase : Int) (beginToken : String)
    (k : Nat) : Int :=
  if alignment then c + size beginToken else a + k * indentationBase

/-- The engine of `print(Document* d)` on entering the document, at width 80. -/
def exampleStart : PrettyPrinter :=
  { maxwidth := 80, indentationBase := 4, currentLine := 0, currentItem := 0,
    items := [[Line.new 0]], linesToSimplify := [default], linesNotToSimplify := [default],
    simp := true, deeplySimp := true }

/-- A function item `function int: f(int: x = [| 1, 2 | 3, 4 |]) = x;`. -/
def exampleStaleItem : Item :=
  .FunctionI ⟨[], Type_.parint, none, []⟩ "f"
    [.mk (.VarDecl (.mk (.TypeInst [] Type_.parint none) []) "x" false
      (some (.mk (.ArrayLit [.mk (.IntLit 1) [], .mk (.IntLit 2) [], .mk (.IntLit 3) [],
        .mk (.IntLit 4) []] [(1, 2), (1, 2)]) []))) []]
    none (some (.mk (.Id "x") []))

/-- The expression `if c then x else y ++ z endif`. -/
def exampleIteConcat : Expression :=
  .mk (.ITE [(.mk (.Id "c") [], .mk (.Id "x") [])]
    (.mk (.BinOp (.mk (.Id "y") []) .BOT_PLUSPLUS (.mk (.Id "z") [])) [])) []

/-! ## The variable `lastVisibleElementIndex` as a variable that may be unassigned -/

/-- The first loop of `printDocList`, from child `i` on, with the variable
`lastVisibleElementIndex` held as an option: `none` while nothing has been assigned to
it. -/
def lastVisibleOptFrom : Int → Option Int → List Document → Option Int
  | _, last, [] => last
  | i, last, d :: ld => lastVisibleOptFrom (i + 1) (if !d.isBreakPoint then some i else last) ld

/-- The first loop of `printDocList` on the declared, unassigned variable. -/
def lastVisibleElementIndexOpt (ld : List Document) : Option Int :=
  lastVisibleOptFrom 0 none ld

/-- The choice of `af` for child `i` in the second loop of `printDocList`. The test
`bp || lastVisibleElementIndex <= i` reads the variable only when `bp` is false; the
result is `none` when the variable is read while it is unassigned. -/
def afterChoice (i vectorSize : Int) (bp : Bool) (lastVisible : Option Int)
    (separator lastAfter : String) : Option String :=
  if i ≠ vectorSize - 1 then
    if bp then some ""
    else
      match lastVisible with
      | some lv => some (if lv ≤ i then "" else separator)
      | none => none
  else some lastAfter

mutual
/-- The method `printDocument`, with `lastVisibleElementIndex` unassigned on entry of
`printDocList`: the result is `none` when a read of the unassigned variable is reached,
and else `some` of the result of the method, which is `none` when the call does not
return. -/
def PrettyPrinter.printDocumentRead (pp : PrettyPrinter) :
    Document → Bool → Int → String → String → Option (Option PrettyPrinter)
  | .DocumentList _ ld beginToken separator endToken unbreakable _alignment,
      _, alignmentCol, super_before, super_after =>
    let pp := if unbreakable then pp.addLine alignmentCol false false 0 else pp
    let currentCol := (pp.line pp.currentItem pp.currentLine).getIndentation
      + (pp.line pp.currentItem pp.currentLine).getLength
    let newAlignmentCol := if _alignment then currentCol + size beginToken else alignmentCol
    let vectorSize : Int := ld.length
    let lastVisible := lastVisibleElementIndexOpt ld
    let pp :=
      if vectorSize = 0 then
        pp.printStringDoc none true newAlignmentCol (super_before ++ beginToken)
          (endToken ++ super_after)
      else pp
    match PrettyPrinter.printDocListLoopRead pp ld 0 vectorSize lastVisible _alignment
      newAlignmentCol separator (endToken ++ super_after) (super_before ++ beginToken) with
    | none => none
    | some none => some none
    | some (some pp) =>
      if unbreakable then
        match pp.simplify pp.currentItem pp.currentLine none with
        | none => some none
        | some r => some (some r.2.1)
      else some (some pp)
  | .StringDocument _ s, alignment, alignmentCol, before, after =>
    some (some (pp.printStringDoc (some s) alignment alignmentCol before after))
  | .BreakPoint level dontSimplify, alignment, alignmentCol, before, after =>
    let pp := pp.printString before alignment alignmentCol
    let pp := pp.addLine alignmentCol pp.deeplySimp (!dontSimplify) level
    some (some (pp.printString after alignment alignmentCol))
/-- The second loop of `printDocList`, from child `i` on, with the variable as an
option. -/
def PrettyPrinter.printDocListLoopRead (pp : PrettyPrinter) :
    List Document → Int → Int → Option Int → Bool → Int → String → String → String →
      Option (Option PrettyPrinter)
  | [], _, _, _, _, _, _, _, _ => some (some pp)
  | subdoc :: ld, i, vectorSize, lastVisible, _alignment, newAlignmentCol, separator,
      lastAfter, firstBefore =>
    let bp := subdoc.isBreakPoint
    let newAlignmentCol :=
      if bp && !_alignment then newAlignmentCol + pp.indentationBase else newAlignmentCol
    match afterChoice i vectorSize bp lastVisible separator lastAfter with
    | none => none
    | some af =>
      let be := if i = 0 then firstBefore else ""
      match PrettyPrinter.printDocumentRead pp subdoc _alignment newAlignmentCol be af with
      | none => none
      | some none => some none
      | some (some pp) =>
        PrettyPrinter.printDocListLoopRead pp ld (i + 1) vectorSize lastVisible _alignment
          newAlignmentCol separator lastAfter firstBefore
end

/-- A list whose children are three Breaks. -/
def exampleOnlyBreaks : Document :=
  (((newDocumentList "(" ", " ")" true).addBreakPoint false).addBreakPoint false).addBreakPoint
    false

/-! ## The legacy engine of `printer/PrettyPrinter.cpp` -/

/-- Modelled from the spec: the class `PrettyPrinter` of the legacy engine is declared in
the header `printer/PrettyPrinter.h`, which is not among the sources. Its members are the
ones that the methods of `printer/PrettyPrinter.cpp` use: the ledger `linesToSimplify`
holds one vector of line indices per item. The classes `Line` and `Document` that the
legacy engine uses are the lines and documents of the data model, embedded above. -/
structure LegacyPrinter where
  maxwidth : Int
  indentationBase : Int
  currentLine : Int
  currentItem : Int
  items : List (List Line)
  linesToSimplify : List (List Int)
  simp : Bool
  deeplySimp : Bool
  deriving DecidableEq, Repr

namespace LegacyPrinter

/-- The constructor `PrettyPrinter(_maxwidth, _indentationBase, sim, deepsim)` of the
legacy engine. -/
def new (maxwidth indentationBase : Int) (sim deepsim : Bool) : LegacyPrinter :=
  { maxwidth := maxwidth, indentationBase := indentationBase, currentLine := -1,
    currentItem := -1, items := [], linesToSimplify := [], simp := sim,
    deeplySimp := deepsim }

/-- The accessor `getCurrentItemLines()`. -/
def getCurrentItemLines (lp : LegacyPrinter) : List Line :=
  vecGet lp.items lp.currentItem

/-- The read `items[item][line]`. -/
def line (lp : LegacyPrinter) (item line : Int) : Line :=
  vecGet (vecGet lp.items item) line

/-- The method `addLine(indentation, bp)`. -/
def addLine (lp : LegacyPrinter) (indentation : Int) (bp : Bool) : LegacyPrinter :=
  let lp := { lp with
    items := vecModify lp.items lp.currentItem (fun ls => ls ++ [Line.new indentation]) }
  let lp := { lp with currentLine := lp.currentLine + 1 }
  if bp && lp.deeplySimp then
    { lp with
      linesToSimplify := vecModify lp.linesToSimplify lp.currentItem
        (fun v => v ++ [lp.currentLine]) }
  else lp

/-- The method `addItem()`. -/
def addItem (lp : LegacyPrinter) : LegacyPrinter :=
  { lp with
    items := lp.items ++ [[]]
    linesToSimplify := lp.linesToSimplify ++ [[]]
    currentItem := lp.currentItem + 1
    currentLine := -1 }

/-- The method `printString(s, alignment, alignmentCol)`. The argument `bpDefault` is the
default value of the parameter `bp` of `addLine`, which the header declares and the
sources do not show. -/
def printString (lp : LegacyPrinter) (bpDefault : Bool) (s : String) (alignment : Bool)
    (alignmentCol : Int) : LegacyPrinter :=
  let l := lp.line lp.currentItem lp.currentLine
  let size := size s
  if size ≤ l.getSpaceLeft lp.maxwidth then
    { lp with
      items := vecModify lp.items lp.currentItem
        (fun ls => vecModify ls lp.currentLine (fun l => l.addString s)) }
  else
    let col := if alignment && decide (lp.maxwidth - alignmentCol ≥ size) then alignmentCol
      else lp.indentationBase
    let lp := lp.addLine col bpDefault
    { lp with
      items := vecModify lp.items lp.currentItem
        (fun ls => vecModify ls lp.currentLine (fun l => l.addString s)) }

/-- The method `printStringDoc(d, alignment, alignmentCol, before, after)`; `d` is the
string of the document, or `none` for `NULL`. -/
def printStringDoc (lp : LegacyPrinter) (bpDefault : Bool) (d : Option String)
    (alignment : Bool) (alignmentCol : Int) (before after : String) : LegacyPrinter :=
  let s := match d with
    | some t => t
    | none => ""
  let s := before ++ s ++ after
  lp.printString bpDefault s alignment alignmentCol

/-- The method `simplify(item, line)`; the result is the returned flag and the engine. -/
def simplify (lp : LegacyPrinter) (item line : Int) : Bool × LegacyPrinter :=
  if line = 0 then (false, lp)
  else if (lp.line item line).getLength > (lp.line item (line - 1)).getSpaceLeft lp.maxwidth
  then (false, lp)
  else
    let l := lp.line item line
    let lp := { lp with
      items := vecModify lp.items item
        (fun ls => vecModify ls (line - 1) (fun l1 => l1.concatenateLines l)) }
    let lp := { lp with items := vecModify lp.items item (fun ls => vecErase ls line) }
    let lp := { lp with
      linesToSimplify := vecModify lp.linesToSimplify item
        (fun v => v.map (fun x => if x = line then line - 1 else x)) }
    (true, { lp with currentLine := lp.currentLine - 1 })

mutual
/-- The method `printDocument(d, alignment, alignmentCol, before, after)` of the legacy
engine; the case of a `DocumentList` is the body of `printDocList`. The argument `u` is
the value that the local variable `lastVisibleElementIndex` holds before it is first
assigned. -/
def printDocument (lp : LegacyPrinter) (bpDefault : Bool) (u : Int) :
    Document → Bool → Int → String → String → LegacyPrinter
  | .DocumentList _ ld beginToken separator endToken unbreakable _alignment,
      _, alignmentCol, super_before, super_after =>
    let lp := if unbreakable then lp.addLine alignmentCol bpDefault else lp
    let currentCol := (lp.line lp.currentItem lp.currentLine).getIndentation
      + (lp.line lp.currentItem lp.currentLine).getLength
    let newAlignmentCol := if _alignment then currentCol + size beginToken else alignmentCol
    let vectorSize : Int := ld.length
    let lastVisible := lastVisibleElementIndex u ld
    let lp :=
      if vectorSize = 0 then
        lp.printStringDoc bpDefault none true newAlignmentCol (super_before ++ beginToken)
          (endToken ++ super_after)
      else lp
    let lp := printDocListLoop lp bpDefault u ld 0 vectorSize lastVisible _alignment
      newAlignmentCol separator (endToken ++ super_after) (super_before ++ beginToken)
    if unbreakable then (lp.simplify lp.currentItem lp.currentLine).2 else lp
  | .StringDocument _ s, alignment, alignmentCol, before, after =>
    lp.printStringDoc bpDefault (some s) alignment alignmentCol before after
  | .BreakPoint _ _, alignment, alignmentCol, before, after =>
    let lp := lp.printStringDoc bpDefault none alignment alignmentCol before ""
    let lp := lp.addLine alignmentCol false
    lp.printStringDoc bpDefault none alignment alignmentCol "" after
/-- The second loop of `printDocList` of the legacy engine, from child `i` on. -/
def printDocListLoop (lp : LegacyPrinter) (bpDefault : Bool) (u : Int) :
    List Document → Int → Int → Int → Bool → Int → String → String → String → LegacyPrinter
  | [], _, _, _, _, _, _, _, _ => lp
  | subdoc :: ld, i, vectorSize, lastVisible, _alignment, newAlignmentCol, separator,
      lastAfter, firstBefore =>
    let bp := subdoc.isBreakPoint
    let newAlignmentCol :=
      if bp && !_alignment then newAlignmentCol + lp.indentationBase else newAlignmentCol
    let af :=
      if i ≠ vectorSize - 1 then
        if bp || decide (lastVisible ≤ i) then "" else separator
      else lastAfter
    let be := if i = 0 then firstBefore else ""
    let lp := printDocument lp bpDefault u subdoc _alignment newAlignmentCol be af
    printDocListLoop lp bpDefault u ld (i + 1) vectorSize lastVisible _alignment
      newAlignmentCol separator lastAfter firstBefore
end

/-- The inner loop `for (int line = ...; line > 0; line--)` of `simplifyItem`, entered
with `line = k`: `simplify(item, line)`, and `break` when it returns false. -/
def simplifyLines : Nat → LegacyPrinter → Int → LegacyPrinter
  | 0, lp, _ => lp
  | k + 1, lp, item =>
    let r := lp.simplify item ((k : Int) + 1)
    if !r.1 then r.2 else simplifyLines k r.2 item

/-- The outer loop `for (int l = nLinesToSimplify - 1; l >= 0; l--)` of `simplifyItem`,
entered with `l = n - 1`: the inner loop from `linesToSimplify[item][l]` on, then
`pop_back()`. -/
def simplifyEntries : Nat → LegacyPrinter → Int → LegacyPrinter
  | 0, lp, _ => lp
  | l + 1, lp, item =>
    let lp := simplifyLines (vecGet (vecGet lp.linesToSimplify item) l).toNat lp item
    let lp := { lp with linesToSimplify := vecModify lp.linesToSimplify item List.dropLast }
    simplifyEntries l lp item

/-- The method `simplifyItem(item)` of the legacy engine. -/
def simplifyItem (lp : LegacyPrinter) (item : Int) : LegacyPrinter :=
  let nLines : Int := (vecGet lp.items item).length
  let lp := { lp with
    linesToSimplify := vecModify lp.linesToSimplify item (fun v => v ++ [nLines - 1]) }
  simplifyEntries (vecGet lp.linesToSimplify item).length lp item

/-- The method `print(Document* d)` of the legacy engine. The call
`printDocument(d, true, 0)` leaves `before` and `after` to the defaults of the header,
taken to be empty strings as in the current engine. -/
def print (lp : LegacyPrinter) (bpDefault : Bool) (u : Int) (d : Document) : LegacyPrinter :=
  let lp := lp.addItem
  let lp := lp.addLine 0 bpDefault
  let lp := lp.printDocument bpDefault u d true 0 "" ""
  if lp.simp then lp.simplifyItem lp.currentItem else lp

end LegacyPrinter

/-- The legacy engine and the current engine hold the same items, cursors, width,
indentation base and flag `simp`. -/
def Sim (lp : LegacyPrinter) (pp : PrettyPrinter) : Prop :=
  lp.items = pp.items ∧ lp.currentLine = pp.currentLine ∧ lp.currentItem = pp.currentItem ∧
    lp.maxwidth = pp.maxwidth ∧ lp.indentationBase = pp.indentationBase ∧ lp.simp = pp.simp

/-! ## The engine with checked line indices -/

/-- The method `simplify(item, line, vec)` with the index checked: the result is `none`
when `line` is not an index of a line of the item, so that `items[item][line]` would be
read out of bounds, and else `some` of the result of the method. -/
def PrettyPrinter.simplifyBounded (pp : PrettyPrinter) (item line : Int)
    (vec : Option (List Int)) : Option (Option (Bool × PrettyPrinter × Option (List Int))) :=
  if 0 ≤ line ∧ line < ((vecGet pp.items item).length : Int) then
    some (pp.simplify item line vec)
  else none

mutual
/-- The method `printDocument`, with the index that `printDocList` passes to `simplify` at
the end of an unbreakable list checked: the result is `none` when an index out of bounds
is reached, and else `some` of the result of the method. -/
def PrettyPrinter.printDocumentBounded (pp : PrettyPrinter) (u : Int) :
    Document → Bool → Int → String → String → Option (Option PrettyPrinter)
  | .DocumentList _ ld beginToken separator endToken unbreakable _alignment,
      _, alignmentCol, super_before, super_after =>
    let pp := if unbreakable then pp.addLine alignmentCol false false 0 else pp
    let currentCol := (pp.line pp.currentItem pp.currentLine).getIndentation
      + (pp.line pp.currentItem pp.currentLine).getLength
    let newAlignmentCol := if _alignment then currentCol + size beginToken else alignmentCol
    let vectorSize : Int := ld.length
    let lastVisible := lastVisibleElementIndex u ld
    let pp :=
      if vectorSize = 0 then
        pp.printStringDoc none true newAlignmentCol (super_before ++ beginToken)
          (endToken ++ super_after)
      else pp
    match PrettyPrinter.printDocListLoopBounded pp u ld 0 vectorSize lastVisible _alignment
      newAlignmentCol separator (endToken ++ super_after) (super_before ++ beginToken) with
    | none => none
    | some none => some none
    | some (some pp) =>
      if unbreakable then
        match pp.simplifyBounded pp.currentItem pp.currentLine none with
        | none => none
        | some none => some none
        | some (some r) => some (some r.2.1)
      else some (some pp)
  | .StringDocument _ s, alignment, alignmentCol, before, after =>
    some (some (pp.printStringDoc (some s) alignment alignmentCol before after))
  | .BreakPoint level dontSimplify, alignment, alignmentCol, before, after =>
    let pp := pp.printString before alignment alignmentCol
    let pp := pp.addLine alignmentCol pp.deeplySimp (!dontSimplify) level
    some (some (pp.printString after alignment alignmentCol))
/-- The second loop of `printDocList`, from child `i` on, with checked indices. -/
def PrettyPrinter.printDocListLoopBounded (pp : PrettyPrinter) (u : Int) :
    List Document → Int → Int → Int → Bool → Int → String → String → String →
      Option (Option PrettyPrinter)
  | [], _, _, _, _, _, _, _, _ => some (some pp)
  | subdoc :: ld, i, vectorSize, lastVisible, _alignment, newAlignmentCol, separator,
      lastAfter, firstBefore =>
    let bp := subdoc.isBreakPoint
    let newAlignmentCol :=
      if bp && !_alignment then newAlignmentCol + pp.indentationBase else newAlignmentCol
    let af :=
      if i ≠ vectorSize - 1 then
        if bp || decide (lastVisible ≤ i) then "" else separator
      else lastAfter
    let be := if i = 0 then firstBefore else ""
    match PrettyPrinter.printDocumentBounded pp u subdoc _alignment newAlignmentCol be af with
    | none => none
    | some none => some none
    | some (some pp) =>
      PrettyPrinter.printDocListLoopBounded pp u ld (i + 1) vectorSize lastVisible _alignment
        newAlignmentCol separator lastAfter firstBefore
end

/-- The loop of `simplifyItem`, run for at most `steps` iterations, with the index taken
from the working vector checked. -/
def PrettyPrinter.simplifyLoopBounded :
    Nat → PrettyPrinter → Int → List Int → Option (Option (PrettyPrinter × List Int))
  | _, pp, _, [] => some (some (pp, []))
  | 0, _, _, _ :: _ => some none
  | steps + 1, pp, item, l :: rest =>
    match pp.simplifyBounded item l (some (l :: rest)) with
    | none => none
    | some none => some none
    | some (some r) =>
      if !r.1 then some (some (r.2.1, r.2.2.getD []))
      else PrettyPrinter.simplifyLoopBounded steps r.2.1 item (r.2.2.getD [])

/-- The method `simplifyItem(item)` with checked indices. -/
def PrettyPrinter.simplifyItemBounded (pp : PrettyPrinter) (item : Int) :
    Option (Option PrettyPrinter) :=
  match (vecGet pp.linesToSimplify item).removeAll (vecGet pp.linesNotToSimplify item) with
  | none => some none
  | some lts =>
    let pp := { pp with linesToSimplify := vecModify pp.linesToSimplify item (fun _ => lts) }
    let vec := (vecGet pp.linesToSimplify item).getLinesToSimplify
    (PrettyPrinter.simplifyLoopBounded vec.length pp item vec).map (Option.map Prod.fst)

/-- The method `print(Document* d)` with checked indices: the result is `none` when an
index out of bounds is passed to `simplify`, and else `some` of the result of the
method. -/
def PrettyPrinter.printBounded (pp : PrettyPrinter) (u : Int) (d : Document) :
    Option (Option PrettyPrinter) :=
  let pp := pp.addItem
  let pp := pp.addLine 0 false false 0
  match pp.printDocumentBounded u d true 0 "" "" with
  | none => none
  | some none => some none
  | some (some pp) => if pp.simp then pp.simplifyItemBounded pp.currentItem else some (some pp)

/-- The state of the engine during the walk of any document: one item whose last line is
the current line, and every candidate of `linesToSimplify` is a line of the item other
than the first and not beyond the current line. -/
def CandRange (pp : PrettyPrinter) : Prop :=
  Good pp ∧ ∀ x ∈ allCandidates pp.T, 1 ≤ x ∧ x ≤ pp.currentLine

/-! ## The simplification pass with the bounds of its loops and recursions checked -/

/-- The method `remove(LinesToSimplify& lts)` with the recursion of every removal
bounded by `fuel`. -/
def LinesToSimplify.removeAllFuel (fuel : Nat) (lts other : LinesToSimplify) :
    Option LinesToSimplify :=
  (other.lines.flatMap (fun kb => kb.2)).foldl
    (fun (acc : Option LinesToSimplify) (i : Int) =>
      match acc with
      | none => none
      | some a => (a.removeFuel fuel none i false).map Prod.fst) (some lts)

/-- The method `simplify(item, line, vec)` with the recursion of `remove` bounded by
`fuel`. -/
def PrettyPrinter.simplifyFuel (fuel : Nat) (pp : PrettyPrinter) (item line : Int)
    (vec : Option (List Int)) : Option (Bool × PrettyPrinter × Option (List Int)) :=
  if line = 0 then
    match (vecGet pp.linesToSimplify item).removeFuel fuel vec line false with
    | none => none
    | some r =>
      some (false,
        { pp with linesToSimplify := vecModify pp.linesToSimplify item (fun _ => r.1) }, r.2)
  else if (pp.line item line).getLength > (pp.line item (line - 1)).getSpaceLeft pp.maxwidth then
    match (vecGet pp.linesToSimplify item).removeFuel fuel vec line false with
    | none => none
    | some r =>
      some (false,
        { pp with linesToSimplify := vecModify pp.linesToSimplify item (fun _ => r.1) }, r.2)
  else
    match (vecGet pp.linesToSimplify item).removeFuel fuel vec line true with
    | none => none
    | some r =>
      let pp := { pp with linesToSimplify := vecModify pp.linesToSimplify item (fun _ => r.1) }
      let l := pp.line item line
      let pp := { pp with
        items := vecModify pp.items item
          (fun ls => vecModify ls (line - 1) (fun l1 => l1.concatenateLines l)) }
      let pp := { pp with items := vecModify pp.items item (fun ls => vecErase ls line) }
      let r := (vecGet pp.linesToSimplify item).decrementLine r.2 line
      let pp := { pp with linesToSimplify := vecModify pp.linesToSimplify item (fun _ => r.1) }
      some (true, { pp with currentLine := pp.currentLine - 1 }, r.2)

/-- The loop `while (!vec->empty())` of `simplifyItem` bounded by `steps` iterations, with
the recursion of `remove` bounded by `fuel`: the result is `none` when a bound is reached
before the loop ends. -/
def PrettyPrinter.simplifyLoopFuel :
    Nat → Nat → PrettyPrinter → Int → List Int → Option (PrettyPrinter × List Int)
  | _, _, pp, _, [] => some (pp, [])
  | 0, _, _, _, _ :: _ => none
  | steps + 1, fuel, pp, item, l :: rest =>
    match pp.simplifyFuel fuel item l (some (l :: rest)) with
    | none => none
    | some r =>
      if !r.1 then some (r.2.1, r.2.2.getD [])
      else PrettyPrinter.simplifyLoopFuel steps fuel r.2.1 item (r.2.2.getD [])

/-- The method `simplifyItem(item)` with its loop bounded by `steps` iterations and the
recursion of `remove` by `fuel`. -/
def PrettyPrinter.simplifyItemFuel (steps fuel : Nat) (pp : PrettyPrinter) (item : Int) :
    Option PrettyPrinter :=
  match (vecGet pp.linesToSimplify item).removeAllFuel fuel
    (vecGet pp.linesNotToSimplify item) with
  | none => none
  | some lts =>
    let pp := { pp with linesToSimplify := vecModify pp.linesToSimplify item (fun _ => lts) }
    let vec := (vecGet pp.linesToSimplify item).getLinesToSimplify
    (PrettyPrinter.simplifyLoopFuel steps fuel pp item vec).map Prod.fst

/-- The body of the last loop of `remove(v, i, false)` for one pair of the parent table,
with the recursion bounded. -/
def cascadeStepFuel (fuel : Nat) (i : Int)
    (acc : Option (LinesToSimplify × Option (List Int))) (pr : Int × Int) :
    Option (LinesToSimplify × Option (List Int)) :=
  match acc with
  | none => none
  | some a =>
    if pr.1 = i ∧ pr.2 ≠ i ∧ pr.2 ≠ -1 then
      LinesToSimplify.removeFuel fuel a.1 a.2 pr.2 false
    else some a

/-- The number of pairs of the parent table whose first component is at most `i`. -/
def pairsUpTo (parent : List (Int × Int)) (i : Int) : Nat :=
  (parent.filter (fun pr => decide (pr.1 ≤ i))).length

/-- The state of the engine during the walk of a document without unbreakable lists: one
item whose last line is the current line, every line held in `mostRecentlyAdded` is a
line of the item other than the first, and every pair of the parent table leads from a
line to a line before it, other than the first. -/
def LinkRange (pp : PrettyPrinter) : Prop :=
  Good pp ∧ (∀ kv ∈ pp.T.mostRecentlyAdded, 1 ≤ kv.2 ∧ kv.2 ≤ pp.currentLine) ∧
    ∀ pr ∈ pp.T.parent, 1 ≤ pr.2 ∧ pr.2 < pr.1

/-! ## Calls of `remove` that return and calls that do not -/

/-- A chain of `n` parent links starts at line `i`: `remove(v, i, false)` makes at least
`n` calls nested in one another. -/
def LinkChain (parent : List (Int × Int)) : Nat → Int → Prop
  | 0, _ => True
  | n + 1, i => ∃ j, Link parent i j ∧ LinkChain parent n j

/-- A list that holds the document `d` only. -/
def exampleWrap (d : Document) : Document :=
  (newDocumentList "" "" "" true).addDocumentToList d

/-- An unbreakable list that holds the unbreakable list `p`, Break, `q`. -/
def exampleNested : Document :=
  (exampleWrap (((((newDocumentList "" "" "" true).addStringToList "p").addBreakPoint
    false).addStringToList "q").setUnbreakable true)).setUnbreakable true

/-- The unbreakable list of an unbreakable list with `p`, a Break and `q`, followed by
a list in a list in a list with a Break, `r` and a list with a Break (do not simplify)
and `s`. -/
def exampleCycle : Document :=
  ((newDocumentList "" "" "" true).addDocumentToList exampleNested).addDocumentToList
    (exampleWrap (exampleWrap
      ((((newDocumentList "" "" "" true).addBreakPoint false).addStringToList
        "r").addDocumentToList
          (((newDocumentList "" "" "" true).addBreakPoint true).addStringToList "s"))))

/-- The same nesting with `rrrrrr` for `r` and, in the place of the last list, a list that
is not aligned and holds a Break and `sssss`. -/
def exampleCycleAttempt : Document :=
  ((newDocumentList "" "" "" true).addDocumentToList exampleNested).addDocumentToList
    (exampleWrap (exampleWrap
      ((((newDocumentList "" "" "" true).addBreakPoint false).addStringToList
        "rrrrrr").addDocumentToList
          (((newDocumentList "" "" "" false).addBreakPoint false).addStringToList "sssss"))))

/-- The ledger `b` has the levels of the ledger `a`, and its candidates are candidates of
`a`, in the same order. -/
def Kept (a b : LinesToSimplify) : Prop :=
  b.lines.map Prod.fst = a.lines.map Prod.fst ∧ (allCandidates b).Sublist (allCandidates a)

/-- The engine after the walk of `x`, Break, `aaaa`, [`bbbbbbbb`, Break, `cccccccc`] at
width 14: the lines `x`, `aaaabbbbbbbb` and `cccccccc`, the candidates 1 and 2, line 1
being the parent of line 2. -/
def exampleStopWalk : PrettyPrinter :=
  { maxwidth := 14, indentationBase := 4, currentLine := 2, currentItem := 0,
    items := [[⟨0, 1, ["x", ""]⟩, ⟨0, 12, ["", "aaaa", "bbbbbbbb", ""]⟩,
      ⟨4, 8, ["", "cccccccc"]⟩]],
    linesToSimplify := [⟨[(1, [1]), (2, [2])], [(2, 1)], [(1, 1), (2, 2)]⟩],
    linesNotToSimplify := [default], simp := true, deeplySimp := true }

/-- The documents of the parts of a comprehension hold no unbreakable list. -/
def ExpressionNode.partsBreakable : ExpressionNode → Prop
  | .Comprehension ce cg cw _ =>
    (expressionToDocument ce).breakable = true ∧
      (∀ g ∈ mapGenerators cg, g.2.breakable = true) ∧
      (∀ d, mapOptional cw = some d → d.breakable = true)
  | _ => True

/-! # Basic facts about the embedding -/

theorem size_append (a b : String) : size (a ++ b) = size a + size b := by
  cases a; cases b
  simp [size, String.utf8ByteSize, String.append]

theorem size_nonneg (a : String) : 0 ≤ size a := by
  simp [size]

theorem size_empty : size "" = 0 := by decide

theorem concatStrings_append (a b : List String) :
    concatStrings (a ++ b) = concatStrings a ++ concatStrings b := by
  induction a with
  | nil => simp [concatStrings]
  | cons x a ih => simp [concatStrings, ih, String.append_assoc]

theorem vecGet_zero_singleton {α : Type} [Inhabited α] (x : α) : vecGet [x] 0 = x := by
  simp [vecGet]

theorem vecModify_zero_singleton {α : Type} (x : α) (f : α → α) :
    vecModify [x] 0 f = [f x] := by
  simp [vecModify, List.modify, List.modifyHead]

theorem length_vecModify {α : Type} (v : List α) (i : Int) (f : α → α) :
    (vecModify v i f).length = v.length := by
  unfold vecModify
  split <;> simp

theorem vecGet_append_last {α : Type} [Inhabited α] (a : List α) (x : α) (i : Int)
    (h : i = a.length) : vecGet (a ++ [x]) i = x := by
  subst h
  simp [vecGet, List.getD_eq_getElem?_getD]

theorem vecModify_append_last {α : Type} (a : List α) (x : α) (i : Int) (f : α → α)
    (h : i = a.length) : vecModify (a ++ [x]) i f = a ++ [f x] := by
  subst h
  simp only [vecModify]
  rw [if_neg (by omega)]
  simp only [Int.toNat_ofNat]
  induction a with
  | nil => simp [List.modify, List.modifyHead]
  | cons y a ih => simp [List.modify] at ih ⊢; exact ih

theorem exists_append_last {α : Type} (l : List α) (n : Int) (h0 : 0 ≤ n)
    (h : n + 1 = (l.length : Int)) : ∃ a x, l = a ++ [x] ∧ n = (a.length : Int) := by
  have hne : l ≠ [] := by
    intro h1; subst h1; simp at h; omega
  refine ⟨l.dropLast, l.getLast hne, (List.dropLast_append_getLast hne).symm, ?_⟩
  simp; omega

/-- An engine with one item, in terms of its components. -/
theorem Single.exists_eq {pp : PrettyPrinter} (h : Single pp) :
    ∃ ls lts lnts, pp = ⟨pp.maxwidth, pp.indentationBase, pp.currentLine, 0, [ls], [lts],
      [lnts], pp.simp, pp.deeplySimp⟩ ∧ pp.L = ls ∧ pp.T = lts ∧ pp.N = lnts := by
  obtain ⟨mw, ib, cl, ci, items, lts, lnts, s, ds⟩ := pp
  obtain ⟨h1, h2, h3, h4⟩ := h
  simp only at h1 h2 h3 h4
  obtain ⟨ls, rfl⟩ := List.length_eq_one.mp h2
  obtain ⟨t, rfl⟩ := List.length_eq_one.mp h3
  obtain ⟨n, rfl⟩ := List.length_eq_one.mp h4
  subst h1
  exact ⟨ls, t, n, rfl, by simp [PrettyPrinter.L, vecGet], by simp [PrettyPrinter.T, vecGet],
    by simp [PrettyPrinter.N, vecGet]⟩

theorem vecGet_append_cons {α : Type} [Inhabited α] (pre post : List α) (x : α) (i : Int)
    (h : i = pre.length) : vecGet (pre ++ x :: post) i = x := by
  subst h
  simp only [vecGet]
  rw [if_neg (by omega)]
  simp only [Int.toNat_ofNat]
  induction pre with
  | nil => simp
  | cons y a ih => simpa using ih

theorem vecModify_append_cons {α : Type} (pre post : List α) (x : α) (i : Int) (f : α → α)
    (h : i = pre.length) : vecModify (pre ++ x :: post) i f = pre ++ f x :: post := by
  subst h
  simp only [vecModify]
  rw [if_neg (by omega)]
  simp only [Int.toNat_ofNat]
  induction pre with
  | nil => simp [List.modify, List.modifyHead]
  | cons y a ih => simp [List.modify] at ih ⊢; exact ih

theorem vecErase_append_cons {α : Type} (pre post : List α) (x : α) (i : Int)
    (h : i = pre.length) : vecErase (pre ++ x :: post) i = pre ++ post := by
  subst h
  simp only [vecErase]
  rw [if_neg (by omega)]
  simp only [Int.toNat_ofNat]
  induction pre with
  | nil => simp
  | cons y a ih => simp [List.eraseIdx] at ih ⊢; exact ih

theorem joinLines_mid (pre post : List Line) (p x : Line) (line : Int)
    (h : line = pre.length + 1) :
    joinLines (pre ++ p :: x :: post) line = pre ++ p.concatenateLines x :: post := by
  have h1 : vecGet (pre ++ p :: x :: post) line = x := by
    have := vecGet_append_cons (pre ++ [p]) post x line (by simp; omega)
    simpa using this
  unfold joinLines
  rw [h1, vecModify_append_cons pre (x :: post) p (line - 1) _ (by omega)]
  have := vecErase_append_cons (pre ++ [p.concatenateLines x]) post x line (by simp; omega)
  simpa using this

theorem canJoin_mid (mw : Int) (pre post : List Line) (p x : Line) (line : Int)
    (h : line = pre.length + 1) :
    canJoin mw (pre ++ p :: x :: post) line = !decide (x.getLength > p.getSpaceLeft mw) := by
  have h1 : vecGet (pre ++ p :: x :: post) line = x := by
    have := vecGet_append_cons (pre ++ [p]) post x line (by simp; omega)
    simpa using this
  have h2 : vecGet (pre ++ p :: x :: post) (line - 1) = p :=
    vecGet_append_cons pre (x :: post) p (line - 1) (by omega)
  unfold canJoin
  rw [h1, h2]
  have : line ≠ 0 := by omega
  simp [this]

theorem canJoin_zero (mw : Int) (ls : List Line) : canJoin mw ls 0 = false := by
  simp [canJoin]

/-- C2: `precedence` returns 1200 for `<->`; 1100 for `->` and `<-`; 1000 for `\/` and xor;
900 for `/\`; 800 for `<`, `<=`, `>`, `>=`, `==`, `!=`; 700 for in, subset, superset; 600 for
union, diff, symdiff; 500 for `..`; 400 for `+`, `-`; 300 for `*`, `/`, div, mod, intersect;
200 for `++`; 1300 for a let-expression; and 0 for every expression that is neither a binary
operation nor a let. -/
theorem precedence_table :
    (∀ e0 e1 ann,
      precedence (.mk (.BinOp e0 .BOT_EQUIV e1) ann) = 1200 ∧
      precedence (.mk (.BinOp e0 .BOT_IMPL e1) ann) = 1100 ∧
      precedence (.mk (.BinOp e0 .BOT_RIMPL e1) ann) = 1100 ∧
      precedence (.mk (.BinOp e0 .BOT_OR e1) ann) = 1000 ∧
      precedence (.mk (.BinOp e0 .BOT_XOR e1) ann) = 1000 ∧
      precedence (.mk (.BinOp e0 .BOT_AND e1) ann) = 900 ∧
      precedence (.mk (.BinOp e0 .BOT_LE e1) ann) = 800 ∧
      precedence (.mk (.BinOp e0 .BOT_LQ e1) ann) = 800 ∧
      precedence (.mk (.BinOp e0 .BOT_GR e1) ann) = 800 ∧
      precedence (.mk (.BinOp e0 .BOT_GQ e1) ann) = 800 ∧
      precedence (.mk (.BinOp e0 .BOT_EQ e1) ann) = 800 ∧
      precedence (.mk (.BinOp e0 .BOT_NQ e1) ann) = 800 ∧
      precedence (.mk (.BinOp e0 .BOT_IN e1) ann) = 700 ∧
      precedence (.mk (.BinOp e0 .BOT_SUBSET e1) ann) = 700 ∧
      precedence (.mk (.BinOp e0 .BOT_SUPERSET e1) ann) = 700 ∧
      precedence (.mk (.BinOp e0 .BOT_UNION e1) ann) = 600 ∧
      precedence (.mk (.BinOp e0 .BOT_DIFF e1) ann) = 600 ∧
      precedence (.mk (.BinOp e0 .BOT_SYMDIFF e1) ann) = 600 ∧
      precedence (.mk (.BinOp e0 .BOT_DOTDOT e1) ann) = 500 ∧
      precedence (.mk (.BinOp e0 .BOT_PLUS e1) ann) = 400 ∧
      precedence (.mk (.BinOp e0 .BOT_MINUS e1) ann) = 400 ∧
      precedence (.mk (.BinOp e0 .BOT_MULT e1) ann) = 300 ∧
      precedence (.mk (.BinOp e0 .BOT_DIV e1) ann) = 300 ∧
      precedence (.mk (.BinOp e0 .BOT_IDIV e1) ann) = 300 ∧
      precedence (.mk (.BinOp e0 .BOT_MOD e1) ann) = 300 ∧
      precedence (.mk (.BinOp e0 .BOT_INTERSECT e1) ann) = 300 ∧
      precedence (.mk (.BinOp e0 .BOT_PLUSPLUS e1) ann) = 200) ∧
    (∀ l i ann, precedence (.mk (.Let l i) ann) = 1300) ∧
    (∀ e : Expression, e.isBinOp = false → e.isLet = false → precedence e = 0) := by
  refine ⟨fun e0 e1 ann => by simp [precedence, precedenceOp], fun l i ann => rfl, ?_⟩
  intro e hb hl
  obtain ⟨node, ann⟩ := e
  cases node <;> simp_all [Expression.isBinOp, Expression.isLet, precedence]

/-- Witness for C2: an if-then-else, a unary operation and an integer literal are neither
binary operations nor lets, and their precedence is 0. -/
theorem precedence_table_witness :
    precedence (.mk (.ITE [] (.mk (.IntLit 2) [])) []) = 0 ∧
    precedence (.mk (.UnOp .UOT_MINUS (.mk (.Id "x") [])) []) = 0 ∧
    precedence (.mk (.IntLit 7) []) = 0 :=
  ⟨precedence_table.2.2 _ rfl rfl, precedence_table.2.2 _ rfl rfl,
    precedence_table.2.2 _ rfl rfl⟩

/-- C3: with `P`, `Pl`, `Pr` the precedences of `bo`, `left` and `right`, the `PN_LEFT` bit of
`needParens` is set iff `P < Pl` or `P = Pl = 200`, and the `PN_RIGHT` bit is set iff `P < Pr`
or (`P = Pr` and `P` is not 200); each bit depends on its own operand only. -/
theorem needParens_bits (bo left right : Expression) :
    ((needParens bo left right &&& PN_LEFT ≠ 0) ↔
      (precedence bo < precedence left ∨
        (precedence bo = precedence left ∧ precedence bo = 200))) ∧
    ((needParens bo left right &&& PN_RIGHT ≠ 0) ↔
      (precedence bo < precedence right ∨
        (precedence bo = precedence right ∧ precedence bo ≠ 200))) := by
  unfold needParens PN_LEFT PN_RIGHT
  by_cases h1 : precedence bo < precedence left ∨
      (precedence bo = precedence left ∧ precedence bo = 200) <;>
    by_cases h2 : precedence bo < precedence right ∨
      (precedence bo = precedence right ∧ precedence bo ≠ 200) <;>
    simp only [h1, h2, if_true, if_false] <;> decide

/-! # The primitive steps of the engine on a one-item engine -/

theorem SameConfig.refl (pp : PrettyPrinter) : SameConfig pp pp := ⟨rfl, rfl, rfl, rfl⟩

theorem SameConfig.trans {a b c : PrettyPrinter} (h1 : SameConfig a b) (h2 : SameConfig b c) :
    SameConfig a c :=
  ⟨h2.1.trans h1.1, h2.2.1.trans h1.2.1, h2.2.2.1.trans h1.2.2.1, h2.2.2.2.trans h1.2.2.2⟩

theorem addLine_spec (pp : PrettyPrinter) (h : Single pp) (ind : Int) (bp simpl : Bool)
    (lvl : Nat) :
    Single (pp.addLine ind bp simpl lvl) ∧ SameConfig pp (pp.addLine ind bp simpl lvl) ∧
    (pp.addLine ind bp simpl lvl).L = pp.L ++ [Line.new ind] ∧
    (pp.addLine ind bp simpl lvl).currentLine = pp.currentLine + 1 ∧
    (pp.addLine ind bp simpl lvl).T =
      (if bp && pp.deeplySimp then pp.T.addLine lvl (pp.currentLine + 1) (-1) else pp.T) ∧
    (pp.addLine ind bp simpl lvl).N =
      (if (bp && pp.deeplySimp) && !simpl then pp.N.addLine 0 (pp.currentLine + 1) (-1)
        else pp.N) := by
  obtain ⟨ls, lts, lnts, hpp, -, -, -⟩ := h.exists_eq
  rw [hpp]
  cases hb : (bp && pp.deeplySimp) <;> cases hs : simpl <;>
    simp [PrettyPrinter.addLine, hb, hs, PrettyPrinter.L, PrettyPrinter.T, PrettyPrinter.N,
      vecGet_zero_singleton, vecModify_zero_singleton, SameConfig] <;>
    exact ⟨rfl, rfl, rfl, rfl⟩

theorem Good.currentLine_eq {pp : PrettyPrinter} (h : Good pp) {a : List Line} {x : Line}
    (hL : pp.L = a ++ [x]) : pp.currentLine = (a.length : Int) := by
  have := h.line_last
  rw [hL] at this
  simp at this
  omega

theorem Good.exists_last {pp : PrettyPrinter} (h : Good pp) : ∃ a x, pp.L = a ++ [x] := by
  obtain ⟨a, x, h1, -⟩ := exists_append_last pp.L pp.currentLine h.line_nonneg h.line_last
  exact ⟨a, x, h1⟩

theorem addLine_good (pp : PrettyPrinter) (h : Good pp) (ind : Int) (bp simpl : Bool)
    (lvl : Nat) : Good (pp.addLine ind bp simpl lvl) := by
  obtain ⟨h1, -, h3, h4, -, -⟩ := addLine_spec pp h.single ind bp simpl lvl
  refine ⟨h1, ?_, ?_⟩
  · rw [h4]; have := h.line_nonneg; omega
  · rw [h4, h3]; have := h.line_last; simp; omega

theorem printString_spec (pp : PrettyPrinter) (h : Good pp) (s : String) (al : Bool) (col : Int)
    (a : List Line) (x : Line) (hL : pp.L = a ++ [x]) :
    Good (pp.printString s al col) ∧ SameConfig pp (pp.printString s al col) ∧
    (pp.printString s al col).T = pp.T ∧ (pp.printString s al col).N = pp.N ∧
    (pp.printString s al col).L =
      (if size s ≤ x.getSpaceLeft pp.maxwidth then a ++ [x.addString s]
        else a ++ [x, (Line.new (overflowCol pp s al col)).addString s]) := by
  have hcl := h.currentLine_eq hL
  obtain ⟨ls, lts, lnts, hpp, h1, -, -⟩ := h.single.exists_eq
  rw [hL] at h1
  subst h1
  have hline : pp.line pp.currentItem pp.currentLine = x := by
    rw [hpp]
    simp only [PrettyPrinter.line, vecGet_zero_singleton]
    exact vecGet_append_last a x _ hcl
  by_cases hfit : size s ≤ x.getSpaceLeft pp.maxwidth
  · have heq : pp.printString s al col = { pp with
        items := vecModify pp.items pp.currentItem
          (fun ls => vecModify ls pp.currentLine (fun l => l.addString s)) } := by
      simp only [PrettyPrinter.printString, hline, hfit, if_true]
    rw [heq, if_pos hfit, hpp]
    simp only [vecModify_zero_singleton, vecModify_append_last a x _ _ hcl]
    refine ⟨⟨⟨rfl, rfl, rfl, rfl⟩, ?_, ?_⟩, ⟨rfl, rfl, rfl, rfl⟩, ?_, ?_, ?_⟩
    · exact h.line_nonneg
    · simp [PrettyPrinter.L, vecGet_zero_singleton]; omega
    · simp [PrettyPrinter.T]
    · simp [PrettyPrinter.N]
    · simp [PrettyPrinter.L, vecGet_zero_singleton]
  · obtain ⟨g1, g2, g3, g4, g5, g6⟩ :=
      addLine_spec pp h.single (overflowCol pp s al col) false false 0
    have heq : pp.printString s al col =
        { pp.addLine (overflowCol pp s al col) false false 0 with
          items := vecModify (pp.addLine (overflowCol pp s al col) false false 0).items
            (pp.addLine (overflowCol pp s al col) false false 0).currentItem
            (fun ls => vecModify ls
              (pp.addLine (overflowCol pp s al col) false false 0).currentLine
              (fun l => l.addString s)) } := by
      simp only [PrettyPrinter.printString, hline, hfit, if_false, overflowCol]
    rw [heq, if_neg hfit]
    generalize pp.addLine (overflowCol pp s al col) false false 0 = q at *
    obtain ⟨ls2, lts2, lnts2, hq, q1, q2, q3⟩ := g1.exists_eq
    have hq4 : q.currentLine = ((a ++ [x]).length : Int) := by
      rw [g4, hcl]; simp
    rw [g3, hL] at q1
    subst q1
    rw [hq]
    simp only [vecModify_zero_singleton]
    rw [vecModify_append_last (a ++ [x]) _ _ _ hq4]
    refine ⟨⟨⟨rfl, rfl, rfl, rfl⟩, ?_, ?_⟩, ?_, ?_, ?_, ?_⟩
    · show 0 ≤ q.currentLine
      rw [hq4]; omega
    · show q.currentLine + 1 = _
      simp [PrettyPrinter.L, vecGet_zero_singleton]; rw [hq4]; simp; omega
    · exact g2
    · simp at g5
      rw [← g5]; simp [PrettyPrinter.T, vecGet_zero_singleton]; exact q2.symm
    · simp at g6
      rw [← g6]; simp [PrettyPrinter.N, vecGet_zero_singleton]; exact q3.symm
    · simp [PrettyPrinter.L, vecGet_zero_singleton]

theorem simplify_spec (pp : PrettyPrinter) (h : Single pp) (line : Int)
    (vec : Option (List Int)) :
    (pp.simplifyTotal 0 line vec).1 = canJoin pp.maxwidth pp.L line ∧
    Single (pp.simplifyTotal 0 line vec).2.1 ∧ SameConfig pp (pp.simplifyTotal 0 line vec).2.1 ∧
    (pp.simplifyTotal 0 line vec).2.1.L = joinAt pp.maxwidth pp.L line ∧
    (pp.simplifyTotal 0 line vec).2.1.N = pp.N ∧
    (pp.simplifyTotal 0 line vec).2.1.currentLine =
      (if canJoin pp.maxwidth pp.L line then pp.currentLine - 1 else pp.currentLine) ∧
    ((pp.simplifyTotal 0 line vec).2.1.T, (pp.simplifyTotal 0 line vec).2.2) =
      ledgerAfter (canJoin pp.maxwidth pp.L line) pp.T vec line := by
  obtain ⟨ls, lts, lnts, hpp, h1, h2, h3⟩ := h.exists_eq
  rw [← h1] at hpp
  generalize pp.L = L at *
  subst h1 h2 h3
  rw [hpp]
  by_cases h0 : line = 0
  · subst h0
    simp [PrettyPrinter.simplifyTotal, canJoin, joinAt, ledgerAfter, PrettyPrinter.L,
      PrettyPrinter.T, PrettyPrinter.N, vecGet_zero_singleton, vecModify_zero_singleton,
      SameConfig]
    exact ⟨rfl, rfl, rfl, rfl⟩
  · by_cases hc : (vecGet L line).getLength > (vecGet L (line - 1)).getSpaceLeft pp.maxwidth
    · simp [PrettyPrinter.simplifyTotal, canJoin, joinAt, ledgerAfter, PrettyPrinter.L,
        PrettyPrinter.T, PrettyPrinter.N, vecGet_zero_singleton, vecModify_zero_singleton,
        SameConfig, h0, hc, PrettyPrinter.line]
      exact ⟨rfl, rfl, rfl, rfl⟩
    · simp [PrettyPrinter.simplifyTotal, canJoin, joinAt, joinLines, ledgerAfter, PrettyPrinter.L,
        PrettyPrinter.T, PrettyPrinter.N, vecGet_zero_singleton, vecModify_zero_singleton,
        SameConfig, h0, hc, PrettyPrinter.line]
      exact ⟨rfl, rfl, rfl, rfl⟩

theorem simplifyCurrent_spec (pp : PrettyPrinter) (h : Good pp) :
    Good pp.simplifyCurrentTotal ∧ SameConfig pp pp.simplifyCurrentTotal ∧
    pp.simplifyCurrentTotal.L = joinAt pp.maxwidth pp.L pp.currentLine ∧
    pp.simplifyCurrentTotal.N = pp.N := by
  unfold PrettyPrinter.simplifyCurrentTotal
  rw [h.single.item]
  obtain ⟨-, g1, g2, g3, g4, g5, -⟩ := simplify_spec pp h.single pp.currentLine none
  refine ⟨⟨g1, ?_, ?_⟩, g2, g3, g4⟩
  · rw [g5]
    split
    · rename_i hc
      have h0 := h.line_nonneg
      have : pp.currentLine ≠ 0 := by
        intro h1
        rw [h1, canJoin_zero] at hc
        exact Bool.noConfusion hc
      omega
    · exact h.line_nonneg
  · rw [g5, g3]
    obtain ⟨a, x, hL⟩ := h.exists_last
    have hcl := h.currentLine_eq hL
    unfold joinAt
    split
    · rename_i hc
      have hne : a ≠ [] := by
        intro ha
        subst ha
        simp at hcl
        rw [hcl, canJoin_zero] at hc
        exact Bool.noConfusion hc
      obtain ⟨b, p, rfl⟩ : ∃ b p, a = b ++ [p] :=
        ⟨a.dropLast, a.getLast hne, (List.dropLast_append_getLast hne).symm⟩
      rw [hL]
      have hj := joinLines_mid b [] p x pp.currentLine (by rw [hcl]; simp)
      simp only [List.append_assoc, List.singleton_append] at hj ⊢
      rw [hj, hcl]
      simp
    · exact h.line_last

/-! # Properties kept by every walk of the engine -/

mutual
/-- A property of the engine that `addLine`, `printString` and the simplification of the
current line keep is kept by `printDocument`. -/
theorem printDocument_preserves (P : PrettyPrinter → Prop)
    (hAdd : ∀ pp ind bp simpl lvl, P pp → P (pp.addLine ind bp simpl lvl))
    (hStr : ∀ pp s al col, P pp → P (pp.printString s al col))
    (hSimp : ∀ pp, P pp → P pp.simplifyCurrentTotal) :
    ∀ (d : Document) (pp : PrettyPrinter) (u : Int) (al : Bool) (col : Int) (be af : String),
      P pp → P (pp.printDocumentTotal u d al col be af)
  | .BreakPoint lvl ds, pp, u, al, col, be, af, h => by
    simp only [PrettyPrinter.printDocumentTotal]
    exact hStr _ _ _ _ (hAdd _ _ _ _ _ (hStr _ _ _ _ h))
  | .StringDocument _ s, pp, u, al, col, be, af, h => by
    simp only [PrettyPrinter.printDocumentTotal, PrettyPrinter.printStringDoc]
    exact hStr _ _ _ _ h
  | .DocumentList _ ld b sep e unb al1, pp, u, al, col, be, af, h => by
    simp only [PrettyPrinter.printDocumentTotal]
    have h1 : P (if unb = true then pp.addLine col false false 0 else pp) := by
      split
      · exact hAdd _ _ _ _ _ h
      · exact h
    generalize (if unb = true then pp.addLine col false false 0 else pp) = pp1 at *
    generalize hnac : (if al1 = true then
      (pp1.line pp1.currentItem pp1.currentLine).getIndentation +
        (pp1.line pp1.currentItem pp1.currentLine).getLength + size b else col) = nac
    have h2 : P (if (ld.length : Int) = 0 then
        pp1.printStringDoc none true nac (be ++ b) (e ++ af) else pp1) := by
      split
      · simp only [PrettyPrinter.printStringDoc]
        exact hStr _ _ _ _ h1
      · exact h1
    generalize (if (ld.length : Int) = 0 then
        pp1.printStringDoc none true nac (be ++ b) (e ++ af) else pp1) = pp2 at *
    have h3 := printDocListLoop_preserves P hAdd hStr hSimp ld pp2 u 0 ld.length
      (lastVisibleElementIndex u ld) al1 nac sep (e ++ af) (be ++ b) h2
    split
    · exact hSimp _ h3
    · exact h3
/-- The same for the loop of `printDocList` over the children. -/
theorem printDocListLoop_preserves (P : PrettyPrinter → Prop)
    (hAdd : ∀ pp ind bp simpl lvl, P pp → P (pp.addLine ind bp simpl lvl))
    (hStr : ∀ pp s al col, P pp → P (pp.printString s al col))
    (hSimp : ∀ pp, P pp → P pp.simplifyCurrentTotal) :
    ∀ (ld : List Document) (pp : PrettyPrinter) (u : Int) (i vs lv : Int) (al : Bool)
      (nac : Int) (sep la fb : String),
      P pp → P (PrettyPrinter.printDocListLoopTotal pp u ld i vs lv al nac sep la fb)
  | [], pp, u, i, vs, lv, al, nac, sep, la, fb, h => by
    simp only [PrettyPrinter.printDocListLoopTotal]
    exact h
  | d :: ld, pp, u, i, vs, lv, al, nac, sep, la, fb, h => by
    simp only [PrettyPrinter.printDocListLoopTotal]
    exact printDocListLoop_preserves P hAdd hStr hSimp ld _ u _ vs lv al _ sep la fb
      (printDocument_preserves P hAdd hStr hSimp d pp u al _ _ _ h)
end

/-- Every walk keeps the engine a one-item engine whose current line is its last line, and
keeps its configuration. -/
theorem printDocument_good (pp0 : PrettyPrinter) (d : Document) (pp : PrettyPrinter) (u : Int)
    (al : Bool) (col : Int) (be af : String) (h : Good pp) (hc : SameConfig pp0 pp) :
    Good (pp.printDocumentTotal u d al col be af) ∧
      SameConfig pp0 (pp.printDocumentTotal u d al col be af) := by
  refine printDocument_preserves (fun q => Good q ∧ SameConfig pp0 q) ?_ ?_ ?_ d pp u al col
    be af ⟨h, hc⟩
  · intro q ind bp simpl lvl hq
    exact ⟨addLine_good q hq.1 ind bp simpl lvl,
      hq.2.trans (addLine_spec q hq.1.single ind bp simpl lvl).2.1⟩
  · intro q s al col hq
    obtain ⟨a, x, hL⟩ := hq.1.exists_last
    obtain ⟨g1, g2, -⟩ := printString_spec q hq.1 s al col a x hL
    exact ⟨g1, hq.2.trans g2⟩
  · intro q hq
    obtain ⟨g1, g2, -⟩ := simplifyCurrent_spec q hq.1
    exact ⟨g1, hq.2.trans g2⟩

/-! # The walk emits the flat text of the document -/

theorem allText_append (a b : List Line) : allText (a ++ b) = allText a ++ allText b := by
  simp [allText, concatStrings_append]

theorem allText_nil : allText [] = "" := rfl

theorem allText_singleton (x : Line) : allText [x] = concatStrings x.text := by
  simp [allText]

theorem allText_cons (x : Line) (l : List Line) :
    allText (x :: l) = concatStrings x.text ++ allText l := by
  simp [allText, concatStrings_append]

theorem concatStrings_singleton (s : String) : concatStrings [s] = s := by
  simp [concatStrings]

theorem allText_new (ind : Int) : allText [Line.new ind] = "" := rfl

theorem allText_addString (x : Line) (s : String) :
    allText [x.addString s] = allText [x] ++ s := by
  simp [allText_singleton, Line.addString, concatStrings_append, concatStrings_singleton]

theorem allText_modify (f : Line → Line) (hf : ∀ x, (f x).text = x.text) (n : Nat)
    (l : List Line) : allText (List.modify f n l) = allText l := by
  induction l generalizing n with
  | nil => cases n <;> rfl
  | cons y l ih =>
    cases n with
    | zero => simp [allText_cons, hf]
    | succ n => simp [allText_cons, ih]

theorem exists_mid (ls : List Line) (line : Int) (h0 : 0 < line)
    (hlen : line.toNat < ls.length) :
    ∃ pre p x post, ls = pre ++ p :: x :: post ∧ line = pre.length + 1 := by
  have hl1 : line.toNat - 1 < ls.length := by omega
  refine ⟨ls.take (line.toNat - 1), ls[line.toNat - 1], ls[line.toNat],
    ls.drop (line.toNat + 1), ?_, ?_⟩
  · have e1 : ls = ls.take (line.toNat - 1) ++ ls.drop (line.toNat - 1) :=
      (List.take_append_drop _ _).symm
    have e2 : ls.drop (line.toNat - 1) = ls[line.toNat - 1] :: ls.drop (line.toNat - 1 + 1) :=
      List.drop_eq_getElem_cons hl1
    have e3 : ls.drop (line.toNat - 1 + 1) = ls[line.toNat] :: ls.drop (line.toNat + 1) := by
      have : line.toNat - 1 + 1 = line.toNat := by omega
      rw [this]
      exact List.drop_eq_getElem_cons hlen
    rw [← e3, ← e2]
    exact e1
  · simp [List.length_take]
    omega

theorem vecGet_of_length_le (ls : List Line) (line : Int) (h : ls.length ≤ line.toNat) :
    vecGet ls line = default := by
  simp only [vecGet]
  split
  · rfl
  · rw [List.getD_eq_getElem?_getD, List.getElem?_eq_none h]
    rfl

theorem joinLines_of_length_le (ls : List Line) (line : Int) (h0 : 0 < line)
    (h : ls.length ≤ line.toNat) :
    joinLines ls line = List.modify (fun l1 => l1.concatenateLines default) (line - 1).toNat ls := by
  unfold joinLines
  rw [vecGet_of_length_le ls line h]
  have h5 : vecErase (vecModify ls (line - 1) (fun l1 => l1.concatenateLines default)) line
      = vecModify ls (line - 1) (fun l1 => l1.concatenateLines default) := by
    simp only [vecErase]
    rw [if_neg (by omega)]
    apply List.eraseIdx_of_length_le
    rw [length_vecModify]
    omega
  rw [h5]
  simp only [vecModify]
  rw [if_neg (by omega)]

theorem allText_joinLines (ls : List Line) (line : Int) (hne : line ≠ 0) :
    allText (joinLines ls line) = allText ls := by
  by_cases h0 : line ≤ 0
  · have h3 : vecModify ls (line - 1) (fun l1 => l1.concatenateLines (vecGet ls line)) = ls := by
      simp only [vecModify]; rw [if_pos (by omega)]
    unfold joinLines
    rw [h3]
    simp only [vecErase]; rw [if_pos (by omega)]
  · by_cases hlen : line.toNat < ls.length
    · obtain ⟨pre, p, x, post, rfl, hpre⟩ := exists_mid ls line (by omega) hlen
      rw [joinLines_mid pre post p x line hpre]
      simp [allText_append, allText_cons, Line.concatenateLines, concatStrings_append,
        String.append_assoc]
    · rw [joinLines_of_length_le ls line (by omega) (by omega)]
      apply allText_modify
      intro x
      show x.text ++ [] = x.text
      simp

theorem canJoin_ne_zero {mw : Int} {ls : List Line} {line : Int}
    (h : canJoin mw ls line = true) : line ≠ 0 := by
  intro h0
  rw [h0, canJoin_zero] at h
  exact Bool.noConfusion h

theorem allText_joinAt (mw : Int) (ls : List Line) (line : Int) :
    allText (joinAt mw ls line) = allText ls := by
  unfold joinAt
  split
  · rename_i h
    exact allText_joinLines ls line (canJoin_ne_zero h)
  · rfl

theorem addLine_text (pp : PrettyPrinter) (h : Good pp) (ind : Int) (bp simpl : Bool)
    (lvl : Nat) : allText (pp.addLine ind bp simpl lvl).L = allText pp.L := by
  rw [(addLine_spec pp h.single ind bp simpl lvl).2.2.1, allText_append, allText_new,
    String.append_empty]

theorem printString_text (pp : PrettyPrinter) (h : Good pp) (s : String) (al : Bool)
    (col : Int) : allText (pp.printString s al col).L = allText pp.L ++ s := by
  obtain ⟨a, x, hL⟩ := h.exists_last
  rw [(printString_spec pp h s al col a x hL).2.2.2.2, hL]
  split
  · simp [allText_append, allText_addString, String.append_assoc]
  · have : a ++ [x, (Line.new (overflowCol pp s al col)).addString s]
        = a ++ [x] ++ [(Line.new (overflowCol pp s al col)).addString s] := by simp
    rw [this, allText_append, allText_addString, allText_new, String.empty_append]

theorem simplifyCurrent_text (pp : PrettyPrinter) (h : Good pp) :
    allText pp.simplifyCurrentTotal.L = allText pp.L := by
  rw [(simplifyCurrent_spec pp h).2.2.1, allText_joinAt]

/-- The first loop of `printDocList` from child `j` on: either no child is visible and the
variable keeps its value, or some child is visible and the variable ends at least `j`. -/
theorem lastVisibleFrom_cases (ld : List Document) (j last : Int) :
    (flattenDocs ld = [] ∧ lastVisibleFrom j last ld = last) ∨
      (flattenDocs ld ≠ [] ∧ j ≤ lastVisibleFrom j last ld) := by
  induction ld generalizing j last with
  | nil => left; exact ⟨by simp [flattenDocs], by simp [lastVisibleFrom]⟩
  | cons d ld ih =>
    by_cases hd : d.isBreakPoint = true
    · simp only [flattenDocs, hd, if_true, lastVisibleFrom, Bool.not_true]
      rcases ih (j + 1) last with h | h
      · left; simpa using h
      · right; refine ⟨h.1, ?_⟩
        have := h.2
        simp at this ⊢
        omega
    · have hd1 : d.isBreakPoint = false := by simpa using hd
      simp only [flattenDocs, hd1, lastVisibleFrom]
      right
      refine ⟨by simp, ?_⟩
      rcases ih (j + 1) j with h | h
      · simp at h ⊢; rw [h.2]
      · have := h.2
        simp at this ⊢
        omega

theorem flatten_of_isBreakPoint {d : Document} (h : d.isBreakPoint = true) : flatten d = "" := by
  cases d <;> simp [Document.isBreakPoint] at h
  simp [flatten]

theorem joinSep_cons_of_ne_nil (sep a : String) {l : List String} (h : l ≠ []) :
    joinSep sep (a :: l) = a ++ sep ++ joinSep sep l := by
  cases l with
  | nil => exact absurd rfl h
  | cons b r => simp [joinSep]

mutual
/-- `printDocument` appends to the text of the item exactly `before`, the flat text of the
document and `after`. -/
theorem printDocument_text : ∀ (d : Document) (pp : PrettyPrinter) (u : Int) (al : Bool)
    (col : Int) (be af : String), Good pp →
    allText (pp.printDocumentTotal u d al col be af).L = allText pp.L ++ (be ++ flatten d ++ af)
  | .BreakPoint lvl ds, pp, u, al, col, be, af, h => by
    simp only [PrettyPrinter.printDocumentTotal, flatten]
    have h1 := (printString_spec pp h be al col _ _ h.exists_last.choose_spec.choose_spec).1
    have h2 := addLine_good _ h1 col pp.deeplySimp (!ds) lvl
    have e := (printString_spec pp h be al col _ _ h.exists_last.choose_spec.choose_spec).2.1
    have e4 : (pp.printString be al col).deeplySimp = pp.deeplySimp := e.2.2.2
    rw [e4]
    rw [printString_text _ h2, addLine_text _ h1, printString_text _ h]
    simp [String.append_assoc]
  | .StringDocument _ s, pp, u, al, col, be, af, h => by
    simp only [PrettyPrinter.printDocumentTotal, PrettyPrinter.printStringDoc, flatten]
    rw [printString_text _ h]
  | .DocumentList _ ld b sep e unb al1, pp, u, al, col, be, af, h => by
    simp only [PrettyPrinter.printDocumentTotal, flatten]
    have h1 : Good (if unb = true then pp.addLine col false false 0 else pp) ∧
        allText (if unb = true then pp.addLine col false false 0 else pp).L = allText pp.L := by
      split
      · exact ⟨addLine_good _ h _ _ _ _, addLine_text _ h _ _ _ _⟩
      · exact ⟨h, rfl⟩
    generalize (if unb = true then pp.addLine col false false 0 else pp) = pp1 at *
    generalize hnac : (if al1 = true then
      (pp1.line pp1.currentItem pp1.currentLine).getIndentation +
        (pp1.line pp1.currentItem pp1.currentLine).getLength + size b else col) = nac
    obtain ⟨h1, t1⟩ := h1
    have key : ∀ q : PrettyPrinter, Good q →
        allText q.L = allText pp.L ++ (be ++ (b ++ joinSep sep (flattenDocs ld) ++ e) ++ af) →
        allText (if unb = true then (q.simplifyTotal q.currentItem q.currentLine none).2.1 else q).L
          = allText pp.L ++ (be ++ (b ++ joinSep sep (flattenDocs ld) ++ e) ++ af) := by
      intro q hq ht
      split
      · rw [← ht]; exact simplifyCurrent_text q hq
      · exact ht
    cases ld with
    | nil =>
      simp only [List.length_nil, Nat.cast_zero, if_true, PrettyPrinter.printDocListLoopTotal,
        PrettyPrinter.printStringDoc]
      obtain ⟨a, x, hL⟩ := h1.exists_last
      apply key _ (printString_spec _ h1 _ _ _ a x hL).1
      rw [printString_text _ h1, t1]
      simp [flattenDocs, joinSep, String.append_assoc]
    | cons d0 ld0 =>
      have hne : ((d0 :: ld0).length : Int) ≠ 0 := by simp; omega
      simp only [hne, if_false]
      have hloop := printDocListLoop_text (d0 :: ld0) pp1 u 0 ((d0 :: ld0).length)
        (lastVisibleElementIndex u (d0 :: ld0)) al1 nac sep (e ++ af) (be ++ b) u h1
        (le_refl _) (by simp) rfl (by simp)
      apply key _ (printDocListLoop_preserves Good (fun q _ _ _ _ hq => addLine_good q hq _ _ _ _)
        (fun q s al col hq => (printString_spec q hq s al col _ _
          hq.exists_last.choose_spec.choose_spec).1)
        (fun q hq => (simplifyCurrent_spec q hq).1) _ _ _ _ _ _ _ _ _ _ _ h1)
      rw [hloop, t1]
      simp [String.append_assoc]
/-- The loop of `printDocList` from child `i` on appends the flat texts of the remaining
visible children joined with the separator, framed by the tokens due at that point. -/
theorem printDocListLoop_text : ∀ (ld : List Document) (pp : PrettyPrinter) (u : Int)
    (i vs lv : Int) (al : Bool) (nac : Int) (sep la fb : String) (last : Int), Good pp →
    0 ≤ i → i + ld.length = vs → lv = lastVisibleFrom i last ld → ld ≠ [] →
    allText (PrettyPrinter.printDocListLoopTotal pp u ld i vs lv al nac sep la fb).L =
      allText pp.L ++ ((if i = 0 then fb else "") ++ joinSep sep (flattenDocs ld) ++ la)
  | [], _, _, _, _, _, _, _, _, _, _, _, _, _, _, _, hne => absurd rfl hne
  | d :: ld, pp, u, i, vs, lv, al, nac, sep, la, fb, last, h, hi, hvs, hlv, _ => by
    simp only [PrettyPrinter.printDocListLoopTotal]
    generalize hnac : (if (d.isBreakPoint && !al) = true then nac + pp.indentationBase
      else nac) = nac1
    generalize haf : (if i ≠ vs - 1 then
      if (d.isBreakPoint || decide (lv ≤ i)) = true then "" else sep else la) = af
    have hd := printDocument_text d pp u al nac1 (if i = 0 then fb else "") af h
    have hg := (printDocument_good pp d pp u al nac1 (if i = 0 then fb else "") af h
      (SameConfig.refl pp)).1
    have hic : pp.indentationBase = (pp.printDocumentTotal u d al nac1
        (if i = 0 then fb else "") af).indentationBase :=
      ((printDocument_good pp d pp u al nac1 (if i = 0 then fb else "") af h
        (SameConfig.refl pp)).2.2.1).symm
    cases ld with
    | nil =>
      simp only [PrettyPrinter.printDocListLoopTotal]
      rw [hd]
      have hlast : i = vs - 1 := by simp at hvs; omega
      simp only [hlast, ne_eq, not_true_eq_false, if_false] at haf
      subst haf
      by_cases hb : d.isBreakPoint = true
      · simp [flattenDocs, hb, joinSep, flatten_of_isBreakPoint hb, String.append_assoc]
      · have hb1 : d.isBreakPoint = false := by simpa using hb
        simp [flattenDocs, hb1, joinSep, String.append_assoc]
    | cons d1 ld1 =>
      have hnl : i ≠ vs - 1 := by simp at hvs; omega
      simp only [hnl, ne_eq, not_false_eq_true, if_true] at haf
      have hlv1 : lv = lastVisibleFrom (i + 1) (if !d.isBreakPoint then i else last)
          (d1 :: ld1) := by
        rw [hlv]; simp [lastVisibleFrom]
      have hrec := printDocListLoop_text (d1 :: ld1)
        (pp.printDocumentTotal u d al nac1 (if i = 0 then fb else "") af) u (i + 1) vs lv al
        nac1 sep la fb (if !d.isBreakPoint then i else last) hg (by omega)
        (by simp at hvs ⊢; omega) hlv1 (by simp)
      rw [hrec, hd]
      have hi1 : i + 1 ≠ 0 := by omega
      simp only [hi1, if_false]
      by_cases hb : d.isBreakPoint = true
      · simp only [hb, Bool.true_or, if_true] at haf
        subst haf
        simp [flattenDocs, hb, flatten_of_isBreakPoint hb, String.append_assoc]
      · have hb1 : d.isBreakPoint = false := by simpa using hb
        simp only [hb1, Bool.false_or, Bool.not_false, if_true] at haf hlv1
        rcases lastVisibleFrom_cases (d1 :: ld1) (i + 1) i with hc | hc
        · rw [hc.2] at hlv1
          have : decide (lv ≤ i) = true := by simp; omega
          rw [this] at haf
          simp only [if_true] at haf
          subst haf
          have e1 : flattenDocs (d :: d1 :: ld1) = [flatten d] := by
            simp only [flattenDocs, hb1] at hc ⊢
            simp [hc.1]
          rw [e1, hc.1]
          simp [joinSep, String.append_assoc]
        · have : decide (lv ≤ i) = false := by
            have := hc.2
            rw [← hlv1] at this
            simp; omega
          rw [this] at haf
          simp at haf
          subst haf
          have e1 : flattenDocs (d :: d1 :: ld1) = flatten d :: flattenDocs (d1 :: ld1) := by
            simp only [flattenDocs, hb1]
            simp
          rw [e1, joinSep_cons_of_ne_nil _ _ hc.1]
          simp [String.append_assoc]
end

/-! # The simplification pass and the whole of `print` -/

theorem simplifyLoop_preserves (P : PrettyPrinter → Prop)
    (hS : ∀ pp line vec, P pp → P (pp.simplifyTotal 0 line vec).2.1) :
    ∀ (fuel : Nat) (pp : PrettyPrinter) (vec : List Int),
      P pp → P (PrettyPrinter.simplifyLoopTotal fuel pp 0 vec).1
  | 0, pp, vec, h => by simpa [PrettyPrinter.simplifyLoopTotal] using h
  | fuel + 1, pp, [], h => by simpa [PrettyPrinter.simplifyLoopTotal] using h
  | fuel + 1, pp, l :: vec, h => by
    simp only [PrettyPrinter.simplifyLoopTotal]
    split
    · exact hS _ _ _ h
    · exact simplifyLoop_preserves P hS fuel _ _ (hS _ _ _ h)

theorem setLedger_spec (pp : PrettyPrinter) (h : Single pp) (x : LinesToSimplify) :
    Single { pp with linesToSimplify := vecModify pp.linesToSimplify 0 (fun _ => x) } ∧
    SameConfig pp { pp with linesToSimplify := vecModify pp.linesToSimplify 0 (fun _ => x) } ∧
    PrettyPrinter.L { pp with linesToSimplify := vecModify pp.linesToSimplify 0 (fun _ => x) }
      = pp.L ∧
    PrettyPrinter.T { pp with linesToSimplify := vecModify pp.linesToSimplify 0 (fun _ => x) }
      = x ∧
    PrettyPrinter.N { pp with linesToSimplify := vecModify pp.linesToSimplify 0 (fun _ => x) }
      = pp.N := by
  obtain ⟨ls, lts, lnts, hpp, -, -, -⟩ := h.exists_eq
  rw [hpp]
  simp [PrettyPrinter.L, PrettyPrinter.T, PrettyPrinter.N, vecGet_zero_singleton,
    vecModify_zero_singleton, SameConfig]
  exact ⟨rfl, rfl, rfl, rfl⟩

/-- A property of the lines of a one-item engine that every `simplify` keeps is kept by
`simplifyItem`. -/
theorem simplifyItem_lines (Q : List Line → Prop) (mw : Int)
    (hQ : ∀ ls line, Q ls → Q (joinAt mw ls line))
    (pp : PrettyPrinter) (h : Single pp) (hmw : pp.maxwidth = mw) (hL : Q pp.L) :
    Q (pp.simplifyItemTotal 0).L := by
  unfold PrettyPrinter.simplifyItemTotal
  have key := simplifyLoop_preserves (fun q => Single q ∧ q.maxwidth = mw ∧ Q q.L) (by
    intro q line vec hq
    obtain ⟨-, g1, g2, g3, -⟩ := simplify_spec q hq.1 line vec
    refine ⟨g1, g2.1.trans hq.2.1, ?_⟩
    rw [g3, hq.2.1]
    exact hQ _ _ hq.2.2)
  obtain ⟨s1, s2, s3, -, -⟩ := setLedger_spec pp h
    ((vecGet pp.linesToSimplify 0).removeAllTotal (vecGet pp.linesNotToSimplify 0))
  exact (key _ _ _ ⟨s1, s2.1.trans hmw, by rw [s3]; exact hL⟩).2.2

theorem print_start (mw ib : Int) (sim deepsim : Bool) :
    ((PrettyPrinter.new mw ib sim deepsim).addItem).addLine 0 false false 0 =
      ⟨mw, ib, 0, 0, [[Line.new 0]], [default], [default], sim, deepsim⟩ := by
  simp [PrettyPrinter.new, PrettyPrinter.addItem, PrettyPrinter.addLine, vecModify,
    List.modify, List.modifyHead]

theorem start_good (mw ib : Int) (sim deepsim : Bool) :
    Good ⟨mw, ib, 0, 0, [[Line.new 0]], [default], [default], sim, deepsim⟩ :=
  ⟨⟨rfl, rfl, rfl, rfl⟩, le_refl _, by simp [PrettyPrinter.L, vecGet_zero_singleton]⟩

/-- The layout is the lines of item 0 after the walk and, when `simp` is on, after
`simplifyItem`. -/
theorem layout_eq (mw ib : Int) (sim deepsim : Bool) (u : Int) (d : Document) :
    layoutTotal mw ib sim deepsim u d =
      (if sim then
        ((PrettyPrinter.mk mw ib 0 0 [[Line.new 0]] [default] [default] sim deepsim).printDocumentTotal
          u d true 0 "" "").simplifyItemTotal 0
       else (PrettyPrinter.mk mw ib 0 0 [[Line.new 0]] [default] [default] sim
          deepsim).printDocumentTotal u d true 0 "" "").L := by
  unfold layoutTotal PrettyPrinter.printTotal
  dsimp only
  rw [print_start]
  obtain ⟨g, c⟩ := printDocument_good _ d _ u true 0 "" "" (start_good mw ib sim deepsim)
    (SameConfig.refl _)
  have hs : ((PrettyPrinter.mk mw ib 0 0 [[Line.new 0]] [default] [default] sim
      deepsim).printDocumentTotal u d true 0 "" "").simp = sim := c.2.2.1
  generalize (PrettyPrinter.mk mw ib 0 0 [[Line.new 0]] [default] [default] sim
      deepsim).printDocumentTotal u d true 0 "" "" = q at *
  simp only [hs]
  rw [g.single.item]
  cases sim
  · simp [PrettyPrinter.getCurrentItemLines, PrettyPrinter.L, g.single.item]
  · simp only [if_true]
    have h2 := simplifyItem_lines (fun _ => True) mw (fun _ _ _ => trivial) q g.single c.1 trivial
    have hsingle : Single (q.simplifyItemTotal 0) := by
      unfold PrettyPrinter.simplifyItemTotal
      obtain ⟨s1, -⟩ := setLedger_spec q g.single
        ((vecGet q.linesToSimplify 0).removeAllTotal (vecGet q.linesNotToSimplify 0))
      exact simplifyLoop_preserves Single
        (fun q line vec hq => (simplify_spec q hq line vec).2.1) _ _ _ s1
    simp [PrettyPrinter.getCurrentItemLines, PrettyPrinter.L, hsingle.item]

theorem textSize_addString (x : Line) (s : String) :
    (x.addString s).textSize = x.textSize + size s := by
  simp [Line.textSize, Line.addString]

theorem textSize_concatenateLines (p x : Line) :
    (p.concatenateLines x).textSize = p.textSize + x.textSize := by
  simp [Line.textSize, Line.concatenateLines]

theorem layout_allText (mw ib : Int) (sim deepsim : Bool) (u : Int) (d : Document) :
    allText (layoutTotal mw ib sim deepsim u d) = flatten d := by
  rw [layout_eq]
  have hg := printDocument_good _ d _ u true 0 "" "" (start_good mw ib sim deepsim)
    (SameConfig.refl _)
  have ht := printDocument_text d _ u true 0 "" "" (start_good mw ib sim deepsim)
  have h0 : allText (PrettyPrinter.mk mw ib 0 0 [[Line.new 0]] [default] [default] sim
      deepsim).L = "" := by
    simp [PrettyPrinter.L, vecGet_zero_singleton, allText_new]
  rw [h0] at ht
  simp only [String.empty_append, String.append_empty] at ht
  split
  · exact simplifyItem_lines (fun ls => allText ls = flatten d) mw
      (fun ls line h => by show allText _ = _; rw [allText_joinAt]; exact h) _ hg.1.single
      hg.2.1 ht
  · exact ht

/-! # The unassigned value of `lastVisibleElementIndex` is never observed -/

theorem lastVisibleFrom_of_visible (ld : List Document) (j a b : Int)
    (h : flattenDocs ld ≠ []) : lastVisibleFrom j a ld = lastVisibleFrom j b ld := by
  induction ld generalizing j a b with
  | nil => exact absurd rfl h
  | cons d ld ih =>
    by_cases hd : d.isBreakPoint = true
    · simp only [flattenDocs, hd, if_true] at h
      simp only [lastVisibleFrom, hd, Bool.not_true]
      exact ih (j + 1) a b h
    · have hd1 : d.isBreakPoint = false := by simpa using hd
      simp [lastVisibleFrom, hd1]

mutual
theorem printDocument_unassigned : ∀ (d : Document) (pp : PrettyPrinter) (u : Int) (al : Bool)
    (col : Int) (be af : String),
    pp.printDocumentTotal u d al col be af = pp.printDocumentTotal 0 d al col be af
  | .BreakPoint _ _, _, _, _, _, _, _ => by simp only [PrettyPrinter.printDocumentTotal]
  | .StringDocument _ _, _, _, _, _, _, _ => by simp only [PrettyPrinter.printDocumentTotal]
  | .DocumentList _ ld b sep e unb al1, pp, u, al, col, be, af => by
    simp only [PrettyPrinter.printDocumentTotal]
    have hl : ∀ q nac, PrettyPrinter.printDocListLoopTotal q u ld 0 ld.length
        (lastVisibleElementIndex u ld) al1 nac sep (e ++ af) (be ++ b) =
        PrettyPrinter.printDocListLoopTotal q 0 ld 0 ld.length
        (lastVisibleElementIndex 0 ld) al1 nac sep (e ++ af) (be ++ b) := by
      intro q nac
      apply printDocListLoop_unassigned
      by_cases hv : flattenDocs ld = []
      · exact Or.inr hv
      · exact Or.inl (lastVisibleFrom_of_visible ld 0 u 0 hv)
    simp only [hl]
theorem printDocListLoop_unassigned : ∀ (ld : List Document) (pp : PrettyPrinter) (u : Int)
    (i vs lv lv1 : Int) (al : Bool) (nac : Int) (sep la fb : String),
    (lv = lv1 ∨ flattenDocs ld = []) →
    PrettyPrinter.printDocListLoopTotal pp u ld i vs lv al nac sep la fb =
      PrettyPrinter.printDocListLoopTotal pp 0 ld i vs lv1 al nac sep la fb
  | [], _, _, _, _, _, _, _, _, _, _, _, _ => by simp only [PrettyPrinter.printDocListLoopTotal]
  | d :: ld, pp, u, i, vs, lv, lv1, al, nac, sep, la, fb, h => by
    simp only [PrettyPrinter.printDocListLoopTotal]
    have haf : (if i ≠ vs - 1 then
          if (d.isBreakPoint || decide (lv ≤ i)) = true then "" else sep else la) =
        (if i ≠ vs - 1 then
          if (d.isBreakPoint || decide (lv1 ≤ i)) = true then "" else sep else la) := by
      rcases h with h | h
      · rw [h]
      · by_cases hd : d.isBreakPoint = true
        · simp [hd]
        · have hd1 : d.isBreakPoint = false := by simpa using hd
          simp [flattenDocs, hd1] at h
    have h2 : lv = lv1 ∨ flattenDocs ld = [] := by
      rcases h with h | h
      · exact Or.inl h
      · right
        by_cases hd : d.isBreakPoint = true
        · simpa [flattenDocs, hd] using h
        · have hd1 : d.isBreakPoint = false := by simpa using hd
          simp [flattenDocs, hd1] at h
    rw [haf, printDocument_unassigned d pp u]
    exact printDocListLoop_unassigned ld _ u _ vs lv lv1 al _ sep la fb h2
end

theorem print_unassigned (pp : PrettyPrinter) (u : Int) (d : Document) :
    pp.printTotal u d = pp.printTotal 0 d := by
  unfold PrettyPrinter.printTotal
  simp only [printDocument_unassigned _ _ u]

theorem printExpression_unassigned (p : Printer) (u : Int) (e : Expression) (width : Int) :
    p.printExpressionTotal u e width = p.printExpressionTotal 0 e width := by
  unfold Printer.printExpressionTotal Printer.printDocumentTotal
  rw [print_unassigned]

/-! # Flat text of the documents the mapper builds -/

mutual
theorem flatten_setParent : ∀ (d : Document) (pl : Nat), flatten (d.setParent pl) = flatten d
  | .BreakPoint _ _, _ => by simp [Document.setParent, flatten]
  | .StringDocument _ _, _ => by simp [Document.setParent, flatten]
  | .DocumentList _ docs _ _ _ _ _, pl => by
    simp only [Document.setParent, flatten]
    rw [flattenDocs_setParentDocs docs (pl + 1)]
theorem flattenDocs_setParentDocs : ∀ (ds : List Document) (pl : Nat),
    flattenDocs (Document.setParentDocs ds pl) = flattenDocs ds
  | [], _ => by simp [Document.setParentDocs]
  | d :: ds, pl => by
    have hb : (d.setParent pl).isBreakPoint = d.isBreakPoint := by
      cases d <;> simp [Document.setParent, Document.isBreakPoint]
    simp only [Document.setParentDocs, flattenDocs, hb]
    rw [flatten_setParent d pl, flattenDocs_setParentDocs ds pl]
end

theorem isBreakPoint_setParent (d : Document) (pl : Nat) :
    (d.setParent pl).isBreakPoint = d.isBreakPoint := by
  cases d <;> simp [Document.setParent, Document.isBreakPoint]

theorem flattenDocs_append (a b : List Document) :
    flattenDocs (a ++ b) = flattenDocs a ++ flattenDocs b := by
  induction a with
  | nil => simp [flattenDocs]
  | cons d a ih =>
    by_cases hd : d.isBreakPoint = true
    · simp [flattenDocs, hd, ih]
    · have hd1 : d.isBreakPoint = false := by simpa using hd
      simp [flattenDocs, hd1, ih]

/-- The flat texts of the visible children after one `addDocumentToList`. -/
theorem flattenDocs_snoc (a : List Document) (d : Document) (pl : Nat) :
    flattenDocs (a ++ [d.setParent pl]) =
      flattenDocs a ++ (if d.isBreakPoint then [] else [flatten d]) := by
  rw [flattenDocs_append]
  simp only [flattenDocs, isBreakPoint_setParent, flatten_setParent]

theorem isBreakPoint_list (l : Nat) (docs : List Document) (b s e : String) (u a : Bool) :
    (Document.DocumentList l docs b s e u a).isBreakPoint = false := rfl

theorem isBreakPoint_string (l : Nat) (s : String) :
    (Document.StringDocument l s).isBreakPoint = false := rfl

theorem isBreakPoint_break (l : Nat) (ds : Bool) :
    (Document.BreakPoint l ds).isBreakPoint = true := rfl

theorem isList_new (b s e : String) (a : Bool) : (newDocumentList b s e a).isList = true := rfl

theorem tokens_new (b s e : String) (a : Bool) :
    (newDocumentList b s e a).getBeginToken = b ∧ (newDocumentList b s e a).getSeparator = s ∧
      (newDocumentList b s e a).getEndToken = e := ⟨rfl, rfl, rfl⟩

theorem visibleTexts_new (b s e : String) (a : Bool) :
    (newDocumentList b s e a).visibleTexts = [] := rfl

theorem isList_add (dl d : Document) : (dl.addDocumentToList d).isList = dl.isList := by
  cases dl <;> rfl

theorem tokens_add (dl d : Document) :
    (dl.addDocumentToList d).getBeginToken = dl.getBeginToken ∧
      (dl.addDocumentToList d).getSeparator = dl.getSeparator ∧
      (dl.addDocumentToList d).getEndToken = dl.getEndToken := by
  cases dl <;> exact ⟨rfl, rfl, rfl⟩

theorem visibleTexts_add (dl d : Document) (h : dl.isList = true) :
    (dl.addDocumentToList d).visibleTexts =
      dl.visibleTexts ++ (if d.isBreakPoint then [] else [flatten d]) := by
  cases dl with
  | DocumentList l docs b s e u a =>
    simp only [Document.addDocumentToList, Document.visibleTexts, Document.getDocs]
    exact flattenDocs_snoc docs d l
  | BreakPoint _ _ => simp [Document.isList] at h
  | StringDocument _ _ => simp [Document.isList] at h

theorem isBreakPoint_of_isList (dl : Document) (h : dl.isList = true) :
    dl.isBreakPoint = false := by
  cases dl <;> simp [Document.isList] at h
  rfl

/-- The flat text of a list: its tokens around the joined flat texts of its visible
children. -/
theorem flatten_of_isList (dl : Document) (h : dl.isList = true) :
    flatten dl = dl.getBeginToken ++ joinSep dl.getSeparator dl.visibleTexts ++ dl.getEndToken := by
  cases dl with
  | DocumentList l docs b s e u a => simp [flatten, Document.visibleTexts, Document.getDocs,
      Document.getBeginToken, Document.getSeparator, Document.getEndToken]
  | BreakPoint _ _ => simp [Document.isList] at h
  | StringDocument _ _ => simp [Document.isList] at h

theorem isList_foldl {α : Type} (f : α → Document) (gs : List α) (dl : Document) :
    (gs.foldl (fun (acc : Document) (g : α) => acc.addDocumentToList (f g)) dl).isList
      = dl.isList := by
  induction gs generalizing dl with
  | nil => rfl
  | cons g gs ih => simp only [List.foldl_cons]; rw [ih, isList_add]

theorem tokens_foldl {α : Type} (f : α → Document) (gs : List α) (dl : Document) :
    (gs.foldl (fun (acc : Document) (g : α) => acc.addDocumentToList (f g)) dl).getBeginToken
      = dl.getBeginToken ∧
    (gs.foldl (fun (acc : Document) (g : α) => acc.addDocumentToList (f g)) dl).getSeparator
      = dl.getSeparator ∧
    (gs.foldl (fun (acc : Document) (g : α) => acc.addDocumentToList (f g)) dl).getEndToken
      = dl.getEndToken := by
  induction gs generalizing dl with
  | nil => exact ⟨rfl, rfl, rfl⟩
  | cons g gs ih =>
    simp only [List.foldl_cons]
    obtain ⟨h1, h2, h3⟩ := ih (dl.addDocumentToList (f g))
    obtain ⟨t1, t2, t3⟩ := tokens_add dl (f g)
    exact ⟨h1.trans t1, h2.trans t2, h3.trans t3⟩

theorem visibleTexts_foldl {α : Type} (f : α → Document) (gs : List α) (dl : Document)
    (h : dl.isList = true) (hf : ∀ g ∈ gs, (f g).isBreakPoint = false) :
    (gs.foldl (fun (acc : Document) (g : α) => acc.addDocumentToList (f g)) dl).visibleTexts
      = dl.visibleTexts ++ gs.map (fun g => flatten (f g)) := by
  induction gs generalizing dl with
  | nil => simp
  | cons g gs ih =>
    simp only [List.foldl_cons, List.map_cons]
    rw [ih _ (by rw [isList_add]; exact h) (fun x hx => hf x (by simp [hx])),
      visibleTexts_add dl (f g) h, hf g (by simp)]
    simp

theorem isList_addString (dl : Document) (s : String) :
    (dl.addStringToList s).isList = dl.isList := isList_add dl _

theorem isList_addBreakPoint (dl : Document) (b : Bool) :
    (dl.addBreakPoint b).isList = dl.isList := isList_add dl _

theorem beginToken_add (dl d : Document) :
    (dl.addDocumentToList d).getBeginToken = dl.getBeginToken := (tokens_add dl d).1

theorem separator_add (dl d : Document) :
    (dl.addDocumentToList d).getSeparator = dl.getSeparator := (tokens_add dl d).2.1

theorem endToken_add (dl d : Document) :
    (dl.addDocumentToList d).getEndToken = dl.getEndToken := (tokens_add dl d).2.2

theorem beginToken_addString (dl : Document) (s : String) :
    (dl.addStringToList s).getBeginToken = dl.getBeginToken := (tokens_add dl _).1

theorem separator_addString (dl : Document) (s : String) :
    (dl.addStringToList s).getSeparator = dl.getSeparator := (tokens_add dl _).2.1

theorem endToken_addString (dl : Document) (s : String) :
    (dl.addStringToList s).getEndToken = dl.getEndToken := (tokens_add dl _).2.2

theorem beginToken_addBreakPoint (dl : Document) (b : Bool) :
    (dl.addBreakPoint b).getBeginToken = dl.getBeginToken := (tokens_add dl _).1

theorem separator_addBreakPoint (dl : Document) (b : Bool) :
    (dl.addBreakPoint b).getSeparator = dl.getSeparator := (tokens_add dl _).2.1

theorem endToken_addBreakPoint (dl : Document) (b : Bool) :
    (dl.addBreakPoint b).getEndToken = dl.getEndToken := (tokens_add dl _).2.2

theorem visibleTexts_addString (dl : Document) (s : String) (h : dl.isList = true) :
    (dl.addStringToList s).visibleTexts = dl.visibleTexts ++ [s] := by
  unfold Document.addStringToList
  rw [visibleTexts_add dl _ h]
  simp [newStringDocument, isBreakPoint_string, flatten]

theorem visibleTexts_addBreakPoint (dl : Document) (b : Bool) (h : dl.isList = true) :
    (dl.addBreakPoint b).visibleTexts = dl.visibleTexts := by
  unfold Document.addBreakPoint
  rw [visibleTexts_add dl _ h]
  simp [newBreakPoint, isBreakPoint_break]

theorem visibleTexts_addVisible (dl d : Document) (h : dl.isList = true)
    (hd : d.isBreakPoint = false) :
    (dl.addDocumentToList d).visibleTexts = dl.visibleTexts ++ [flatten d] := by
  rw [visibleTexts_add dl d h, hd]
  simp

theorem beginToken_new (b s e : String) (a : Bool) :
    (newDocumentList b s e a).getBeginToken = b := rfl

theorem separator_new (b s e : String) (a : Bool) :
    (newDocumentList b s e a).getSeparator = s := rfl

theorem endToken_new (b s e : String) (a : Bool) :
    (newDocumentList b s e a).getEndToken = e := rfl

theorem foldl_addStringToList (ids : List String) (dl : Document) :
    ids.foldl Document.addStringToList dl =
      ids.foldl (fun (acc : Document) (s : String) =>
        acc.addDocumentToList (newStringDocument s)) dl := rfl

/-- The flat text of a list made of strings only. -/
theorem flatten_strings (ids : List String) (b sep e : String) (a : Bool) :
    flatten (ids.foldl Document.addStringToList (newDocumentList b sep e a)) =
      b ++ joinSep sep ids ++ e := by
  rw [foldl_addStringToList]
  have hl : (ids.foldl (fun (acc : Document) (s : String) =>
      acc.addDocumentToList (newStringDocument s)) (newDocumentList b sep e a)).isList = true := by
    rw [isList_foldl]; rfl
  have ht := tokens_foldl newStringDocument ids (newDocumentList b sep e a)
  have hv := visibleTexts_foldl newStringDocument ids (newDocumentList b sep e a) rfl
    (fun _ _ => rfl)
  rw [flatten_of_isList _ hl, hv, ht.1, ht.2.1, ht.2.2]
  simp [visibleTexts_new, beginToken_new, separator_new, endToken_new, newStringDocument,
    flatten]

theorem isList_strings (ids : List String) (dl : Document) :
    (ids.foldl Document.addStringToList dl).isList = dl.isList := by
  rw [foldl_addStringToList, isList_foldl]

/-! # Ledger facts -/

theorem pushOnBucket_some {p : Nat} {l : Int} {m m1 : List (Nat × List Int)}
    (h : pushOnBucket p l m = some m1) (x : Int) :
    x ∈ m1.flatMap (fun kb => kb.2) ↔ x = l ∨ x ∈ m.flatMap (fun kb => kb.2) := by
  induction m generalizing m1 with
  | nil => simp [pushOnBucket] at h
  | cons kb m ih =>
    obtain ⟨k, b⟩ := kb
    simp only [pushOnBucket] at h
    split at h
    · simp at h
      subst h
      simp
      tauto
    · cases hp : pushOnBucket p l m with
      | none => simp [hp] at h
      | some m2 =>
        simp [hp] at h
        subst h
        have := ih hp
        simp at this ⊢
        rw [this]
        tauto

theorem pushOnBucket_none {p : Nat} {l : Int} {m : List (Nat × List Int)}
    (h : pushOnBucket p l m = none) : ∀ kb ∈ m, kb.1 ≠ p := by
  induction m with
  | nil => simp
  | cons kb m ih =>
    obtain ⟨k, b⟩ := kb
    simp only [pushOnBucket] at h
    split at h
    · simp at h
    · rename_i hk
      cases hp : pushOnBucket p l m with
      | none =>
        intro kb1 hkb
        simp at hkb
        rcases hkb with rfl | hkb
        · exact hk
        · exact ih hp kb1 hkb
      | some m2 => simp [hp] at h

theorem mapInsert_absent {p : Nat} {b : List Int} {m : List (Nat × List Int)}
    (h : ∀ kb ∈ m, kb.1 ≠ p) (x : Int) :
    x ∈ (mapInsert p b m).flatMap (fun kb => kb.2) ↔
      x ∈ b ∨ x ∈ m.flatMap (fun kb => kb.2) := by
  induction m with
  | nil => simp [mapInsert]
  | cons kb m ih =>
    obtain ⟨k, b1⟩ := kb
    simp only [mapInsert]
    split
    · simp
    · split
      · rename_i hk
        exact absurd hk.symm (h (k, b1) (by simp))
      · have := ih (fun kb hkb => h kb (by simp [hkb]))
        simp at this ⊢
        rw [this]
        tauto

theorem mem_allCandidates_addLine (lts : LinesToSimplify) (p : Nat) (l par x : Int) :
    x ∈ allCandidates (lts.addLine p l par) ↔ x = l ∨ x ∈ allCandidates lts := by
  unfold allCandidates LinesToSimplify.addLine
  cases hp : pushOnBucket p l lts.lines with
  | some m1 => simpa using pushOnBucket_some hp x
  | none => simpa using mapInsert_absent (b := [l]) (pushOnBucket_none hp) x

theorem removeAll_of_empty (lts other : LinesToSimplify) (h : other.lines = []) :
    lts.removeAllTotal other = lts := by
  simp [LinesToSimplify.removeAllTotal, h]

theorem mem_getLinesToSimplify (lts : LinesToSimplify) (x : Int) :
    x ∈ lts.getLinesToSimplify ↔ x ∈ allCandidates lts := by
  unfold LinesToSimplify.getLinesToSimplify allCandidates
  have key : ∀ (m : List (Nat × List Int)) (init : List Int),
      x ∈ m.foldl (fun (vec : List Int) (kb : Nat × List Int) => kb.2 ++ vec) init ↔
        x ∈ init ∨ x ∈ m.flatMap (fun kb => kb.2) := by
    intro m
    induction m with
    | nil => simp
    | cons kb m ih =>
      intro init
      simp only [List.foldl_cons, List.flatMap_cons, List.mem_append]
      rw [ih]
      simp only [List.mem_append]
      tauto
  simpa using key lts.lines []

theorem ledgerAfter_true_vec (lts : LinesToSimplify) (vec : List Int) (line : Int) :
    (ledgerAfter true lts (some vec) line).2 = some (decrementVec (eraseValue vec line) line) := by
  simp [ledgerAfter, LinesToSimplify.removeTotal, LinesToSimplify.removeCut,
    LinesToSimplify.decrementLine]

/-! # Walking a plain document whose flat text fits -/

theorem totalLen_append (a b : List Line) : totalLen (a ++ b) = totalLen a + totalLen b := by
  simp [totalLen]

theorem totalLen_cons (x : Line) (a : List Line) :
    totalLen (x :: a) = x.lineLength + totalLen a := by
  simp [totalLen]

theorem totalLen_nil : totalLen [] = 0 := rfl

theorem Cols_append (acc : Int) (a b : List Line) :
    Cols acc (a ++ b) ↔ Cols acc a ∧ Cols (acc + totalLen a) b := by
  induction a generalizing acc with
  | nil => simp [Cols, totalLen_nil]
  | cons x a ih =>
    rw [List.cons_append]
    simp only [Cols, totalLen_cons]
    rw [ih, show acc + x.lineLength + totalLen a = acc + (x.lineLength + totalLen a) by omega]
    tauto

theorem textSize_nonneg (l : Line) : 0 ≤ l.textSize := by
  unfold Line.textSize
  induction l.text with
  | nil => simp
  | cons s t ih =>
    simp only [List.map_cons, List.sum_cons]
    have := size_nonneg s
    omega

theorem totalLen_nonneg (ls : List Line) (h : ∀ l ∈ ls, l.lineLength = l.textSize) :
    0 ≤ totalLen ls := by
  induction ls with
  | nil => simp [totalLen]
  | cons x a ih =>
    rw [totalLen_cons]
    have h1 := h x (by simp)
    have h2 := textSize_nonneg x
    have h3 := ih (fun l hl => h l (by simp [hl]))
    omega

theorem Good.line_eq {pp : PrettyPrinter} (h : Good pp) {a : List Line} {x : Line}
    (hL : pp.L = a ++ [x]) : pp.line pp.currentItem pp.currentLine = x := by
  have hcl := h.currentLine_eq hL
  obtain ⟨ls, lts, lnts, hpp, h1, -, -⟩ := h.single.exists_eq
  rw [hL] at h1
  subst h1
  rw [hpp]
  simp only [PrettyPrinter.line, vecGet_zero_singleton]
  exact vecGet_append_last a x _ hcl

/-- The cursor column of a tidy engine is at most the length of the text emitted. -/
theorem Tidy.cursor_le {mw : Int} {pp : PrettyPrinter} (h : Tidy mw pp) :
    (pp.line pp.currentItem pp.currentLine).getIndentation +
      (pp.line pp.currentItem pp.currentLine).getLength ≤ totalLen pp.L := by
  obtain ⟨a, x, hL⟩ := h.good.exists_last
  rw [h.good.line_eq hL, hL, totalLen_append]
  have hc := h.cols
  rw [hL, Cols_append] at hc
  have := hc.2.1
  simp only [Line.getIndentation, Line.getLength, totalLen_cons, totalLen_nil]
  omega

theorem tidy_printString {mw : Int} {pp : PrettyPrinter} (h : Tidy mw pp) (s : String)
    (al : Bool) (col : Int) (hfit : totalLen pp.L + size s ≤ mw) :
    Tidy mw (pp.printString s al col) ∧
      totalLen (pp.printString s al col).L = totalLen pp.L + size s := by
  obtain ⟨a, x, hL⟩ := h.good.exists_last
  obtain ⟨g1, g2, g3, g4, g5⟩ := printString_spec pp h.good s al col a x hL
  have hc := h.cols
  rw [hL, Cols_append] at hc
  have hx : x.indentation ≤ totalLen a := by
    have := hc.2.1
    omega
  have hf : size s ≤ x.getSpaceLeft pp.maxwidth := by
    rw [h.width]
    rw [hL, totalLen_append, totalLen_cons, totalLen_nil] at hfit
    simp only [Line.getSpaceLeft]
    omega
  rw [if_pos hf] at g5
  refine ⟨⟨g1, ?_, ?_, ?_, ?_, ?_, ?_, ?_, ?_⟩, ?_⟩
  · rw [g2.2.2.2]; exact h.deep
  · rw [g2.1]; exact h.width
  · intro l hl
    rw [g5] at hl
    simp at hl
    rcases hl with hl | hl
    · exact h.exact l (by rw [hL]; simp [hl])
    · subst hl
      rw [textSize_addString, ← h.exact x (by rw [hL]; simp)]
      rfl
  · rw [g5, Cols_append]
    exact ⟨hc.1, hc.2.1, trivial⟩
  · intro l hl
    rw [g5] at hl
    cases a with
    | nil =>
      simp at hl
      subst hl
      exact h.first x (by rw [hL]; simp)
    | cons y a =>
      simp at hl
      subst hl
      exact h.first _ (by rw [hL]; simp)
  · intro y hy
    rw [g3] at hy
    have := h.cand_range y hy
    rw [g5]
    rw [hL] at this
    simpa using this
  · intro k hk1 hk2
    rw [g3]
    apply h.cand_cover k hk1
    rw [g5] at hk2
    rw [hL]
    simpa using hk2
  · rw [g4]; exact h.none_excluded
  · rw [g5, hL, totalLen_append, totalLen_append, totalLen_cons, totalLen_cons]
    simp only [Line.addString, totalLen_nil]
    omega

theorem tidy_addLine {mw : Int} {pp : PrettyPrinter} (h : Tidy mw pp) (col : Int) (lvl : Nat)
    (hcol : col ≤ totalLen pp.L) :
    Tidy mw (pp.addLine col pp.deeplySimp true lvl) ∧
      totalLen (pp.addLine col pp.deeplySimp true lvl).L = totalLen pp.L := by
  rw [h.deep]
  obtain ⟨g1, g2, g3, g4, g5, g6⟩ := addLine_spec pp h.good.single col true true lvl
  simp only [h.deep, Bool.and_self, if_true, Bool.not_true, Bool.and_false] at g5 g6
  simp only [Bool.false_eq_true, if_false] at g6
  have hlast := h.good.line_last
  have hnn := h.good.line_nonneg
  refine ⟨⟨addLine_good pp h.good _ _ _ _, ?_, ?_, ?_, ?_, ?_, ?_, ?_, ?_⟩, ?_⟩
  · rw [g2.2.2.2]; exact h.deep
  · rw [g2.1]; exact h.width
  · intro l hl
    rw [g3] at hl
    simp at hl
    rcases hl with hl | hl
    · exact h.exact l hl
    · subst hl; rfl
  · rw [g3, Cols_append]
    refine ⟨h.cols, ?_, trivial⟩
    show col ≤ 0 + totalLen pp.L
    omega
  · intro l hl
    rw [g3] at hl
    obtain ⟨a, x, hL⟩ := h.good.exists_last
    apply h.first l
    rw [hL] at hl ⊢
    cases a <;> simpa using hl
  · intro y hy
    rw [g5, mem_allCandidates_addLine] at hy
    rw [g3]
    simp only [List.length_append, List.length_singleton, Nat.cast_add, Nat.cast_one]
    rcases hy with hy | hy
    · omega
    · have := h.cand_range y hy
      omega
  · intro k hk1 hk2
    rw [g5, mem_allCandidates_addLine]
    rw [g3] at hk2
    simp only [List.length_append, List.length_singleton, Nat.cast_add, Nat.cast_one] at hk2
    by_cases hk : k = pp.currentLine + 1
    · exact Or.inl hk
    · exact Or.inr (h.cand_cover k hk1 (by omega))
  · rw [g6]; exact h.none_excluded
  · rw [g3, totalLen_append, totalLen_cons, totalLen_nil]
    simp [Line.new]

theorem afterText_last (d : Document) (sep la X : String) :
    X ++ joinSep sep (flattenDocs [d]) ++ la = X ++ flatten d ++ la := by
  by_cases hb : d.isBreakPoint = true
  · simp [flattenDocs, hb, joinSep, flatten_of_isBreakPoint hb]
  · have hb1 : d.isBreakPoint = false := by simpa using hb
    simp [flattenDocs, hb1, joinSep]

theorem afterText_split (d d1 : Document) (ld1 : List Document) (i lv last : Int)
    (sep la X : String)
    (hlv : lv = lastVisibleFrom (i + 1) (if !d.isBreakPoint then i else last) (d1 :: ld1)) :
    X ++ joinSep sep (flattenDocs (d :: d1 :: ld1)) ++ la =
      (X ++ flatten d ++ (if (d.isBreakPoint || decide (lv ≤ i)) = true then "" else sep)) ++
        ("" ++ joinSep sep (flattenDocs (d1 :: ld1)) ++ la) := by
  by_cases hb : d.isBreakPoint = true
  · simp [flattenDocs, hb, flatten_of_isBreakPoint hb, String.append_assoc]
  · have hb1 : d.isBreakPoint = false := by simpa using hb
    simp only [hb1, Bool.false_or, Bool.not_false, if_true] at hlv ⊢
    rcases lastVisibleFrom_cases (d1 :: ld1) (i + 1) i with hc | hc
    · rw [hc.2] at hlv
      have : decide (lv ≤ i) = true := by simp; omega
      rw [this]
      have e1 : flattenDocs (d :: d1 :: ld1) = [flatten d] := by
        simp only [flattenDocs, hb1] at hc ⊢
        simp [hc.1]
      rw [e1, hc.1]
      simp [joinSep, String.append_assoc]
    · have : decide (lv ≤ i) = false := by
        have := hc.2
        rw [← hlv] at this
        simp; omega
      rw [this]
      have e1 : flattenDocs (d :: d1 :: ld1) = flatten d :: flattenDocs (d1 :: ld1) := by
        simp only [flattenDocs, hb1]
        simp
      rw [e1, joinSep_cons_of_ne_nil _ _ hc.1]
      simp [String.append_assoc]

mutual
/-- Walking a plain document whose text fits keeps the engine tidy: nothing overflows, and
every line after the first is a recorded candidate. -/
theorem tidy_printDocument (mw : Int) : ∀ (d : Document) (pp : PrettyPrinter) (u : Int)
    (al : Bool) (col : Int) (be af : String), Tidy mw pp → d.plain = true →
    col ≤ totalLen pp.L + size be → totalLen pp.L + size (be ++ flatten d ++ af) ≤ mw →
    Tidy mw (pp.printDocumentTotal u d al col be af) ∧
      totalLen (pp.printDocumentTotal u d al col be af).L =
        totalLen pp.L + size (be ++ flatten d ++ af)
  | .BreakPoint lvl ds, pp, u, al, col, be, af, h, hp, hcol, hfit => by
    simp only [Document.plain, Bool.not_eq_true'] at hp
    subst hp
    simp only [PrettyPrinter.printDocumentTotal, flatten, Bool.not_false] at hfit ⊢
    simp only [size_append, size_empty] at hfit ⊢
    have s1 := size_nonneg be
    have s2 := size_nonneg af
    obtain ⟨h1, t1⟩ := tidy_printString h be al col (by omega)
    obtain ⟨h2, t2⟩ := tidy_addLine h1 col lvl (by omega)
    obtain ⟨h3, t3⟩ := tidy_printString h2 af al col (by omega)
    exact ⟨h3, by omega⟩
  | .StringDocument _ s, pp, u, al, col, be, af, h, _, _, hfit => by
    simp only [PrettyPrinter.printDocumentTotal, PrettyPrinter.printStringDoc, flatten] at hfit ⊢
    exact tidy_printString h _ al col hfit
  | .DocumentList _ ld b sep e unb al1, pp, u, al, col, be, af, h, hp, _, hfit => by
    simp only [Document.plain, Bool.and_eq_true, Bool.not_eq_true'] at hp
    obtain ⟨⟨hunb, hal⟩, hpl⟩ := hp
    subst hunb hal
    simp only [PrettyPrinter.printDocumentTotal, flatten, if_true, Bool.false_eq_true, if_false]
      at hfit ⊢
    cases ld with
    | nil =>
      simp only [List.length_nil, Nat.cast_zero, if_true, PrettyPrinter.printDocListLoopTotal,
        PrettyPrinter.printStringDoc]
      have he : be ++ b ++ "" ++ (e ++ af) =
          be ++ (b ++ joinSep sep (flattenDocs []) ++ e) ++ af := by
        simp [flattenDocs, joinSep, String.append_assoc]
      rw [he]
      exact tidy_printString h _ _ _ hfit
    | cons d0 ld0 =>
      have hne : ((d0 :: ld0).length : Int) ≠ 0 := by simp; omega
      simp only [hne, if_false]
      have he : be ++ (b ++ joinSep sep (flattenDocs (d0 :: ld0)) ++ e) ++ af =
          (if (0 : Int) = 0 then be ++ b else "") ++ joinSep sep (flattenDocs (d0 :: ld0)) ++
            (e ++ af) := by
        simp [String.append_assoc]
      rw [he] at hfit ⊢
      have hcur := h.cursor_le
      have s1 := size_nonneg be
      exact tidy_printDocListLoop mw (d0 :: ld0) pp u 0 ((d0 :: ld0).length)
        (lastVisibleElementIndex u (d0 :: ld0)) _ sep (e ++ af) (be ++ b) u h hpl
        (le_refl _) (by simp) rfl (by simp)
        (by simp only [if_true, size_append]; omega) hfit
/-- The same for the loop of `printDocList` over the children of an aligned list. -/
theorem tidy_printDocListLoop (mw : Int) : ∀ (ld : List Document) (pp : PrettyPrinter)
    (u : Int) (i vs lv : Int) (nac : Int) (sep la fb : String) (last : Int), Tidy mw pp →
    Document.plainDocs ld = true → 0 ≤ i → i + ld.length = vs →
    lv = lastVisibleFrom i last ld → ld ≠ [] →
    nac ≤ totalLen pp.L + size (if i = 0 then fb else "") →
    totalLen pp.L + size ((if i = 0 then fb else "") ++ joinSep sep (flattenDocs ld) ++ la) ≤ mw →
    Tidy mw (PrettyPrinter.printDocListLoopTotal pp u ld i vs lv true nac sep la fb) ∧
      totalLen (PrettyPrinter.printDocListLoopTotal pp u ld i vs lv true nac sep la fb).L =
        totalLen pp.L +
          size ((if i = 0 then fb else "") ++ joinSep sep (flattenDocs ld) ++ la)
  | [], _, _, _, _, _, _, _, _, _, _, _, _, _, _, _, hne, _, _ => absurd rfl hne
  | d :: ld, pp, u, i, vs, lv, nac, sep, la, fb, last, h, hp, hi, hvs, hlv, _, hnac, hfit => by
    simp only [Document.plainDocs, Bool.and_eq_true] at hp
    simp only [PrettyPrinter.printDocListLoopTotal, Bool.not_true, Bool.and_false,
      Bool.false_eq_true, if_false]
    cases ld with
    | nil =>
      simp only [PrettyPrinter.printDocListLoopTotal]
      have hlast : i = vs - 1 := by simp at hvs; omega
      simp only [hlast, ne_eq, not_true_eq_false, if_false]
      rw [afterText_last] at hfit ⊢
      rw [hlast] at hnac hfit
      exact tidy_printDocument mw d pp u true nac _ la h hp.1 hnac hfit
    | cons d1 ld1 =>
      have hnl : i ≠ vs - 1 := by simp at hvs; omega
      simp only [hnl, ne_eq, not_false_eq_true, if_true]
      have hlv1 : lv = lastVisibleFrom (i + 1) (if !d.isBreakPoint then i else last)
          (d1 :: ld1) := by
        rw [hlv]; simp [lastVisibleFrom]
      rw [afterText_split d d1 ld1 i lv last sep la _ hlv1] at hfit ⊢
      rw [size_append] at hfit ⊢
      have s2 := size_nonneg ("" ++ joinSep sep (flattenDocs (d1 :: ld1)) ++ la)
      obtain ⟨h1, t1⟩ := tidy_printDocument mw d pp u true nac (if i = 0 then fb else "")
        (if (d.isBreakPoint || decide (lv ≤ i)) = true then "" else sep) h hp.1 hnac
        (by omega)
      have hi1 : i + 1 ≠ 0 := by omega
      have s3 := size_nonneg (flatten d ++
        (if (d.isBreakPoint || decide (lv ≤ i)) = true then "" else sep))
      have hrec := tidy_printDocListLoop mw (d1 :: ld1) _ u (i + 1) vs lv nac sep la fb
        (if !d.isBreakPoint then i else last) h1 hp.2 (by omega)
        (by simp at hvs ⊢; omega) hlv1 (by simp)
        (by
          simp only [hi1, if_false, size_empty]
          rw [t1, String.append_assoc, size_append]
          omega)
        (by
          simp only [hi1, if_false]
          rw [t1]
          omega)
      simp only [hi1, if_false] at hrec
      refine ⟨hrec.1, ?_⟩
      rw [hrec.2, t1]
      omega
end

/-! # The simplification pass joins every line of such a layout -/

theorem joinInv_step {mw : Int} {ls : List Line} {l : Int} {rest : List Int}
    (h : JoinInv mw ls (l :: rest)) :
    canJoin mw ls l = true ∧
    JoinInv mw (joinAt mw ls l) (decrementVec (eraseValue (l :: rest) l) l) ∧
    (decrementVec (eraseValue (l :: rest) l) l).length ≤ rest.length := by
  have hl := h.range l (by simp)
  obtain ⟨pre, p, x, post, rfl, hpre⟩ := exists_mid ls l (by omega) (by omega)
  have hc := h.cols
  rw [Cols_append] at hc
  simp only [Cols] at hc
  obtain ⟨c1, c2, c3, c4⟩ := hc
  have ht := h.total
  rw [totalLen_append, totalLen_cons, totalLen_cons] at ht
  have hpost : 0 ≤ totalLen post :=
    totalLen_nonneg post (fun y hy => h.exact y (by simp [hy]))
  have hp := h.exact p (by simp)
  have hx := h.exact x (by simp)
  have hxn := textSize_nonneg x
  have hpn := textSize_nonneg p
  have hcan : canJoin mw (pre ++ p :: x :: post) l = true := by
    rw [canJoin_mid mw pre post p x l hpre]
    simp [Line.getLength, Line.getSpaceLeft]
    omega
  refine ⟨hcan, ?_, ?_⟩
  · unfold joinAt
    rw [if_pos hcan, joinLines_mid pre post p x l hpre]
    refine ⟨?_, ?_, ?_, ?_, by simp, ?_, ?_⟩
    · intro y hy
      simp at hy
      rcases hy with hy | hy | hy
      · exact h.exact y (by simp [hy])
      · subst hy
        rw [textSize_concatenateLines, ← hp, ← hx]; rfl
      · exact h.exact y (by simp [hy])
    · rw [Cols_append]
      simp only [Cols]
      refine ⟨c1, c2, ?_⟩
      have : (0 : Int) + totalLen pre + (p.concatenateLines x).lineLength
          = 0 + totalLen pre + p.lineLength + x.lineLength := by
        simp only [Line.concatenateLines]; omega
      rw [this]
      exact c4
    · intro y hy
      cases pre with
      | nil =>
        simp at hy
        subst hy
        exact h.first p (by simp)
      | cons z pre =>
        simp at hy
        subst hy
        exact h.first _ (by simp)
    · rw [totalLen_append, totalLen_cons]
      simp only [Line.concatenateLines]
      omega
    · intro y hy
      simp only [decrementVec, eraseValue, List.mem_map, List.mem_filter] at hy
      obtain ⟨z, ⟨hz1, hz2⟩, rfl⟩ := hy
      have hz := h.range z hz1
      simp at hz2
      simp only [List.length_append, List.length_cons, Nat.cast_add, Nat.cast_one] at hz ⊢
      split <;> omega
    · intro k hk1 hk2
      simp only [List.length_append, List.length_cons, Nat.cast_add, Nat.cast_one] at hk2
      simp only [decrementVec, eraseValue, List.mem_map, List.mem_filter]
      by_cases hkl : k < l
      · refine ⟨k, ⟨h.cover k hk1 ?_, by simp; omega⟩, ?_⟩
        · simp only [List.length_append, List.length_cons, Nat.cast_add, Nat.cast_one]
          omega
        · rw [if_neg (by omega)]
      · refine ⟨k + 1, ⟨h.cover (k + 1) (by omega) ?_, by simp; omega⟩, ?_⟩
        · simp only [List.length_append, List.length_cons, Nat.cast_add, Nat.cast_one]
          omega
        · rw [if_pos (by omega)]
          omega
  · simp only [decrementVec, eraseValue, List.length_map]
    rw [List.filter_cons_of_neg (by simp)]
    exact List.length_filter_le _ _

theorem simplifyLoop_joins_all (mw : Int) : ∀ (fuel : Nat) (pp : PrettyPrinter)
    (vec : List Int), Single pp → pp.maxwidth = mw → JoinInv mw pp.L vec → vec.length ≤ fuel →
    ∃ l0, (PrettyPrinter.simplifyLoopTotal fuel pp 0 vec).1.L = [l0] ∧ l0.indentation = 0
  | fuel, pp, [], _, _, hj, _ => by
    have e : (PrettyPrinter.simplifyLoopTotal fuel pp 0 []).1 = pp := by
      cases fuel <;> simp [PrettyPrinter.simplifyLoopTotal]
    rw [e]
    have hne := hj.nonempty
    have hcov := hj.cover
    generalize pp.L = ls at *
    cases ls with
    | nil => exact absurd rfl hne
    | cons l0 t =>
      cases t with
      | nil => exact ⟨l0, rfl, hj.first l0 (by simp)⟩
      | cons l1 t =>
        have := hcov 1 (le_refl _) (by simp)
        simp at this
  | 0, pp, l :: rest, _, _, _, hf => by simp at hf
  | fuel + 1, pp, l :: rest, hs, hw, hj, hf => by
    obtain ⟨hcan, hj1, hlen⟩ := joinInv_step hj
    obtain ⟨g0, g1, g2, g3, -, -, g6⟩ := simplify_spec pp hs l (some (l :: rest))
    rw [hw] at g0 g3 g6
    rw [hcan] at g0 g6
    have hv : (pp.simplifyTotal 0 l (some (l :: rest))).2.2 =
        some (decrementVec (eraseValue (l :: rest) l) l) := by
      rw [← ledgerAfter_true_vec pp.T (l :: rest) l, ← g6]
    simp only [PrettyPrinter.simplifyLoopTotal, g0, Bool.not_true, Bool.false_eq_true, if_false, hv,
      Option.getD_some]
    apply simplifyLoop_joins_all mw fuel _ _ g1 (g2.1.trans hw)
    · rw [g3]; exact hj1
    · simp at hf; omega

/-- A plain document whose flat text is at most `mw` bytes long is laid out, with `simp` and
`deeplySimp` on, as one line at indentation 0 that holds the flat text. -/
theorem plain_layout_one_line (mw ib : Int) (u : Int) (d : Document) (hp : d.plain = true)
    (hfit : size (flatten d) ≤ mw) :
    (layoutTotal mw ib true true u d).map lineView = [(0, flatten d)] := by
  have htext := layout_allText mw ib true true u d
  rw [layout_eq] at htext ⊢
  simp only [if_true] at htext ⊢
  have hstart : Tidy mw (PrettyPrinter.mk mw ib 0 0 [[Line.new 0]] [default] [default] true
      true) := by
    refine ⟨start_good mw ib true true, rfl, rfl, ?_, ?_, ?_, ?_, ?_, ?_⟩
    · intro l hl
      simp [PrettyPrinter.L, vecGet_zero_singleton] at hl
      subst hl; rfl
    · simp [PrettyPrinter.L, vecGet_zero_singleton, Cols, Line.new]
    · intro l hl
      simp [PrettyPrinter.L, vecGet_zero_singleton] at hl
      subst hl; rfl
    · intro x hx
      simp [PrettyPrinter.T, vecGet_zero_singleton, allCandidates] at hx
      exact absurd hx (by simp [default])
    · intro k hk1 hk2
      simp [PrettyPrinter.L, vecGet_zero_singleton] at hk2
      omega
    · simp [PrettyPrinter.N, vecGet_zero_singleton]
      rfl
  have h0 : totalLen (PrettyPrinter.mk mw ib 0 0 [[Line.new 0]] [default] [default] true
      true).L = 0 := by
    simp [PrettyPrinter.L, vecGet_zero_singleton, totalLen, Line.new]
  obtain ⟨ht, hlen⟩ := tidy_printDocument mw d _ u true 0 "" "" hstart hp
    (by rw [h0]; simp [size_empty])
    (by rw [h0]; simpa [String.empty_append, String.append_empty] using hfit)
  rw [h0] at hlen
  simp only [String.empty_append, String.append_empty, zero_add] at hlen
  generalize (PrettyPrinter.mk mw ib 0 0 [[Line.new 0]] [default] [default] true
      true).printDocumentTotal u d true 0 "" "" = q at *
  obtain ⟨s1, s2, s3, s4, -⟩ := setLedger_spec q ht.good.single
    ((vecGet q.linesToSimplify 0).removeAllTotal (vecGet q.linesNotToSimplify 0))
  have hrem : (vecGet q.linesToSimplify 0).removeAllTotal (vecGet q.linesNotToSimplify 0) = q.T :=
    removeAll_of_empty _ _ ht.none_excluded
  rw [hrem] at s1 s2 s3 s4
  have hj : JoinInv mw q.L q.T.getLinesToSimplify := by
    refine ⟨ht.exact, ht.cols, ht.first, by rw [hlen]; exact hfit, ?_, ?_, ?_⟩
    · obtain ⟨a, x, hL⟩ := ht.good.exists_last
      rw [hL]; simp
    · intro x hx
      exact ht.cand_range x ((mem_getLinesToSimplify _ _).mp hx)
    · intro k hk1 hk2
      exact (mem_getLinesToSimplify _ _).mpr (ht.cand_cover k hk1 hk2)
  have hloop := simplifyLoop_joins_all mw q.T.getLinesToSimplify.length
    { q with linesToSimplify := vecModify q.linesToSimplify 0 (fun _ => q.T) }
    q.T.getLinesToSimplify s1 (s2.1.trans ht.width) (by rw [s3]; exact hj) (le_refl _)
  obtain ⟨l0, hl0, hind⟩ := hloop
  have hsi : (q.simplifyItemTotal 0).L = [l0] := by
    unfold PrettyPrinter.simplifyItemTotal
    simp only [hrem]
    have e : vecGet (vecModify q.linesToSimplify 0 (fun _ => q.T)) 0 = q.T := s4
    simp only [e]
    exact hl0
  rw [hsi] at htext ⊢
  simp only [List.map_cons, List.map_nil, lineView, hind]
  rw [allText_singleton] at htext
  simp only [Line.str, htext]

/-! # The documents of binary-operator trees -/

mutual
theorem plain_setParent : ∀ (d : Document) (pl : Nat), (d.setParent pl).plain = d.plain
  | .BreakPoint _ _, _ => by simp [Document.setParent, Document.plain]
  | .StringDocument _ _, _ => by simp [Document.setParent, Document.plain]
  | .DocumentList _ docs _ _ _ _ _, pl => by
    simp only [Document.setParent, Document.plain]
    rw [plainDocs_setParentDocs docs (pl + 1)]
theorem plainDocs_setParentDocs : ∀ (ds : List Document) (pl : Nat),
    Document.plainDocs (Document.setParentDocs ds pl) = Document.plainDocs ds
  | [], _ => by simp [Document.setParentDocs]
  | d :: ds, pl => by
    simp only [Document.setParentDocs, Document.plainDocs]
    rw [plain_setParent d pl, plainDocs_setParentDocs ds pl]
end

theorem flatten_wrap (b sep e : String) (al : Bool) (d : Document) :
    flatten ((newDocumentList b sep e al).addDocumentToList d) = b ++ flatten d ++ e := by
  simp only [newDocumentList, Document.addDocumentToList, flatten, List.nil_append]
  by_cases hb : d.isBreakPoint = true
  · simp [flattenDocs, isBreakPoint_setParent, hb, flatten_of_isBreakPoint hb, joinSep]
  · have hb1 : d.isBreakPoint = false := by simpa using hb
    simp [flattenDocs, isBreakPoint_setParent, hb1, flatten_setParent, joinSep]

theorem plain_wrap (b sep e : String) (d : Document) :
    ((newDocumentList b sep e true).addDocumentToList d).plain = d.plain := by
  simp [newDocumentList, Document.addDocumentToList, Document.plain, Document.plainDocs,
    plain_setParent]

theorem flatten_expressionToDocument_nil (node : ExpressionNode) :
    flatten (expressionToDocument (.mk node [])) = flatten (ExpressionMapper.map node []) := by
  rw [expressionToDocument]
  simp only [flatten_wrap, String.empty_append, String.append_empty]

theorem plain_expressionToDocument_nil (node : ExpressionNode) :
    (expressionToDocument (.mk node [])).plain = (ExpressionMapper.map node []).plain := by
  rw [expressionToDocument]
  simp only [plain_wrap]

theorem flatten_mapBinOpOf (ps : Nat) (op : BinOpType) (d0 d1 : Document)
    (h0 : d0.isBreakPoint = false) (h1 : d1.isBreakPoint = false) :
    flatten (mapBinOpOf ps op d0 d1) =
      (if ps &&& PN_LEFT ≠ 0 then "(" ++ flatten d0 ++ ")" else flatten d0) ++ binOpText op ++
        (if ps &&& PN_RIGHT ≠ 0 then "(" ++ flatten d1 ++ ")" else flatten d1) := by
  unfold mapBinOpOf
  by_cases hl : ps &&& PN_LEFT ≠ 0 <;> by_cases hr : ps &&& PN_RIGHT ≠ 0 <;>
    cases hb : binOpLinebreak op <;>
    simp [hl, hr, hb, newDocumentList, Document.addDocumentToList, Document.addBreakPoint,
      newBreakPoint, flatten, flattenDocs, Document.setParent, Document.setParentDocs,
      isBreakPoint_list, isBreakPoint_string, isBreakPoint_break, isBreakPoint_setParent,
      flatten_setParent, joinSep, h0, h1, String.append_assoc]

theorem plain_mapBinOpOf (ps : Nat) (op : BinOpType) (d0 d1 : Document)
    (h0 : d0.plain = true) (h1 : d1.plain = true) : (mapBinOpOf ps op d0 d1).plain = true := by
  unfold mapBinOpOf
  by_cases hl : ps &&& PN_LEFT ≠ 0 <;> by_cases hr : ps &&& PN_RIGHT ≠ 0 <;>
    cases hb : binOpLinebreak op <;>
    simp [hl, hr, hb, newDocumentList, Document.addDocumentToList, Document.addBreakPoint,
      newBreakPoint, Document.plain, Document.plainDocs, Document.setParent,
      Document.setParentDocs, plain_setParent, h0, h1]

theorem isBreakPoint_expressionToDocument (e : Expression) :
    (expressionToDocument e).isBreakPoint = false := by
  obtain ⟨node, ann⟩ := e
  cases ann <;>
    simp [expressionToDocument, newDocumentList, Document.addDocumentToList, isBreakPoint_list]

theorem OpTree.flatten_eq_render (t : OpTree) :
    flatten (expressionToDocument t.toExpression) = t.render := by
  induction t with
  | leaf a =>
    cases a <;>
    · simp only [OpTree.toExpression, Leaf.toExpression]
      rw [flatten_expressionToDocument_nil]
      simp [ExpressionMapper.map, newStringDocument, flatten, OpTree.render, Leaf.text]
  | bin l op r ihl ihr =>
    simp only [OpTree.toExpression]
    rw [flatten_expressionToDocument_nil]
    simp only [ExpressionMapper.map, OpTree.render, OpTree.toExpression]
    rw [flatten_mapBinOpOf _ _ _ _ (isBreakPoint_expressionToDocument _)
      (isBreakPoint_expressionToDocument _), ihl, ihr]

theorem OpTree.plain_document (t : OpTree) :
    (expressionToDocument t.toExpression).plain = true := by
  induction t with
  | leaf a =>
    cases a <;>
    · simp only [OpTree.toExpression, Leaf.toExpression]
      rw [plain_expressionToDocument_nil]
      simp [ExpressionMapper.map, newStringDocument, Document.plain]
  | bin l op r ihl ihr =>
    simp only [OpTree.toExpression]
    rw [plain_expressionToDocument_nil]
    simp only [ExpressionMapper.map]
    exact plain_mapBinOpOf _ _ _ _ ihl ihr

/-! # Flat text of the generator-outside form of a call -/

theorem mapGenerators_eq (g : List (List String × Expression)) :
    mapGenerators g = g.map (fun p => (p.1, expressionToDocument p.2)) := by
  induction g with
  | nil => simp [mapGenerators]
  | cons p g ih =>
    obtain ⟨ids, e⟩ := p
    simp [mapGenerators, ih]

/-- The flat text of the document `mapCall` builds for a call whose only argument is a list
comprehension without a where clause. -/
theorem flatten_mapCallCompOf (id : String) (gens : List (List String × Document))
    (body : Document) (hg : ∀ g ∈ gens, g.2.isBreakPoint = false)
    (hb : body.isBreakPoint = false) :
    flatten (mapCallCompOf id gens none body) =
      id ++ " " ++ "(" ++ " " ++
        joinSep ", " (gens.map (fun g => joinSep "," g.1 ++ " in " ++ flatten g.2)) ++
        " " ++ ")" ++ " " ++ "(" ++ " " ++ flatten body ++ " " ++ ")" := by
  unfold mapCallCompOf
  dsimp only
  have hgl : ∀ g : List String × Document, ((((newDocumentList "" "" "" true).addDocumentToList
      (g.1.foldl Document.addStringToList (newDocumentList "" "," "" true))).addStringToList
        " in ").addDocumentToList g.2).isList = true := by
    intro g
    simp [isList_add, isList_addString, isList_new]
  have hgf : ∀ g ∈ gens, flatten ((((newDocumentList "" "" "" true).addDocumentToList
      (g.1.foldl Document.addStringToList (newDocumentList "" "," "" true))).addStringToList
        " in ").addDocumentToList g.2) = joinSep "," g.1 ++ " in " ++ flatten g.2 := by
    intro g hgm
    have hv : (g.1.foldl Document.addStringToList
        (newDocumentList "" "," "" true)).isBreakPoint = false :=
      isBreakPoint_of_isList _ (by rw [isList_strings]; rfl)
    rw [flatten_of_isList _ (hgl g)]
    simp [beginToken_add, separator_add, endToken_add, beginToken_addString,
      separator_addString, endToken_addString, beginToken_new, separator_new, endToken_new,
      visibleTexts_addVisible, visibleTexts_addString, visibleTexts_new, isList_add,
      isList_addString, isList_new, hv, hg g hgm, flatten_strings, joinSep,
      String.append_assoc]
  have hmap : gens.map (fun g => flatten ((((newDocumentList "" "" "" true).addDocumentToList
      (g.1.foldl Document.addStringToList (newDocumentList "" "," "" true))).addStringToList
        " in ").addDocumentToList g.2)) =
      gens.map (fun g => joinSep "," g.1 ++ " in " ++ flatten g.2) :=
    List.map_congr_left hgf
  have hgens := visibleTexts_foldl
    (fun (g : List String × Document) =>
      (((newDocumentList "" "" "" true).addDocumentToList
        (g.1.foldl Document.addStringToList (newDocumentList "" "," "" true))).addStringToList
          " in ").addDocumentToList g.2) gens (newDocumentList "" ", " "" true) rfl
    (fun g _ => isBreakPoint_of_isList _ (hgl g))
  rw [hmap] at hgens
  generalize hG : gens.foldl
    (fun (acc : Document) (g : List String × Document) =>
      acc.addDocumentToList ((((newDocumentList "" "" "" true).addDocumentToList
        (g.1.foldl Document.addStringToList (newDocumentList "" "," "" true))).addStringToList
          " in ").addDocumentToList g.2)) (newDocumentList "" ", " "" true) = G at hgens ⊢
  have hGl : G.isList = true := by rw [← hG, isList_foldl]; rfl
  have hGt := tokens_foldl
    (fun (g : List String × Document) =>
      (((newDocumentList "" "" "" true).addDocumentToList
        (g.1.foldl Document.addStringToList (newDocumentList "" "," "" true))).addStringToList
          " in ").addDocumentToList g.2) gens (newDocumentList "" ", " "" true)
  rw [hG] at hGt
  have hGf : flatten G =
      joinSep ", " (gens.map (fun g => joinSep "," g.1 ++ " in " ++ flatten g.2)) := by
    rw [flatten_of_isList G hGl, hgens, hGt.1, hGt.2.1, hGt.2.2]
    simp [visibleTexts_new, beginToken_new, separator_new, endToken_new]
  have hargs : (((((((newDocumentList "" " " "" false).addStringToList "(").addDocumentToList
      G).addStringToList ")").addStringToList "(").addBreakPoint false).addDocumentToList
        body).isList = true := by
    simp [isList_add, isList_addString, isList_addBreakPoint, isList_new]
  rw [flatten_of_isList _ (by
    simp [isList_add, isList_addString, isList_addBreakPoint, isList_new])]
  simp only [beginToken_add, separator_add, endToken_add, beginToken_addString,
    separator_addString, endToken_addString, beginToken_addBreakPoint,
    separator_addBreakPoint, endToken_addBreakPoint, beginToken_new, separator_new,
    endToken_new]
  rw [visibleTexts_addString _ _ (by
      simp [isList_add, isList_addString, isList_addBreakPoint, isList_new]),
    visibleTexts_addBreakPoint _ _ (by
      simp [isList_add, isList_addString, isList_addBreakPoint, isList_new]),
    visibleTexts_addVisible _ _ (by
      simp [isList_add, isList_addString, isList_addBreakPoint, isList_new])
      (isBreakPoint_of_isList _ hargs),
    visibleTexts_addString _ _ (isList_new _ _ _ _), visibleTexts_new,
    flatten_of_isList _ hargs]
  simp only [beginToken_add, separator_add, endToken_add, beginToken_addString,
    separator_addString, endToken_addString, beginToken_addBreakPoint,
    separator_addBreakPoint, endToken_addBreakPoint, beginToken_new, separator_new,
    endToken_new]
  rw [visibleTexts_addVisible _ _ (by
      simp [isList_add, isList_addString, isList_addBreakPoint, isList_new]) hb,
    visibleTexts_addBreakPoint _ _ (by
      simp [isList_add, isList_addString, isList_addBreakPoint, isList_new]),
    visibleTexts_addString _ _ (by
      simp [isList_add, isList_addString, isList_addBreakPoint, isList_new]),
    visibleTexts_addString _ _ (by
      simp [isList_add, isList_addString, isList_addBreakPoint, isList_new]),
    visibleTexts_addVisible _ _ (by
      simp [isList_add, isList_addString, isList_addBreakPoint, isList_new])
      (isBreakPoint_of_isList _ hGl),
    visibleTexts_addString _ _ (isList_new _ _ _ _), visibleTexts_new, hGf]
  simp [joinSep, String.append_assoc]
  have e1 : " ( " = " " ++ "( " := by decide
  have e2 : " ) ( " = " " ++ (") " ++ "( ") := by decide
  rw [e1, e2]
  simp only [String.append_assoc]

/-! ## The reference lexer on the rendering of a tree -/

namespace Reference

theorem andThen_nil_left (b : Option (List Token)) : andThen (some []) b = b := by
  cases b <;> rfl

theorem andThen_nil_right (a : Option (List Token)) : andThen a (some []) = a := by
  cases a <;> simp [andThen]

theorem andThen_none_right (a : Option (List Token)) : andThen a none = none := by
  cases a <;> rfl

theorem andThen_some (x y : List Token) : andThen (some x) (some y) = some (x ++ y) := rfl

theorem andThen_assoc (a b c : Option (List Token)) :
    andThen (andThen a b) c = andThen a (andThen b c) := by
  cases a <;> cases b <;> cases c <;> simp [andThen]

theorem andThen_some_cons (x : List Token) (t : Token) (b : Option (List Token)) :
    andThen (some (x ++ [t])) b = andThen (some x) (andThen (some [t]) b) := by
  cases b <;> simp [andThen]

theorem flush_idle : flush .idle = some [] := rfl

theorem lexAux_nil (st : LexState) : lexAux st [] = flush st := by
  cases st <;> rfl

theorem lexAux_word_extend (w : List Char) (hw : ∀ c ∈ w, identChar c = true) :
    ∀ (acc rest : List Char), lexAux (.word acc) (w ++ rest) = lexAux (.word (acc ++ w)) rest := by
  induction w with
  | nil => intro acc rest; simp
  | cons c w ih =>
    intro acc rest
    have hc : identChar c = true := hw c (List.mem_cons_self _ _)
    rw [List.cons_append, lexAux]
    simp only [hc, if_true, LexState.addWordChar, andThen_nil_left]
    rw [ih (fun d hd => hw d (List.mem_cons_of_mem _ hd))]
    simp

theorem lexAux_sym_extend (w : List Char) (hi : ∀ c ∈ w, identChar c = false)
    (hw : ∀ c ∈ w, symChar c = true) :
    ∀ (acc rest : List Char), lexAux (.sym acc) (w ++ rest) = lexAux (.sym (acc ++ w)) rest := by
  induction w with
  | nil => intro acc rest; simp
  | cons c w ih =>
    intro acc rest
    have hc : symChar c = true := hw c (List.mem_cons_self _ _)
    have hc2 : identChar c = false := hi c (List.mem_cons_self _ _)
    rw [List.cons_append, lexAux]
    simp only [hc, hc2, if_true, Bool.false_eq_true, if_false, LexState.addSymChar,
      andThen_nil_left]
    rw [ih (fun d hd => hi d (List.mem_cons_of_mem _ hd))
      (fun d hd => hw d (List.mem_cons_of_mem _ hd))]
    simp

theorem lexAux_word_stop (acc rest : List Char) (h : noIdentHead rest) :
    lexAux (.word acc) rest = andThen (flush (.word acc)) (lexAux .idle rest) := by
  cases rest with
  | nil => simp [lexAux_nil, flush_idle, andThen_nil_right]
  | cons c cs =>
    have hc : identChar c = false := h
    rw [lexAux, lexAux]
    simp only [hc, Bool.false_eq_true, if_false, flush_idle, andThen_nil_left,
      LexState.addSymChar, LexState.addWordChar]
    split_ifs <;> first | rfl | (cases flush _ <;> rfl)

theorem lexAux_sym_stop (acc rest : List Char) (h : noSymHead rest) :
    lexAux (.sym acc) rest = andThen (flush (.sym acc)) (lexAux .idle rest) := by
  cases rest with
  | nil => simp [lexAux_nil, flush_idle, andThen_nil_right]
  | cons c cs =>
    have hc : symChar c = false := h
    rw [lexAux, lexAux]
    simp only [hc, Bool.false_eq_true, if_false, flush_idle, andThen_nil_left,
      LexState.addSymChar, LexState.addWordChar]
    split_ifs <;> first | rfl | (cases flush _ <;> rfl)

theorem lexAux_ident_piece (c : Char) (w rest : List Char)
    (hw : ∀ d ∈ c :: w, identChar d = true) (h : noIdentHead rest) :
    lexAux .idle (c :: w ++ rest) =
      andThen (flush (.word (c :: w))) (lexAux .idle rest) := by
  have hc : identChar c = true := hw c (List.mem_cons_self _ _)
  rw [List.cons_append, lexAux]
  simp only [hc, if_true, flush_idle, andThen_nil_left, LexState.addWordChar]
  rw [lexAux_word_extend w (fun d hd => hw d (List.mem_cons_of_mem _ hd)),
    lexAux_word_stop _ _ h]
  simp

theorem lexAux_sym_piece (c : Char) (w rest : List Char)
    (hi : ∀ d ∈ c :: w, identChar d = false)
    (hw : ∀ d ∈ c :: w, symChar d = true) (h : noSymHead rest) :
    lexAux .idle (c :: w ++ rest) =
      andThen (flush (.sym (c :: w))) (lexAux .idle rest) := by
  have hc : symChar c = true := hw c (List.mem_cons_self _ _)
  have hc2 : identChar c = false := hi c (List.mem_cons_self _ _)
  rw [List.cons_append, lexAux]
  simp only [hc, hc2, if_true, Bool.false_eq_true, if_false, flush_idle, andThen_nil_left,
    LexState.addSymChar]
  rw [lexAux_sym_extend w (fun d hd => hi d (List.mem_cons_of_mem _ hd))
      (fun d hd => hw d (List.mem_cons_of_mem _ hd)),
    lexAux_sym_stop _ _ h]
  simp

theorem lexAux_space (rest : List Char) : lexAux .idle (' ' :: rest) = lexAux .idle rest := by
  rw [lexAux]
  have h1 : identChar ' ' = false := by decide
  have h2 : symChar ' ' = false := by decide
  simp only [h1, h2, Bool.false_eq_true, if_false, if_true, flush_idle, andThen_nil_left]

theorem lexAux_lparen (rest : List Char) :
    lexAux .idle ('(' :: rest) = andThen (some [.lparen]) (lexAux .idle rest) := by
  rw [lexAux]
  have h1 : identChar '(' = false := by decide
  have h2 : symChar '(' = false := by decide
  have h3 : ¬ ('(' = ' ') := by decide
  simp only [h1, h2, h3, Bool.false_eq_true, if_false, if_true, flush_idle, andThen_nil_left]

theorem lexAux_rparen (rest : List Char) :
    lexAux .idle (')' :: rest) = andThen (some [.rparen]) (lexAux .idle rest) := by
  rw [lexAux]
  have h1 : identChar ')' = false := by decide
  have h2 : symChar ')' = false := by decide
  have h3 : ¬ (')' = ' ') := by decide
  have h4 : ¬ (')' = '(') := by decide
  simp only [h1, h2, h3, h4, Bool.false_eq_true, if_false, if_true, flush_idle,
    andThen_nil_left]

theorem noIdentHead_space (rest : List Char) : noIdentHead (' ' :: rest) := by
  show identChar ' ' = false
  decide

theorem noSymHead_space (rest : List Char) : noSymHead (' ' :: rest) := by
  show symChar ' ' = false
  decide

theorem noIdentHead_rparen (rest : List Char) : noIdentHead (')' :: rest) := by
  show identChar ')' = false
  decide

/-- The text of an operator is read as the operator, when no symbol character follows. -/
theorem lexAux_binOpText (op : BinOpType) (rest : List Char) (h : noSymHead rest) :
    lexAux .idle ((binOpText op).data ++ rest) =
      andThen (some [.op op]) (lexAux .idle rest) := by
  cases op
  case BOT_PLUS => exact lexAux_sym_piece '+' [] rest (by decide) (by decide) h
  case BOT_MINUS => exact lexAux_sym_piece '-' [] rest (by decide) (by decide) h
  case BOT_MULT => exact lexAux_sym_piece '*' [] rest (by decide) (by decide) h
  case BOT_DIV => exact lexAux_sym_piece '/' [] rest (by decide) (by decide) h
  case BOT_LE => exact lexAux_sym_piece '<' [] rest (by decide) (by decide) h
  case BOT_LQ => exact lexAux_sym_piece '<' ['='] rest (by decide) (by decide) h
  case BOT_GR => exact lexAux_sym_piece '>' [] rest (by decide) (by decide) h
  case BOT_GQ => exact lexAux_sym_piece '>' ['='] rest (by decide) (by decide) h
  case BOT_EQ => exact lexAux_sym_piece '=' ['='] rest (by decide) (by decide) h
  case BOT_NQ => exact lexAux_sym_piece '!' ['='] rest (by decide) (by decide) h
  case BOT_DOTDOT => exact lexAux_sym_piece '.' ['.'] rest (by decide) (by decide) h
  case BOT_PLUSPLUS => exact lexAux_sym_piece '+' ['+'] rest (by decide) (by decide) h
  case BOT_EQUIV =>
    show lexAux .idle (' ' :: ('<' :: ['-', '>'] ++ ' ' :: rest)) = _
    rw [lexAux_space, lexAux_sym_piece _ _ _ (by decide) (by decide) (noSymHead_space _),
      lexAux_space]
    rfl
  case BOT_IMPL =>
    show lexAux .idle (' ' :: ('-' :: ['>'] ++ ' ' :: rest)) = _
    rw [lexAux_space, lexAux_sym_piece _ _ _ (by decide) (by decide) (noSymHead_space _),
      lexAux_space]
    rfl
  case BOT_RIMPL =>
    show lexAux .idle (' ' :: ('<' :: ['-'] ++ ' ' :: rest)) = _
    rw [lexAux_space, lexAux_sym_piece _ _ _ (by decide) (by decide) (noSymHead_space _),
      lexAux_space]
    rfl
  case BOT_OR =>
    show lexAux .idle (' ' :: (Char.ofNat 92 :: ['/'] ++ ' ' :: rest)) = _
    rw [lexAux_space, lexAux_sym_piece _ _ _ (by decide) (by decide) (noSymHead_space _),
      lexAux_space]
    rfl
  case BOT_AND =>
    show lexAux .idle (' ' :: ('/' :: [Char.ofNat 92] ++ ' ' :: rest)) = _
    rw [lexAux_space, lexAux_sym_piece _ _ _ (by decide) (by decide) (noSymHead_space _),
      lexAux_space]
    rfl
  case BOT_IDIV =>
    show lexAux .idle (' ' :: ('d' :: ['i', 'v'] ++ ' ' :: rest)) = _
    rw [lexAux_space, lexAux_ident_piece _ _ _ (by decide) (noIdentHead_space _), lexAux_space]
    rfl
  case BOT_MOD =>
    show lexAux .idle (' ' :: ('m' :: ['o', 'd'] ++ ' ' :: rest)) = _
    rw [lexAux_space, lexAux_ident_piece _ _ _ (by decide) (noIdentHead_space _), lexAux_space]
    rfl
  case BOT_IN =>
    show lexAux .idle (' ' :: ('i' :: ['n'] ++ ' ' :: rest)) = _
    rw [lexAux_space, lexAux_ident_piece _ _ _ (by decide) (noIdentHead_space _), lexAux_space]
    rfl
  case BOT_SUBSET =>
    show lexAux .idle (' ' :: ('s' :: ['u', 'b', 's', 'e', 't'] ++ ' ' :: rest)) = _
    rw [lexAux_space, lexAux_ident_piece _ _ _ (by decide) (noIdentHead_space _), lexAux_space]
    rfl
  case BOT_SUPERSET =>
    show lexAux .idle (' ' :: ('s' :: ['u', 'p', 'e', 'r', 's', 'e', 't'] ++ ' ' :: rest)) = _
    rw [lexAux_space, lexAux_ident_piece _ _ _ (by decide) (noIdentHead_space _), lexAux_space]
    rfl
  case BOT_UNION =>
    show lexAux .idle (' ' :: ('u' :: ['n', 'i', 'o', 'n'] ++ ' ' :: rest)) = _
    rw [lexAux_space, lexAux_ident_piece _ _ _ (by decide) (noIdentHead_space _), lexAux_space]
    rfl
  case BOT_DIFF =>
    show lexAux .idle (' ' :: ('d' :: ['i', 'f', 'f'] ++ ' ' :: rest)) = _
    rw [lexAux_space, lexAux_ident_piece _ _ _ (by decide) (noIdentHead_space _), lexAux_space]
    rfl
  case BOT_SYMDIFF =>
    show lexAux .idle (' ' :: ('s' :: ['y', 'm', 'd', 'i', 'f', 'f'] ++ ' ' :: rest)) = _
    rw [lexAux_space, lexAux_ident_piece _ _ _ (by decide) (noIdentHead_space _), lexAux_space]
    rfl
  case BOT_INTERSECT =>
    show lexAux .idle
      (' ' :: ('i' :: ['n', 't', 'e', 'r', 's', 'e', 'c', 't'] ++ ' ' :: rest)) = _
    rw [lexAux_space, lexAux_ident_piece _ _ _ (by decide) (noIdentHead_space _), lexAux_space]
    rfl
  case BOT_XOR =>
    show lexAux .idle (' ' :: ('x' :: ['o', 'r'] ++ ' ' :: rest)) = _
    rw [lexAux_space, lexAux_ident_piece _ _ _ (by decide) (noIdentHead_space _), lexAux_space]
    rfl

end Reference

namespace Reference

theorem symChar_of_isAlpha (c : Char) (h : c.isAlpha = true) : symChar c = false := by
  by_contra hs
  have hs2 : symChar c = true := by simpa using hs
  simp only [symChar, Bool.or_eq_true, beq_iff_eq] at hs2
  rcases hs2 with ((((((((h1 | h1) | h1) | h1) | h1) | h1) | h1) | h1) | h1) | h1 <;>
    · subst h1
      revert h
      decide

theorem identChar_of_isAlpha (c : Char) (h : c.isAlpha = true) : identChar c = true := by
  simp [identChar, Char.isAlphanum, h]

theorem isIdentifier_data (v : String) (h : isIdentifier v = true) :
    ∃ c w, v.data = c :: w ∧ c.isAlpha = true ∧ (∀ d ∈ c :: w, identChar d = true) ∧
      wordOp v = none := by
  unfold isIdentifier at h
  cases hv : v.data with
  | nil => rw [hv] at h; simp at h
  | cons c w =>
    rw [hv] at h
    simp only [Bool.and_eq_true, List.all_eq_true, Option.isNone_iff_eq_none] at h
    refine ⟨c, w, rfl, h.1.1, ?_, h.2⟩
    intro d hd
    rcases List.mem_cons.1 hd with rfl | hd
    · exact identChar_of_isAlpha _ h.1.1
    · exact h.1.2 d hd

theorem flush_identifier (v : String) (h : isIdentifier v = true) :
    flush (.word v.data) = some [.ident v] := by
  obtain ⟨c, w, _, _, _, hw⟩ := isIdentifier_data v h
  have e : String.mk v.data = v := rfl
  simp only [flush, e, hw, h, if_true]

theorem noIdentHead_binOpText (op : BinOpType) (rest : List Char) :
    noIdentHead ((binOpText op).data ++ rest) := by
  cases op <;>
    · show identChar _ = false
      decide

end Reference

section

open Reference

theorem OpTree.identifierLeaves_bin (l r : OpTree) (op : BinOpType)
    (h : (OpTree.bin l op r).identifierLeaves = true) :
    l.identifierLeaves = true ∧ r.identifierLeaves = true := by
  simpa [OpTree.identifierLeaves, OpTree.leaves, List.all_append] using h

theorem OpTree.identifierLeaves_leaf (a : Leaf)
    (h : (OpTree.leaf a).identifierLeaves = true) :
    ∃ v, a = .id v ∧ Reference.isIdentifier v = true := by
  cases a with
  | id v => exact ⟨v, rfl, by simpa [OpTree.identifierLeaves, OpTree.leaves] using h⟩
  | int n => simp [OpTree.identifierLeaves, OpTree.leaves] at h

theorem OpTree.render_head (t : OpTree) (h : t.identifierLeaves = true) :
    ∀ rest : List Char, noSymHead (t.render.data ++ rest) := by
  induction t with
  | leaf a =>
    intro rest
    obtain ⟨v, rfl, hv⟩ := OpTree.identifierLeaves_leaf a h
    obtain ⟨c, w, hd, hc, _, _⟩ := isIdentifier_data v hv
    simp only [OpTree.render, Leaf.text, hd, List.cons_append]
    exact symChar_of_isAlpha c hc
  | bin l op r ihl _ =>
    intro rest
    obtain ⟨hl, _⟩ := OpTree.identifierLeaves_bin l r op h
    simp only [OpTree.render]
    split_ifs
    all_goals simp only [String.data_append, List.append_assoc]
    all_goals first
      | exact ihl hl _
      | (show symChar '(' = false; decide)

theorem lexAux_wrap (t : OpTree) (p : Prop) [Decidable p]
    (ih : ∀ rest : List Char, noIdentHead rest →
      lexAux .idle (t.render.data ++ rest) = andThen (some t.tokens) (lexAux .idle rest))
    (rest : List Char) (h : noIdentHead rest) :
    lexAux .idle ((if p then "(" ++ t.render ++ ")" else t.render).data ++ rest) =
      andThen (some (wrap (decide p) t.tokens)) (lexAux .idle rest) := by
  by_cases hp : p
  · simp only [hp, if_true, String.data_append, List.append_assoc, wrap, decide_True]
    show lexAux .idle ('(' :: (t.render.data ++ (')' :: rest))) = _
    rw [lexAux_lparen, ih _ (noIdentHead_rparen _), lexAux_rparen]
    cases lexAux .idle rest <;> simp [andThen]
  · simpa [wrap, hp] using ih rest h

theorem noSymHead_wrap (t : OpTree) (p : Prop) [Decidable p] (h : t.identifierLeaves = true)
    (rest : List Char) :
    noSymHead ((if p then "(" ++ t.render ++ ")" else t.render).data ++ rest) := by
  by_cases hp : p
  · simp only [hp, if_true, String.data_append, List.append_assoc]
    show symChar '(' = false
    decide
  · simpa [hp] using OpTree.render_head t h rest

/-- The lexer reads the rendering of a tree over identifiers as the tokens of the tree. -/
theorem lexAux_render (t : OpTree) (h : t.identifierLeaves = true) :
    ∀ rest : List Char, noIdentHead rest →
      lexAux .idle (t.render.data ++ rest) = andThen (some t.tokens) (lexAux .idle rest) := by
  induction t with
  | leaf a =>
    intro rest hrest
    obtain ⟨v, rfl, hv⟩ := OpTree.identifierLeaves_leaf a h
    obtain ⟨c, w, hd, _, hall, _⟩ := isIdentifier_data v hv
    have hf := flush_identifier v hv
    simp only [OpTree.render, Leaf.text, OpTree.tokens]
    rw [hd] at hf ⊢
    rw [lexAux_ident_piece c w rest hall hrest, hf]
  | bin l op r ihl ihr =>
    intro rest hrest
    obtain ⟨hl, hr⟩ := OpTree.identifierLeaves_bin l r op h
    simp only [OpTree.render, OpTree.tokens, String.data_append, List.append_assoc]
    rw [lexAux_wrap l _ (ihl hl) _ (noIdentHead_binOpText _ _),
      lexAux_binOpText _ _ (noSymHead_wrap r _ hr _), lexAux_wrap r _ (ihr hr) _ hrest]
    cases lexAux .idle rest <;> simp [andThen]

theorem lex_render (t : OpTree) (h : t.identifierLeaves = true) :
    lex t.render = some t.tokens := by
  have := lexAux_render t h [] trivial
  simpa [lex, lexAux_nil, flush_idle, andThen] using this

end

/-! ## The reference parser on the tokens of a tree -/

namespace Reference

theorem parse_mono_step (fuel : Nat) :
    (∀ toks r, parsePrimary fuel toks = some r → parsePrimary (fuel + 1) toks = some r) ∧
    (∀ m toks r, parseExpr fuel m toks = some r → parseExpr (fuel + 1) m toks = some r) ∧
    (∀ m lhs toks r, parseLoop fuel m lhs toks = some r →
      parseLoop (fuel + 1) m lhs toks = some r) := by
  induction fuel with
  | zero => refine ⟨?_, ?_, ?_⟩ <;> intros <;> simp_all [parsePrimary, parseExpr, parseLoop]
  | succ n ih =>
    obtain ⟨ihP, ihE, ihL⟩ := ih
    refine ⟨?_, ?_, ?_⟩
    · intro toks r h
      match toks, h with
      | [], h => simp [parsePrimary] at h
      | .ident v :: rest, h => simpa [parsePrimary] using h
      | .op _ :: rest, h => simp [parsePrimary] at h
      | .rparen :: rest, h => simp [parsePrimary] at h
      | .lparen :: rest, h =>
        rw [parsePrimary] at h ⊢
        cases he : parseExpr n topLevel rest with
        | none => rw [he] at h; simp at h
        | some p => rw [he] at h; rw [ihE _ _ _ he]; exact h
    · intro m toks r h
      rw [parseExpr] at h ⊢
      cases hp : parsePrimary n toks with
      | none => rw [hp] at h; simp at h
      | some p =>
        rw [hp] at h
        rw [ihP _ _ hp]
        exact ihL _ _ _ _ h
    · intro m lhs toks r h
      match toks, h with
      | [], h => simpa [parseLoop] using h
      | .ident v :: rest, h => simpa [parseLoop] using h
      | .lparen :: rest, h => simpa [parseLoop] using h
      | .rparen :: rest, h => simpa [parseLoop] using h
      | .op o :: rest, h =>
        rw [parseLoop] at h ⊢
        by_cases hle : opPrec o ≤ m
        · simp only [hle, if_true] at h ⊢
          cases he : parseExpr n (rightLevel o) rest with
          | none => rw [he] at h; simp at h
          | some p =>
            rw [he] at h
            rw [ihE _ _ _ he]
            exact ihL _ _ _ _ h
        · simpa only [hle, if_false] using h

theorem parseLoop_mono (f F m : Nat) (lhs : OpTree) (toks : List Token) (r : OpTree × List Token)
    (h : parseLoop f m lhs toks = some r) (hle : f ≤ F) : parseLoop F m lhs toks = some r := by
  induction hle with
  | refl => exact h
  | step _ ih => exact (parse_mono_step _).2.2 _ _ _ _ ih

theorem parseLoop_stop (f m : Nat) (lhs : OpTree) (rest : List Token) (h : stopsAt m rest) :
    parseLoop (f + 1) m lhs rest = some (lhs, rest) := by
  match rest, h with
  | [], _ => simp [parseLoop]
  | .ident v :: rest, _ => simp [parseLoop]
  | .lparen :: rest, _ => simp [parseLoop]
  | .rparen :: rest, _ => simp [parseLoop]
  | .op o :: rest, h =>
    have h2 : ¬ opPrec o ≤ m := Nat.not_le.2 h
    rw [parseLoop]
    simp only [h2, if_false]

theorem stopsAt_mono (k j : Nat) (rest : List Token) (h : stopsAt k rest) (hle : j ≤ k) :
    stopsAt j rest := by
  match rest, h with
  | [], _ => trivial
  | .ident v :: rest, _ => trivial
  | .lparen :: rest, _ => trivial
  | .rparen :: rest, _ => trivial
  | .op o :: rest, h => exact Nat.lt_of_le_of_lt hle h

theorem opPrec_ge (o : BinOpType) : 200 ≤ opPrec o := by
  cases o <;> decide

theorem opPrec_le (o : BinOpType) : opPrec o ≤ topLevel := by
  cases o <;> decide

theorem opPrec_eq_200 (o : BinOpType) (h : opPrec o = 200) : rightAssoc o = true := by
  cases o <;> first | rfl | (exact absurd h (by decide))

theorem rightAssoc_opPrec (o : BinOpType) (h : rightAssoc o = true) : opPrec o = 200 := by
  cases o <;> first | rfl | (exact absurd h (by decide))

theorem precedenceOp_eq (o : BinOpType) : precedenceOp o = (opPrec o : Int) := by
  cases o <;> rfl

end Reference

section

open Reference

theorem OpTree.precedence_eq (t : OpTree) : precedence t.toExpression = (t.prec : Int) := by
  cases t with
  | leaf a => cases a <;> rfl
  | bin l op r => exact Reference.precedenceOp_eq op

theorem needParens_left (bo left right : Expression) :
    (needParens bo left right &&& PN_LEFT ≠ 0) ↔
      (precedence bo < precedence left ∨
        (precedence bo = precedence left ∧ precedence bo = 200)) := by
  unfold needParens PN_LEFT
  by_cases h1 : precedence bo < precedence left ∨
      (precedence bo = precedence left ∧ precedence bo = 200) <;>
    by_cases h2 : precedence bo < precedence right ∨
      (precedence bo = precedence right ∧ precedence bo ≠ 200) <;>
    simp only [h1, h2, if_true, if_false] <;> decide

theorem needParens_right (bo left right : Expression) :
    (needParens bo left right &&& PN_RIGHT ≠ 0) ↔
      (precedence bo < precedence right ∨
        (precedence bo = precedence right ∧ precedence bo ≠ 200)) := by
  unfold needParens PN_RIGHT
  by_cases h1 : precedence bo < precedence left ∨
      (precedence bo = precedence left ∧ precedence bo = 200) <;>
    by_cases h2 : precedence bo < precedence right ∨
      (precedence bo = precedence right ∧ precedence bo ≠ 200) <;>
    simp only [h1, h2, if_true, if_false] <;> decide

theorem OpTree.left_parens (l r : OpTree) (op : BinOpType) :
    (needParens (OpTree.bin l op r).toExpression l.toExpression r.toExpression &&& PN_LEFT ≠ 0) ↔
      (Reference.opPrec op < l.prec ∨ (Reference.opPrec op = l.prec ∧ Reference.opPrec op = 200)) := by
  rw [needParens_left, OpTree.precedence_eq, OpTree.precedence_eq]
  simp only [OpTree.prec]
  omega

theorem OpTree.right_parens (l r : OpTree) (op : BinOpType) :
    (needParens (OpTree.bin l op r).toExpression l.toExpression r.toExpression &&& PN_RIGHT ≠ 0) ↔
      (Reference.opPrec op < r.prec ∨ (Reference.opPrec op = r.prec ∧ Reference.opPrec op ≠ 200)) := by
  rw [needParens_right, OpTree.precedence_eq, OpTree.precedence_eq]
  simp only [OpTree.prec]
  omega

theorem OpTree.rightLevel_le_prec (t : OpTree) : t.rightLevel ≤ t.prec := by
  cases t with
  | leaf a => exact Nat.le_refl _
  | bin l op r =>
    simp only [OpTree.rightLevel, OpTree.prec, Reference.rightLevel]
    split_ifs <;> omega

/-- An operand without parentheses on the left stops before the operator that follows. -/
theorem OpTree.left_open (l : OpTree) (op : BinOpType)
    (h : ¬ (Reference.opPrec op < l.prec ∨
      (Reference.opPrec op = l.prec ∧ Reference.opPrec op = 200))) :
    l.prec ≤ Reference.opPrec op ∧ l.rightLevel < Reference.opPrec op := by
  have hp := Reference.opPrec_ge op
  cases l with
  | leaf a => simp only [OpTree.prec, OpTree.rightLevel]; omega
  | bin l1 o r1 =>
    simp only [OpTree.prec, OpTree.rightLevel, Reference.rightLevel] at h ⊢
    have ho := Reference.opPrec_ge o
    by_cases ha : Reference.rightAssoc o = true
    · have := Reference.rightAssoc_opPrec o ha
      rw [if_pos ha]
      omega
    · rw [if_neg ha]
      omega

/-- An operand without parentheses on the right is read at the right level of the operator. -/
theorem OpTree.right_open (r : OpTree) (op : BinOpType)
    (h : ¬ (Reference.opPrec op < r.prec ∨
      (Reference.opPrec op = r.prec ∧ Reference.opPrec op ≠ 200))) :
    r.prec ≤ Reference.rightLevel op := by
  have hp := Reference.opPrec_ge op
  simp only [Reference.rightLevel]
  by_cases ha : Reference.rightAssoc op = true
  · rw [if_pos ha]
    omega
  · rw [if_neg ha]
    have : Reference.opPrec op ≠ 200 := fun h2 => ha (Reference.opPrec_eq_200 op h2)
    omega

theorem parsePrimary_lparen (f : Nat) (rest rest1 : List Token) (e : OpTree)
    (h : parseExpr f topLevel rest = some (e, .rparen :: rest1)) :
    parsePrimary (f + 1) (.lparen :: rest) = some (e, rest1) := by
  rw [parsePrimary, h]

theorem parsePrimary_ident (f : Nat) (v : String) (rest : List Token) :
    parsePrimary (f + 1) (.ident v :: rest) = some (.leaf (.id v), rest) := by
  rw [parsePrimary]

theorem parseExpr_succ (f m : Nat) (toks rest : List Token) (lhs : OpTree)
    (h : parsePrimary f toks = some (lhs, rest)) :
    parseExpr (f + 1) m toks = parseLoop f m lhs rest := by
  rw [parseExpr, h]

theorem parseLoop_op (f m : Nat) (lhs rhs : OpTree) (o : BinOpType) (rest rest1 : List Token)
    (h : opPrec o ≤ m) (h2 : parseExpr f (rightLevel o) rest = some (rhs, rest1)) :
    parseLoop (f + 1) m lhs (.op o :: rest) = parseLoop f m (.bin lhs o rhs) rest1 := by
  rw [parseLoop]
  simp only [h, if_true, h2]

theorem OpTree.prec_le_top (t : OpTree) : t.prec ≤ topLevel := by
  cases t with
  | leaf a => exact Nat.zero_le _
  | bin l o r => exact opPrec_le o

/-- An operand, with or without parentheses, is read as the tree it renders. -/
theorem parseExpr_wrap (t : OpTree) (p : Prop) [Decidable p] (k : Nat)
    (ih : ∀ (m : Nat) (rest : List Token) (f F : Nat) (res : OpTree × List Token),
      t.prec ≤ m → stopsAt t.rightLevel rest → parseLoop f m t rest = some res →
      f + t.cost ≤ F → parseExpr F m (t.tokens ++ rest) = some res)
    (rest : List Token) (f F : Nat) (res : OpTree × List Token)
    (hopen : ¬ p → t.prec ≤ k ∧ stopsAt t.rightLevel rest)
    (hloop : parseLoop f k t rest = some res) (hF : f + t.cost + 3 ≤ F) :
    parseExpr F k (wrap (decide p) t.tokens ++ rest) = some res := by
  by_cases hp : p
  · have e : wrap (decide p) t.tokens ++ rest = .lparen :: (t.tokens ++ .rparen :: rest) := by
      simp [wrap, hp]
    obtain ⟨F2, rfl⟩ : ∃ F2, F = F2 + 2 := ⟨F - 2, by omega⟩
    rw [e, parseExpr_succ _ _ _ _ _ (parsePrimary_lparen _ _ _ _
      (ih topLevel (.rparen :: rest) 1 F2 (t, .rparen :: rest) (OpTree.prec_le_top t) trivial
        (parseLoop_stop 0 _ _ _ trivial) (by omega)))]
    exact parseLoop_mono f _ _ _ _ _ hloop (by omega)
  · have e : wrap (decide p) t.tokens ++ rest = t.tokens ++ rest := by
      simp [wrap, hp]
    obtain ⟨h1, h2⟩ := hopen hp
    rw [e]
    exact ih k rest f F res h1 h2 hloop (by omega)

/-- The parser reads the tokens of a tree, followed by tokens at which the tree stops, as
the tree, and goes on with the operators that follow. -/
theorem parseExpr_tokens (t : OpTree) (h : t.identifierLeaves = true) :
    ∀ (m : Nat) (rest : List Token) (f F : Nat) (res : OpTree × List Token),
      t.prec ≤ m → stopsAt t.rightLevel rest → parseLoop f m t rest = some res →
      f + t.cost ≤ F → parseExpr F m (t.tokens ++ rest) = some res := by
  induction t with
  | leaf a =>
    intro m rest f F res _ _ hloop hF
    obtain ⟨v, rfl, _⟩ := OpTree.identifierLeaves_leaf a h
    simp only [OpTree.cost] at hF
    obtain ⟨F2, rfl⟩ : ∃ F2, F = F2 + 2 := ⟨F - 2, by omega⟩
    simp only [OpTree.tokens, Leaf.text, List.singleton_append]
    rw [parseExpr_succ _ _ _ _ _ (parsePrimary_ident _ _ _)]
    exact parseLoop_mono f _ _ _ _ _ hloop (by omega)
  | bin l op r ihl ihr =>
    intro m rest f F res hm hstop hloop hF
    obtain ⟨hl, hr⟩ := OpTree.identifierLeaves_bin l r op h
    simp only [OpTree.cost] at hF
    simp only [OpTree.prec] at hm
    simp only [OpTree.rightLevel] at hstop
    simp only [OpTree.tokens, List.append_assoc, List.cons_append]
    -- the right operand, read at the right level of the operator
    have hR : ∀ F2, r.cost + 4 ≤ F2 →
        parseExpr F2 (rightLevel op)
          (wrap (decide (needParens (OpTree.bin l op r).toExpression l.toExpression
            r.toExpression &&& PN_RIGHT ≠ 0)) r.tokens ++ rest) = some (r, rest) := by
      intro F2 hF2
      refine parseExpr_wrap r _ (rightLevel op) (ihr hr) rest 1 F2 _ ?_
        (parseLoop_stop 0 _ _ _ hstop) (by omega)
      intro hp
      rw [OpTree.right_parens] at hp
      have := OpTree.right_open r op hp
      exact ⟨this, stopsAt_mono _ _ _ hstop (Nat.le_trans (OpTree.rightLevel_le_prec r) this)⟩
    -- the operator and the right operand, after the left operand
    have hA : parseLoop (f + r.cost + 5) m l
        (.op op :: (wrap (decide (needParens (OpTree.bin l op r).toExpression
          l.toExpression r.toExpression &&& PN_RIGHT ≠ 0)) r.tokens ++ rest)) = some res := by
      rw [parseLoop_op _ _ _ _ _ _ _ hm (hR _ (by omega))]
      exact parseLoop_mono f _ _ _ _ _ hloop (by omega)
    -- the left operand
    refine parseExpr_wrap l _ m (ihl hl) _ (f + r.cost + 5) F res ?_ hA (by omega)
    intro hp
    rw [OpTree.left_parens] at hp
    obtain ⟨h1, h2⟩ := OpTree.left_open l op hp
    exact ⟨Nat.le_trans h1 hm, h2⟩

theorem tokens_length_cost (t : OpTree) : t.cost ≤ 8 * t.tokens.length := by
  induction t with
  | leaf a => simp [OpTree.cost, OpTree.tokens]
  | bin l op r ihl ihr =>
    simp only [OpTree.cost, OpTree.tokens, List.length_append, List.length_cons]
    have h1 : ∀ (b : Bool) (ts : List Token), ts.length ≤ (wrap b ts).length := by
      intro b ts
      cases b <;> simp [wrap]
      omega
    have := h1 (decide (needParens (OpTree.bin l op r).toExpression l.toExpression
      r.toExpression &&& PN_LEFT ≠ 0)) l.tokens
    have := h1 (decide (needParens (OpTree.bin l op r).toExpression l.toExpression
      r.toExpression &&& PN_RIGHT ≠ 0)) r.tokens
    omega

/-- The reference parser reads the rendering of a tree over identifiers as the tree. -/
theorem parse_render (t : OpTree) (h : t.identifierLeaves = true) :
    parse t.render = some t := by
  have h1 := parseExpr_tokens t h topLevel [] 1 (8 * t.tokens.length + 1) (t, [])
    (OpTree.prec_le_top t) trivial (parseLoop_stop 0 _ _ _ trivial) (by have := tokens_length_cost t; omega)
  rw [List.append_nil] at h1
  simp only [parse, lex_render t h, h1]

end

/-! ## Shapes and flat texts of the documents of the mapper -/

mutual
theorem shape_setParent : ∀ (d : Document) (pl : Nat), (d.setParent pl).shape = d.shape
  | .BreakPoint _ _, _ => by simp [Document.setParent, Document.shape]
  | .StringDocument _ _, _ => by simp [Document.setParent, Document.shape]
  | .DocumentList _ docs _ _ _ _ _, pl => by
    simp only [Document.setParent, Document.shape]
    rw [shapeDocs_setParentDocs docs (pl + 1)]
theorem shapeDocs_setParentDocs : ∀ (ds : List Document) (pl : Nat),
    Document.shapeDocs (Document.setParentDocs ds pl) = Document.shapeDocs ds
  | [], _ => by simp [Document.setParentDocs]
  | d :: ds, pl => by
    simp only [Document.setParentDocs, Document.shapeDocs]
    rw [shape_setParent d pl, shapeDocs_setParentDocs ds pl]
end

theorem shapeDocs_eq_map (ds : List Document) : Document.shapeDocs ds = ds.map Document.shape := by
  induction ds with
  | nil => rfl
  | cons d ds ih => simp [Document.shapeDocs, ih]

theorem shape_list (l : Nat) (docs : List Document) (b s e : String) (u a : Bool) :
    (Document.DocumentList l docs b s e u a).shape =
      .DocumentList 0 (docs.map Document.shape) b s e u a := by
  simp [Document.shape, shapeDocs_eq_map]

theorem shape_new (b s e : String) (a : Bool) :
    (newDocumentList b s e a).shape = .DocumentList 0 [] b s e false a := rfl

/-- Adding a child to a list adds the shape of the child to the shapes of the children. -/
theorem shape_add (docs : List Document) (b s e : String) (u a : Bool) (l : Nat)
    (dl d : Document) (h : dl.shape = .DocumentList l docs b s e u a) :
    (dl.addDocumentToList d).shape = .DocumentList l (docs ++ [d.shape]) b s e u a := by
  cases dl with
  | BreakPoint _ _ => simp [Document.shape] at h
  | StringDocument _ _ => simp [Document.shape] at h
  | DocumentList l1 docs1 b1 s1 e1 u1 a1 =>
    rw [shape_list] at h
    simp only [Document.DocumentList.injEq] at h
    obtain ⟨rfl, rfl, rfl, rfl, rfl, rfl, rfl⟩ := h
    simp [Document.addDocumentToList, shape_list, shape_setParent]

theorem shape_addString (docs : List Document) (b s e : String) (u a : Bool) (l : Nat)
    (dl : Document) (t : String) (h : dl.shape = .DocumentList l docs b s e u a) :
    (dl.addStringToList t).shape =
      .DocumentList l (docs ++ [.StringDocument 0 t]) b s e u a :=
  shape_add docs b s e u a l dl _ h

theorem shape_addBreakPoint (docs : List Document) (b s e : String) (u a : Bool) (l : Nat)
    (dl : Document) (ds : Bool) (h : dl.shape = .DocumentList l docs b s e u a) :
    (dl.addBreakPoint ds).shape =
      .DocumentList l (docs ++ [.BreakPoint 0 ds]) b s e u a :=
  shape_add docs b s e u a l dl _ h

theorem shape_addDocuments (ds : List Document) :
    ∀ (docs : List Document) (b s e : String) (u a : Bool) (l : Nat) (dl : Document),
      dl.shape = .DocumentList l docs b s e u a →
      (dl.addDocumentsToList ds).shape =
        .DocumentList l (docs ++ ds.map Document.shape) b s e u a := by
  induction ds with
  | nil => intro docs b s e u a l dl h; simpa [Document.addDocumentsToList] using h
  | cons d ds ih =>
    intro docs b s e u a l dl h
    have := ih _ b s e u a l _ (shape_add docs b s e u a l dl d h)
    simpa [Document.addDocumentsToList] using this

theorem mapExpressions_eq (es : List Expression) :
    mapExpressions es = es.map expressionToDocument := by
  induction es with
  | nil => simp [mapExpressions]
  | cons e es ih => simp [mapExpressions, ih]

theorem isList_addDocuments (ds : List Document) (dl : Document) :
    (dl.addDocumentsToList ds).isList = dl.isList :=
  isList_foldl (fun d => d) ds dl

theorem tokens_addDocuments (ds : List Document) (dl : Document) :
    (dl.addDocumentsToList ds).getBeginToken = dl.getBeginToken ∧
    (dl.addDocumentsToList ds).getSeparator = dl.getSeparator ∧
    (dl.addDocumentsToList ds).getEndToken = dl.getEndToken :=
  tokens_foldl (fun d => d) ds dl

theorem visibleTexts_addDocuments (ds : List Document) (dl : Document)
    (h : dl.isList = true) (hd : ∀ d ∈ ds, d.isBreakPoint = false) :
    (dl.addDocumentsToList ds).visibleTexts = dl.visibleTexts ++ ds.map flatten :=
  visibleTexts_foldl (fun d => d) ds dl h hd

/-- The flat text of a list to which documents that are not breaks were added. -/
theorem flatten_addDocuments (b sep e : String) (a : Bool) (ds : List Document)
    (hd : ∀ d ∈ ds, d.isBreakPoint = false) :
    flatten ((newDocumentList b sep e a).addDocumentsToList ds) =
      b ++ joinSep sep (ds.map flatten) ++ e := by
  rw [flatten_of_isList _ (by rw [isList_addDocuments]; rfl),
    visibleTexts_addDocuments ds (newDocumentList b sep e a) rfl hd, (tokens_addDocuments _ _).1,
    (tokens_addDocuments _ _).2.1, (tokens_addDocuments _ _).2.2]
  rfl

theorem isBreakPoint_mapExpressions (es : List Expression) :
    ∀ d ∈ mapExpressions es, d.isBreakPoint = false := by
  intro d hd
  rw [mapExpressions_eq] at hd
  obtain ⟨e, -, rfl⟩ := List.mem_map.1 hd
  exact isBreakPoint_expressionToDocument e

theorem map_flatten_mapExpressions (es : List Expression) :
    (mapExpressions es).map flatten = textsOf es := by
  rw [mapExpressions_eq]
  simp [textsOf, Function.comp_def]

/-! ### Constructor normal form of the documents that the mapper builds -/

theorem add_list (l : Nat) (docs : List Document) (b s e : String) (u a : Bool) (d : Document) :
    (Document.DocumentList l docs b s e u a).addDocumentToList d =
      .DocumentList l (docs ++ [d.setParent l]) b s e u a := rfl

theorem addString_list (l : Nat) (docs : List Document) (b s e : String) (u a : Bool)
    (t : String) :
    (Document.DocumentList l docs b s e u a).addStringToList t =
      .DocumentList l (docs ++ [.StringDocument (l + 1) t]) b s e u a := rfl

theorem addBreakPoint_list (l : Nat) (docs : List Document) (b s e : String) (u a : Bool)
    (ds : Bool) :
    (Document.DocumentList l docs b s e u a).addBreakPoint ds =
      .DocumentList l (docs ++ [.BreakPoint (l + 1) ds]) b s e u a := rfl

theorem new_list (b s e : String) (a : Bool) :
    newDocumentList b s e a = .DocumentList 0 [] b s e false a := rfl

theorem addDocuments_list (ds : List Document) :
    ∀ (l : Nat) (docs : List Document) (b s e : String) (u a : Bool),
      (Document.DocumentList l docs b s e u a).addDocumentsToList ds =
        .DocumentList l (docs ++ ds.map (fun d => d.setParent l)) b s e u a := by
  induction ds with
  | nil => intro l docs b s e u a; simp [Document.addDocumentsToList]
  | cons d ds ih =>
    intro l docs b s e u a
    have := ih l (docs ++ [d.setParent l]) b s e u a
    simpa [Document.addDocumentsToList, add_list] using this

theorem flatten_list (l : Nat) (docs : List Document) (b s e : String) (u a : Bool) :
    flatten (Document.DocumentList l docs b s e u a) = b ++ joinSep s (flattenDocs docs) ++ e := by
  simp [flatten]

theorem flatten_string (l : Nat) (s : String) : flatten (Document.StringDocument l s) = s := by
  simp [flatten]

theorem flattenDocs_nil : flattenDocs [] = [] := by simp [flattenDocs]

theorem flattenDocs_cons_visible (d : Document) (ds : List Document)
    (h : d.isBreakPoint = false) : flattenDocs (d :: ds) = flatten d :: flattenDocs ds := by
  simp [flattenDocs, h]

theorem flattenDocs_cons_break (l : Nat) (b : Bool) (ds : List Document) :
    flattenDocs (Document.BreakPoint l b :: ds) = flattenDocs ds := by
  simp [flattenDocs, Document.isBreakPoint]

theorem flattenDocs_cons_string (l : Nat) (s : String) (ds : List Document) :
    flattenDocs (Document.StringDocument l s :: ds) = s :: flattenDocs ds := by
  simp [flattenDocs, Document.isBreakPoint, flatten]

theorem flattenDocs_cons_list (l : Nat) (docs : List Document) (b s e : String) (u a : Bool)
    (ds : List Document) :
    flattenDocs (Document.DocumentList l docs b s e u a :: ds) =
      (b ++ joinSep s (flattenDocs docs) ++ e) :: flattenDocs ds := by
  simp [flattenDocs, Document.isBreakPoint, flatten]

theorem flattenDocs_cons_setParent (d : Document) (pl : Nat) (ds : List Document) :
    flattenDocs (d.setParent pl :: ds) = flattenDocs (d :: ds) := by
  simp [flattenDocs, isBreakPoint_setParent, flatten_setParent]

theorem flattenDocs_cons_expression (e : Expression) (ds : List Document) :
    flattenDocs (expressionToDocument e :: ds) =
      flatten (expressionToDocument e) :: flattenDocs ds :=
  flattenDocs_cons_visible _ _ (isBreakPoint_expressionToDocument e)

theorem flattenDocs_map_setParent (ds : List Document) (pl : Nat) :
    flattenDocs (ds.map (fun d => d.setParent pl)) = flattenDocs ds := by
  induction ds with
  | nil => rfl
  | cons d ds ih => simp [flattenDocs, isBreakPoint_setParent, flatten_setParent, ih]

theorem flattenDocs_visible (ds : List Document) (h : ∀ d ∈ ds, d.isBreakPoint = false) :
    flattenDocs ds = ds.map flatten := by
  induction ds with
  | nil => simp [flattenDocs]
  | cons d ds ih =>
    rw [flattenDocs_cons_visible d ds (h d (List.mem_cons_self _ _)),
      ih (fun x hx => h x (List.mem_cons_of_mem _ hx))]
    rfl

theorem flattenDocs_mapExpressions (es : List Expression) :
    flattenDocs (mapExpressions es) = textsOf es := by
  rw [flattenDocs_visible _ (isBreakPoint_mapExpressions es), map_flatten_mapExpressions]

theorem setParent_list (l : Nat) (docs : List Document) (b s e : String) (u a : Bool)
    (pl : Nat) :
    (Document.DocumentList l docs b s e u a).setParent pl =
      .DocumentList (pl + 1) (Document.setParentDocs docs (pl + 1)) b s e u a := by
  simp [Document.setParent]

theorem setParent_string (l : Nat) (s : String) (pl : Nat) :
    (Document.StringDocument l s).setParent pl = .StringDocument (pl + 1) s := by
  simp [Document.setParent]

theorem setParent_break (l : Nat) (b : Bool) (pl : Nat) :
    (Document.BreakPoint l b).setParent pl = .BreakPoint (pl + 1) b := by
  simp [Document.setParent]

theorem foldl_addString_list {α : Type} (f : α → String) (xs : List α) :
    ∀ (l : Nat) (docs : List Document) (b s e : String) (u a : Bool),
      xs.foldl (fun (acc : Document) (x : α) => acc.addStringToList (f x))
        (Document.DocumentList l docs b s e u a) =
        .DocumentList l (docs ++ xs.map (fun x => Document.StringDocument (l + 1) (f x)))
          b s e u a := by
  induction xs with
  | nil => intro l docs b s e u a; simp
  | cons x xs ih =>
    intro l docs b s e u a
    simp only [List.foldl_cons, addString_list, ih, List.map_cons, List.append_assoc,
      List.singleton_append]

theorem flattenDocs_map_string {α : Type} (f : α → String) (xs : List α) (l : Nat) :
    flattenDocs (xs.map (fun x => Document.StringDocument l (f x))) = xs.map f := by
  induction xs with
  | nil => rfl
  | cons x xs ih => simp [flattenDocs_cons_string, ih]

theorem joinSep_append_singleton (sep : String) (xs : List String) (y : String)
    (h : xs ≠ []) : joinSep sep (xs ++ [y]) = joinSep sep xs ++ sep ++ y := by
  induction xs with
  | nil => exact absurd rfl h
  | cons x xs ih =>
    cases xs with
    | nil => simp [joinSep]
    | cons x2 xs =>
      have := ih (by simp)
      simp only [List.cons_append] at this ⊢
      simp only [joinSep, this, String.append_assoc]

theorem shape_string (l : Nat) (s : String) :
    (Document.StringDocument l s).shape = .StringDocument 0 s := by
  simp [Document.shape]

theorem shape_break (l : Nat) (b : Bool) :
    (Document.BreakPoint l b).shape = .BreakPoint 0 b := by
  simp [Document.shape]

/-! ## The facade on items and models -/

theorem print_single (mw ib : Int) (sim deepsim : Bool) (u : Int) (d : Document) :
    Single ((PrettyPrinter.new mw ib sim deepsim).printTotal u d) := by
  unfold PrettyPrinter.printTotal
  dsimp only
  rw [print_start]
  obtain ⟨g, -⟩ := printDocument_good _ d _ u true 0 "" "" (start_good mw ib sim deepsim)
    (SameConfig.refl _)
  generalize (PrettyPrinter.mk mw ib 0 0 [[Line.new 0]] [default] [default] sim
      deepsim).printDocumentTotal u d true 0 "" "" = q at *
  split
  · rw [g.single.item]
    unfold PrettyPrinter.simplifyItemTotal
    obtain ⟨s1, -⟩ := setLedger_spec q g.single
      ((vecGet q.linesToSimplify 0).removeAllTotal (vecGet q.linesNotToSimplify 0))
    exact simplifyLoop_preserves Single
      (fun q line vec hq => (simplify_spec q hq line vec).2.1) _ _ _ s1
  · exact g.single

/-- What a freshly constructed engine writes after one `print(d)`: the lines of the layout
of `d`, one after the other. -/
theorem print_fresh_os (mw ib : Int) (sim deepsim : Bool) (u : Int) (d : Document) :
    ((PrettyPrinter.new mw ib sim deepsim).printTotal u d).printOs =
      renderLines (layoutTotal mw ib sim deepsim u d) := by
  have h := print_single mw ib sim deepsim u d
  unfold layoutTotal
  generalize (PrettyPrinter.new mw ib sim deepsim).printTotal u d = q at *
  obtain ⟨ls, lts, lnts, hq, hitem, -, -⟩ := h.exists_eq
  rw [hq]
  simp [PrettyPrinter.printOs, PrettyPrinter.getCurrentItemLines, renderLines, concatStrings,
    h.item, vecGet_zero_singleton]

theorem printItem_fresh (w u : Int) (i : Item) (width : Int) :
    Printer.printItemTotal ⟨PrettyPrinter.new w 4 true true⟩ u i width =
      (⟨PrettyPrinter.new width 4 true true⟩,
        renderLines (layoutTotal w 4 true true u (itemToDocument i))) := by
  simp only [Printer.printItemTotal, Printer.printDocumentTotal, print_fresh_os]

theorem printModel_foldl (u width : Int) (items : List Item) :
    ∀ (w : Int) (acc : String),
      (items.foldl
        (fun (acc : Printer × String) (i : Item) =>
          ((acc.1.printItemTotal u i width).1, acc.2 ++ (acc.1.printItemTotal u i width).2))
        (⟨PrettyPrinter.new w 4 true true⟩, acc)).2 =
      acc ++ concatStrings (List.zipWith
        (fun (w1 : Int) (i : Item) => renderLines (layoutTotal w1 4 true true u (itemToDocument i)))
        (itemWidths w width items.length) items) := by
  induction items with
  | nil => intro w acc; simp [itemWidths, concatStrings]
  | cons i items ih =>
    intro w acc
    simp only [List.foldl_cons, printItem_fresh, List.length_cons, itemWidths]
    rw [ih width]
    cases items with
    | nil => simp [itemWidths, concatStrings, String.append_assoc]
    | cons j items =>
      simp [itemWidths, concatStrings, String.append_assoc, List.replicate_succ]

/-! ## Shapes of the documents of lets and of 2-D array literals -/

theorem intersperse_cons_flatMap {α : Type} (b a : α) (l : List α) :
    List.intersperse b (a :: l) = a :: l.flatMap (fun x => [b, x]) := by
  induction l generalizing a with
  | nil => simp
  | cons x l ih => simp [List.intersperse, ih x]

theorem flatMap_map_eq {α β γ : Type} (f : α → β) (g : β → List γ) (l : List α) :
    (l.map f).flatMap g = l.flatMap (fun x => g (f x)) := by
  induction l with
  | nil => rfl
  | cons x l ih => simp [ih]

theorem zip_range_eq {α : Type} (xs : List α) :
    (List.range xs.length).zip xs = (List.range' 0 xs.length).zip xs := by
  rw [List.range_eq_range']

/-- The loop of `mapLet` over the bindings, from index `k` on: every binding after the
first is preceded by a break. -/
theorem shape_letLoop (ds : Bool) (xs : List (Bool × Document)) :
    ∀ (k : Nat) (docs : List Document) (b s e : String) (u a : Bool) (dl : Document),
      dl.shape = .DocumentList 0 docs b s e u a →
      (((List.range' k xs.length).zip xs).foldl
        (fun (lets : Document) (p : Nat × Bool × Document) =>
          (if p.1 ≠ 0 then lets.addBreakPoint ds else lets).addDocumentToList
            ((if !p.2.1 then (newDocumentList "" " " "," true).addStringToList "constraint"
              else newDocumentList "" " " "," true).addDocumentToList p.2.2)) dl).shape =
      .DocumentList 0 (docs ++
        (if k = 0 then
          List.intersperse (.BreakPoint 0 ds) (xs.map (fun p =>
            Document.DocumentList 0 ((if p.1 then [] else [.StringDocument 0 "constraint"]) ++
              [p.2.shape]) "" " " "," false true))
         else xs.flatMap (fun p => [.BreakPoint 0 ds,
            Document.DocumentList 0 ((if p.1 then [] else [.StringDocument 0 "constraint"]) ++
              [p.2.shape]) "" " " "," false true]))) b s e u a := by
  induction xs with
  | nil => intro k docs b s e u a dl h; simpa using h
  | cons x xs ih =>
    intro k docs b s e u a dl h
    have hx : ((if !x.1 then (newDocumentList "" " " "," true).addStringToList "constraint"
        else newDocumentList "" " " "," true).addDocumentToList x.2).shape =
        Document.DocumentList 0 ((if x.1 then [] else [.StringDocument 0 "constraint"]) ++
          [x.2.shape]) "" " " "," false true := by
      cases x.1 <;>
        simp [new_list, add_list, addString_list, shape_list, shape_setParent, shape_string]
    simp only [List.length_cons, List.range'_succ, List.zip_cons_cons, List.foldl_cons]
    by_cases hk : k = 0
    · subst hk
      have h1 := shape_add _ _ _ _ _ _ _ dl
        ((if !x.1 then (newDocumentList "" " " "," true).addStringToList "constraint"
          else newDocumentList "" " " "," true).addDocumentToList x.2) h
      rw [hx] at h1
      have := ih 1 _ b s e u a _ h1
      simp only [ne_eq, not_true_eq_false, if_false, if_true] at this ⊢
      rw [this]
      simp [intersperse_cons_flatMap, flatMap_map_eq]
    · have h0 := shape_addBreakPoint _ _ _ _ _ _ _ dl ds h
      have h1 := shape_add _ _ _ _ _ _ _ (dl.addBreakPoint ds)
        ((if !x.1 then (newDocumentList "" " " "," true).addStringToList "constraint"
          else newDocumentList "" " " "," true).addDocumentToList x.2) h0
      rw [hx] at h1
      have := ih (k + 1) _ b s e u a _ h1
      simp only [ne_eq, hk, not_false_eq_true, if_true, if_false, Nat.add_one_ne_zero] at this ⊢
      rw [this]
      simp

/-- The shape of the document of a let, from the bindings and the document of the body. -/
theorem shape_mapLetOf (bs : List (Bool × Document)) (inDoc : Document) :
    (mapLetOf bs inDoc).shape =
      .DocumentList 0 [.StringDocument 0 "let \x7b",
        .DocumentList 0 [.BreakPoint 0 (decide (bs.length > 1)),
          .DocumentList 0 (List.intersperse (.BreakPoint 0 (decide (bs.length > 1)))
            (bs.map (fun p => Document.DocumentList 0
              ((if p.1 then [] else [.StringDocument 0 "constraint"]) ++ [p.2.shape])
              "" " " "," false true))) "" " " "" false true] "" "" "" false false,
        .BreakPoint 0 (decide (bs.length > 1)),
        .StringDocument 0 "\x7d in (",
        .DocumentList 0 [.BreakPoint 0 false,
          .DocumentList 0 [inDoc.shape] "" "" "" false true] "" "" "" false false,
        .StringDocument 0 ")"] "" "" "" false true := by
  unfold mapLetOf
  dsimp only
  rw [zip_range_eq]
  have hL := shape_letLoop (decide (bs.length > 1)) bs 0 [] "" " " "" false true
    (newDocumentList "" " " "" true) (shape_new _ _ _ _)
  simp only [if_true, List.nil_append] at hL
  generalize ((List.range' 0 bs.length).zip bs).foldl _ (newDocumentList "" " " "" true) = L
    at hL ⊢
  simp [new_list, add_list, addString_list, addBreakPoint_list, shape_list, shape_setParent,
    shape_string, shape_break, hL]

theorem shape_foldl_add {α : Type} (f : α → Document) (xs : List α) :
    ∀ (docs : List Document) (b s e : String) (u a : Bool) (dl : Document),
      dl.shape = .DocumentList 0 docs b s e u a →
      (xs.foldl (fun (acc : Document) (x : α) => acc.addDocumentToList (f x)) dl).shape =
        .DocumentList 0 (docs ++ xs.map (fun x => (f x).shape)) b s e u a := by
  induction xs with
  | nil => intro docs b s e u a dl h; simpa using h
  | cons x xs ih =>
    intro docs b s e u a dl h
    have := ih _ b s e u a _ (shape_add _ _ _ _ _ _ _ dl (f x) h)
    simpa using this

/-- The loop of `mapArrayLit` over the rows of a 2-D literal, from row `k` on: every row
but the last of the literal is followed by a break that is not to be simplified. -/
theorem shape_arrayLoop (rows : Int) (row : Nat → Document) (n : Nat) :
    ∀ (k : Nat) (docs : List Document) (b s e : String) (u a : Bool) (dl : Document),
      dl.shape = .DocumentList 0 docs b s e u a →
      ((List.range' k n).foldl
        (fun (dl : Document) (i : Nat) =>
          if (i : Int) ≠ rows - 1 then (dl.addDocumentToList (row i)).addBreakPoint true
          else dl.addDocumentToList (row i)) dl).shape =
      .DocumentList 0 (docs ++ (List.range' k n).flatMap (fun i =>
        (row i).shape :: (if (i : Int) ≠ rows - 1 then [.BreakPoint 0 true] else [])))
        b s e u a := by
  induction n with
  | zero => intro k docs b s e u a dl h; simpa using h
  | succ n ih =>
    intro k docs b s e u a dl h
    simp only [List.range'_succ, List.foldl_cons, List.flatMap_cons]
    have h1 := shape_add _ _ _ _ _ _ _ dl (row k) h
    by_cases hk : (k : Int) ≠ rows - 1
    · have h2 := shape_addBreakPoint _ _ _ _ _ _ _ _ true h1
      rw [if_pos hk, if_pos hk, ih (k + 1) _ b s e u a _ h2]
      simp
    · rw [if_neg hk, if_neg hk, ih (k + 1) _ b s e u a _ h1]
      simp

theorem flatMap_last_intersperse {α : Type} (br : α) (row : Nat → α) (r : Nat) (n : Nat) :
    ∀ k : Nat, k + n = r →
      (List.range' k n).flatMap (fun i =>
        row i :: (if (i : Int) ≠ (r : Int) - 1 then [br] else [])) =
      List.intersperse br ((List.range' k n).map row) := by
  induction n with
  | zero => intro k _; simp
  | succ n ih =>
    intro k hk
    cases n with
    | zero =>
      have : ¬ ((k : Int) ≠ (r : Int) - 1) := by omega
      simp [List.range'_succ, this]
    | succ m =>
      have h1 : (k : Int) ≠ (r : Int) - 1 := by omega
      have := ih (k + 1) (by omega)
      rw [List.range'_succ, List.flatMap_cons, this, if_pos h1]
      simp [List.range'_succ, List.intersperse]

theorem range_getD_eq_take_drop {α : Type} [Inhabited α] (l : List α) (k c : Nat)
    (h : k + c ≤ l.length) :
    (List.range c).map (fun j => l.getD (k + j) default) = (l.drop k).take c := by
  apply List.ext_getElem?
  intro j
  by_cases hj : j < c
  · have h2 : k + j < l.length := by omega
    simp [List.getElem?_take, List.getElem?_range, hj, List.getD_eq_getElem?_getD,
      List.getElem?_eq_getElem h2]
  · simp [List.getElem?_take, hj, List.getElem?_eq_none]
    omega

theorem flatMap_chunks {α : Type} (l : List α) (c : Nat) (r : Nat) :
    (List.range r).flatMap (fun i => (l.drop (i * c)).take c) = l.take (r * c) := by
  induction r with
  | zero => simp
  | succ r ih =>
    rw [List.range_succ, List.flatMap_append, ih]
    simp only [List.flatMap_cons, List.flatMap_nil, List.append_nil]
    rw [Nat.succ_mul, List.take_add]

/-- The shape of the document of a 2-D array literal with both starting indices 1. -/
theorem shape_mapArrayLitOf_2d (v : List Document) (r c : Nat) (hlen : v.length = r * c) :
    (mapArrayLitOf [(1, (r : Int)), (1, (c : Int))] v).shape =
      .DocumentList 0 (List.intersperse (.BreakPoint 0 true)
        ((List.range r).map (fun i =>
          Document.DocumentList 0 (((v.drop (i * c)).take c).map Document.shape)
            "" ", " "" false true))) "[| " " | " " |]" false true := by
  have h1 : ¬ ((2 : Nat) = 1) := by decide
  simp only [mapArrayLitOf, List.length_cons, List.length_nil, List.getD_cons_zero,
    List.getD_cons_succ, Nat.reduceAdd, h1, false_and, if_false, and_self, if_true,
    Int.toNat_ofNat]
  rw [show List.range r = List.range' 0 r from List.range_eq_range' r]
  have hrow : ∀ i : Nat, ((List.range c).foldl
      (fun (row : Document) (j : Nat) =>
        row.addDocumentToList (v.getD ((i : Int) * (c : Int) + (j : Int)).toNat default))
      (newDocumentList "" ", " "" true)).shape =
      .DocumentList 0 ((List.range c).map (fun j => (v.getD (i * c + j) default).shape))
        "" ", " "" false true := by
    intro i
    have := shape_foldl_add
      (fun j : Nat => v.getD ((i : Int) * (c : Int) + (j : Int)).toNat default)
      (List.range c) [] "" ", " "" false true (newDocumentList "" ", " "" true)
      (shape_new _ _ _ _)
    rw [this]
    have e : ∀ j : Nat, ((i : Int) * (c : Int) + (j : Int)).toNat = i * c + j := by
      intro j
      have : (i : Int) * (c : Int) + (j : Int) = ((i * c + j : Nat) : Int) := by push_cast; rfl
      rw [this, Int.toNat_ofNat]
    simp only [e, List.nil_append]
  have := shape_arrayLoop (r : Int)
    (fun i => (List.range c).foldl
      (fun (row : Document) (j : Nat) =>
        row.addDocumentToList (v.getD ((i : Int) * (c : Int) + (j : Int)).toNat default))
      (newDocumentList "" ", " "" true)) r 0 [] "[| " " | " " |]" false true
    (newDocumentList "[| " " | " " |]" true) (shape_new _ _ _ _)
  refine Eq.trans this ?_
  · simp only [List.nil_append, hrow]
    rw [flatMap_last_intersperse _ _ r r 0 (by omega)]
    congr 2
    apply List.map_congr_left
    intro i hi
    have hi2 : i < r := by
      have := List.mem_range'.1 hi
      omega
    have hle : i * c + c ≤ v.length := by
      rw [hlen]
      calc i * c + c = (i + 1) * c := by ring
        _ ≤ r * c := Nat.mul_le_mul_right c hi2
    have := range_getD_eq_take_drop v (i * c) c hle
    rw [← this, List.map_map]
    rfl

theorem letBindings_eq (l : List Expression) :
    (l.map Expression.isVarDecl).zip (mapExpressions l) =
      l.map (fun e => (e.isVarDecl, expressionToDocument e)) := by
  rw [mapExpressions_eq]
  induction l with
  | nil => rfl
  | cons e l ih => simp [ih]

/-! ## Occurrences of the separator in the text of an annotation chain -/

theorem occurrences_cons (p : List Char) (c : Char) (cs : List Char) :
    occurrences p (c :: cs) = (if p.isPrefixOf (c :: cs) then 1 else 0) + occurrences p cs := rfl

theorem occurrences_tail (p : List Char) (c : Char) (t : List Char)
    (h : occurrences p (c :: t) = 0) :
    p.isPrefixOf (c :: t) = false ∧ occurrences p t = 0 := by
  rw [occurrences_cons] at h
  by_cases hp : p.isPrefixOf (c :: t) = true
  · rw [if_pos hp] at h
    omega
  · rw [if_neg hp] at h
    exact ⟨Bool.eq_false_iff.mpr hp, by omega⟩

/-- No occurrence of ` :: ` starts inside a text that holds none, does not end with ` ::`
and is followed by a blank or by nothing. -/
theorem occurrences_skip (t rest : List Char) (ht : occurrences [' ', ':', ':', ' '] t = 0)
    (hs : ¬ [' ', ':', ':'] <:+ t) (hr : blankOrEnd rest) :
    occurrences [' ', ':', ':', ' '] (t ++ rest) = occurrences [' ', ':', ':', ' '] rest := by
  induction t with
  | nil => rfl
  | cons c t ih =>
    obtain ⟨hp, ht2⟩ := occurrences_tail _ c t ht
    have hs2 : ¬ [' ', ':', ':'] <:+ t := fun h => hs (h.trans (List.suffix_cons c t))
    rw [List.cons_append, occurrences_cons, ih ht2 hs2]
    have hno : List.isPrefixOf [' ', ':', ':', ' '] (c :: (t ++ rest)) = false := by
      match t, hp, hs with
      | [], _, _ =>
        cases rest with
        | nil => simp [List.isPrefixOf]
        | cons r rest =>
          have : r = ' ' := hr
          subst this
          simp [List.isPrefixOf]
      | [a], _, _ =>
        cases rest with
        | nil => simp [List.isPrefixOf]
        | cons r rest =>
          have : r = ' ' := hr
          subst this
          simp [List.isPrefixOf]
      | [a, b], _, hs3 =>
        cases rest with
        | nil => simp [List.isPrefixOf]
        | cons r rest =>
          by_cases hcab : c = ' ' ∧ a = ':' ∧ b = ':'
          · obtain ⟨rfl, rfl, rfl⟩ := hcab
            exact absurd List.suffix_rfl hs3
          · simp only [List.cons_append, List.nil_append, List.isPrefixOf,
              Bool.and_eq_false_imp, beq_iff_eq]
            intro h1 h2 h3
            exact absurd ⟨h1.symm, h2.symm, h3.symm⟩ hcab
      | a :: b :: d :: t2, hp2, _ =>
        simpa [List.isPrefixOf] using hp2
    rw [hno]
    simp

/-- The separator followed by a text that holds no ` :: `, does not start with `::` and
does not end with ` ::`, and then by a blank or by nothing, holds exactly one occurrence of
` :: `. -/
theorem occurrences_separator (t rest : List Char)
    (ht : occurrences [' ', ':', ':', ' '] t = 0) (hp : ¬ [':', ':'] <+: t)
    (hs : ¬ [' ', ':', ':'] <:+ t) (hr : blankOrEnd rest) :
    occurrences [' ', ':', ':', ' '] ([' ', ':', ':', ' '] ++ (t ++ rest)) =
      1 + occurrences [' ', ':', ':', ' '] rest := by
  have h3 : List.isPrefixOf [' ', ':', ':', ' '] (' ' :: (t ++ rest)) = false := by
    match t, hp with
    | [], _ =>
      cases rest with
      | nil => simp [List.isPrefixOf]
      | cons r rest =>
        have : r = ' ' := hr
        subst this
        simp [List.isPrefixOf]
    | [a], _ =>
      cases rest with
      | nil => simp [List.isPrefixOf]
      | cons r rest =>
        have : r = ' ' := hr
        subst this
        simp [List.isPrefixOf]
    | a :: b :: t2, hp2 =>
      by_cases hab : a = ':' ∧ b = ':'
      · obtain ⟨rfl, rfl⟩ := hab
        exact absurd ⟨t2, rfl⟩ hp2
      · simp only [List.cons_append, List.isPrefixOf, Bool.and_eq_false_imp, beq_iff_eq]
        intro _ h1 h2
        exact absurd ⟨h1.symm, h2.symm⟩ hab
  show occurrences [' ', ':', ':', ' '] (' ' :: ':' :: ':' :: ' ' :: (t ++ rest)) = _
  rw [occurrences_cons, occurrences_cons, occurrences_cons, occurrences_cons, h3,
    occurrences_skip t rest ht hs hr]
  simp [List.isPrefixOf]

theorem occurrences_chain (ts : List (List Char))
    (h : ∀ t ∈ ts, occurrences [' ', ':', ':', ' '] t = 0 ∧ ¬ [':', ':'] <+: t ∧
      ¬ [' ', ':', ':'] <:+ t) :
    occurrences [' ', ':', ':', ' '] (ts.flatMap (fun t => [' ', ':', ':', ' '] ++ t)) =
      ts.length := by
  induction ts with
  | nil => rfl
  | cons t ts ih =>
    have hr : blankOrEnd (ts.flatMap (fun t => [' ', ':', ':', ' '] ++ t)) := by
      cases ts with
      | nil => trivial
      | cons t2 ts => rfl
    obtain ⟨h1, h2, h3⟩ := h t (List.mem_cons_self _ _)
    rw [List.flatMap_cons, List.append_assoc, occurrences_separator t _ h1 h2 h3 hr,
      ih (fun x hx => h x (List.mem_cons_of_mem _ hx)), List.length_cons]
    omega

theorem data_concatStrings (xs : List String) :
    (concatStrings xs).data = xs.flatMap String.data := by
  induction xs with
  | nil => rfl
  | cons x xs ih => simp [concatStrings, ih]

theorem joinSep_begin (b : String) (x : String) (xs : List String) :
    b ++ joinSep b (x :: xs) = concatStrings ((x :: xs).map (fun t => b ++ t)) := by
  induction xs generalizing x with
  | nil => simp [joinSep, concatStrings]
  | cons y xs ih =>
    have := ih y
    simp only [joinSep, List.map_cons, concatStrings] at this ⊢
    rw [← this]
    simp only [String.append_assoc]

/-- The document of an annotation chain: its children and its flat text. -/
theorem mapAnnotationOf_spec (chain : List Document)
    (h : ∀ d ∈ chain, d.isBreakPoint = false) :
    (mapAnnotationOf chain).shape =
      .DocumentList 0 (chain.map Document.shape) " :: " " :: " "" false true ∧
    flatten (mapAnnotationOf chain) = " :: " ++ joinSep " :: " (chain.map flatten) := by
  constructor
  · simp only [mapAnnotationOf, new_list, addDocuments_list, shape_list, List.nil_append,
      List.map_map, Function.comp_def, shape_setParent]
  · simp only [mapAnnotationOf, new_list, addDocuments_list, flatten_list, List.nil_append,
      flattenDocs_map_setParent, flattenDocs_visible chain h, String.append_empty]

/-! ## The walk of a document without unbreakable lists -/

theorem textBefore_append_left (a b : List Line) (m : Nat) (h : m ≤ a.length) :
    textBefore (a ++ b) m = textBefore a m := by
  unfold textBefore
  rw [List.take_append_of_le_length h]

theorem textBefore_length (ls : List Line) : textBefore ls ls.length = size (allText ls) := by
  unfold textBefore
  rw [List.take_length]

theorem WalkInv.mono {pp : PrettyPrinter} {K K1 : List Int} (h : WalkInv pp K)
    (hk : ∀ k ∈ K1, k ∈ K) : WalkInv pp K1 :=
  ⟨h.good, h.deep, fun k hk1 => h.marks k (hk k hk1), h.cand⟩

theorem Good.length_pos {pp : PrettyPrinter} (h : Good pp) : 1 ≤ pp.L.length := by
  have h1 := h.line_nonneg
  have h2 := h.line_last
  omega

theorem walk_printString (pp : PrettyPrinter) (K : List Int) (h : WalkInv pp K) (s : String)
    (al : Bool) (col : Int) : WalkInv (pp.printString s al col) K := by
  obtain ⟨a, x, hL⟩ := h.good.exists_last
  obtain ⟨g1, g2, g3, g4, g5⟩ := printString_spec pp h.good s al col a x hL
  have hlen : pp.L.length ≤ (pp.printString s al col).L.length := by
    rw [g5, hL]
    split <;> simp
  have htb : ∀ m : Nat, m < pp.L.length →
      textBefore (pp.printString s al col).L m = textBefore pp.L m := by
    intro m hm
    rw [hL] at hm
    have hma : m ≤ a.length := by simp at hm; omega
    rw [g5, hL]
    split
    · rw [textBefore_append_left _ _ _ hma, textBefore_append_left _ _ _ hma]
    · rw [textBefore_append_left _ _ _ hma, textBefore_append_left _ _ _ hma]
  refine ⟨g1, g2.2.2.2.trans h.deep, ?_, ?_⟩
  · intro k hk
    obtain ⟨m, h1, h2, h3, h4⟩ := h.marks k hk
    exact ⟨m, by rw [g4]; exact h1, h2, by omega, by rw [htb m h3]; exact h4⟩
  · intro y hy
    rw [g3] at hy
    have := h.cand y hy
    exact ⟨this.1, by omega⟩

theorem walk_addLine (pp : PrettyPrinter) (K : List Int) (h : WalkInv pp K) (col : Int)
    (ds : Bool) (lvl : Nat) :
    WalkInv (pp.addLine col pp.deeplySimp (!ds) lvl)
      (K ++ (if ds then [size (allText pp.L)] else [])) := by
  obtain ⟨g1, g2, g3, g4, g5, g6⟩ :=
    addLine_spec pp h.good.single col pp.deeplySimp (!ds) lvl
  have hcl : pp.currentLine + 1 = (pp.L.length : Int) := h.good.line_last
  have hpos := h.good.length_pos
  have hd := h.deep
  rw [hd] at g2 g3 g4 g5 g6 ⊢
  simp only [Bool.and_self, if_true, Bool.true_and, Bool.not_not] at g5 g6
  refine ⟨addLine_good pp h.good _ _ _ _, g2.2.2.2.trans hd, ?_, ?_⟩
  · intro k hk
    rcases List.mem_append.1 hk with hk | hk
    · obtain ⟨m, h1, h2, h3, h4⟩ := h.marks k hk
      refine ⟨m, ?_, h2, by rw [g3]; simp; omega, ?_⟩
      · rw [g6]
        split
        · exact (mem_allCandidates_addLine _ _ _ _ _).2 (Or.inr h1)
        · exact h1
      · rw [g3, textBefore_append_left _ _ _ (by omega)]
        exact h4
    · cases ds with
      | false => simp at hk
      | true =>
        simp only [if_true, List.mem_singleton] at hk
        subst hk
        refine ⟨pp.L.length, ?_, hpos, by rw [g3]; simp, ?_⟩
        · rw [g6]
          simp only [if_true]
          exact (mem_allCandidates_addLine _ _ _ _ _).2 (Or.inl hcl.symm)
        · rw [g3, textBefore_append_left _ _ _ (le_refl _), textBefore_length]
  · intro y hy
    rw [g5] at hy
    rw [g3]
    rcases (mem_allCandidates_addLine _ _ _ _ _).1 hy with rfl | hy
    · simp; omega
    · have := h.cand y hy
      simp; omega

theorem hasVisible_iff (ds : List Document) : hasVisible ds = true ↔ flattenDocs ds ≠ [] := by
  induction ds with
  | nil => simp [hasVisible, flattenDocs]
  | cons d ds ih =>
    by_cases hd : d.isBreakPoint = true
    · simp only [hasVisible, List.any_cons, hd, Bool.not_true, Bool.false_or, flattenDocs,
        if_true] at ih ⊢
      exact ih
    · have hd1 : d.isBreakPoint = false := by simpa using hd
      simp [hasVisible, flattenDocs, hd1]

/-- The size of the text printed after a child that is not the last one. -/
theorem size_after_child (d : Document) (rest : List Document) (i vs lv last : Int)
    (sep la : String) (hrest : rest ≠ []) (hvs : i + ((d :: rest).length : Int) = vs)
    (hlv : lv = lastVisibleFrom i last (d :: rest)) :
    size (if i ≠ vs - 1 then
        if (d.isBreakPoint || decide (lv ≤ i)) = true then "" else sep else la) =
      (if (!d.isBreakPoint && hasVisible rest) = true then size sep else 0) := by
  have hlen : 1 ≤ rest.length := by
    cases rest with
    | nil => exact absurd rfl hrest
    | cons _ _ => simp
  have hnl : i ≠ vs - 1 := by simp at hvs; omega
  simp only [hnl, ne_eq, not_false_eq_true, if_true]
  by_cases hb : d.isBreakPoint = true
  · simp [hb, size_empty]
  · have hb1 : d.isBreakPoint = false := by simpa using hb
    simp only [hb1, Bool.false_or, Bool.not_false, Bool.true_and]
    have hlv1 : lv = lastVisibleFrom (i + 1) i rest := by
      rw [hlv]; simp [lastVisibleFrom, hb1]
    rcases lastVisibleFrom_cases rest (i + 1) i with hc | hc
    · have h1 : decide (lv ≤ i) = true := by
        rw [hlv1, hc.2]; simp
      have h2 : hasVisible rest = false := by
        cases hv : hasVisible rest with
        | false => rfl
        | true => exact absurd hc.1 ((hasVisible_iff rest).1 hv)
      simp [h1, h2, size_empty]
    · have h1 : decide (lv ≤ i) = false := by
        have := hc.2
        rw [← hlv1] at this
        simp; omega
      have h2 : hasVisible rest = true := (hasVisible_iff rest).2 hc.1
      simp [h1, h2]

mutual
/-- The walk of a document without unbreakable lists starts, at each break that is not to
be simplified, a line that is recorded in `linesNotToSimplify`. -/
theorem walk_printDocument : ∀ (d : Document) (pp : PrettyPrinter) (u : Int) (al : Bool)
    (col : Int) (be af : String) (K : List Int), d.breakable = true → WalkInv pp K →
    WalkInv (pp.printDocumentTotal u d al col be af)
      (K ++ (dsBreakOffsets d).map (fun k => size (allText pp.L) + size be + k))
  | .BreakPoint lvl ds, pp, u, al, col, be, af, K, _, h => by
    simp only [PrettyPrinter.printDocumentTotal, dsBreakOffsets]
    have h1 := walk_printString pp K h be al col
    have h2 := walk_addLine _ _ h1 col ds lvl
    have h3 := walk_printString _ _ h2 af al col
    refine h3.mono ?_
    intro k hk
    rw [printString_text _ h.good, size_append]
    cases ds <;> simpa using hk
  | .StringDocument _ s, pp, u, al, col, be, af, K, _, h => by
    simp only [PrettyPrinter.printDocumentTotal, PrettyPrinter.printStringDoc, dsBreakOffsets,
      List.map_nil, List.append_nil]
    exact walk_printString pp K h _ al col
  | .DocumentList _ ld b sep e unb al1, pp, u, al, col, be, af, K, hb, h => by
    simp only [Document.breakable, Bool.and_eq_true, Bool.not_eq_true'] at hb
    obtain ⟨hunb, hld⟩ := hb
    subst hunb
    simp only [PrettyPrinter.printDocumentTotal, dsBreakOffsets, Bool.false_eq_true, if_false]
    generalize hnac : (if al1 = true then
      (pp.line pp.currentItem pp.currentLine).getIndentation +
        (pp.line pp.currentItem pp.currentLine).getLength + size b else col) = nac
    cases ld with
    | nil =>
      simp only [List.length_nil, Nat.cast_zero, if_true, PrettyPrinter.printDocListLoopTotal,
        PrettyPrinter.printStringDoc, dsBreakOffsetsDocs, List.map_nil, List.append_nil]
      exact walk_printString pp K h _ _ _
    | cons d0 ld0 =>
      have hne : ((d0 :: ld0).length : Int) ≠ 0 := by simp; omega
      simp only [hne, if_false]
      have hloop := walk_printDocListLoop (d0 :: ld0) pp u 0 ((d0 :: ld0).length)
        (lastVisibleElementIndex u (d0 :: ld0)) al1 nac sep (e ++ af) (be ++ b) u K hld h
        (le_refl _) (by simp) rfl
      refine hloop.mono ?_
      intro k hk
      simp only [if_true, size_append, List.map_map, List.mem_append, List.mem_map,
        Function.comp_def] at hk ⊢
      rcases hk with hk | ⟨x, hx, rfl⟩
      · exact Or.inl hk
      · exact Or.inr ⟨x, hx, by ring⟩
/-- The loop of `printDocList` from child `i` on, for children without unbreakable lists. -/
theorem walk_printDocListLoop : ∀ (ld : List Document) (pp : PrettyPrinter) (u : Int)
    (i vs lv : Int) (al : Bool) (nac : Int) (sep la fb : String) (last : Int) (K : List Int),
    Document.breakableDocs ld = true → WalkInv pp K → 0 ≤ i → i + ld.length = vs →
    lv = lastVisibleFrom i last ld →
    WalkInv (PrettyPrinter.printDocListLoopTotal pp u ld i vs lv al nac sep la fb)
      (K ++ (dsBreakOffsetsDocs sep ld).map
        (fun k => size (allText pp.L) + size (if i = 0 then fb else "") + k))
  | [], pp, _, _, _, _, _, _, _, _, _, _, K, _, h, _, _, _ => by
    simpa [PrettyPrinter.printDocListLoopTotal, dsBreakOffsetsDocs] using h
  | d :: ld, pp, u, i, vs, lv, al, nac, sep, la, fb, last, K, hb, h, hi, hvs, hlv => by
    simp only [Document.breakableDocs, Bool.and_eq_true] at hb
    simp only [PrettyPrinter.printDocListLoopTotal, dsBreakOffsetsDocs]
    generalize hnac : (if (d.isBreakPoint && !al) = true then nac + pp.indentationBase
      else nac) = nac1
    have hsz := fun hrest => size_after_child d ld i vs lv last sep la hrest hvs hlv
    generalize (if i ≠ vs - 1 then
      if (d.isBreakPoint || decide (lv ≤ i)) = true then "" else sep else la) = af at hsz
    have hd := walk_printDocument d pp u al nac1 (if i = 0 then fb else "") af K hb.1 h
    have ht := printDocument_text d pp u al nac1 (if i = 0 then fb else "") af h.good
    have hlv1 : lv = lastVisibleFrom (i + 1) (if !d.isBreakPoint then i else last) ld := by
      rw [hlv]; simp [lastVisibleFrom]
    have hrec := walk_printDocListLoop ld
      (pp.printDocumentTotal u d al nac1 (if i = 0 then fb else "") af) u (i + 1) vs lv al
      nac1 sep la fb (if !d.isBreakPoint then i else last) _ hb.2 hd (by omega)
      (by simp at hvs ⊢; omega) hlv1
    refine hrec.mono ?_
    intro k hk
    have hi1 : i + 1 ≠ 0 := by omega
    simp only [hi1, if_false, size_empty, List.map_append, List.map_map, List.mem_append,
      List.mem_map, Function.comp_def, ht, size_append] at hk ⊢
    rcases hk with hk | ⟨x, hx, rfl⟩ | ⟨x, hx, rfl⟩
    · exact Or.inl (Or.inl hk)
    · exact Or.inl (Or.inr ⟨x, hx, rfl⟩)
    · refine Or.inr ⟨x, hx, ?_⟩
      have hrest : ld ≠ [] := by
        intro h0
        rw [h0] at hx
        simp [dsBreakOffsetsDocs] at hx
      rw [hsz hrest]
      ring
end

/-! ## The subtraction step and the loop of `simplifyItem` -/

theorem mem_eraseBuckets (lines : List (Nat × List Int)) (i x : Int) :
    x ∈ (lines.map (fun kb => (kb.1, eraseValue kb.2 i))).flatMap (fun kb => kb.2) ↔
      x ∈ lines.flatMap (fun kb => kb.2) ∧ x ≠ i := by
  induction lines with
  | nil => simp
  | cons kb lines ih =>
    simp only [List.map_cons, List.flatMap_cons, List.mem_append, ih, eraseValue,
      List.mem_filter, decide_eq_true_eq]
    tauto

theorem removeAux_subset : ∀ (fuel : Nat) (lts : LinesToSimplify) (v : Option (List Int))
    (i : Int) (s : Bool) (x : Int),
    x ∈ allCandidates (LinesToSimplify.removeCut fuel lts v i s).1 →
      (x ∈ allCandidates lts ∧ (fuel ≠ 0 → x ≠ i))
  | 0, lts, v, i, s, x, h => by
    simp only [LinesToSimplify.removeCut] at h
    exact ⟨h, fun h0 => absurd rfl h0⟩
  | fuel + 1, lts, v, i, s, x, h => by
    simp only [LinesToSimplify.removeCut] at h
    have key : ∀ (ps : List (Int × Int)) (acc : LinesToSimplify × Option (List Int)),
        x ∈ allCandidates (ps.foldl
          (fun (acc : LinesToSimplify × Option (List Int)) (pr : Int × Int) =>
            if pr.1 = i ∧ pr.2 ≠ i ∧ pr.2 ≠ -1 then
              LinesToSimplify.removeCut fuel acc.1 acc.2 pr.2 false
            else acc) acc).1 → x ∈ allCandidates acc.1 := by
      intro ps
      induction ps with
      | nil => intro acc hx; exact hx
      | cons pr ps ih =>
        intro acc hx
        have := ih _ hx
        dsimp only at this
        split at this
        · exact (removeAux_subset fuel acc.1 acc.2 pr.2 false x this).1
        · exact this
    have hmem : x ∈ allCandidates
        ({ lts with lines := lts.lines.map (fun kb => (kb.1, eraseValue kb.2 i)) } :
          LinesToSimplify) := by
      split at h
      · exact h
      · exact key _ _ h
    have := (mem_eraseBuckets lts.lines i x).1 hmem
    exact ⟨this.1, fun _ => this.2⟩

theorem remove_subset (lts : LinesToSimplify) (v : Option (List Int)) (i : Int) (s : Bool)
    (x : Int) (h : x ∈ allCandidates (lts.removeTotal v i s).1) :
    x ∈ allCandidates lts ∧ x ≠ i := by
  have := removeAux_subset (lts.parent.length + 1) lts v i s x h
  exact ⟨this.1, this.2 (Nat.succ_ne_zero _)⟩

/-- After the subtraction step no line of `other` is a candidate, and every candidate was
one before. -/
theorem removeAll_subset (other : LinesToSimplify) (lts : LinesToSimplify) (x : Int)
    (h : x ∈ allCandidates (lts.removeAllTotal other)) :
    x ∈ allCandidates lts ∧ x ∉ allCandidates other := by
  unfold LinesToSimplify.removeAllTotal at h
  have key : ∀ (is : List Int) (acc : LinesToSimplify),
      x ∈ allCandidates (is.foldl
        (fun (acc : LinesToSimplify) (i : Int) => (acc.removeTotal none i false).1) acc) →
      x ∈ allCandidates acc ∧ x ∉ is := by
    intro is
    induction is with
    | nil => intro acc hx; exact ⟨hx, by simp⟩
    | cons i is ih =>
      intro acc hx
      obtain ⟨h1, h2⟩ := ih _ hx
      obtain ⟨h3, h4⟩ := remove_subset acc none i false x h1
      exact ⟨h3, by simp [h4, h2]⟩
  exact key _ _ h

theorem length_joinLines (ls : List Line) (line : Int) (h0 : 1 ≤ line)
    (hlen : line < (ls.length : Int)) : (joinLines ls line).length + 1 = ls.length := by
  obtain ⟨pre, p, x, post, hL, hl⟩ := exists_mid ls line (by omega) (by omega)
  rw [hL, joinLines_mid pre post p x line hl]
  simp
  omega

/-- Joining line `line` to the line before it keeps the text that stands before every other
line, which is then counted one line lower when it came after. -/
theorem textBefore_joinLines (ls : List Line) (line : Int) (m : Nat) (h0 : 1 ≤ line)
    (hlen : line < (ls.length : Int)) (hm : (m : Int) ≠ line) :
    textBefore (joinLines ls line) (if line ≤ (m : Int) then m - 1 else m) =
      textBefore ls m := by
  obtain ⟨pre, p, x, post, hL, hl⟩ := exists_mid ls line (by omega) (by omega)
  rw [hL, joinLines_mid pre post p x line hl]
  by_cases hc : line ≤ (m : Int)
  · rw [if_pos hc]
    obtain ⟨t, rfl⟩ : ∃ t, m = pre.length + (t + 2) := ⟨m - (pre.length + 2), by omega⟩
    have e1 : pre.length + (t + 2) - 1 = pre.length + (t + 1) := by omega
    unfold textBefore
    rw [e1, List.take_append, List.take_append]
    simp only [List.take_succ_cons, allText_append, allText_cons, Line.concatenateLines,
      concatStrings_append, String.append_assoc]
  · rw [if_neg hc]
    have hle : m ≤ pre.length := by omega
    rw [textBefore_append_left _ _ _ hle, textBefore_append_left _ _ _ hle]

theorem mem_decrementVec (v : List Int) (l x : Int) :
    x ∈ decrementVec v l ↔ ∃ y ∈ v, x = (if y ≥ l then y - 1 else y) := by
  simp only [decrementVec, List.mem_map]
  constructor
  · rintro ⟨y, hy, rfl⟩; exact ⟨y, hy, rfl⟩
  · rintro ⟨y, hy, rfl⟩; exact ⟨y, hy, rfl⟩

theorem mem_eraseValue (v : List Int) (i x : Int) : x ∈ eraseValue v i ↔ x ∈ v ∧ x ≠ i := by
  simp [eraseValue]

/-- One successful `simplify` keeps the state of the loop. -/
theorem loopInv_join (ls : List Line) (vec M K : List Int) (line : Int)
    (h : LoopInv ls vec M K) (hl : line ∈ vec) :
    LoopInv (joinLines ls line) (decrementVec (eraseValue vec line) line)
      (decrementVec M line) K := by
  obtain ⟨h0, hlen⟩ := h.range line hl
  have hnm := h.apart line hl
  have hjl := length_joinLines ls line h0 hlen
  refine ⟨?_, ?_, ?_⟩
  · intro k hk
    obtain ⟨m, h1, h2, h3, h4⟩ := h.marks k hk
    have hne : (m : Int) ≠ line := fun e => hnm (e ▸ h1)
    refine ⟨if line ≤ (m : Int) then m - 1 else m, ?_, ?_, ?_, ?_⟩
    · refine (mem_decrementVec M line _).2 ⟨m, h1, ?_⟩
      by_cases hc : line ≤ (m : Int)
      · rw [if_pos hc, if_pos (by omega)]
        have : 1 ≤ m := h2
        push_cast [Nat.cast_sub this]
        rfl
      · rw [if_neg hc, if_neg (by omega)]
    · split <;> omega
    · split <;> omega
    · rw [textBefore_joinLines ls line m h0 hlen hne]
      exact h4
  · intro x hx hxm
    obtain ⟨y, hy, rfl⟩ := (mem_decrementVec _ line x).1 hx
    obtain ⟨hy1, hy2⟩ := (mem_eraseValue vec line y).1 hy
    obtain ⟨z, hz, hzq⟩ := (mem_decrementVec M line _).1 hxm
    have hz2 : z ≠ line := fun e => hnm (e ▸ hz)
    have : y = z := by
      split at hzq <;> split at hzq <;> omega
    exact h.apart y hy1 (this ▸ hz)
  · intro x hx
    obtain ⟨y, hy, rfl⟩ := (mem_decrementVec _ line x).1 hx
    obtain ⟨hy1, hy2⟩ := (mem_eraseValue vec line y).1 hy
    have := h.range y hy1
    split <;> omega

/-- At every place of `K` a line of the item starts when the loop of `simplifyItem` ends. -/
theorem simplifyLoop_marks (K : List Int) :
    ∀ (fuel : Nat) (pp : PrettyPrinter) (vec M : List Int), Single pp →
      LoopInv pp.L vec M K →
      ∀ k ∈ K, ∃ m : Nat, 1 ≤ m ∧ m < (PrettyPrinter.simplifyLoopTotal fuel pp 0 vec).1.L.length ∧
        textBefore (PrettyPrinter.simplifyLoopTotal fuel pp 0 vec).1.L m = k
  | 0, pp, vec, M, _, h, k, hk => by
    obtain ⟨m, -, h2, h3, h4⟩ := h.marks k hk
    exact ⟨m, h2, by simpa [PrettyPrinter.simplifyLoopTotal] using h3,
      by simpa [PrettyPrinter.simplifyLoopTotal] using h4⟩
  | fuel + 1, pp, [], M, _, h, k, hk => by
    obtain ⟨m, -, h2, h3, h4⟩ := h.marks k hk
    exact ⟨m, h2, by simpa [PrettyPrinter.simplifyLoopTotal] using h3,
      by simpa [PrettyPrinter.simplifyLoopTotal] using h4⟩
  | fuel + 1, pp, l :: vec, M, hs, h, k, hk => by
    obtain ⟨g0, g1, g2, g3, -, -, g6⟩ := simplify_spec pp hs l (some (l :: vec))
    simp only [PrettyPrinter.simplifyLoopTotal]
    by_cases hc : canJoin pp.maxwidth pp.L l = true
    · rw [hc] at g0 g6
      have hL : (pp.simplifyTotal 0 l (some (l :: vec))).2.1.L = joinLines pp.L l := by
        rw [g3, joinAt, if_pos hc]
      have hv : (pp.simplifyTotal 0 l (some (l :: vec))).2.2 =
          some (decrementVec (eraseValue (l :: vec) l) l) := by
        rw [← ledgerAfter_true_vec pp.T (l :: vec) l, ← g6]
      simp only [g0, Bool.not_true, Bool.false_eq_true, if_false, hv, Option.getD_some]
      have hinv := loopInv_join pp.L (l :: vec) M K l h (List.mem_cons_self _ _)
      rw [← hL] at hinv
      exact simplifyLoop_marks K fuel _ _ _ g1 hinv k hk
    · have hc1 : canJoin pp.maxwidth pp.L l = false := by simpa using hc
      rw [hc1] at g0
      have hL : (pp.simplifyTotal 0 l (some (l :: vec))).2.1.L = pp.L := by
        rw [g3, joinAt, if_neg hc]
      simp only [g0, Bool.not_false, if_true, hL]
      obtain ⟨m, -, h2, h3, h4⟩ := h.marks k hk
      exact ⟨m, h2, h3, h4⟩

theorem start_walkInv (mw ib : Int) (sim : Bool) :
    WalkInv ⟨mw, ib, 0, 0, [[Line.new 0]], [default], [default], sim, true⟩ [] := by
  refine ⟨start_good mw ib sim true, rfl, fun k hk => absurd hk (List.not_mem_nil k), ?_⟩
  intro x hx
  have e : allCandidates (PrettyPrinter.T ⟨mw, ib, 0, 0, [[Line.new 0]], [default], [default],
      sim, true⟩) = [] := by
    simp only [PrettyPrinter.T, vecGet_zero_singleton]
    rfl
  rw [e] at hx
  exact absurd hx (List.not_mem_nil x)

/-- In the layout of a document without unbreakable lists, with both simplifications on, a
line other than the first starts at the place of every break that is not to be
simplified. -/
theorem layout_dsBreaks (mw ib u : Int) (d : Document) (hb : d.breakable = true) :
    ∀ k ∈ dsBreakOffsets d, ∃ m : Nat, 1 ≤ m ∧ m < (layoutTotal mw ib true true u d).length ∧
      textBefore (layoutTotal mw ib true true u d) m = k := by
  intro k hk
  rw [layout_eq]
  simp only [if_true]
  have hW := walk_printDocument d _ u true 0 "" "" [] hb (start_walkInv mw ib true)
  generalize (PrettyPrinter.mk mw ib 0 0 [[Line.new 0]] [default] [default] true
    true).printDocumentTotal u d true 0 "" "" = W at hW ⊢
  have hkK : k ∈ [] ++ (dsBreakOffsets d).map
      (fun k => size (allText (PrettyPrinter.L ⟨mw, ib, 0, 0, [[Line.new 0]], [default],
        [default], true, true⟩)) + size "" + k) := by
    simp only [List.nil_append, List.mem_map]
    refine ⟨k, hk, ?_⟩
    simp [PrettyPrinter.L, vecGet_zero_singleton, allText_new, size_empty]
  unfold PrettyPrinter.simplifyItemTotal
  obtain ⟨s1, -, s3, s4, s5⟩ := setLedger_spec W hW.good.single
    ((vecGet W.linesToSimplify 0).removeAllTotal (vecGet W.linesNotToSimplify 0))
  have s4' : vecGet (vecModify W.linesToSimplify 0 (fun _ =>
      (vecGet W.linesToSimplify 0).removeAllTotal (vecGet W.linesNotToSimplify 0))) 0 =
      (vecGet W.linesToSimplify 0).removeAllTotal (vecGet W.linesNotToSimplify 0) := s4
  dsimp only
  refine simplifyLoop_marks _ _ _ _ (allCandidates W.N) s1 ?_ k hkK
  rw [s3]
  refine ⟨hW.marks, ?_, ?_⟩
  · intro x hx
    have hx1 := (mem_getLinesToSimplify _ x).1 hx
    rw [s4'] at hx1
    exact (removeAll_subset _ _ x hx1).2
  · intro x hx
    have hx1 := (mem_getLinesToSimplify _ x).1 hx
    rw [s4'] at hx1
    exact hW.cand x (removeAll_subset _ _ x hx1).1

/-! ## Levels of the documents built with `addDocumentToList` -/

theorem leveledDocs_iff (n : Nat) (ds : List Document) :
    Document.leveledDocs n ds = true ↔ ∀ d ∈ ds, d.leveled n = true := by
  induction ds with
  | nil => simp [Document.leveledDocs]
  | cons d ds ih => simp [Document.leveledDocs, ih]

mutual
theorem setParent_leveled : ∀ (d : Document) (pl : Nat),
    (d.setParent pl).leveled (pl + 1) = true
  | .BreakPoint _ _, pl => by simp [Document.setParent, Document.leveled]
  | .StringDocument _ _, pl => by simp [Document.setParent, Document.leveled]
  | .DocumentList _ docs _ _ _ _ _, pl => by
    simp only [Document.setParent, Document.leveled, decide_True, Bool.true_and]
    exact setParentDocs_leveled docs (pl + 1)
theorem setParentDocs_leveled : ∀ (ds : List Document) (pl : Nat),
    Document.leveledDocs (pl + 1) (Document.setParentDocs ds pl) = true
  | [], _ => by simp [Document.setParentDocs, Document.leveledDocs]
  | d :: ds, pl => by
    simp only [Document.setParentDocs, Document.leveledDocs, Bool.and_eq_true]
    exact ⟨setParent_leveled d pl, setParentDocs_leveled ds pl⟩
end

theorem getLevel_of_leveled (d : Document) (n : Nat) (h : d.leveled n = true) :
    d.getLevel = n := by
  cases d <;> simp [Document.leveled] at h <;> simp [Document.getLevel, h]

theorem leveledDocs_modify (n : Nat) (f : Document → Document)
    (hf : ∀ x, x.leveled n = true → (f x).leveled n = true) :
    ∀ (ds : List Document) (i : Nat), Document.leveledDocs n ds = true →
      Document.leveledDocs n (ds.modify f i) = true := by
  intro ds
  induction ds with
  | nil => intro i h; cases i <;> simpa using h
  | cons d ds ih =>
    intro i h
    simp only [Document.leveledDocs, Bool.and_eq_true] at h
    cases i with
    | zero =>
      simp only [List.modify_zero_cons, Document.leveledDocs, Bool.and_eq_true]
      exact ⟨hf d h.1, h.2⟩
    | succ i =>
      simp only [List.modify_succ_cons, Document.leveledDocs, Bool.and_eq_true]
      exact ⟨h.1, ih i h.2⟩

theorem addDocumentToList_leveled (t c : Document) (n : Nat) (h : t.leveled n = true) :
    (t.addDocumentToList c).leveled n = true := by
  cases t with
  | BreakPoint l ds => simpa [Document.addDocumentToList] using h
  | StringDocument l s => simpa [Document.addDocumentToList] using h
  | DocumentList l docs b s e u a =>
    simp only [Document.leveled, Bool.and_eq_true, decide_eq_true_eq] at h
    obtain ⟨h1, h2⟩ := h
    subst h1
    simp only [Document.addDocumentToList, Document.leveled, decide_True, Bool.true_and]
    rw [leveledDocs_iff] at h2 ⊢
    intro d hd
    rcases List.mem_append.1 hd with hd | hd
    · exact h2 d hd
    · rw [List.mem_singleton.1 hd]
      exact setParent_leveled c l

theorem addAt_leveled : ∀ (path : List Nat) (t c : Document) (n : Nat),
    t.leveled n = true → (t.addAt path c).leveled n = true
  | [], t, c, n, h => by
    simp only [Document.addAt]
    exact addDocumentToList_leveled t c n h
  | i :: path, .BreakPoint l ds, c, n, h => by simpa [Document.addAt] using h
  | i :: path, .StringDocument l s, c, n, h => by simpa [Document.addAt] using h
  | i :: path, .DocumentList l docs b s e u a, c, n, h => by
    simp only [Document.leveled, Bool.and_eq_true, decide_eq_true_eq] at h
    obtain ⟨h1, h2⟩ := h
    subst h1
    simp only [Document.addAt, Document.leveled, decide_True, Bool.true_and]
    exact leveledDocs_modify (l + 1) _ (fun x hx => addAt_leveled path x c (l + 1) hx) docs i h2

theorem setUnbreakable_leveled (t : Document) (b : Bool) (n : Nat) (h : t.leveled n = true) :
    (t.setUnbreakable b).leveled n = true := by
  cases t <;> simpa [Document.setUnbreakable, Document.leveled] using h

theorem run_leveled : ∀ (w : Build), (Build.run w).leveled 0 = true
  | .breakPoint ds => by simp [Build.run, newBreakPoint, Document.leveled]
  | .string s => by simp [Build.run, newStringDocument, Document.leveled]
  | .list b s e a => by
    simp [Build.run, newDocumentList, Document.leveled, Document.leveledDocs]
  | .unbreakable t b => by
    simp only [Build.run]
    exact setUnbreakable_leveled _ b 0 (run_leveled t)
  | .add t path c => by
    simp only [Build.run]
    exact addAt_leveled path _ _ 0 (run_leveled t)

/-! ## The step `simplify` on any item -/

theorem vecGet_vecModify_same {α : Type} [Inhabited α] (v : List α) (i : Int) (f : α → α)
    (h0 : 0 ≤ i) (h : i < v.length) : vecGet (vecModify v i f) i = f (vecGet v i) := by
  have hi : ¬ i < 0 := by omega
  simp only [vecGet, vecModify, if_neg hi]
  have hn : i.toNat < v.length := by omega
  simp [List.getD_eq_getElem?_getD, List.getElem?_modify, hn]

theorem vecGet_vecModify_ne {α : Type} [Inhabited α] (v : List α) (i j : Int) (f : α → α)
    (h : j ≠ i) : vecGet (vecModify v i f) j = vecGet v j := by
  simp only [vecGet, vecModify]
  by_cases hj : j < 0
  · simp [hj]
  · by_cases hi : i < 0
    · simp [hi]
    · rw [if_neg hj, if_neg hi, if_neg hj]
      have hne : i.toNat ≠ j.toNat := by omega
      simp [List.getD_eq_getElem?_getD, List.getElem?_modify, hne]

/-- The flag and the items of `simplifyTotal`, on any engine. -/
theorem simplify_items (pp : PrettyPrinter) (item line : Int) (vec : Option (List Int)) :
    (pp.simplifyTotal item line vec).1 = canJoin pp.maxwidth (vecGet pp.items item) line ∧
    (pp.simplifyTotal item line vec).2.1.items =
      (if canJoin pp.maxwidth (vecGet pp.items item) line then
        vecModify (vecModify pp.items item (fun ls => vecModify ls (line - 1)
          (fun l1 => l1.concatenateLines (vecGet (vecGet pp.items item) line)))) item
          (fun ls => vecErase ls line)
       else pp.items) := by
  by_cases h0 : line = 0
  · subst h0
    simp [PrettyPrinter.simplifyTotal, canJoin]
  · by_cases hc : (vecGet (vecGet pp.items item) line).getLength >
        (vecGet (vecGet pp.items item) (line - 1)).getSpaceLeft pp.maxwidth
    · simp [PrettyPrinter.simplifyTotal, canJoin, h0, hc, PrettyPrinter.line]
    · simp [PrettyPrinter.simplifyTotal, canJoin, h0, hc, PrettyPrinter.line]

/-! ## The cascade of `remove` along the parent table -/

theorem mem_eraseOpt (v : Option (List Int)) (i x : Int) :
    x ∈ (v.map (fun w => eraseValue w i)).getD [] ↔ x ∈ v.getD [] ∧ x ≠ i := by
  cases v with
  | none => simp
  | some w => simp [mem_eraseValue]

theorem removeAux_succ_false (fuel : Nat) (lts : LinesToSimplify) (v : Option (List Int))
    (i : Int) :
    LinesToSimplify.removeCut (fuel + 1) lts v i false =
      lts.parent.foldl (cascadeStep fuel i) (lts.eraseLine i, v.map (fun w => eraseValue w i)) :=
  rfl

theorem removeAux_succ_true (fuel : Nat) (lts : LinesToSimplify) (v : Option (List Int))
    (i : Int) :
    LinesToSimplify.removeCut (fuel + 1) lts v i true =
      (lts.eraseLine i, v.map (fun w => eraseValue w i)) :=
  rfl

theorem mem_eraseLine (lts : LinesToSimplify) (i x : Int) :
    x ∈ allCandidates (lts.eraseLine i) ↔ x ∈ allCandidates lts ∧ x ≠ i :=
  mem_eraseBuckets lts.lines i x

theorem link_iff (P : List (Int × Int)) (fuel : Nat) (i x : Int) :
    (∀ pr ∈ P, (pr.1 = i ∧ pr.2 ≠ i ∧ pr.2 ≠ -1) → ¬ Within P fuel pr.2 x) ↔
      ¬ ∃ j, Link P i j ∧ Within P fuel j x := by
  constructor
  · rintro h ⟨j, ⟨hm, hj1, hj2⟩, hw⟩
    exact h (i, j) hm ⟨rfl, hj1, hj2⟩ hw
  · rintro h ⟨a, b⟩ hm ⟨ha, hb1, hb2⟩ hw
    simp only at ha hb1 hb2 hw
    subst ha
    exact h ⟨b, ⟨hm, hb1, hb2⟩, hw⟩

/-- The cascade over the pairs `ps` of the parent table, given what the calls one level
down leave. -/
theorem mem_cascade (fuel : Nat) (P : List (Int × Int)) (i x : Int)
    (ih : ∀ (lts : LinesToSimplify) (v : Option (List Int)) (j : Int),
      (x ∈ allCandidates (LinesToSimplify.removeCut fuel lts v j false).1 ↔
        x ∈ allCandidates lts ∧ ¬ Within lts.parent fuel j x) ∧
      (x ∈ (LinesToSimplify.removeCut fuel lts v j false).2.getD [] ↔
        x ∈ v.getD [] ∧ ¬ Within lts.parent fuel j x) ∧
      (LinesToSimplify.removeCut fuel lts v j false).1.parent = lts.parent) :
    ∀ (ps : List (Int × Int)) (acc : LinesToSimplify × Option (List Int)),
      acc.1.parent = P →
      (x ∈ allCandidates (ps.foldl (cascadeStep fuel i) acc).1 ↔
        x ∈ allCandidates acc.1 ∧
          ∀ pr ∈ ps, (pr.1 = i ∧ pr.2 ≠ i ∧ pr.2 ≠ -1) → ¬ Within P fuel pr.2 x) ∧
      (x ∈ (ps.foldl (cascadeStep fuel i) acc).2.getD [] ↔
        x ∈ acc.2.getD [] ∧
          ∀ pr ∈ ps, (pr.1 = i ∧ pr.2 ≠ i ∧ pr.2 ≠ -1) → ¬ Within P fuel pr.2 x) ∧
      (ps.foldl (cascadeStep fuel i) acc).1.parent = P := by
  intro ps
  induction ps with
  | nil => intro acc hp; simp [hp]
  | cons pr ps ihp =>
    intro acc hp
    simp only [List.foldl_cons, List.mem_cons, forall_eq_or_imp]
    by_cases hc : pr.1 = i ∧ pr.2 ≠ i ∧ pr.2 ≠ -1
    · have hs : cascadeStep fuel i acc pr =
          LinesToSimplify.removeCut fuel acc.1 acc.2 pr.2 false := by
        unfold cascadeStep; rw [if_pos hc]
      rw [hs]
      obtain ⟨r1, r2, r3⟩ := ih acc.1 acc.2 pr.2
      obtain ⟨s1, s2, s3⟩ := ihp _ (r3.trans hp)
      rw [hp] at r1 r2
      refine ⟨?_, ?_, s3⟩
      · rw [s1, r1]
        exact ⟨fun h => ⟨h.1.1, fun _ => h.1.2, h.2⟩, fun h => ⟨⟨h.1, h.2.1 hc⟩, h.2.2⟩⟩
      · rw [s2, r2]
        exact ⟨fun h => ⟨h.1.1, fun _ => h.1.2, h.2⟩, fun h => ⟨⟨h.1, h.2.1 hc⟩, h.2.2⟩⟩
    · have hs : cascadeStep fuel i acc pr = acc := by
        unfold cascadeStep; rw [if_neg hc]
      rw [hs]
      obtain ⟨s1, s2, s3⟩ := ihp acc hp
      refine ⟨?_, ?_, s3⟩
      · rw [s1]
        exact ⟨fun h => ⟨h.1, fun h1 => absurd h1 hc, h.2⟩, fun h => ⟨h.1, h.2.2⟩⟩
      · rw [s2]
        exact ⟨fun h => ⟨h.1, fun h1 => absurd h1 hc, h.2⟩, fun h => ⟨h.1, h.2.2⟩⟩

/-- What `removeCut` leaves in the buckets and in the vector for `success = false`, and
that it leaves the parent table as it is. -/
theorem mem_removeAux (x : Int) : ∀ (fuel : Nat) (lts : LinesToSimplify)
    (v : Option (List Int)) (i : Int),
    (x ∈ allCandidates (LinesToSimplify.removeCut fuel lts v i false).1 ↔
      x ∈ allCandidates lts ∧ ¬ Within lts.parent fuel i x) ∧
    (x ∈ (LinesToSimplify.removeCut fuel lts v i false).2.getD [] ↔
      x ∈ v.getD [] ∧ ¬ Within lts.parent fuel i x) ∧
    (LinesToSimplify.removeCut fuel lts v i false).1.parent = lts.parent := by
  intro fuel
  induction fuel with
  | zero =>
    intro lts v i
    simp [LinesToSimplify.removeCut, Within]
  | succ fuel ih =>
    intro lts v i
    rw [removeAux_succ_false]
    obtain ⟨k1, k2, k3⟩ := mem_cascade fuel lts.parent i x ih lts.parent
      (lts.eraseLine i, v.map (fun w => eraseValue w i)) rfl
    refine ⟨?_, ?_, k3⟩
    · rw [k1, link_iff, mem_eraseLine]
      simp only [Within, not_or, and_assoc, ne_eq]
    · rw [k2, link_iff, mem_eraseOpt]
      simp only [Within, not_or, and_assoc, ne_eq]

theorem Within.mono_fuel {P : List (Int × Int)} : ∀ {n m : Nat} {i x : Int},
    Within P n i x → n ≤ m → Within P m i x
  | 0, _, _, _, h, _ => h.elim
  | n + 1, 0, _, _, _, hm => absurd hm (by omega)
  | n + 1, m + 1, i, x, h, hm => by
    rcases h with h | ⟨j, hl, hw⟩
    · exact Or.inl h
    · exact Or.inr ⟨j, hl, Within.mono_fuel hw (by omega)⟩

theorem Within.mono_table {P Q : List (Int × Int)} (hs : ∀ pr ∈ P, pr ∈ Q) :
    ∀ {n : Nat} {i x : Int}, Within P n i x → Within Q n i x
  | 0, _, _, h => h.elim
  | n + 1, i, x, h => by
    rcases h with h | ⟨j, hl, hw⟩
    · exact Or.inl h
    · exact Or.inr ⟨j, ⟨hs _ hl.1, hl.2⟩, Within.mono_table hs hw⟩

theorem Within.reaches {P : List (Int × Int)} : ∀ {n : Nat} {i x : Int},
    Within P n i x → Reaches P i x
  | 0, _, _, h => h.elim
  | n + 1, i, x, h => by
    rcases h with h | ⟨j, hl, hw⟩
    · rw [h]; exact Relation.ReflTransGen.refl
    · exact Relation.ReflTransGen.head hl (Within.reaches hw)

/-- A chain of links from `i` to another line can be taken to leave `i` once. -/
theorem Reaches.split {P : List (Int × Int)} {i x : Int} (h : Reaches P i x) :
    x = i ∨ ∃ j, Link P i j ∧ Reaches (P.filter (fun pr => decide (pr.1 ≠ i))) j x := by
  induction h with
  | refl => exact Or.inl rfl
  | tail hxy hyz ih =>
    rename_i y z
    by_cases hz : z = i
    · exact Or.inl hz
    · right
      rcases ih with ih | ⟨j, hl, hr⟩
      · subst ih
        exact ⟨z, hyz, Relation.ReflTransGen.refl⟩
      · by_cases hy : y = i
        · subst hy
          exact ⟨z, hyz, Relation.ReflTransGen.refl⟩
        · refine ⟨j, hl, Relation.ReflTransGen.tail hr ⟨?_, hyz.2⟩⟩
          simp only [List.mem_filter, decide_eq_true_eq]
          exact ⟨hyz.1, hy⟩

/-- A line reached by parent links is reached by a chain no longer than the table. -/
theorem Reaches.within : ∀ (n : Nat) (P : List (Int × Int)) (i x : Int),
    P.length ≤ n → Reaches P i x → Within P (n + 1) i x
  | 0, P, i, x, hn, h => by
    rcases h.split with h | ⟨j, hl, -⟩
    · exact Or.inl h
    · have : P = [] := List.length_eq_zero.mp (by omega)
      rw [this] at hl
      exact absurd hl.1 (List.not_mem_nil _)
  | n + 1, P, i, x, hn, h => by
    rcases h.split with h | ⟨j, hl, hr⟩
    · exact Or.inl h
    · have hlt : (P.filter (fun pr => decide (pr.1 ≠ i))).length < P.length := by
        rw [List.length_filter_lt_length_iff_exists]
        exact ⟨(i, j), hl.1, by simp⟩
      have := Reaches.within n _ j x (by omega) hr
      exact Or.inr ⟨j, hl, Within.mono_table (fun pr hp => (List.mem_filter.1 hp).1) this⟩

theorem reaches_iff_within (P : List (Int × Int)) (i x : Int) :
    Reaches P i x ↔ Within P (P.length + 1) i x :=
  ⟨Reaches.within P.length P i x (le_refl _), Within.reaches⟩

/-- What `removeTotal` leaves for `success = false`: the lines that the chain of parent
links of `i` does not reach. -/
theorem mem_remove_false (lts : LinesToSimplify) (v : Option (List Int)) (i x : Int) :
    (x ∈ allCandidates (lts.removeTotal v i false).1 ↔
      x ∈ allCandidates lts ∧ ¬ Reaches lts.parent i x) ∧
    (x ∈ (lts.removeTotal v i false).2.getD [] ↔ x ∈ v.getD [] ∧ ¬ Reaches lts.parent i x) ∧
    (lts.removeTotal v i false).1.parent = lts.parent := by
  unfold LinesToSimplify.removeTotal
  rw [reaches_iff_within]
  exact mem_removeAux x _ lts v i

/-- What the subtraction step leaves: the candidates that no chain of parent links from a
line of `other` reaches. -/
theorem mem_removeAll (lts other : LinesToSimplify) (x : Int) :
    x ∈ allCandidates (lts.removeAllTotal other) ↔
      x ∈ allCandidates lts ∧ ∀ i ∈ allCandidates other, ¬ Reaches lts.parent i x := by
  unfold LinesToSimplify.removeAllTotal
  have key : ∀ (is : List Int) (acc : LinesToSimplify), acc.parent = lts.parent →
      (x ∈ allCandidates (is.foldl
        (fun (acc : LinesToSimplify) (i : Int) => (acc.removeTotal none i false).1) acc) ↔
      x ∈ allCandidates acc ∧ ∀ i ∈ is, ¬ Reaches lts.parent i x) := by
    intro is
    induction is with
    | nil => intro acc _; simp
    | cons i is ih =>
      intro acc hp
      obtain ⟨r1, -, r3⟩ := mem_remove_false acc none i x
      simp only [List.foldl_cons, List.mem_cons, forall_eq_or_imp]
      rw [ih _ (r3.trans hp), r1, hp, and_assoc]
  exact key _ lts rfl

/-! ## The working vector and the loop of `simplifyItem` -/

theorem pushOnBucket_keys {p : Nat} {l : Int} {m m1 : List (Nat × List Int)}
    (h : pushOnBucket p l m = some m1) : m1.map Prod.fst = m.map Prod.fst := by
  induction m generalizing m1 with
  | nil => simp [pushOnBucket] at h
  | cons kb m ih =>
    obtain ⟨k, b⟩ := kb
    simp only [pushOnBucket] at h
    split at h
    · simp at h
      subst h
      simp
    · cases hp : pushOnBucket p l m with
      | none => simp [hp] at h
      | some m2 =>
        simp [hp] at h
        subst h
        simp [ih hp]

theorem mapInsert_keys {β : Type} (p : Nat) (b : β) (m : List (Nat × β)) :
    ∀ k ∈ (mapInsert p b m).map Prod.fst, k = p ∨ k ∈ m.map Prod.fst := by
  induction m with
  | nil => simp [mapInsert]
  | cons kb m ih =>
    obtain ⟨k1, b1⟩ := kb
    intro k hk
    simp only [mapInsert] at hk
    split at hk
    · simp at hk ⊢
      tauto
    · split at hk
      · right; exact hk
      · simp only [List.map_cons, List.mem_cons] at hk ⊢
        rcases hk with hk | hk
        · exact Or.inr (Or.inl hk)
        · rcases ih k hk with h | h
          · exact Or.inl h
          · exact Or.inr (Or.inr h)

theorem mapInsert_sorted {β : Type} (p : Nat) (b : β) (m : List (Nat × β))
    (h : (m.map Prod.fst).Pairwise (fun x y => x < y)) :
    ((mapInsert p b m).map Prod.fst).Pairwise (fun x y => x < y) := by
  induction m with
  | nil => simp [mapInsert]
  | cons kb m ih =>
    obtain ⟨k1, b1⟩ := kb
    simp only [List.map_cons, List.pairwise_cons] at h
    simp only [mapInsert]
    split
    · rename_i hlt
      simp only [List.map_cons, List.pairwise_cons, List.mem_cons]
      refine ⟨?_, h.1, h.2⟩
      rintro a (rfl | ha)
      · exact hlt
      · exact lt_trans hlt (h.1 a ha)
    · split
      · simp only [List.map_cons, List.pairwise_cons]
        exact h
      · rename_i h1 h2
        simp only [List.map_cons, List.pairwise_cons]
        refine ⟨?_, ih h.2⟩
        intro a ha
        rcases mapInsert_keys p b m a ha with rfl | ha
        · omega
        · exact h.1 a ha

/-- The buckets of a ledger stay in ascending order of their keys when a line is added. -/
theorem addLine_sorted (lts : LinesToSimplify) (p : Nat) (l par : Int)
    (h : (lts.lines.map Prod.fst).Pairwise (fun x y => x < y)) :
    ((lts.addLine p l par).lines.map Prod.fst).Pairwise (fun x y => x < y) := by
  unfold LinesToSimplify.addLine
  cases hp : pushOnBucket p l lts.lines with
  | some m1 => simp only; rw [pushOnBucket_keys hp]; exact h
  | none => simp only; exact mapInsert_sorted p [l] lts.lines h

/-- One iteration of the loop of `simplifyItem` on a vector that is not empty. -/
theorem simplifyLoop_cons (pp : PrettyPrinter) (h : Single pp) (n : Nat) (l : Int)
    (rest : List Int) :
    PrettyPrinter.simplifyLoopTotal (n + 1) pp 0 (l :: rest) =
      (if canJoin pp.maxwidth pp.L l then
        PrettyPrinter.simplifyLoopTotal n (pp.simplifyTotal 0 l (some (l :: rest))).2.1 0
          (decrementVec (eraseValue (l :: rest) l) l)
       else ((pp.simplifyTotal 0 l (some (l :: rest))).2.1,
          ((pp.simplifyTotal 0 l (some (l :: rest))).2.2).getD [])) := by
  obtain ⟨g1, -, -, -, -, -, g7⟩ := simplify_spec pp h l (some (l :: rest))
  simp only [PrettyPrinter.simplifyLoopTotal]
  rw [g1]
  cases hc : canJoin pp.maxwidth pp.L l with
  | false => simp
  | true =>
    rw [hc] at g7
    have e2 : (pp.simplifyTotal 0 l (some (l :: rest))).2.2 =
        some (decrementVec (eraseValue (l :: rest) l) l) := by
      rw [← ledgerAfter_true_vec pp.T (l :: rest) l]
      exact congrArg Prod.snd g7
    simp [e2]

theorem eraseValue_cons_self (l : Int) (rest : List Int) (h : l ∉ rest) :
    eraseValue (l :: rest) l = rest := by
  simp only [eraseValue, ne_eq, decide_not, List.filter_cons, decide_True, Bool.not_true,
    Bool.false_eq_true, if_false]
  rw [List.filter_eq_self]
  intro a ha
  simp only [Bool.not_eq_true', decide_eq_false_iff_not]
  rintro rfl
  exact h ha

/-- When no attempt fails the loop of `simplifyItem` ends with an empty vector, and it has
joined one line for each entry of a vector of distinct lines of the item. -/
theorem simplifyLoop_all (mw : Int) : ∀ (n : Nat) (pp : PrettyPrinter) (vec : List Int),
    Single pp → pp.maxwidth = mw → allAttemptsSucceed mw n pp.L vec = true →
    (PrettyPrinter.simplifyLoopTotal n pp 0 vec).2 = [] ∧
    (vec.Nodup → (∀ x ∈ vec, 1 ≤ x ∧ x < (pp.L.length : Int)) →
      (PrettyPrinter.simplifyLoopTotal n pp 0 vec).1.L.length + vec.length = pp.L.length)
  | 0, pp, [], _, _, _ => by simp [PrettyPrinter.simplifyLoopTotal]
  | 0, pp, _ :: _, _, _, ha => by simp [allAttemptsSucceed] at ha
  | n + 1, pp, [], _, _, _ => by simp [PrettyPrinter.simplifyLoopTotal]
  | n + 1, pp, l :: rest, h, hmw, ha => by
    simp only [allAttemptsSucceed, Bool.and_eq_true] at ha
    obtain ⟨hc, ha2⟩ := ha
    rw [simplifyLoop_cons pp h, hmw, hc]
    simp only [if_true]
    obtain ⟨-, g1, g2, g3, -⟩ := simplify_spec pp h l (some (l :: rest))
    have hL : (pp.simplifyTotal 0 l (some (l :: rest))).2.1.L = joinLines pp.L l := by
      rw [g3, joinAt, hmw, hc]; rfl
    have ih := simplifyLoop_all mw n (pp.simplifyTotal 0 l (some (l :: rest))).2.1
      (decrementVec (eraseValue (l :: rest) l) l) g1 (g2.1.trans hmw) (by rw [hL]; exact ha2)
    refine ⟨ih.1, ?_⟩
    intro hnd hr
    obtain ⟨hl1, hl2⟩ := hr l (List.mem_cons_self _ _)
    have hnot : l ∉ rest := (List.nodup_cons.1 hnd).1
    have hjl := length_joinLines pp.L l hl1 hl2
    have hv : decrementVec (eraseValue (l :: rest) l) l = decrementVec rest l := by
      rw [eraseValue_cons_self l rest hnot]
    have hnd2 : (decrementVec rest l).Nodup := by
      unfold decrementVec
      refine List.Nodup.map_on ?_ (List.nodup_cons.1 hnd).2
      intro x hx y hy hxy
      have hx1 : x ≠ l := fun e => hnot (e ▸ hx)
      have hy1 : y ≠ l := fun e => hnot (e ▸ hy)
      split at hxy <;> split at hxy <;> omega
    have hr2 : ∀ x ∈ decrementVec rest l, 1 ≤ x ∧
        x < ((pp.simplifyTotal 0 l (some (l :: rest))).2.1.L.length : Int) := by
      intro x hx
      obtain ⟨y, hy, rfl⟩ := (mem_decrementVec rest l x).1 hx
      have hy1 : y ≠ l := fun e => hnot (e ▸ hy)
      obtain ⟨a1, a2⟩ := hr y (List.mem_cons_of_mem _ hy)
      rw [hL]
      split <;> omega
    have := ih.2 (hv ▸ hnd2) (by rw [hv]; exact hr2)
    rw [hv] at this
    rw [hv]
    have hlen : (decrementVec rest l).length = rest.length := by simp [decrementVec]
    rw [hlen, hL] at this
    simp only [List.length_cons]
    omega

/-! ## The alignment column of the children of a list -/

theorem addLine_indentationBase (pp : PrettyPrinter) (ind : Int) (bp simpl : Bool) (lvl : Nat) :
    (pp.addLine ind bp simpl lvl).indentationBase = pp.indentationBase := by
  unfold PrettyPrinter.addLine
  dsimp only
  split_ifs <;> rfl

theorem printString_indentationBase (pp : PrettyPrinter) (s : String) (al : Bool) (col : Int) :
    (pp.printString s al col).indentationBase = pp.indentationBase := by
  unfold PrettyPrinter.printString
  dsimp only
  split_ifs
  · rfl
  · exact addLine_indentationBase _ _ _ _ _
  · exact addLine_indentationBase _ _ _ _ _

theorem simplifyCurrent_indentationBase (pp : PrettyPrinter) :
    pp.simplifyCurrentTotal.indentationBase = pp.indentationBase := by
  unfold PrettyPrinter.simplifyCurrentTotal PrettyPrinter.simplifyTotal
  dsimp only
  split_ifs <;> rfl

theorem printDocument_indentationBase (d : Document) (pp : PrettyPrinter) (u : Int) (al : Bool)
    (col : Int) (be af : String) :
    (pp.printDocumentTotal u d al col be af).indentationBase = pp.indentationBase :=
  printDocument_preserves (fun q => q.indentationBase = pp.indentationBase)
    (fun q ind bp simpl lvl hq => (addLine_indentationBase q ind bp simpl lvl).trans hq)
    (fun q s al col hq => (printString_indentationBase q s al col).trans hq)
    (fun q hq => (simplifyCurrent_indentationBase q).trans hq) d pp u al col be af rfl

theorem breakCount_cons (d : Document) (ds : List Document) :
    breakCount (d :: ds) = (if d.isBreakPoint then 1 else 0) + breakCount ds := by
  unfold breakCount
  by_cases h : d.isBreakPoint = true
  · simp [List.filter_cons, h]; omega
  · simp [List.filter_cons, h]

/-- The loop of `printDocList` over the children `pre ++ rest`: after the children `pre`
the alignment column of a list that is not aligned has grown by `indentationBase` for each
Break among them. -/
theorem printDocListLoop_append (u : Int) (rest : List Document) (vs lv : Int) (al : Bool)
    (sep la fb : String) :
    ∀ (pre : List Document) (pp : PrettyPrinter) (i nac : Int),
      PrettyPrinter.printDocListLoopTotal pp u (pre ++ rest) i vs lv al nac sep la fb =
        PrettyPrinter.printDocListLoopTotal
          (PrettyPrinter.printDocListLoopTotal pp u pre i vs lv al nac sep la fb) u rest
          (i + pre.length) vs lv al
          (if al then nac else nac + (breakCount pre : Int) * pp.indentationBase) sep la fb
  | [], pp, i, nac => by
    simp [PrettyPrinter.printDocListLoopTotal, breakCount]
  | d :: pre, pp, i, nac => by
    simp only [List.cons_append, PrettyPrinter.printDocListLoopTotal, List.append_eq]
    rw [printDocListLoop_append u rest vs lv al sep la fb pre]
    rw [printDocument_indentationBase, breakCount_cons]
    have e1 : i + 1 + (pre.length : Int) = i + ((d :: pre).length : Int) := by
      simp only [List.length_cons]; push_cast; omega
    rw [e1]
    congr 1
    cases al <;> cases d.isBreakPoint <;> simp
    ring

theorem printDocListLoop_indentationBase (ld : List Document) (pp : PrettyPrinter) (u : Int)
    (i vs lv : Int) (al : Bool) (nac : Int) (sep la fb : String) :
    (PrettyPrinter.printDocListLoopTotal pp u ld i vs lv al nac sep la fb).indentationBase =
      pp.indentationBase :=
  printDocListLoop_preserves (fun q => q.indentationBase = pp.indentationBase)
    (fun q ind bp simpl lvl hq => (addLine_indentationBase q ind bp simpl lvl).trans hq)
    (fun q s al col hq => (printString_indentationBase q s al col).trans hq)
    (fun q hq => (simplifyCurrent_indentationBase q).trans hq) ld pp u i vs lv al nac sep la fb
    rfl

theorem printString_good (pp : PrettyPrinter) (h : Good pp) (s : String) (al : Bool)
    (col : Int) : Good (pp.printString s al col) := by
  obtain ⟨a, x, hL⟩ := h.exists_last
  exact (printString_spec pp h s al col a x hL).1

theorem printDocListLoop_good (ld : List Document) (pp : PrettyPrinter) (u : Int)
    (i vs lv : Int) (al : Bool) (nac : Int) (sep la fb : String) (h : Good pp) :
    Good (PrettyPrinter.printDocListLoopTotal pp u ld i vs lv al nac sep la fb) :=
  printDocListLoop_preserves Good
    (fun q ind bp simpl lvl hq => addLine_good q hq ind bp simpl lvl)
    (fun q s al col hq => printString_good q hq s al col)
    (fun q hq => (simplifyCurrent_spec q hq).1) ld pp u i vs lv al nac sep la fb h

theorem enterList_good (pp : PrettyPrinter) (h : Good pp) (unb : Bool) (a : Int) :
    Good (pp.enterList unb a) := by
  unfold PrettyPrinter.enterList
  split
  · exact addLine_good pp h _ _ _ _
  · exact h

theorem enterList_indentationBase (pp : PrettyPrinter) (unb : Bool) (a : Int) :
    (pp.enterList unb a).indentationBase = pp.indentationBase := by
  unfold PrettyPrinter.enterList
  split
  · exact addLine_indentationBase _ _ _ _ _
  · rfl

/-- The cursor of an engine whose current line is its last line. -/
theorem Good.cursor_eq {pp : PrettyPrinter} (h : Good pp) {a : List Line} {x : Line}
    (hL : pp.L = a ++ [x]) : pp.cursor = x.indentation + x.lineLength := by
  have hcl := h.currentLine_eq hL
  have hline : pp.line pp.currentItem pp.currentLine = x := by
    unfold PrettyPrinter.line
    rw [h.single.item]
    have : vecGet pp.items 0 = a ++ [x] := hL
    rw [this]
    exact vecGet_append_last a x _ hcl
  unfold PrettyPrinter.cursor
  rw [hline]
  rfl

/-- The walk of a list whose children are `pre`, a Break and `post`. -/
theorem printDocument_break_child (pp : PrettyPrinter) (u : Int) (lvl0 : Nat)
    (pre post : List Document) (lvl : Nat) (ds : Bool) (b sep e : String) (unb al al0 : Bool)
    (a : Int) (sb sa : String) :
    let ld := pre ++ Document.BreakPoint lvl ds :: post
    let pp0 := pp.enterList unb a
    let col := breakColumn al pp0.cursor a pp.indentationBase b (breakCount pre + 1)
    let q := (PrettyPrinter.printDocListLoopTotal pp0 u pre 0 ld.length
      (lastVisibleElementIndex u ld) al (if al then pp0.cursor + size b else a) sep (e ++ sa)
      (sb ++ b)).printString (if pre.isEmpty then sb ++ b else "") al col
    let r := PrettyPrinter.printDocListLoopTotal
      ((q.addLine col q.deeplySimp (!ds) lvl).printString (if post.isEmpty then e ++ sa else "")
        al col) u post (pre.length + 1) ld.length (lastVisibleElementIndex u ld) al col sep
      (e ++ sa) (sb ++ b)
    pp.printDocumentTotal u (.DocumentList lvl0 ld b sep e unb al) al0 a sb sa =
      (if unb then r.simplifyCurrentTotal else r) := by
  intro ld pp0 col q r
  have hlen : (ld.length : Int) = pre.length + 1 + post.length := by
    simp only [ld, List.length_append, List.length_cons]
    push_cast
    omega
  have h0 : ¬ (ld.length : Int) = 0 := by omega
  have hunf : pp.printDocumentTotal u (.DocumentList lvl0 ld b sep e unb al) al0 a sb sa =
      (if unb then (PrettyPrinter.printDocListLoopTotal pp0 u ld 0 ld.length
          (lastVisibleElementIndex u ld) al (if al then pp0.cursor + size b else a) sep
          (e ++ sa) (sb ++ b)).simplifyCurrentTotal
       else PrettyPrinter.printDocListLoopTotal pp0 u ld 0 ld.length
          (lastVisibleElementIndex u ld) al (if al then pp0.cursor + size b else a) sep
          (e ++ sa) (sb ++ b)) := by
    simp only [PrettyPrinter.printDocumentTotal, if_neg h0]
    rfl
  have hloop : PrettyPrinter.printDocListLoopTotal pp0 u ld 0 ld.length
      (lastVisibleElementIndex u ld) al (if al then pp0.cursor + size b else a) sep
      (e ++ sa) (sb ++ b) = r := by
    show PrettyPrinter.printDocListLoopTotal pp0 u (pre ++ Document.BreakPoint lvl ds :: post) 0 _ _ _
      _ _ _ _ = r
    rw [printDocListLoop_append]
    simp only [PrettyPrinter.printDocListLoopTotal, Document.isBreakPoint, Bool.true_and,
      Bool.true_or, if_true, PrettyPrinter.printDocumentTotal, zero_add]
    rw [printDocListLoop_indentationBase, enterList_indentationBase]
    have hcol : (if (!al) = true then
        (if al = true then (if al = true then pp0.cursor + size b else a)
          else (if al = true then pp0.cursor + size b else a) +
            (breakCount pre : Int) * pp.indentationBase) + pp.indentationBase
        else (if al = true then (if al = true then pp0.cursor + size b else a)
          else (if al = true then pp0.cursor + size b else a) +
            (breakCount pre : Int) * pp.indentationBase)) = col := by
      simp only [col, breakColumn]
      cases al
      · simp; ring
      · simp
    rw [hcol]
    have hbe : (if (pre.length : Int) = 0 then sb ++ b else "") =
        (if pre.isEmpty then sb ++ b else "") := by
      cases pre with
      | nil => simp
      | cons x xs =>
        have hx : ¬ (((x :: xs).length : Nat) : Int) = 0 := by
          simp only [List.length_cons]; push_cast; omega
        rw [if_neg hx]
        simp
    have haf : (if (pre.length : Int) ≠ (ld.length : Int) - 1 then "" else e ++ sa) =
        (if post.isEmpty then e ++ sa else "") := by
      rw [hlen]
      cases post with
      | nil => simp
      | cons x xs => simp; omega
    rw [hbe, haf]
  rw [hunf, hloop]

/-! ## The candidates stay on lines of the item during every walk -/

theorem mem_allCandidates_decrementLine (lts : LinesToSimplify) (v : Option (List Int))
    (l x : Int) :
    x ∈ allCandidates (lts.decrementLine v l).1 ↔
      ∃ y ∈ allCandidates lts, x = (if y ≥ l then y - 1 else y) := by
  unfold allCandidates LinesToSimplify.decrementLine
  simp only [List.mem_flatMap, List.mem_map]
  constructor
  · rintro ⟨kb, ⟨kb0, h0, rfl⟩, hx⟩
    obtain ⟨y, hy, rfl⟩ := (mem_decrementVec kb0.2 l x).1 hx
    exact ⟨y, ⟨kb0, h0, hy⟩, rfl⟩
  · rintro ⟨y, ⟨kb0, h0, hy⟩, rfl⟩
    exact ⟨_, ⟨kb0, h0, rfl⟩, (mem_decrementVec kb0.2 l _).2 ⟨y, hy, rfl⟩⟩

theorem Good.items_eq {pp : PrettyPrinter} (h : Good pp) :
    vecGet pp.items pp.currentItem = pp.L := by
  rw [h.single.item]
  rfl

theorem candRange_addLine (pp : PrettyPrinter) (h : CandRange pp) (ind : Int)
    (bp simpl : Bool) (lvl : Nat) : CandRange (pp.addLine ind bp simpl lvl) := by
  obtain ⟨hg, hc⟩ := h
  obtain ⟨-, -, -, g4, g5, -⟩ := addLine_spec pp hg.single ind bp simpl lvl
  refine ⟨addLine_good pp hg _ _ _ _, ?_⟩
  intro x hx
  rw [g5] at hx
  rw [g4]
  have h0 := hg.line_nonneg
  split at hx
  · rcases (mem_allCandidates_addLine pp.T lvl _ _ x).1 hx with rfl | hx
    · omega
    · have := hc x hx
      omega
  · have := hc x hx
    omega

theorem printString_currentLine (pp : PrettyPrinter) (h : Good pp) (s : String) (al : Bool)
    (col : Int) : pp.currentLine ≤ (pp.printString s al col).currentLine := by
  obtain ⟨a, x, hL⟩ := h.exists_last
  obtain ⟨g1, -, -, -, g5⟩ := printString_spec pp h s al col a x hL
  have h1 := h.line_last
  have h2 := g1.line_last
  rw [g5] at h2
  rw [hL] at h1
  split at h2 <;> simp at h1 h2 <;> omega

theorem candRange_printString (pp : PrettyPrinter) (h : CandRange pp) (s : String)
    (al : Bool) (col : Int) : CandRange (pp.printString s al col) := by
  obtain ⟨hg, hc⟩ := h
  obtain ⟨a, x, hL⟩ := hg.exists_last
  obtain ⟨g1, -, g3, -, -⟩ := printString_spec pp hg s al col a x hL
  refine ⟨g1, ?_⟩
  intro y hy
  rw [g3] at hy
  have := hc y hy
  have := printString_currentLine pp hg s al col
  omega

theorem candRange_simplifyCurrent (pp : PrettyPrinter) (h : CandRange pp) :
    CandRange pp.simplifyCurrentTotal := by
  obtain ⟨hg, hc⟩ := h
  refine ⟨(simplifyCurrent_spec pp hg).1, ?_⟩
  unfold PrettyPrinter.simplifyCurrentTotal
  rw [hg.single.item]
  obtain ⟨-, -, -, -, -, g5, g6⟩ := simplify_spec pp hg.single pp.currentLine none
  have e1 : (pp.simplifyTotal 0 pp.currentLine none).2.1.T =
      (ledgerAfter (canJoin pp.maxwidth pp.L pp.currentLine) pp.T none pp.currentLine).1 :=
    congrArg Prod.fst g6
  intro x hx
  rw [e1] at hx
  rw [g5]
  cases hj : canJoin pp.maxwidth pp.L pp.currentLine with
  | false =>
    rw [hj] at hx
    simp only [ledgerAfter, Bool.false_eq_true, if_false] at hx ⊢
    exact hc x (remove_subset _ _ _ _ x hx).1
  | true =>
    rw [hj] at hx
    simp only [ledgerAfter, if_true] at hx ⊢
    obtain ⟨y, hy, rfl⟩ := (mem_allCandidates_decrementLine _ _ _ x).1 hx
    obtain ⟨hy1, hy2⟩ := remove_subset _ _ _ _ y hy
    have := hc y hy1
    split <;> omega

/-- Every walk keeps the candidates on lines of the item other than the first. -/
theorem printDocument_candRange (d : Document) (pp : PrettyPrinter) (u : Int) (al : Bool)
    (col : Int) (be af : String) (h : CandRange pp) :
    CandRange (pp.printDocumentTotal u d al col be af) :=
  printDocument_preserves CandRange
    (fun q ind bp simpl lvl hq => candRange_addLine q hq ind bp simpl lvl)
    (fun q s al col hq => candRange_printString q hq s al col)
    (fun q hq => candRange_simplifyCurrent q hq) d pp u al col be af h

theorem start_candRange (mw ib : Int) (sim deepsim : Bool) :
    CandRange ⟨mw, ib, 0, 0, [[Line.new 0]], [default], [default], sim, deepsim⟩ := by
  refine ⟨start_good mw ib sim deepsim, ?_⟩
  intro x hx
  have e : allCandidates (PrettyPrinter.T ⟨mw, ib, 0, 0, [[Line.new 0]], [default], [default],
      sim, deepsim⟩) = [] := by
    simp only [PrettyPrinter.T, vecGet_zero_singleton]
    rfl
  rw [e] at hx
  exact absurd hx (List.not_mem_nil x)

/-! ## The simplification pass ends on documents without unbreakable lists -/

theorem removeFuel_succ_false (fuel : Nat) (lts : LinesToSimplify) (v : Option (List Int))
    (i : Int) :
    LinesToSimplify.removeFuel (fuel + 1) lts v i false =
      lts.parent.foldl (cascadeStepFuel fuel i)
        (some (lts.eraseLine i, v.map (fun w => eraseValue w i))) :=
  rfl

theorem removeFuel_succ_true (fuel : Nat) (lts : LinesToSimplify) (v : Option (List Int))
    (i : Int) :
    LinesToSimplify.removeFuel (fuel + 1) lts v i true =
      some (lts.eraseLine i, v.map (fun w => eraseValue w i)) :=
  rfl

theorem pairsUpTo_lt (P : List (Int × Int)) (i j : Int) (h : (i, j) ∈ P) (hj : j < i) :
    pairsUpTo P j < pairsUpTo P i := by
  unfold pairsUpTo
  have e : P.filter (fun pr => decide (pr.1 ≤ j)) =
      (P.filter (fun pr => decide (pr.1 ≤ i))).filter (fun pr => decide (pr.1 ≤ j)) := by
    rw [List.filter_filter]
    apply List.filter_congr
    intro x _
    by_cases hx : x.1 ≤ j
    · have : x.1 ≤ i := by omega
      simp [hx, this]
    · simp [hx]
  rw [e, List.length_filter_lt_length_iff_exists]
  refine ⟨(i, j), ?_, ?_⟩
  · simp [h]
  · simp; omega

theorem pairsUpTo_le (P : List (Int × Int)) (i : Int) : pairsUpTo P i ≤ P.length :=
  List.length_filter_le _ _

theorem removeAux_parent (fuel : Nat) (lts : LinesToSimplify) (v : Option (List Int))
    (i : Int) (s : Bool) : (LinesToSimplify.removeCut fuel lts v i s).1.parent = lts.parent := by
  cases s with
  | false => exact (mem_removeAux 0 fuel lts v i).2.2
  | true =>
    cases fuel with
    | zero => rfl
    | succ n => rfl

/-- With parent links that lead to smaller lines the recursion of `remove` ends before any
bound greater than the number of pairs of the table, with the value of the cut function. -/
theorem removeFuel_eq (P : List (Int × Int)) (hP : ∀ pr ∈ P, pr.2 ≤ pr.1) :
    ∀ (n m : Nat) (lts : LinesToSimplify) (v : Option (List Int)) (i : Int) (s : Bool),
      lts.parent = P → pairsUpTo P i < n → pairsUpTo P i < m →
      LinesToSimplify.removeFuel n lts v i s = some (LinesToSimplify.removeCut m lts v i s)
  | 0, _, _, _, _, _, _, hn, _ => absurd hn (Nat.not_lt_zero _)
  | _ + 1, 0, _, _, _, _, _, _, hm => absurd hm (Nat.not_lt_zero _)
  | n + 1, m + 1, lts, v, i, true, _, _, _ => by
    rw [removeFuel_succ_true, removeAux_succ_true]
  | n + 1, m + 1, lts, v, i, false, hp, hn, hm => by
    rw [removeFuel_succ_false, removeAux_succ_false, hp]
    have key : ∀ (ps : List (Int × Int)) (acc : LinesToSimplify × Option (List Int)),
        (∀ pr ∈ ps, pr ∈ P) → acc.1.parent = P →
        ps.foldl (cascadeStepFuel n i) (some acc) = some (ps.foldl (cascadeStep m i) acc) := by
      intro ps
      induction ps with
      | nil => intro acc _ _; rfl
      | cons pr ps ih =>
        intro acc hps hacc
        simp only [List.foldl_cons]
        have hpr := hps pr (List.mem_cons_self _ _)
        by_cases hc : pr.1 = i ∧ pr.2 ≠ i ∧ pr.2 ≠ -1
        · have hlt : pr.2 < i := by
            have := hP pr hpr
            obtain ⟨c1, c2, -⟩ := hc
            omega
          have hmem : (i, pr.2) ∈ P := by
            have : pr = (i, pr.2) := by rw [← hc.1]
            rw [← this]; exact hpr
          have hcount := pairsUpTo_lt P i pr.2 hmem hlt
          have e1 : cascadeStepFuel n i (some acc) pr =
              LinesToSimplify.removeFuel n acc.1 acc.2 pr.2 false := by
            simp only [cascadeStepFuel, if_pos hc]
          have e2 : cascadeStep m i acc pr =
              LinesToSimplify.removeCut m acc.1 acc.2 pr.2 false := by
            simp only [cascadeStep, if_pos hc]
          rw [e1, e2, removeFuel_eq P hP n m acc.1 acc.2 pr.2 false hacc (by omega) (by omega)]
          exact ih _ (fun q hq => hps q (List.mem_cons_of_mem _ hq))
            ((removeAux_parent m acc.1 acc.2 pr.2 false).trans hacc)
        · have e1 : cascadeStepFuel n i (some acc) pr = some acc := by
            simp only [cascadeStepFuel, if_neg hc]
          have e2 : cascadeStep m i acc pr = acc := by
            simp only [cascadeStep, if_neg hc]
          rw [e1, e2]
          exact ih _ (fun q hq => hps q (List.mem_cons_of_mem _ hq)) hacc
    exact key P _ (fun _ h => h) hp

theorem removeFuel_remove (lts : LinesToSimplify) (hP : ∀ pr ∈ lts.parent, pr.2 ≤ pr.1)
    (n : Nat) (hn : lts.parent.length + 1 ≤ n) (v : Option (List Int)) (i : Int) (s : Bool) :
    lts.removeFuel n v i s = some (lts.removeTotal v i s) := by
  have := pairsUpTo_le lts.parent i
  exact removeFuel_eq lts.parent hP n (lts.parent.length + 1) lts v i s rfl (by omega)
    (by omega)

theorem remove_parent (lts : LinesToSimplify) (v : Option (List Int)) (i : Int) (s : Bool) :
    (lts.removeTotal v i s).1.parent = lts.parent :=
  removeAux_parent _ lts v i s

theorem removeAll_fold_parent (is : List Int) (acc : LinesToSimplify) :
    (is.foldl (fun (acc : LinesToSimplify) (i : Int) => (acc.removeTotal none i false).1)
      acc).parent = acc.parent := by
  induction is generalizing acc with
  | nil => rfl
  | cons i is ih =>
    simp only [List.foldl_cons]
    rw [ih, remove_parent]

theorem removeAll_parent (lts other : LinesToSimplify) :
    (lts.removeAllTotal other).parent = lts.parent :=
  removeAll_fold_parent _ lts

/-- The subtraction step ends within the bound, with the value of the total function. -/
theorem removeAllFuel_eq (lts other : LinesToSimplify)
    (hP : ∀ pr ∈ lts.parent, pr.2 ≤ pr.1) (n : Nat) (hn : lts.parent.length + 1 ≤ n) :
    lts.removeAllFuel n other = some (lts.removeAllTotal other) := by
  unfold LinesToSimplify.removeAllFuel LinesToSimplify.removeAllTotal
  have key : ∀ (is : List Int) (acc : LinesToSimplify), acc.parent = lts.parent →
      is.foldl (fun (acc : Option LinesToSimplify) (i : Int) =>
          match acc with
          | none => none
          | some a => (a.removeFuel n none i false).map Prod.fst) (some acc) =
        some (is.foldl (fun (acc : LinesToSimplify) (i : Int) =>
          (acc.removeTotal none i false).1) acc) := by
    intro is
    induction is with
    | nil => intro acc _; rfl
    | cons i is ih =>
      intro acc hacc
      simp only [List.foldl_cons]
      rw [removeFuel_remove acc (by rw [hacc]; exact hP) n (by rw [hacc]; exact hn)]
      simp only [Option.map_some']
      exact ih _ ((remove_parent acc none i false).trans hacc)
  exact key _ lts rfl

theorem decrementLine_parent (lts : LinesToSimplify) (v : Option (List Int)) (l : Int) :
    (lts.decrementLine v l).1.parent =
      lts.parent.map (fun pr =>
        (if pr.1 ≥ l then pr.1 - 1 else pr.1, if pr.2 ≥ l then pr.2 - 1 else pr.2)) :=
  rfl

/-- The step `simplify` keeps the parent links leading to lines that are not greater, and
keeps the number of pairs. -/
theorem simplify_parent (pp : PrettyPrinter) (h : Single pp) (l : Int)
    (vec : Option (List Int)) (hP : ∀ pr ∈ pp.T.parent, pr.2 ≤ pr.1) :
    (∀ pr ∈ (pp.simplifyTotal 0 l vec).2.1.T.parent, pr.2 ≤ pr.1) ∧
    (pp.simplifyTotal 0 l vec).2.1.T.parent.length = pp.T.parent.length := by
  obtain ⟨-, -, -, -, -, -, g7⟩ := simplify_spec pp h l vec
  have e1 : (pp.simplifyTotal 0 l vec).2.1.T =
      (ledgerAfter (canJoin pp.maxwidth pp.L l) pp.T vec l).1 := congrArg Prod.fst g7
  rw [e1]
  cases canJoin pp.maxwidth pp.L l with
  | false =>
    simp only [ledgerAfter, Bool.false_eq_true, if_false]
    rw [remove_parent]
    exact ⟨hP, rfl⟩
  | true =>
    simp only [ledgerAfter, if_true]
    rw [decrementLine_parent, remove_parent]
    refine ⟨?_, by simp⟩
    intro pr hpr
    obtain ⟨q, hq, rfl⟩ := List.mem_map.1 hpr
    have := hP q hq
    dsimp only
    split <;> split <;> omega

theorem simplifyFuel_eq (pp : PrettyPrinter) (l : Int) (vec : Option (List Int))
    (hP : ∀ pr ∈ pp.T.parent, pr.2 ≤ pr.1) (n : Nat) (hn : pp.T.parent.length + 1 ≤ n) :
    pp.simplifyFuel n 0 l vec = some (pp.simplifyTotal 0 l vec) := by
  unfold PrettyPrinter.simplifyFuel PrettyPrinter.simplifyTotal
  have e : ∀ s, (vecGet pp.linesToSimplify 0).removeFuel n vec l s =
      some ((vecGet pp.linesToSimplify 0).removeTotal vec l s) :=
    fun s => removeFuel_remove pp.T hP n hn vec l s
  simp only [e]
  split_ifs <;> rfl

theorem length_vec_after_join (l : Int) (rest : List Int) :
    (decrementVec (eraseValue (l :: rest) l) l).length ≤ rest.length := by
  unfold decrementVec eraseValue
  simp only [List.length_map, ne_eq, decide_not, List.filter_cons, decide_True, Bool.not_true,
    Bool.false_eq_true, if_false]
  exact List.length_filter_le _ _

/-- The loop of `simplifyItem` ends within as many iterations as the working vector has
entries, with the result of the loop. -/
theorem simplifyLoopFuel_eq (n : Nat) : ∀ (k j : Nat) (pp : PrettyPrinter) (vec : List Int),
    Single pp → (∀ pr ∈ pp.T.parent, pr.2 ≤ pr.1) → pp.T.parent.length + 1 ≤ n →
    vec.length ≤ k → vec.length ≤ j →
    PrettyPrinter.simplifyLoopFuel k n pp 0 vec = some (PrettyPrinter.simplifyLoopTotal j pp 0 vec)
  | k, 0, pp, [], _, _, _, _, _ => by
    cases k <;> simp [PrettyPrinter.simplifyLoopFuel, PrettyPrinter.simplifyLoopTotal]
  | k, j + 1, pp, [], _, _, _, _, _ => by
    cases k <;> simp [PrettyPrinter.simplifyLoopFuel, PrettyPrinter.simplifyLoopTotal]
  | 0, _, pp, _ :: _, _, _, _, hk, _ => by simp at hk
  | _ + 1, 0, pp, _ :: _, _, _, _, _, hj => by simp at hj
  | k + 1, j + 1, pp, l :: rest, h, hP, hn, hk, hj => by
    simp only [PrettyPrinter.simplifyLoopFuel, PrettyPrinter.simplifyLoopTotal]
    rw [simplifyFuel_eq pp l _ hP n hn]
    simp only []
    obtain ⟨g0, g1, -, -, -, -, g6⟩ := simplify_spec pp h l (some (l :: rest))
    cases hc : canJoin pp.maxwidth pp.L l with
    | false =>
      rw [hc] at g0
      simp [g0]
    | true =>
      rw [hc] at g0 g6
      have hv : (pp.simplifyTotal 0 l (some (l :: rest))).2.2 =
          some (decrementVec (eraseValue (l :: rest) l) l) := by
        rw [← ledgerAfter_true_vec pp.T (l :: rest) l]
        exact congrArg Prod.snd g6
      simp only [g0, Bool.not_true, Bool.false_eq_true, if_false, hv, Option.getD_some]
      obtain ⟨p1, p2⟩ := simplify_parent pp h l (some (l :: rest)) hP
      have hlen := length_vec_after_join l rest
      simp only [List.length_cons] at hk hj
      exact simplifyLoopFuel_eq n k j _ _ g1 p1 (by rw [p2]; exact hn) (by omega) (by omega)

mutual
/-- A property kept by `addLine` and `printString` is kept by the walk of a document that
contains no unbreakable list. -/
theorem printDocument_preserves_breakable (P : PrettyPrinter → Prop)
    (hAdd : ∀ pp ind bp simpl lvl, P pp → P (pp.addLine ind bp simpl lvl))
    (hStr : ∀ pp s al col, P pp → P (pp.printString s al col)) :
    ∀ (d : Document) (pp : PrettyPrinter) (u : Int) (al : Bool) (col : Int) (be af : String),
      d.breakable = true → P pp → P (pp.printDocumentTotal u d al col be af)
  | .BreakPoint lvl ds, pp, u, al, col, be, af, _, h => by
    simp only [PrettyPrinter.printDocumentTotal]
    exact hStr _ _ _ _ (hAdd _ _ _ _ _ (hStr _ _ _ _ h))
  | .StringDocument _ s, pp, u, al, col, be, af, _, h => by
    simp only [PrettyPrinter.printDocumentTotal, PrettyPrinter.printStringDoc]
    exact hStr _ _ _ _ h
  | .DocumentList _ ld b sep e unb al1, pp, u, al, col, be, af, hb, h => by
    simp only [Document.breakable, Bool.and_eq_true, Bool.not_eq_true'] at hb
    obtain ⟨hu, hbd⟩ := hb
    subst hu
    simp only [PrettyPrinter.printDocumentTotal, Bool.false_eq_true, if_false]
    generalize hnac : (if al1 = true then
      (pp.line pp.currentItem pp.currentLine).getIndentation +
        (pp.line pp.currentItem pp.currentLine).getLength + size b else col) = nac
    have h2 : P (if (ld.length : Int) = 0 then
        pp.printStringDoc none true nac (be ++ b) (e ++ af) else pp) := by
      split
      · simp only [PrettyPrinter.printStringDoc]
        exact hStr _ _ _ _ h
      · exact h
    exact printDocListLoop_preserves_breakable P hAdd hStr ld _ u 0 ld.length
      (lastVisibleElementIndex u ld) al1 nac sep (e ++ af) (be ++ b) hbd h2
/-- The same for the loop of `printDocList` over the children. -/
theorem printDocListLoop_preserves_breakable (P : PrettyPrinter → Prop)
    (hAdd : ∀ pp ind bp simpl lvl, P pp → P (pp.addLine ind bp simpl lvl))
    (hStr : ∀ pp s al col, P pp → P (pp.printString s al col)) :
    ∀ (ld : List Document) (pp : PrettyPrinter) (u : Int) (i vs lv : Int) (al : Bool)
      (nac : Int) (sep la fb : String),
      Document.breakableDocs ld = true → P pp →
      P (PrettyPrinter.printDocListLoopTotal pp u ld i vs lv al nac sep la fb)
  | [], pp, u, i, vs, lv, al, nac, sep, la, fb, _, h => by
    simp only [PrettyPrinter.printDocListLoopTotal]
    exact h
  | d :: ld, pp, u, i, vs, lv, al, nac, sep, la, fb, hb, h => by
    simp only [Document.breakableDocs, Bool.and_eq_true] at hb
    simp only [PrettyPrinter.printDocListLoopTotal]
    exact printDocListLoop_preserves_breakable P hAdd hStr ld _ u _ vs lv al _ sep la fb hb.2
      (printDocument_preserves_breakable P hAdd hStr d pp u al _ _ _ hb.1 h)
end

theorem findParent_mem (m : List (Nat × Int)) : ∀ (p : Nat),
    findParent m p = -1 ∨ ∃ k, (k, findParent m p) ∈ m
  | 0 => Or.inl rfl
  | p + 1 => by
    simp only [findParent]
    cases hl : m.lookup p with
    | none => exact findParent_mem m p
    | some v =>
      right
      refine ⟨p, ?_⟩
      obtain ⟨l1, l2, h1, -⟩ := List.lookup_eq_some_iff.1 hl
      rw [h1]
      simp

theorem mem_mapInsert {β : Type} (k : Nat) (v : β) (m : List (Nat × β)) (kv : Nat × β)
    (h : kv ∈ mapInsert k v m) : kv = (k, v) ∨ kv ∈ m := by
  induction m with
  | nil =>
    simp only [mapInsert, List.mem_singleton] at h
    exact Or.inl h
  | cons x m ih =>
    obtain ⟨k1, v1⟩ := x
    simp only [mapInsert] at h
    split at h
    · rcases List.mem_cons.1 h with h | h
      · exact Or.inl h
      · exact Or.inr h
    · split at h
      · exact Or.inr h
      · rcases List.mem_cons.1 h with h | h
        · exact Or.inr (List.mem_cons.2 (Or.inl h))
        · rcases ih h with h | h
          · exact Or.inl h
          · exact Or.inr (List.mem_cons_of_mem _ h)

theorem addLine_mostRecentlyAdded (lts : LinesToSimplify) (p : Nat) (l par : Int) :
    (lts.addLine p l par).mostRecentlyAdded = mapInsert p l lts.mostRecentlyAdded := by
  unfold LinesToSimplify.addLine
  dsimp only
  split <;> rfl

theorem addLine_parent (lts : LinesToSimplify) (p : Nat) (l : Int) :
    (lts.addLine p l (-1)).parent =
      (if findParent lts.mostRecentlyAdded p ≠ -1 then
        lts.parent ++ [(l, findParent lts.mostRecentlyAdded p)] else lts.parent) := by
  unfold LinesToSimplify.addLine
  dsimp only
  split <;> simp

theorem linkRange_addLine (pp : PrettyPrinter) (h : LinkRange pp) (ind : Int)
    (bp simpl : Bool) (lvl : Nat) : LinkRange (pp.addLine ind bp simpl lvl) := by
  obtain ⟨hg, hm, hp⟩ := h
  obtain ⟨-, -, -, g4, g5, -⟩ := addLine_spec pp hg.single ind bp simpl lvl
  have h0 := hg.line_nonneg
  refine ⟨addLine_good pp hg _ _ _ _, ?_, ?_⟩
  · intro kv hkv
    rw [g5] at hkv
    rw [g4]
    split at hkv
    · rw [addLine_mostRecentlyAdded] at hkv
      rcases mem_mapInsert _ _ _ kv hkv with rfl | hkv
      · simp only
        omega
      · have := hm kv hkv
        omega
    · have := hm kv hkv
      omega
  · intro pr hpr
    rw [g5] at hpr
    split at hpr
    · rw [addLine_parent] at hpr
      by_cases hne : findParent pp.T.mostRecentlyAdded lvl ≠ -1
      · rw [if_pos hne] at hpr
        rcases List.mem_append.1 hpr with hpr | hpr
        · exact hp pr hpr
        · rw [List.mem_singleton.1 hpr]
          rcases findParent_mem pp.T.mostRecentlyAdded lvl with hf | ⟨k, hk⟩
          · exact absurd hf hne
          · have := hm _ hk
            simp only at this ⊢
            omega
      · rw [if_neg hne] at hpr
        exact hp pr hpr
    · exact hp pr hpr

theorem linkRange_printString (pp : PrettyPrinter) (h : LinkRange pp) (s : String)
    (al : Bool) (col : Int) : LinkRange (pp.printString s al col) := by
  obtain ⟨hg, hm, hp⟩ := h
  obtain ⟨a, x, hL⟩ := hg.exists_last
  obtain ⟨g1, -, g3, -, -⟩ := printString_spec pp hg s al col a x hL
  have hc := printString_currentLine pp hg s al col
  refine ⟨g1, ?_, ?_⟩
  · intro kv hkv
    rw [g3] at hkv
    have := hm kv hkv
    omega
  · intro pr hpr
    rw [g3] at hpr
    exact hp pr hpr

theorem start_linkRange (mw ib : Int) (sim deepsim : Bool) :
    LinkRange ⟨mw, ib, 0, 0, [[Line.new 0]], [default], [default], sim, deepsim⟩ := by
  have e : PrettyPrinter.T ⟨mw, ib, 0, 0, [[Line.new 0]], [default], [default], sim,
      deepsim⟩ = default := by
    simp only [PrettyPrinter.T, vecGet_zero_singleton]
  refine ⟨start_good mw ib sim deepsim, ?_, ?_⟩
  · intro kv hkv
    rw [e] at hkv
    exact absurd hkv (List.not_mem_nil _)
  · intro pr hpr
    rw [e] at hpr
    exact absurd hpr (List.not_mem_nil _)

/-- After the walk of a document without unbreakable lists every pair of the parent table
leads from a line to a line before it. -/
theorem walk_linkRange (mw ib : Int) (sim deepsim : Bool) (u : Int) (d : Document)
    (hb : d.breakable = true) : LinkRange ((PrettyPrinter.new mw ib sim deepsim).walkTotal u d) := by
  unfold PrettyPrinter.walkTotal
  rw [print_start]
  exact printDocument_preserves_breakable LinkRange
    (fun q ind bp simpl lvl hq => linkRange_addLine q hq ind bp simpl lvl)
    (fun q s al col hq => linkRange_printString q hq s al col) d _ u true 0 "" "" hb
    (start_linkRange mw ib sim deepsim)

/-- On the engine left by the walk of a document without unbreakable lists `simplifyItem`
ends within every bound that is at least the length of the working vector, for the loop,
and greater than the number of parent pairs, for the removals. -/
theorem simplifyItemFuel_eq (W : PrettyPrinter) (h : LinkRange W) (k n : Nat)
    (hk : (W.T.removeAllTotal W.N).getLinesToSimplify.length ≤ k)
    (hn : W.T.parent.length + 1 ≤ n) :
    W.simplifyItemFuel k n 0 = some (W.simplifyItemTotal 0) := by
  obtain ⟨hg, -, hp⟩ := h
  have hP : ∀ pr ∈ W.T.parent, pr.2 ≤ pr.1 := fun pr hpr => by
    have := hp pr hpr
    omega
  unfold PrettyPrinter.simplifyItemFuel PrettyPrinter.simplifyItemTotal
  have e1 : (vecGet W.linesToSimplify 0).removeAllFuel n (vecGet W.linesNotToSimplify 0) =
      some (W.T.removeAllTotal W.N) := removeAllFuel_eq W.T W.N hP n hn
  rw [e1]
  dsimp only
  obtain ⟨s1, -, -, s4, -⟩ := setLedger_spec W hg.single (W.T.removeAllTotal W.N)
  have s4' : vecGet (vecModify W.linesToSimplify 0 (fun _ => W.T.removeAllTotal W.N)) 0 =
      W.T.removeAllTotal W.N := s4
  have e2 : (vecGet W.linesToSimplify 0).removeAllTotal (vecGet W.linesNotToSimplify 0) =
      W.T.removeAllTotal W.N := rfl
  rw [e2, s4']
  rw [simplifyLoopFuel_eq n k (W.T.removeAllTotal W.N).getLinesToSimplify.length _ _ s1
    (by rw [s4, removeAll_parent]; exact hP) (by rw [s4, removeAll_parent]; exact hn) hk
    (le_refl _)]
  rfl

/-- A successful `simplify` leaves a working vector that is shorter. -/
theorem simplify_shortens (pp : PrettyPrinter) (h : Single pp) (l : Int) (rest : List Int)
    (ht : (pp.simplifyTotal 0 l (some (l :: rest))).1 = true) :
    ((pp.simplifyTotal 0 l (some (l :: rest))).2.2.getD []).length < (l :: rest).length := by
  obtain ⟨g0, -, -, -, -, -, g6⟩ := simplify_spec pp h l (some (l :: rest))
  rw [g0] at ht
  rw [ht] at g6
  have hv : (pp.simplifyTotal 0 l (some (l :: rest))).2.2 =
      some (decrementVec (eraseValue (l :: rest) l) l) := by
    rw [← ledgerAfter_true_vec pp.T (l :: rest) l]
    exact congrArg Prod.snd g6
  rw [hv]
  have := length_vec_after_join l rest
  simp only [Option.getD_some, List.length_cons]
  omega

/-! ## The methods and the total functions: a call that returns has the value of the total
function -/

theorem foldl_cascadeStepFuel_none (fuel : Nat) (i : Int) (ps : List (Int × Int)) :
    ps.foldl (cascadeStepFuel fuel i) none = none := by
  induction ps with
  | nil => rfl
  | cons pr ps ih => simpa [List.foldl_cons, cascadeStepFuel] using ih

/-- A call of `remove` that returns within `fuel` nested calls has erased what the cut
function erases. -/
theorem removeFuel_eq_some : ∀ (n : Nat) (lts : LinesToSimplify) (v : Option (List Int))
    (i : Int) (s : Bool) (r : LinesToSimplify × Option (List Int)),
    lts.removeFuel n v i s = some r → LinesToSimplify.removeCut n lts v i s = r
  | 0, _, _, _, _, _, h => by simp [LinesToSimplify.removeFuel] at h
  | n + 1, lts, v, i, true, r, h => by
    rw [removeFuel_succ_true] at h
    rw [removeAux_succ_true]
    exact Option.some.inj h
  | n + 1, lts, v, i, false, r, h => by
    rw [removeFuel_succ_false] at h
    rw [removeAux_succ_false]
    have key : ∀ (ps : List (Int × Int)) (acc : LinesToSimplify × Option (List Int))
        (r : LinesToSimplify × Option (List Int)),
        ps.foldl (cascadeStepFuel n i) (some acc) = some r →
        ps.foldl (cascadeStep n i) acc = r := by
      intro ps
      induction ps with
      | nil =>
        intro acc r hr
        exact Option.some.inj hr
      | cons pr ps ih =>
        intro acc r hr
        simp only [List.foldl_cons] at hr ⊢
        by_cases hc : pr.1 = i ∧ pr.2 ≠ i ∧ pr.2 ≠ -1
        · have e1 : cascadeStepFuel n i (some acc) pr =
              LinesToSimplify.removeFuel n acc.1 acc.2 pr.2 false := by
            simp only [cascadeStepFuel, if_pos hc]
          have e2 : cascadeStep n i acc pr =
              LinesToSimplify.removeCut n acc.1 acc.2 pr.2 false := by
            simp only [cascadeStep, if_pos hc]
          rw [e1] at hr
          rw [e2]
          cases hq : LinesToSimplify.removeFuel n acc.1 acc.2 pr.2 false with
          | none =>
            rw [hq, foldl_cascadeStepFuel_none] at hr
            exact Option.noConfusion hr
          | some q =>
            rw [hq] at hr
            rw [removeFuel_eq_some n acc.1 acc.2 pr.2 false q hq]
            exact ih q r hr
        · have e1 : cascadeStepFuel n i (some acc) pr = some acc := by
            simp only [cascadeStepFuel, if_neg hc]
          have e2 : cascadeStep n i acc pr = acc := by
            simp only [cascadeStep, if_neg hc]
          rw [e1] at hr
          rw [e2]
          exact ih acc r hr
    exact key _ _ r h

/-- A call of `remove` that returns has the value of the total function. -/
theorem remove_eq_some (lts : LinesToSimplify) (v : Option (List Int)) (i : Int) (s : Bool)
    (r : LinesToSimplify × Option (List Int)) (h : lts.remove v i s = some r) :
    lts.removeTotal v i s = r :=
  removeFuel_eq_some _ lts v i s r h

theorem remove_true (lts : LinesToSimplify) (v : Option (List Int)) (i : Int) :
    lts.remove v i true = some (lts.removeTotal v i true) :=
  rfl

theorem removeFuel_parent (n : Nat) (lts : LinesToSimplify) (v : Option (List Int))
    (i : Int) (s : Bool) (r : LinesToSimplify × Option (List Int))
    (h : lts.removeFuel n v i s = some r) : r.1.parent = lts.parent := by
  rw [← removeFuel_eq_some n lts v i s r h]
  exact removeAux_parent n lts v i s

/-- A call `remove(v, i, false)` does not return within `n` nested calls exactly when a
chain of `n` parent links starts at `i`. -/
theorem removeFuel_none_iff : ∀ (n : Nat) (lts : LinesToSimplify) (v : Option (List Int))
    (i : Int), lts.removeFuel n v i false = none ↔ LinkChain lts.parent n i
  | 0, _, _, _ => by simp [LinesToSimplify.removeFuel, LinkChain]
  | n + 1, lts, v, i => by
    rw [removeFuel_succ_false]
    have key : ∀ (ps : List (Int × Int)) (acc : LinesToSimplify × Option (List Int)),
        acc.1.parent = lts.parent →
        (ps.foldl (cascadeStepFuel n i) (some acc) = none ↔
          ∃ pr ∈ ps, (pr.1 = i ∧ pr.2 ≠ i ∧ pr.2 ≠ -1) ∧ LinkChain lts.parent n pr.2) := by
      intro ps
      induction ps with
      | nil =>
        intro acc _
        simp
      | cons pr ps ih =>
        intro acc hacc
        simp only [List.foldl_cons, List.mem_cons, exists_eq_or_imp]
        by_cases hc : pr.1 = i ∧ pr.2 ≠ i ∧ pr.2 ≠ -1
        · have e1 : cascadeStepFuel n i (some acc) pr =
              LinesToSimplify.removeFuel n acc.1 acc.2 pr.2 false := by
            simp only [cascadeStepFuel, if_pos hc]
          rw [e1]
          cases hq : LinesToSimplify.removeFuel n acc.1 acc.2 pr.2 false with
          | none =>
            rw [foldl_cascadeStepFuel_none]
            have := (removeFuel_none_iff n acc.1 acc.2 pr.2).1 hq
            rw [hacc] at this
            simp only [true_iff]
            exact Or.inl ⟨hc, this⟩
          | some q =>
            have hq1 : ¬ LinkChain lts.parent n pr.2 := by
              intro hd
              rw [← hacc] at hd
              rw [(removeFuel_none_iff n acc.1 acc.2 pr.2).2 hd] at hq
              exact Option.noConfusion hq
            rw [ih q ((removeFuel_parent n _ _ _ _ q hq).trans hacc)]
            constructor
            · intro h
              exact Or.inr h
            · rintro (⟨-, h⟩ | h)
              · exact absurd h hq1
              · exact h
        · have e1 : cascadeStepFuel n i (some acc) pr = some acc := by
            simp only [cascadeStepFuel, if_neg hc]
          rw [e1, ih acc hacc]
          constructor
          · intro h
            exact Or.inr h
          · rintro (⟨h, -⟩ | h)
            · exact absurd h hc
            · exact h
    rw [key lts.parent _ rfl]
    simp only [LinkChain, Link]
    constructor
    · rintro ⟨⟨a, b⟩, hm, ⟨ha, hb1, hb2⟩, hd⟩
      simp only at ha hb1 hb2 hd
      subst ha
      exact ⟨b, ⟨hm, hb1, hb2⟩, hd⟩
    · rintro ⟨j, ⟨hm, hj1, hj2⟩, hd⟩
      exact ⟨(i, j), hm, ⟨rfl, hj1, hj2⟩, hd⟩

theorem LinkChain.shorter {P : List (Int × Int)} : ∀ {n m : Nat} {i : Int},
    LinkChain P n i → m ≤ n → LinkChain P m i
  | _, 0, _, _, _ => trivial
  | 0, m + 1, _, _, hm => absurd hm (by omega)
  | n + 1, m + 1, _, ⟨j, hl, hd⟩, hm => ⟨j, hl, LinkChain.shorter hd (by omega)⟩

theorem LinkChain.of_subtable {P Q : List (Int × Int)} (hs : ∀ pr ∈ P, pr ∈ Q) :
    ∀ {n : Nat} {i : Int}, LinkChain P n i → LinkChain Q n i
  | 0, _, _ => trivial
  | _ + 1, _, ⟨j, hl, hd⟩ => ⟨j, ⟨hs _ hl.1, hl.2⟩, LinkChain.of_subtable hs hd⟩

/-- A chain that starts at a line reached from `a` gives a chain of the same length that
starts at `a`. -/
theorem LinkChain.of_reaches {P : List (Int × Int)} {n : Nat} {a b : Int}
    (h : Reaches P a b) (hd : LinkChain P n b) : LinkChain P n a := by
  induction h using Relation.ReflTransGen.head_induction_on with
  | refl => exact hd
  | head hl _ ih => exact LinkChain.shorter (n := n + 1) ⟨_, hl, ih⟩ (by omega)

/-- From a line that lies on a cycle of parent links chains of every length start. -/
theorem LinkChain.of_cycle {P : List (Int × Int)} {i j : Int} (hl : Link P i j)
    (hr : Reaches P j i) : ∀ n, LinkChain P n i
  | 0 => trivial
  | n + 1 => ⟨j, hl, LinkChain.of_reaches hr (LinkChain.of_cycle hl hr n)⟩

/-- A chain from a line that does not reach `i` uses no pair whose first component is
`i`. -/
theorem LinkChain.filter {P : List (Int × Int)} {i : Int} : ∀ {n : Nat} {j : Int},
    ¬ Reaches P j i → LinkChain P n j →
      LinkChain (P.filter (fun pr => decide (pr.1 ≠ i))) n j
  | 0, _, _, _ => trivial
  | n + 1, j, hr, ⟨k, hl, hd⟩ => by
    have hji : j ≠ i := fun e => hr (e ▸ Relation.ReflTransGen.refl)
    refine ⟨k, ⟨List.mem_filter.2 ⟨hl.1, by simpa using hji⟩, hl.2⟩, ?_⟩
    exact LinkChain.filter (fun hk => hr (Relation.ReflTransGen.head hl hk)) hd

/-- When some number of nested calls is enough for `remove(v, i, false)`, as many as the
parent table has pairs, and one more, are enough: a chain of more links than the table has
pairs meets a line twice. -/
theorem LinkChain.bounded : ∀ (k : Nat) (P : List (Int × Int)) (i : Int) (m : Nat),
    P.length ≤ k → ¬ LinkChain P m i → ¬ LinkChain P (P.length + 1) i
  | k, P, i, 0, _, hm, _ => hm trivial
  | 0, P, i, _ + 1, hk, _, ⟨j, hl, _⟩ => by
    have : P = [] := List.length_eq_zero.mp (by omega)
    rw [this] at hl
    exact absurd hl.1 (List.not_mem_nil _)
  | k + 1, P, i, m + 1, hk, hm, ⟨j, hl, hd⟩ => by
    have hr : ¬ Reaches P j i := fun hr => hm (LinkChain.of_cycle hl hr (m + 1))
    have hmj : ¬ LinkChain P m j := fun h => hm ⟨j, hl, h⟩
    have hlen : (P.filter (fun pr => decide (pr.1 ≠ i))).length < P.length := by
      rw [List.length_filter_lt_length_iff_exists]
      exact ⟨(i, j), hl.1, by simp⟩
    have h1 := LinkChain.filter hr hd
    have h2 : ¬ LinkChain (P.filter (fun pr => decide (pr.1 ≠ i))) m j := fun h =>
      hmj (LinkChain.of_subtable (fun pr hp => (List.mem_filter.1 hp).1) h)
    exact LinkChain.bounded k _ j m (by omega) h2 (LinkChain.shorter h1 (by omega))

/-- With a chain of `parent.length + 1` links from `i` there are chains of every
length. -/
theorem LinkChain.all (P : List (Int × Int)) (i : Int) (h : LinkChain P (P.length + 1) i)
    (n : Nat) : LinkChain P n i := by
  by_contra hn
  exact LinkChain.bounded P.length P i n (le_refl _) hn h

/-- The result `none` of `remove` stands for a call that does not return: no number of
nested calls is enough. -/
theorem remove_none_iff (lts : LinesToSimplify) (v : Option (List Int)) (i : Int) (s : Bool) :
    lts.remove v i s = none ↔ ∀ n, lts.removeFuel n v i s = none := by
  cases s with
  | true =>
    constructor
    · intro h
      rw [remove_true] at h
      exact Option.noConfusion h
    · intro h
      have := h 1
      rw [removeFuel_succ_true] at this
      exact Option.noConfusion this
  | false =>
    unfold LinesToSimplify.remove
    constructor
    · intro h n
      rw [removeFuel_none_iff] at h ⊢
      exact LinkChain.all _ _ h n
    · intro h
      exact h _

/-- More nested calls allowed do not change the result of a call that returns. -/
theorem removeFuel_mono : ∀ (n m : Nat) (lts : LinesToSimplify) (v : Option (List Int))
    (i : Int) (s : Bool) (r : LinesToSimplify × Option (List Int)), n ≤ m →
    lts.removeFuel n v i s = some r → lts.removeFuel m v i s = some r
  | 0, _, _, _, _, _, _, _, h => by simp [LinesToSimplify.removeFuel] at h
  | _ + 1, 0, _, _, _, _, _, hnm, _ => absurd hnm (by omega)
  | n + 1, m + 1, lts, v, i, true, r, _, h => by
    rw [removeFuel_succ_true] at h ⊢
    exact h
  | n + 1, m + 1, lts, v, i, false, r, hnm, h => by
    rw [removeFuel_succ_false] at h ⊢
    have key : ∀ (ps : List (Int × Int)) (acc : LinesToSimplify × Option (List Int))
        (r : LinesToSimplify × Option (List Int)),
        ps.foldl (cascadeStepFuel n i) (some acc) = some r →
        ps.foldl (cascadeStepFuel m i) (some acc) = some r := by
      intro ps
      induction ps with
      | nil =>
        intro acc r hr
        exact hr
      | cons pr ps ih =>
        intro acc r hr
        simp only [List.foldl_cons] at hr ⊢
        by_cases hc : pr.1 = i ∧ pr.2 ≠ i ∧ pr.2 ≠ -1
        · have e1 : ∀ k, cascadeStepFuel k i (some acc) pr =
              LinesToSimplify.removeFuel k acc.1 acc.2 pr.2 false := by
            intro k
            simp only [cascadeStepFuel, if_pos hc]
          rw [e1] at hr ⊢
          cases hq : LinesToSimplify.removeFuel n acc.1 acc.2 pr.2 false with
          | none =>
            rw [hq, foldl_cascadeStepFuel_none] at hr
            exact Option.noConfusion hr
          | some q =>
            rw [hq] at hr
            rw [removeFuel_mono n m acc.1 acc.2 pr.2 false q (by omega) hq]
            exact ih q r hr
        · have e1 : ∀ k, cascadeStepFuel k i (some acc) pr = some acc := by
            intro k
            simp only [cascadeStepFuel, if_neg hc]
          rw [e1] at hr ⊢
          exact ih acc r hr
    exact key _ _ r h

/-- The result `some r` of `remove` stands for a call that returns with `r`: some number
of nested calls is enough, and gives `r`. -/
theorem remove_eq_some_iff (lts : LinesToSimplify) (v : Option (List Int)) (i : Int)
    (s : Bool) (r : LinesToSimplify × Option (List Int)) :
    lts.remove v i s = some r ↔ ∃ n, lts.removeFuel n v i s = some r := by
  constructor
  · intro h
    exact ⟨_, h⟩
  · rintro ⟨n, hn⟩
    have h1 := removeFuel_mono n (max n (lts.parent.length + 1)) lts v i s r (le_max_left _ _) hn
    cases hq : lts.remove v i s with
    | none =>
      rw [(remove_none_iff lts v i s).1 hq] at h1
      exact Option.noConfusion h1
    | some q =>
      have h2 := removeFuel_mono (lts.parent.length + 1) (max n (lts.parent.length + 1)) lts v i
        s q (le_max_right _ _) hq
      rw [h1] at h2
      exact h2.symm

theorem foldl_removeAll_none (is : List Int) :
    is.foldl (fun (acc : Option LinesToSimplify) (i : Int) =>
      match acc with
      | none => none
      | some a => (a.remove none i false).map Prod.fst) none = none := by
  induction is with
  | nil => rfl
  | cons i is ih => simpa [List.foldl_cons] using ih

/-- A subtraction step that returns has the value of the total function. -/
theorem removeAll_eq_some (lts other r : LinesToSimplify) (h : lts.removeAll other = some r) :
    lts.removeAllTotal other = r := by
  unfold LinesToSimplify.removeAll at h
  unfold LinesToSimplify.removeAllTotal
  have key : ∀ (is : List Int) (acc r : LinesToSimplify),
      is.foldl (fun (acc : Option LinesToSimplify) (i : Int) =>
          match acc with
          | none => none
          | some a => (a.remove none i false).map Prod.fst) (some acc) = some r →
      is.foldl (fun (acc : LinesToSimplify) (i : Int) =>
          (acc.removeTotal none i false).1) acc = r := by
    intro is
    induction is with
    | nil =>
      intro acc r hr
      exact Option.some.inj hr
    | cons i is ih =>
      intro acc r hr
      simp only [List.foldl_cons] at hr ⊢
      cases hq : acc.remove none i false with
      | none =>
        rw [hq] at hr
        simp only [Option.map_none'] at hr
        rw [foldl_removeAll_none] at hr
        exact Option.noConfusion hr
      | some q =>
        rw [hq] at hr
        rw [remove_eq_some acc none i false q hq]
        exact ih q.1 r hr
  exact key _ lts r h

/-- A call of `simplify` that returns has the value of the total function. -/
theorem simplify_eq_some (pp : PrettyPrinter) (item line : Int) (vec : Option (List Int))
    (r : Bool × PrettyPrinter × Option (List Int)) (h : pp.simplify item line vec = some r) :
    pp.simplifyTotal item line vec = r := by
  unfold PrettyPrinter.simplify at h
  unfold PrettyPrinter.simplifyTotal
  split_ifs at h ⊢ with h0 h1
  · cases hq : (vecGet pp.linesToSimplify item).remove vec line false with
    | none => rw [hq] at h; exact Option.noConfusion h
    | some q =>
      rw [hq] at h
      rw [remove_eq_some _ vec line false q hq]
      exact Option.some.inj h
  · cases hq : (vecGet pp.linesToSimplify item).remove vec line false with
    | none => rw [hq] at h; exact Option.noConfusion h
    | some q =>
      rw [hq] at h
      rw [remove_eq_some _ vec line false q hq]
      exact Option.some.inj h
  · cases hq : (vecGet pp.linesToSimplify item).remove vec line true with
    | none => rw [hq] at h; exact Option.noConfusion h
    | some q =>
      rw [hq] at h
      rw [remove_eq_some _ vec line true q hq]
      exact Option.some.inj h

/-- A call of `simplify` returns exactly when its call of `remove` returns. -/
theorem simplify_eq_none_iff (pp : PrettyPrinter) (item line : Int)
    (vec : Option (List Int)) :
    pp.simplify item line vec = none ↔
      (vecGet pp.linesToSimplify item).remove vec line
        (!(decide (line = 0) || decide ((pp.line item line).getLength >
          (pp.line item (line - 1)).getSpaceLeft pp.maxwidth))) = none := by
  unfold PrettyPrinter.simplify
  split_ifs with h0 h1
  · simp only [h0, decide_True, Bool.true_or, Bool.not_true]
    cases (vecGet pp.linesToSimplify item).remove vec 0 false <;> simp
  · simp only [h0, h1, decide_False, decide_True, Bool.or_true, Bool.not_true]
    cases (vecGet pp.linesToSimplify item).remove vec line false <;> simp
  · simp only [h0, h1, decide_False, Bool.or_false, Bool.not_false]
    cases (vecGet pp.linesToSimplify item).remove vec line true <;> simp

/-- A call of `simplify` whose call of `remove` returns has the value of the total
function. -/
theorem simplify_of_remove (pp : PrettyPrinter) (item line : Int) (vec : Option (List Int))
    (h : ∀ s, (vecGet pp.linesToSimplify item).remove vec line s =
      some ((vecGet pp.linesToSimplify item).removeTotal vec line s)) :
    pp.simplify item line vec = some (pp.simplifyTotal item line vec) := by
  unfold PrettyPrinter.simplify PrettyPrinter.simplifyTotal
  simp only [h]
  split_ifs <;> rfl

mutual
/-- A walk that returns has the value of the total function. -/
theorem printDocument_eq_some : ∀ (d : Document) (pp : PrettyPrinter) (u : Int) (al : Bool)
    (col : Int) (be af : String) (r : PrettyPrinter),
    pp.printDocument u d al col be af = some r → pp.printDocumentTotal u d al col be af = r
  | .BreakPoint _ _, _, _, _, _, _, _, _, h => by
    simp only [PrettyPrinter.printDocument] at h
    simp only [PrettyPrinter.printDocumentTotal]
    exact Option.some.inj h
  | .StringDocument _ _, _, _, _, _, _, _, _, h => by
    simp only [PrettyPrinter.printDocument] at h
    simp only [PrettyPrinter.printDocumentTotal]
    exact Option.some.inj h
  | .DocumentList _ ld b sep e unb al1, pp, u, al, col, be, af, r, h => by
    simp only [PrettyPrinter.printDocument] at h
    simp only [PrettyPrinter.printDocumentTotal]
    generalize (if unb = true then pp.addLine col false false 0 else pp) = pp1 at *
    generalize (if al1 = true then
      (pp1.line pp1.currentItem pp1.currentLine).getIndentation +
        (pp1.line pp1.currentItem pp1.currentLine).getLength + size b else col) = nac at *
    generalize (if (ld.length : Int) = 0 then
        pp1.printStringDoc none true nac (be ++ b) (e ++ af) else pp1) = pp2 at *
    cases hq : PrettyPrinter.printDocListLoop pp2 u ld 0 ld.length
        (lastVisibleElementIndex u ld) al1 nac sep (e ++ af) (be ++ b) with
    | none => rw [hq] at h; exact Option.noConfusion h
    | some q =>
      rw [hq] at h
      rw [printDocListLoop_eq_some ld pp2 u 0 ld.length (lastVisibleElementIndex u ld) al1 nac
        sep (e ++ af) (be ++ b) q hq]
      simp only at h
      split_ifs at h ⊢ with hu
      · cases hs : q.simplify q.currentItem q.currentLine none with
        | none => rw [hs] at h; exact Option.noConfusion h
        | some s =>
          rw [hs] at h
          rw [simplify_eq_some q _ _ none s hs]
          exact Option.some.inj h
      · exact Option.some.inj h
theorem printDocListLoop_eq_some : ∀ (ld : List Document) (pp : PrettyPrinter) (u : Int)
    (i vs lv : Int) (al : Bool) (nac : Int) (sep la fb : String) (r : PrettyPrinter),
    PrettyPrinter.printDocListLoop pp u ld i vs lv al nac sep la fb = some r →
    PrettyPrinter.printDocListLoopTotal pp u ld i vs lv al nac sep la fb = r
  | [], _, _, _, _, _, _, _, _, _, _, _, h => by
    simp only [PrettyPrinter.printDocListLoop] at h
    simp only [PrettyPrinter.printDocListLoopTotal]
    exact Option.some.inj h
  | d :: ld, pp, u, i, vs, lv, al, nac, sep, la, fb, r, h => by
    simp only [PrettyPrinter.printDocListLoop] at h
    simp only [PrettyPrinter.printDocListLoopTotal]
    generalize (if (d.isBreakPoint && !al) = true then nac + pp.indentationBase else nac) = nac1
      at *
    generalize (if i ≠ vs - 1 then if (d.isBreakPoint || decide (lv ≤ i)) = true then ""
      else sep else la) = af1 at *
    cases hq : pp.printDocument u d al nac1 (if i = 0 then fb else "") af1 with
    | none => rw [hq] at h; exact Option.noConfusion h
    | some q =>
      rw [hq] at h
      rw [printDocument_eq_some d pp u al nac1 _ af1 q hq]
      exact printDocListLoop_eq_some ld q u (i + 1) vs lv al nac1 sep la fb r h
end

theorem layout_of_print (mw ib : Int) (sim deepsim : Bool) (u : Int) (d : Document)
    (h : (PrettyPrinter.new mw ib sim deepsim).print u d =
      some ((PrettyPrinter.new mw ib sim deepsim).printTotal u d)) :
    layout mw ib sim deepsim u d = some (layoutTotal mw ib sim deepsim u d) := by
  unfold layout layoutTotal
  rw [h]
  rfl

/-! ## Calls that return -/

/-- With parent links that lead to no greater line `remove` returns. -/
theorem remove_of_le (lts : LinesToSimplify) (hP : ∀ pr ∈ lts.parent, pr.2 ≤ pr.1)
    (v : Option (List Int)) (i : Int) (s : Bool) :
    lts.remove v i s = some (lts.removeTotal v i s) :=
  removeFuel_remove lts hP _ (le_refl _) v i s

theorem removeAll_of_le (lts other : LinesToSimplify)
    (hP : ∀ pr ∈ lts.parent, pr.2 ≤ pr.1) :
    lts.removeAll other = some (lts.removeAllTotal other) := by
  unfold LinesToSimplify.removeAll LinesToSimplify.removeAllTotal
  have key : ∀ (is : List Int) (acc : LinesToSimplify), acc.parent = lts.parent →
      is.foldl (fun (acc : Option LinesToSimplify) (i : Int) =>
          match acc with
          | none => none
          | some a => (a.remove none i false).map Prod.fst) (some acc) =
        some (is.foldl (fun (acc : LinesToSimplify) (i : Int) =>
          (acc.removeTotal none i false).1) acc) := by
    intro is
    induction is with
    | nil => intro acc _; rfl
    | cons i is ih =>
      intro acc hacc
      simp only [List.foldl_cons]
      rw [remove_of_le acc (by rw [hacc]; exact hP)]
      exact ih _ ((remove_parent acc none i false).trans hacc)
  exact key _ lts rfl

theorem simplify_of_le (pp : PrettyPrinter) (l : Int) (vec : Option (List Int))
    (hP : ∀ pr ∈ pp.T.parent, pr.2 ≤ pr.1) :
    pp.simplify 0 l vec = some (pp.simplifyTotal 0 l vec) :=
  simplify_of_remove pp 0 l vec (fun s => remove_of_le pp.T hP vec l s)

/-- With parent links that lead to no greater line the loop of `simplifyItem` returns,
within as many iterations as the working vector has entries. -/
theorem simplifyLoop_of_le : ∀ (k j : Nat) (pp : PrettyPrinter) (vec : List Int),
    Single pp → (∀ pr ∈ pp.T.parent, pr.2 ≤ pr.1) → vec.length ≤ k → vec.length ≤ j →
    PrettyPrinter.simplifyLoop k pp 0 vec = some (PrettyPrinter.simplifyLoopTotal j pp 0 vec)
  | k, 0, pp, [], _, _, _, _ => by
    cases k <;> simp [PrettyPrinter.simplifyLoop, PrettyPrinter.simplifyLoopTotal]
  | k, j + 1, pp, [], _, _, _, _ => by
    cases k <;> simp [PrettyPrinter.simplifyLoop, PrettyPrinter.simplifyLoopTotal]
  | 0, _, pp, _ :: _, _, _, hk, _ => by simp at hk
  | _ + 1, 0, pp, _ :: _, _, _, _, hj => by simp at hj
  | k + 1, j + 1, pp, l :: rest, h, hP, hk, hj => by
    simp only [PrettyPrinter.simplifyLoop, PrettyPrinter.simplifyLoopTotal]
    rw [simplify_of_le pp l _ hP]
    simp only []
    obtain ⟨g0, g1, -, -, -, -, g6⟩ := simplify_spec pp h l (some (l :: rest))
    cases hc : canJoin pp.maxwidth pp.L l with
    | false =>
      rw [hc] at g0
      simp [g0]
    | true =>
      rw [hc] at g0 g6
      have hv : (pp.simplifyTotal 0 l (some (l :: rest))).2.2 =
          some (decrementVec (eraseValue (l :: rest) l) l) := by
        rw [← ledgerAfter_true_vec pp.T (l :: rest) l]
        exact congrArg Prod.snd g6
      simp only [g0, Bool.not_true, Bool.false_eq_true, if_false, hv, Option.getD_some]
      obtain ⟨p1, -⟩ := simplify_parent pp h l (some (l :: rest)) hP
      have hlen := length_vec_after_join l rest
      simp only [List.length_cons] at hk hj
      exact simplifyLoop_of_le k j _ _ g1 p1 (by omega) (by omega)

/-- With parent links that lead to no greater line `simplifyItem` returns. -/
theorem simplifyItem_of_le (W : PrettyPrinter) (hs : Single W)
    (hP : ∀ pr ∈ W.T.parent, pr.2 ≤ pr.1) :
    W.simplifyItem 0 = some (W.simplifyItemTotal 0) := by
  unfold PrettyPrinter.simplifyItem PrettyPrinter.simplifyItemTotal
  have e1 : (vecGet W.linesToSimplify 0).removeAll (vecGet W.linesNotToSimplify 0) =
      some (W.T.removeAllTotal W.N) := removeAll_of_le W.T W.N hP
  rw [e1]
  dsimp only
  obtain ⟨s1, -, -, s4, -⟩ := setLedger_spec W hs (W.T.removeAllTotal W.N)
  have s4' : vecGet (vecModify W.linesToSimplify 0 (fun _ => W.T.removeAllTotal W.N)) 0 =
      W.T.removeAllTotal W.N := s4
  have e2 : (vecGet W.linesToSimplify 0).removeAllTotal (vecGet W.linesNotToSimplify 0) =
      W.T.removeAllTotal W.N := rfl
  rw [e2, s4']
  rw [simplifyLoop_of_le _ (W.T.removeAllTotal W.N).getLinesToSimplify.length _ _ s1
    (by rw [s4, removeAll_parent]; exact hP) (le_refl _) (le_refl _)]
  rfl

mutual
/-- The walk returns when a property that `addLine`, `printString` and the simplification
of the current line keep makes every call of `simplify` at the end of an unbreakable list
return. -/
theorem printDocument_returns (Q : PrettyPrinter → Prop)
    (hAdd : ∀ pp ind bp simpl lvl, Q pp → Q (pp.addLine ind bp simpl lvl))
    (hStr : ∀ pp s al col, Q pp → Q (pp.printString s al col))
    (hSimp : ∀ pp, Q pp → Q pp.simplifyCurrentTotal)
    (hRet : ∀ pp, Q pp → pp.simplify pp.currentItem pp.currentLine none =
      some (pp.simplifyTotal pp.currentItem pp.currentLine none)) :
    ∀ (d : Document) (pp : PrettyPrinter) (u : Int) (al : Bool) (col : Int) (be af : String),
      Q pp → pp.printDocument u d al col be af = some (pp.printDocumentTotal u d al col be af)
  | .BreakPoint _ _, _, _, _, _, _, _, _ => by
    simp only [PrettyPrinter.printDocument, PrettyPrinter.printDocumentTotal]
  | .StringDocument _ _, _, _, _, _, _, _, _ => by
    simp only [PrettyPrinter.printDocument, PrettyPrinter.printDocumentTotal]
  | .DocumentList _ ld b sep e unb al1, pp, u, al, col, be, af, h => by
    simp only [PrettyPrinter.printDocument, PrettyPrinter.printDocumentTotal]
    have h1 : Q (if unb = true then pp.addLine col false false 0 else pp) := by
      split
      · exact hAdd _ _ _ _ _ h
      · exact h
    generalize (if unb = true then pp.addLine col false false 0 else pp) = pp1 at *
    generalize (if al1 = true then
      (pp1.line pp1.currentItem pp1.currentLine).getIndentation +
        (pp1.line pp1.currentItem pp1.currentLine).getLength + size b else col) = nac
    have h2 : Q (if (ld.length : Int) = 0 then
        pp1.printStringDoc none true nac (be ++ b) (e ++ af) else pp1) := by
      split
      · simp only [PrettyPrinter.printStringDoc]
        exact hStr _ _ _ _ h1
      · exact h1
    generalize (if (ld.length : Int) = 0 then
        pp1.printStringDoc none true nac (be ++ b) (e ++ af) else pp1) = pp2 at *
    rw [printDocListLoop_returns Q hAdd hStr hSimp hRet ld pp2 u 0 ld.length
      (lastVisibleElementIndex u ld) al1 nac sep (e ++ af) (be ++ b) h2]
    have h3 := printDocListLoop_preserves Q hAdd hStr hSimp ld pp2 u 0 ld.length
      (lastVisibleElementIndex u ld) al1 nac sep (e ++ af) (be ++ b) h2
    simp only []
    split
    · rw [hRet _ h3]
    · rfl
theorem printDocListLoop_returns (Q : PrettyPrinter → Prop)
    (hAdd : ∀ pp ind bp simpl lvl, Q pp → Q (pp.addLine ind bp simpl lvl))
    (hStr : ∀ pp s al col, Q pp → Q (pp.printString s al col))
    (hSimp : ∀ pp, Q pp → Q pp.simplifyCurrentTotal)
    (hRet : ∀ pp, Q pp → pp.simplify pp.currentItem pp.currentLine none =
      some (pp.simplifyTotal pp.currentItem pp.currentLine none)) :
    ∀ (ld : List Document) (pp : PrettyPrinter) (u : Int) (i vs lv : Int) (al : Bool)
      (nac : Int) (sep la fb : String), Q pp →
      PrettyPrinter.printDocListLoop pp u ld i vs lv al nac sep la fb =
        some (PrettyPrinter.printDocListLoopTotal pp u ld i vs lv al nac sep la fb)
  | [], _, _, _, _, _, _, _, _, _, _, _ => by
    simp only [PrettyPrinter.printDocListLoop, PrettyPrinter.printDocListLoopTotal]
  | d :: ld, pp, u, i, vs, lv, al, nac, sep, la, fb, h => by
    simp only [PrettyPrinter.printDocListLoop, PrettyPrinter.printDocListLoopTotal]
    rw [printDocument_returns Q hAdd hStr hSimp hRet d pp u al _ _ _ h]
    simp only []
    exact printDocListLoop_returns Q hAdd hStr hSimp hRet ld _ u _ vs lv al _ sep la fb
      (printDocument_preserves Q hAdd hStr hSimp d pp u al _ _ _ h)
end

mutual
/-- The walk of a document without unbreakable lists returns: it makes no call of
`simplify`. -/
theorem printDocument_breakable : ∀ (d : Document) (pp : PrettyPrinter) (u : Int) (al : Bool)
    (col : Int) (be af : String), d.breakable = true →
    pp.printDocument u d al col be af = some (pp.printDocumentTotal u d al col be af)
  | .BreakPoint _ _, _, _, _, _, _, _, _ => by
    simp only [PrettyPrinter.printDocument, PrettyPrinter.printDocumentTotal]
  | .StringDocument _ _, _, _, _, _, _, _, _ => by
    simp only [PrettyPrinter.printDocument, PrettyPrinter.printDocumentTotal]
  | .DocumentList _ ld b sep e unb al1, pp, u, al, col, be, af, hb => by
    simp only [Document.breakable, Bool.and_eq_true, Bool.not_eq_true'] at hb
    obtain ⟨hu, hbd⟩ := hb
    subst hu
    simp only [PrettyPrinter.printDocument, PrettyPrinter.printDocumentTotal,
      Bool.false_eq_true, if_false]
    rw [printDocListLoop_breakable ld _ u 0 ld.length (lastVisibleElementIndex u ld) al1 _ sep
      (e ++ af) (be ++ b) hbd]
theorem printDocListLoop_breakable : ∀ (ld : List Document) (pp : PrettyPrinter) (u : Int)
    (i vs lv : Int) (al : Bool) (nac : Int) (sep la fb : String),
    Document.breakableDocs ld = true →
    PrettyPrinter.printDocListLoop pp u ld i vs lv al nac sep la fb =
      some (PrettyPrinter.printDocListLoopTotal pp u ld i vs lv al nac sep la fb)
  | [], _, _, _, _, _, _, _, _, _, _, _ => by
    simp only [PrettyPrinter.printDocListLoop, PrettyPrinter.printDocListLoopTotal]
  | d :: ld, pp, u, i, vs, lv, al, nac, sep, la, fb, hb => by
    simp only [Document.breakableDocs, Bool.and_eq_true] at hb
    simp only [PrettyPrinter.printDocListLoop, PrettyPrinter.printDocListLoopTotal]
    rw [printDocument_breakable d pp u al _ _ _ hb.1]
    simp only []
    exact printDocListLoop_breakable ld _ u _ vs lv al _ sep la fb hb.2
end

theorem walk_breakable (pp : PrettyPrinter) (u : Int) (d : Document)
    (hb : d.breakable = true) : pp.walk u d = some (pp.walkTotal u d) :=
  printDocument_breakable d _ u true 0 "" "" hb

/-- The method `print` returns on every document without unbreakable lists. -/
theorem print_breakable (mw ib : Int) (sim deepsim : Bool) (u : Int) (d : Document)
    (hb : d.breakable = true) :
    (PrettyPrinter.new mw ib sim deepsim).print u d =
      some ((PrettyPrinter.new mw ib sim deepsim).printTotal u d) := by
  have hw := walk_linkRange mw ib sim deepsim u d hb
  unfold PrettyPrinter.print PrettyPrinter.printTotal
  unfold PrettyPrinter.walkTotal at hw
  simp only
  rw [printDocument_breakable d _ u true 0 "" "" hb]
  simp only
  generalize ((PrettyPrinter.new mw ib sim deepsim).addItem.addLine 0 false false
    0).printDocumentTotal u d true 0 "" "" = W at *
  obtain ⟨hg, -, hp⟩ := hw
  split
  · rw [hg.single.item]
    exact simplifyItem_of_le W hg.single (fun pr hpr => by have := hp pr hpr; omega)
  · rfl

/-- The layout of a document without unbreakable lists exists. -/
theorem layout_breakable (mw ib : Int) (sim deepsim : Bool) (u : Int) (d : Document)
    (hb : d.breakable = true) :
    layout mw ib sim deepsim u d = some (layoutTotal mw ib sim deepsim u d) :=
  layout_of_print mw ib sim deepsim u d (print_breakable mw ib sim deepsim u d hb)

/-- The vector that a successful call of `simplify` leaves: the line is erased and the
entries after it are renumbered. -/
theorem simplify_vec_true (pp : PrettyPrinter) (item l : Int) (vec : List Int)
    (r : Bool × PrettyPrinter × Option (List Int))
    (h : pp.simplify item l (some vec) = some r) (ht : r.1 = true) :
    r.2.2 = some (decrementVec (eraseValue vec l) l) := by
  unfold PrettyPrinter.simplify at h
  split_ifs at h with h0 h1
  · cases hq : (vecGet pp.linesToSimplify item).remove (some vec) l false with
    | none => rw [hq] at h; exact Option.noConfusion h
    | some q =>
      rw [hq] at h
      rw [← Option.some.inj h] at ht
      exact Bool.noConfusion ht
  · cases hq : (vecGet pp.linesToSimplify item).remove (some vec) l false with
    | none => rw [hq] at h; exact Option.noConfusion h
    | some q =>
      rw [hq] at h
      rw [← Option.some.inj h] at ht
      exact Bool.noConfusion ht
  · rw [remove_true] at h
    rw [← Option.some.inj h]
    simp [LinesToSimplify.removeTotal, LinesToSimplify.removeCut,
      LinesToSimplify.decrementLine]

/-- More iterations allowed than the working vector has entries do not change the result
of the loop of `simplifyItem`: the loop never runs out of iterations. -/
theorem simplifyLoop_steps : ∀ (k j : Nat) (pp : PrettyPrinter) (item : Int) (vec : List Int),
    vec.length ≤ k → vec.length ≤ j →
    PrettyPrinter.simplifyLoop k pp item vec = PrettyPrinter.simplifyLoop j pp item vec
  | k, j, pp, item, [], _, _ => by
    cases k <;> cases j <;> simp [PrettyPrinter.simplifyLoop]
  | 0, _, _, _, _ :: _, hk, _ => by simp at hk
  | _ + 1, 0, _, _, _ :: _, _, hj => by simp at hj
  | k + 1, j + 1, pp, item, l :: rest, hk, hj => by
    simp only [PrettyPrinter.simplifyLoop]
    cases hs : pp.simplify item l (some (l :: rest)) with
    | none => rfl
    | some s =>
      simp only
      cases hf : s.1 with
      | false => simp
      | true =>
        simp only [Bool.not_true, Bool.false_eq_true, if_false]
        rw [simplify_vec_true pp item l _ s hs hf]
        have hlen := length_vec_after_join l rest
        simp only [List.length_cons] at hk hj
        exact simplifyLoop_steps k j _ item _ (by simp only [Option.getD_some]; omega)
          (by simp only [Option.getD_some]; omega)

/-! ## The variable `lastVisibleElementIndex` is read only after it is assigned -/

theorem lastVisibleOptFrom_breaks (ld : List Document) (i : Int) (o : Option Int)
    (h : ∀ x ∈ ld, x.isBreakPoint = true) : lastVisibleOptFrom i o ld = o := by
  induction ld generalizing i o with
  | nil => rfl
  | cons d ld ih =>
    have hd := h d (List.mem_cons_self _ _)
    simp only [lastVisibleOptFrom, hd, Bool.not_true, Bool.false_eq_true, if_false]
    exact ih _ _ (fun x hx => h x (List.mem_cons_of_mem _ hx))

theorem lastVisibleOptFrom_last (pre post : List Document) (d : Document) (i : Int)
    (o : Option Int) (hd : d.isBreakPoint = false) (hp : ∀ x ∈ post, x.isBreakPoint = true) :
    lastVisibleOptFrom i o (pre ++ d :: post) = some (i + pre.length) := by
  induction pre generalizing i o with
  | nil =>
    simp only [List.nil_append, lastVisibleOptFrom, hd, Bool.not_false, if_true]
    rw [lastVisibleOptFrom_breaks post _ _ hp]
    simp
  | cons x pre ih =>
    simp only [List.cons_append, lastVisibleOptFrom, List.append_eq]
    rw [ih]
    simp only [List.length_cons]
    push_cast
    congr 1
    ring

/-- The children of a list are all Breaks, or one of them is the last that is not. -/
theorem breaks_or_last_visible (ld : List Document) :
    (∀ x ∈ ld, x.isBreakPoint = true) ∨
    ∃ pre d post, ld = pre ++ d :: post ∧ d.isBreakPoint = false ∧
      ∀ x ∈ post, x.isBreakPoint = true := by
  induction ld with
  | nil => left; simp
  | cons x ld ih =>
    rcases ih with ih | ⟨pre, d, post, h1, h2, h3⟩
    · by_cases hx : x.isBreakPoint = true
      · left
        intro y hy
        rcases List.mem_cons.1 hy with rfl | hy
        · exact hx
        · exact ih y hy
      · right
        exact ⟨[], x, ld, rfl, by simpa using hx, ih⟩
    · right
      exact ⟨x :: pre, d, post, by rw [h1]; rfl, h2, h3⟩

theorem lastVisibleOptFrom_getD (ld : List Document) (i : Int) (o : Option Int) (u : Int) :
    (lastVisibleOptFrom i o ld).getD u = lastVisibleFrom i (o.getD u) ld := by
  induction ld generalizing i o with
  | nil => rfl
  | cons d ld ih =>
    simp only [lastVisibleOptFrom, lastVisibleFrom]
    rw [ih]
    cases d.isBreakPoint <;> simp

mutual
theorem printDocumentRead_eq : ∀ (d : Document) (pp : PrettyPrinter) (u : Int) (al : Bool)
    (col : Int) (be af : String),
    pp.printDocumentRead d al col be af = some (pp.printDocument u d al col be af)
  | .BreakPoint _ _, _, _, _, _, _, _ => by
    simp only [PrettyPrinter.printDocumentRead, PrettyPrinter.printDocument]
  | .StringDocument _ _, _, _, _, _, _, _ => by
    simp only [PrettyPrinter.printDocumentRead, PrettyPrinter.printDocument]
  | .DocumentList _ ld b sep e unb al1, pp, u, al, col, be, af => by
    simp only [PrettyPrinter.printDocumentRead, PrettyPrinter.printDocument]
    have hl : ∀ q nac, PrettyPrinter.printDocListLoopRead q ld 0 ld.length
        (lastVisibleElementIndexOpt ld) al1 nac sep (e ++ af) (be ++ b) =
        some (PrettyPrinter.printDocListLoop q u ld 0 ld.length
          (lastVisibleElementIndex u ld) al1 nac sep (e ++ af) (be ++ b)) := by
      intro q nac
      apply printDocListLoopRead_eq
      rcases breaks_or_last_visible ld with h | ⟨pre, d, post, h1, h2, h3⟩
      · exact Or.inr h
      · left
        have := lastVisibleOptFrom_getD ld 0 none u
        unfold lastVisibleElementIndexOpt lastVisibleElementIndex
        have e1 : lastVisibleFrom 0 u ld = (lastVisibleOptFrom 0 none ld).getD u := this.symm
        rw [e1, h1, lastVisibleOptFrom_last pre post d 0 none h2 h3]
        rfl
    simp only [hl]
    generalize (if unb = true then pp.addLine col false false 0 else pp) = pp1
    generalize (if al1 = true then
      (pp1.line pp1.currentItem pp1.currentLine).getIndentation +
        (pp1.line pp1.currentItem pp1.currentLine).getLength + size b else col) = nac
    generalize (if (ld.length : Int) = 0 then
        pp1.printStringDoc none true nac (be ++ b) (e ++ af) else pp1) = pp2
    cases PrettyPrinter.printDocListLoop pp2 u ld 0 ld.length (lastVisibleElementIndex u ld)
        al1 nac sep (e ++ af) (be ++ b) with
    | none => rfl
    | some q =>
      simp only
      split
      · cases q.simplify q.currentItem q.currentLine none <;> rfl
      · rfl
theorem printDocListLoopRead_eq : ∀ (ld : List Document) (pp : PrettyPrinter) (u : Int)
    (i vs : Int) (lvo : Option Int) (lv : Int) (al : Bool) (nac : Int) (sep la fb : String),
    (lvo = some lv ∨ ∀ x ∈ ld, x.isBreakPoint = true) →
    PrettyPrinter.printDocListLoopRead pp ld i vs lvo al nac sep la fb =
      some (PrettyPrinter.printDocListLoop pp u ld i vs lv al nac sep la fb)
  | [], _, _, _, _, _, _, _, _, _, _, _, _ => by
    simp only [PrettyPrinter.printDocListLoopRead, PrettyPrinter.printDocListLoop]
  | d :: ld, pp, u, i, vs, lvo, lv, al, nac, sep, la, fb, h => by
    simp only [PrettyPrinter.printDocListLoopRead, PrettyPrinter.printDocListLoop]
    have haf : afterChoice i vs d.isBreakPoint lvo sep la =
        some (if i ≠ vs - 1 then
          if (d.isBreakPoint || decide (lv ≤ i)) = true then "" else sep else la) := by
      unfold afterChoice
      rcases h with h | h
      · rw [h]
        cases d.isBreakPoint
        · simp only [Bool.false_eq_true, if_false, Bool.false_or, decide_eq_true_eq]
          split <;> rfl
        · simp
          split <;> rfl
      · have hd := h d (List.mem_cons_self _ _)
        simp [hd]
        split <;> rfl
    have h2 : lvo = some lv ∨ ∀ x ∈ ld, x.isBreakPoint = true := by
      rcases h with h | h
      · exact Or.inl h
      · exact Or.inr (fun x hx => h x (List.mem_cons_of_mem _ hx))
    rw [haf]
    simp only []
    rw [printDocumentRead_eq d pp u]
    cases pp.printDocument u d al
        (if (d.isBreakPoint && !al) = true then nac + pp.indentationBase else nac)
        (if i = 0 then fb else "")
        (if i ≠ vs - 1 then if (d.isBreakPoint || decide (lv ≤ i)) = true then "" else sep
          else la) with
    | none => rfl
    | some q => exact printDocListLoopRead_eq ld q u _ vs lvo lv al _ sep la fb h2
end

/-! ## The legacy engine and the current engine walk in step -/

theorem sim_addLine {lp : LegacyPrinter} {pp : PrettyPrinter} (h : Sim lp pp) (ind : Int)
    (bp bp1 simpl : Bool) (lvl : Nat) :
    Sim (lp.addLine ind bp) (pp.addLine ind bp1 simpl lvl) := by
  obtain ⟨mw, ib, cl, ci, items, lts, s, ds⟩ := lp
  obtain ⟨mw1, ib1, cl1, ci1, items1, lts1, lnts1, s1, ds1⟩ := pp
  obtain ⟨h1, h2, h3, h4, h5, h6⟩ := h
  simp only at h1 h2 h3 h4 h5 h6
  subst h1 h2 h3 h4 h5 h6
  unfold LegacyPrinter.addLine PrettyPrinter.addLine
  dsimp only
  split_ifs <;> exact ⟨rfl, rfl, rfl, rfl, rfl, rfl⟩

theorem sim_printString {lp : LegacyPrinter} {pp : PrettyPrinter} (h : Sim lp pp)
    (bpd : Bool) (s : String) (al : Bool) (col : Int) :
    Sim (lp.printString bpd s al col) (pp.printString s al col) := by
  obtain ⟨mw, ib, cl, ci, items, lts, sm, ds⟩ := lp
  obtain ⟨mw1, ib1, cl1, ci1, items1, lts1, lnts1, sm1, ds1⟩ := pp
  obtain ⟨h1, h2, h3, h4, h5, h6⟩ := h
  simp only at h1 h2 h3 h4 h5 h6
  subst h1 h2 h3 h4 h5 h6
  unfold LegacyPrinter.printString PrettyPrinter.printString LegacyPrinter.line
    PrettyPrinter.line LegacyPrinter.addLine PrettyPrinter.addLine
  dsimp only
  split_ifs <;> exact ⟨rfl, rfl, rfl, rfl, rfl, rfl⟩

theorem sim_simplify {lp : LegacyPrinter} {pp : PrettyPrinter} (h : Sim lp pp)
    (item line : Int) (vec : Option (List Int)) :
    Sim (lp.simplify item line).2 (pp.simplifyTotal item line vec).2.1 ∧
      (lp.simplify item line).1 = (pp.simplifyTotal item line vec).1 := by
  obtain ⟨mw, ib, cl, ci, items, lts, sm, ds⟩ := lp
  obtain ⟨mw1, ib1, cl1, ci1, items1, lts1, lnts1, sm1, ds1⟩ := pp
  obtain ⟨h1, h2, h3, h4, h5, h6⟩ := h
  simp only at h1 h2 h3 h4 h5 h6
  subst h1 h2 h3 h4 h5 h6
  unfold LegacyPrinter.simplify PrettyPrinter.simplifyTotal LegacyPrinter.line PrettyPrinter.line
  dsimp only
  split_ifs <;> exact ⟨⟨rfl, rfl, rfl, rfl, rfl, rfl⟩, rfl⟩

theorem sim_printStringDoc {lp : LegacyPrinter} {pp : PrettyPrinter} (h : Sim lp pp)
    (bpd : Bool) (d : Option String) (al : Bool) (col : Int) (be af : String) :
    Sim (lp.printStringDoc bpd d al col be af) (pp.printStringDoc d al col be af) := by
  unfold LegacyPrinter.printStringDoc PrettyPrinter.printStringDoc
  exact sim_printString h bpd _ al col

theorem sim_cursor {lp : LegacyPrinter} {pp : PrettyPrinter} (h : Sim lp pp) :
    lp.line lp.currentItem lp.currentLine = pp.line pp.currentItem pp.currentLine := by
  unfold LegacyPrinter.line PrettyPrinter.line
  rw [h.1, h.2.1, h.2.2.1]

mutual
/-- The walk of a document keeps the two engines in step. -/
theorem sim_printDocument : ∀ (d : Document) (lp : LegacyPrinter) (pp : PrettyPrinter)
    (bpd : Bool) (u : Int) (al : Bool) (col : Int) (be af : String), Sim lp pp →
    Sim (lp.printDocument bpd u d al col be af) (pp.printDocumentTotal u d al col be af)
  | .BreakPoint _ _, lp, pp, bpd, u, al, col, be, af, h => by
    simp only [LegacyPrinter.printDocument, PrettyPrinter.printDocumentTotal]
    have e1 : lp.printStringDoc bpd none al col be "" = lp.printString bpd be al col := by
      simp [LegacyPrinter.printStringDoc]
    have e2 : ∀ q : LegacyPrinter,
        q.printStringDoc bpd none al col "" af = q.printString bpd af al col := by
      intro q
      simp [LegacyPrinter.printStringDoc]
    rw [e1, e2]
    exact sim_printString (sim_addLine (sim_printString h bpd be al col) col false _ _ _) bpd
      af al col
  | .StringDocument _ s, lp, pp, bpd, u, al, col, be, af, h => by
    simp only [LegacyPrinter.printDocument, PrettyPrinter.printDocumentTotal]
    exact sim_printStringDoc h bpd _ al col be af
  | .DocumentList _ ld b sep e unb al1, lp, pp, bpd, u, al, col, be, af, h => by
    simp only [LegacyPrinter.printDocument, PrettyPrinter.printDocumentTotal]
    have h1 : Sim (if unb = true then lp.addLine col bpd else lp)
        (if unb = true then pp.addLine col false false 0 else pp) := by
      split
      · exact sim_addLine h col bpd false false 0
      · exact h
    generalize (if unb = true then lp.addLine col bpd else lp) = lp1 at *
    generalize (if unb = true then pp.addLine col false false 0 else pp) = pp1 at *
    rw [sim_cursor h1]
    generalize (if al1 = true then
      (pp1.line pp1.currentItem pp1.currentLine).getIndentation +
        (pp1.line pp1.currentItem pp1.currentLine).getLength + size b else col) = nac
    have h2 : Sim (if (ld.length : Int) = 0 then
          lp1.printStringDoc bpd none true nac (be ++ b) (e ++ af) else lp1)
        (if (ld.length : Int) = 0 then
          pp1.printStringDoc none true nac (be ++ b) (e ++ af) else pp1) := by
      split
      · exact sim_printStringDoc h1 bpd none true nac _ _
      · exact h1
    generalize (if (ld.length : Int) = 0 then
      lp1.printStringDoc bpd none true nac (be ++ b) (e ++ af) else lp1) = lp2 at *
    generalize (if (ld.length : Int) = 0 then
      pp1.printStringDoc none true nac (be ++ b) (e ++ af) else pp1) = pp2 at *
    have h3 := sim_printDocListLoop ld lp2 pp2 bpd u 0 ld.length
      (lastVisibleElementIndex u ld) al1 nac sep (e ++ af) (be ++ b) h2
    generalize LegacyPrinter.printDocListLoop lp2 bpd u ld 0 ld.length
      (lastVisibleElementIndex u ld) al1 nac sep (e ++ af) (be ++ b) = lp3 at *
    generalize PrettyPrinter.printDocListLoopTotal pp2 u ld 0 ld.length
      (lastVisibleElementIndex u ld) al1 nac sep (e ++ af) (be ++ b) = pp3 at *
    split
    · rw [h3.2.2.1, h3.2.1]
      exact (sim_simplify h3 pp3.currentItem pp3.currentLine none).1
    · exact h3
/-- The same for the loop of `printDocList` over the children. -/
theorem sim_printDocListLoop : ∀ (ld : List Document) (lp : LegacyPrinter)
    (pp : PrettyPrinter) (bpd : Bool) (u : Int) (i vs lv : Int) (al : Bool) (nac : Int)
    (sep la fb : String), Sim lp pp →
    Sim (LegacyPrinter.printDocListLoop lp bpd u ld i vs lv al nac sep la fb)
      (PrettyPrinter.printDocListLoopTotal pp u ld i vs lv al nac sep la fb)
  | [], lp, pp, bpd, u, i, vs, lv, al, nac, sep, la, fb, h => by
    simp only [LegacyPrinter.printDocListLoop, PrettyPrinter.printDocListLoopTotal]
    exact h
  | d :: ld, lp, pp, bpd, u, i, vs, lv, al, nac, sep, la, fb, h => by
    simp only [LegacyPrinter.printDocListLoop, PrettyPrinter.printDocListLoopTotal]
    rw [h.2.2.2.2.1]
    exact sim_printDocListLoop ld _ _ bpd u _ vs lv al _ sep la fb
      (sim_printDocument d lp pp bpd u al _ _ _ h)
end

theorem simplifyBounded_good (pp : PrettyPrinter) (h : Good pp) :
    pp.simplifyBounded pp.currentItem pp.currentLine none =
      some (pp.simplify pp.currentItem pp.currentLine none) := by
  unfold PrettyPrinter.simplifyBounded
  rw [h.items_eq, if_pos]
  have h1 := h.line_nonneg
  have h2 := h.line_last
  exact ⟨h1, by omega⟩

mutual
theorem printDocumentBounded_eq : ∀ (d : Document) (pp : PrettyPrinter) (u : Int) (al : Bool)
    (col : Int) (be af : String), Good pp →
    pp.printDocumentBounded u d al col be af = some (pp.printDocument u d al col be af)
  | .BreakPoint _ _, _, _, _, _, _, _, _ => by
    simp only [PrettyPrinter.printDocumentBounded, PrettyPrinter.printDocument]
  | .StringDocument _ _, _, _, _, _, _, _, _ => by
    simp only [PrettyPrinter.printDocumentBounded, PrettyPrinter.printDocument]
  | .DocumentList _ ld b sep e unb al1, pp, u, al, col, be, af, h => by
    simp only [PrettyPrinter.printDocumentBounded, PrettyPrinter.printDocument]
    have h1 : Good (if unb = true then pp.addLine col false false 0 else pp) := by
      split
      · exact addLine_good pp h _ _ _ _
      · exact h
    generalize (if unb = true then pp.addLine col false false 0 else pp) = pp1 at *
    generalize (if al1 = true then
      (pp1.line pp1.currentItem pp1.currentLine).getIndentation +
        (pp1.line pp1.currentItem pp1.currentLine).getLength + size b else col) = nac
    have h2 : Good (if (ld.length : Int) = 0 then
        pp1.printStringDoc none true nac (be ++ b) (e ++ af) else pp1) := by
      split
      · simp only [PrettyPrinter.printStringDoc]
        exact printString_good _ h1 _ _ _
      · exact h1
    generalize (if (ld.length : Int) = 0 then
        pp1.printStringDoc none true nac (be ++ b) (e ++ af) else pp1) = pp2 at *
    rw [printDocListLoopBounded_eq ld pp2 u 0 ld.length (lastVisibleElementIndex u ld) al1 nac
      sep (e ++ af) (be ++ b) h2]
    have h3 := printDocListLoop_good ld pp2 u 0 ld.length (lastVisibleElementIndex u ld) al1
      nac sep (e ++ af) (be ++ b) h2
    cases hq : PrettyPrinter.printDocListLoop pp2 u ld 0 ld.length
        (lastVisibleElementIndex u ld) al1 nac sep (e ++ af) (be ++ b) with
    | none => rfl
    | some q =>
      rw [printDocListLoop_eq_some ld pp2 u 0 ld.length (lastVisibleElementIndex u ld) al1 nac
        sep (e ++ af) (be ++ b) q hq] at h3
      simp only
      split
      · rw [simplifyBounded_good _ h3]
        cases q.simplify q.currentItem q.currentLine none <;> rfl
      · rfl
theorem printDocListLoopBounded_eq : ∀ (ld : List Document) (pp : PrettyPrinter) (u : Int)
    (i vs lv : Int) (al : Bool) (nac : Int) (sep la fb : String), Good pp →
    PrettyPrinter.printDocListLoopBounded pp u ld i vs lv al nac sep la fb =
      some (PrettyPrinter.printDocListLoop pp u ld i vs lv al nac sep la fb)
  | [], _, _, _, _, _, _, _, _, _, _, _ => by
    simp only [PrettyPrinter.printDocListLoopBounded, PrettyPrinter.printDocListLoop]
  | d :: ld, pp, u, i, vs, lv, al, nac, sep, la, fb, h => by
    simp only [PrettyPrinter.printDocListLoopBounded, PrettyPrinter.printDocListLoop]
    rw [printDocumentBounded_eq d pp u al _ _ _ h]
    have h1 := (printDocument_good pp d pp u al
      (if (d.isBreakPoint && !al) = true then nac + pp.indentationBase else nac)
      (if i = 0 then fb else "")
      (if i ≠ vs - 1 then if (d.isBreakPoint || decide (lv ≤ i)) = true then "" else sep
        else la) h (SameConfig.refl _)).1
    cases hq : pp.printDocument u d al
        (if (d.isBreakPoint && !al) = true then nac + pp.indentationBase else nac)
        (if i = 0 then fb else "")
        (if i ≠ vs - 1 then if (d.isBreakPoint || decide (lv ≤ i)) = true then "" else sep
          else la) with
    | none => rfl
    | some q =>
      rw [printDocument_eq_some d pp u al _ _ _ q hq] at h1
      exact printDocListLoopBounded_eq ld q u _ vs lv al _ sep la fb h1
end

theorem simplifyBounded_single (pp : PrettyPrinter) (l : Int)
    (vec : Option (List Int)) (h0 : 0 ≤ l) (h1 : l < (pp.L.length : Int)) :
    pp.simplifyBounded 0 l vec = some (pp.simplify 0 l vec) := by
  unfold PrettyPrinter.simplifyBounded
  have : vecGet pp.items 0 = pp.L := rfl
  rw [this, if_pos ⟨h0, h1⟩]

/-- The loop of `simplifyItem` takes only indices of lines of the item from a vector that
holds only such indices. -/
theorem simplifyLoopBounded_eq : ∀ (n : Nat) (pp : PrettyPrinter) (vec : List Int),
    Single pp → (∀ x ∈ vec, 1 ≤ x ∧ x < (pp.L.length : Int)) →
    PrettyPrinter.simplifyLoopBounded n pp 0 vec = some (PrettyPrinter.simplifyLoop n pp 0 vec)
  | 0, pp, [], _, _ => by
    simp only [PrettyPrinter.simplifyLoopBounded, PrettyPrinter.simplifyLoop]
  | 0, pp, _ :: _, _, _ => by
    simp only [PrettyPrinter.simplifyLoopBounded, PrettyPrinter.simplifyLoop]
  | n + 1, pp, [], _, _ => by
    simp only [PrettyPrinter.simplifyLoopBounded, PrettyPrinter.simplifyLoop]
  | n + 1, pp, l :: rest, h, hr => by
    obtain ⟨hl1, hl2⟩ := hr l (List.mem_cons_self _ _)
    simp only [PrettyPrinter.simplifyLoopBounded, PrettyPrinter.simplifyLoop]
    rw [simplifyBounded_single pp l _ (by omega) hl2]
    cases hs : pp.simplify 0 l (some (l :: rest)) with
    | none => rfl
    | some s =>
      have es := simplify_eq_some pp 0 l _ s hs
      simp only
      obtain ⟨g0, g1, -, g3, -, -, g6⟩ := simplify_spec pp h l (some (l :: rest))
      rw [es] at g0 g1 g3 g6
      cases hc : canJoin pp.maxwidth pp.L l with
      | false =>
        rw [hc] at g0
        simp [g0]
      | true =>
        rw [hc] at g0 g6
        have hv : s.2.2 = some (decrementVec (eraseValue (l :: rest) l) l) := by
          rw [← ledgerAfter_true_vec pp.T (l :: rest) l]
          exact congrArg Prod.snd g6
        have hL : s.2.1.L = joinLines pp.L l := by
          rw [g3, joinAt, hc]; rfl
        have hjl := length_joinLines pp.L l hl1 hl2
        simp only [g0, Bool.not_true, Bool.false_eq_true, if_false, hv, Option.getD_some]
        apply simplifyLoopBounded_eq n _ _ g1
        intro x hx
        obtain ⟨y, hy, rfl⟩ := (mem_decrementVec _ l x).1 hx
        obtain ⟨hy1, hy2⟩ := (mem_eraseValue _ l y).1 hy
        obtain ⟨a1, a2⟩ := hr y hy1
        rw [hL]
        split <;> omega

/-- The method `print` on a new engine passes only indices of lines of the item to
`simplify`. -/
theorem printBounded_eq (mw ib : Int) (sim deepsim : Bool) (u : Int) (d : Document) :
    (PrettyPrinter.new mw ib sim deepsim).printBounded u d =
      some ((PrettyPrinter.new mw ib sim deepsim).print u d) := by
  unfold PrettyPrinter.printBounded PrettyPrinter.print
  dsimp only
  rw [print_start]
  have hg := start_good mw ib sim deepsim
  rw [printDocumentBounded_eq d _ u true 0 "" "" hg]
  obtain ⟨hw, hc⟩ := printDocument_candRange d _ u true 0 "" "" (start_candRange mw ib sim deepsim)
  cases hq : (PrettyPrinter.mk mw ib 0 0 [[Line.new 0]] [default] [default] sim
      deepsim).printDocument u d true 0 "" "" with
  | none => rfl
  | some W =>
    rw [printDocument_eq_some d _ u true 0 "" "" W hq] at hw hc
    simp only
    split
    · rw [hw.single.item]
      unfold PrettyPrinter.simplifyItemBounded PrettyPrinter.simplifyItem
      cases hr : (vecGet W.linesToSimplify 0).removeAll (vecGet W.linesNotToSimplify 0) with
      | none => rfl
      | some lts =>
        have er := removeAll_eq_some _ _ lts hr
        simp only
        obtain ⟨s1, -, s3, s4, -⟩ := setLedger_spec W hw.single lts
        have s4' : vecGet (vecModify W.linesToSimplify 0 (fun _ => lts)) 0 = lts := s4
        rw [s4']
        rw [simplifyLoopBounded_eq _ _ _ s1]
        · cases PrettyPrinter.simplifyLoop lts.getLinesToSimplify.length
            { W with linesToSimplify := vecModify W.linesToSimplify 0 (fun _ => lts) } 0
            lts.getLinesToSimplify <;> rfl
        · intro x hx
          have hx1 := (mem_getLinesToSimplify _ x).1 hx
          rw [← er] at hx1
          have hx2 := (removeAll_subset _ _ x hx1).1
          have := hc x hx2
          have h2 := hw.line_last
          rw [s3]
          omega
    · rfl

/-! ## The methods do not depend on the unassigned value, and documents without
unbreakable lists -/

theorem printDocument_initial (pp : PrettyPrinter) (u u1 : Int) (d : Document) (al : Bool)
    (col : Int) (be af : String) :
    pp.printDocument u d al col be af = pp.printDocument u1 d al col be af :=
  Option.some.inj ((printDocumentRead_eq d pp u al col be af).symm.trans
    (printDocumentRead_eq d pp u1 al col be af))

theorem walk_initial (pp : PrettyPrinter) (u u1 : Int) (d : Document) :
    pp.walk u d = pp.walk u1 d :=
  printDocument_initial _ u u1 d true 0 "" ""

theorem print_initial (pp : PrettyPrinter) (u u1 : Int) (d : Document) :
    pp.print u d = pp.print u1 d := by
  unfold PrettyPrinter.print
  simp only [printDocument_initial _ u u1]

theorem layout_initial (mw ib : Int) (sim deepsim : Bool) (u u1 : Int) (d : Document) :
    layout mw ib sim deepsim u d = layout mw ib sim deepsim u1 d := by
  unfold layout
  rw [print_initial _ u u1]

theorem printerDocument_initial (p : Printer) (u u1 : Int) (d : Document) (width : Int) :
    p.printDocument u d width = p.printDocument u1 d width := by
  unfold Printer.printDocument
  rw [print_initial _ u u1]

theorem printExpression_initial (p : Printer) (u u1 : Int) (e : Expression) (width : Int) :
    p.printExpression u e width = p.printExpression u1 e width :=
  printerDocument_initial p u u1 _ width

mutual
theorem breakable_of_plain : ∀ (d : Document), d.plain = true → d.breakable = true
  | .BreakPoint _ _, _ => rfl
  | .StringDocument _ _, _ => rfl
  | .DocumentList _ docs _ _ _ unb al, h => by
    simp only [Document.plain, Bool.and_eq_true, Bool.not_eq_true'] at h
    simp only [Document.breakable, Bool.and_eq_true, Bool.not_eq_true']
    exact ⟨h.1.1, breakableDocs_of_plainDocs docs h.2⟩
theorem breakableDocs_of_plainDocs : ∀ (ds : List Document), Document.plainDocs ds = true →
    Document.breakableDocs ds = true
  | [], _ => rfl
  | d :: ds, h => by
    simp only [Document.plainDocs, Bool.and_eq_true] at h
    simp only [Document.breakableDocs, Bool.and_eq_true]
    exact ⟨breakable_of_plain d h.1, breakableDocs_of_plainDocs ds h.2⟩
end

/-- The layout of a plain document exists. -/
theorem layout_plain (mw ib : Int) (sim deepsim : Bool) (u : Int) (d : Document)
    (hp : d.plain = true) :
    layout mw ib sim deepsim u d = some (layoutTotal mw ib sim deepsim u d) :=
  layout_breakable mw ib sim deepsim u d (breakable_of_plain d hp)

/-! ## The documents of expressions hold no unbreakable list -/

mutual
theorem breakable_setParent : ∀ (d : Document) (pl : Nat),
    (d.setParent pl).breakable = d.breakable
  | .BreakPoint _ _, _ => by simp [Document.setParent, Document.breakable]
  | .StringDocument _ _, _ => by simp [Document.setParent, Document.breakable]
  | .DocumentList _ docs _ _ _ _ _, pl => by
    simp only [Document.setParent, Document.breakable]
    rw [breakableDocs_setParentDocs docs (pl + 1)]
theorem breakableDocs_setParentDocs : ∀ (ds : List Document) (pl : Nat),
    Document.breakableDocs (Document.setParentDocs ds pl) = Document.breakableDocs ds
  | [], _ => by simp [Document.setParentDocs]
  | d :: ds, pl => by
    simp only [Document.setParentDocs, Document.breakableDocs]
    rw [breakable_setParent d pl, breakableDocs_setParentDocs ds pl]
end

theorem breakableDocs_append (a b : List Document) :
    Document.breakableDocs (a ++ b) = (Document.breakableDocs a && Document.breakableDocs b) := by
  induction a with
  | nil => simp [Document.breakableDocs]
  | cons d a ih => simp [Document.breakableDocs, ih, Bool.and_assoc]

theorem breakable_new (b s e : String) (al : Bool) :
    (newDocumentList b s e al).breakable = true := rfl

theorem breakable_add (dl d : Document) (h : dl.breakable = true) (hd : d.breakable = true) :
    (dl.addDocumentToList d).breakable = true := by
  cases dl with
  | BreakPoint _ _ => rfl
  | StringDocument _ _ => rfl
  | DocumentList l docs b s e u a =>
    simp only [Document.breakable, Bool.and_eq_true, Bool.not_eq_true'] at h
    simp [Document.addDocumentToList, Document.breakable, breakableDocs_append,
      Document.breakableDocs, breakable_setParent, h.1, h.2, hd]

theorem breakable_addString (dl : Document) (s : String) (h : dl.breakable = true) :
    (dl.addStringToList s).breakable = true :=
  breakable_add dl _ h rfl

theorem breakable_addBreakPoint (dl : Document) (b : Bool) (h : dl.breakable = true) :
    (dl.addBreakPoint b).breakable = true :=
  breakable_add dl _ h rfl

theorem breakable_foldl {α : Type} (f : Document → α → Document) (l : List α)
    (hf : ∀ acc x, x ∈ l → acc.breakable = true → (f acc x).breakable = true) :
    ∀ (init : Document), init.breakable = true → (l.foldl f init).breakable = true := by
  induction l with
  | nil => intro init h; exact h
  | cons x l ih =>
    intro init h
    simp only [List.foldl_cons]
    exact ih (fun acc y hy => hf acc y (List.mem_cons_of_mem _ hy)) _
      (hf init x (List.mem_cons_self _ _) h)

theorem breakable_addDocuments (dl : Document) (ds : List Document) (h : dl.breakable = true)
    (hd : ∀ d ∈ ds, d.breakable = true) : (dl.addDocumentsToList ds).breakable = true :=
  breakable_foldl _ ds (fun acc x hx ha => breakable_add acc x ha (hd x hx)) dl h

theorem breakable_mapBinOpOf (ps : Nat) (op : BinOpType) (d0 d1 : Document)
    (h0 : d0.breakable = true) (h1 : d1.breakable = true) :
    (mapBinOpOf ps op d0 d1).breakable = true := by
  unfold mapBinOpOf
  dsimp only
  split_ifs <;>
    repeat' (first
      | assumption
      | exact breakable_new _ _ _ _
      | apply breakable_addBreakPoint
      | apply breakable_addString
      | apply breakable_add)

theorem breakable_mapUnOpOf (op : UnOpType) (np : Bool) (d0 : Document)
    (h0 : d0.breakable = true) : (mapUnOpOf op np d0).breakable = true := by
  unfold mapUnOpOf
  dsimp only
  split_ifs <;>
    repeat' (first
      | assumption
      | exact breakable_new _ _ _ _
      | apply breakable_addBreakPoint
      | apply breakable_addString
      | apply breakable_add)

theorem breakable_mapITEOf (ifs : List (Document × Document)) (els : Document)
    (h : ∀ p ∈ ifs, p.1.breakable = true ∧ p.2.breakable = true)
    (he : els.breakable = true) : (mapITEOf ifs els).breakable = true := by
  unfold mapITEOf
  dsimp only
  repeat' (first
    | assumption
    | exact breakable_new _ _ _ _
    | apply breakable_addBreakPoint
    | apply breakable_addString
    | apply breakable_add)
  apply breakable_foldl
  · intro acc p hp hacc
    have hp2 := h p.2 (List.of_mem_zip hp).2
    repeat' (first
      | assumption
      | exact hp2.1
      | exact hp2.2
      | exact breakable_new _ _ _ _
      | apply breakable_addBreakPoint
      | apply breakable_addString
      | apply breakable_add)
  · exact breakable_new _ _ _ _

theorem breakable_generators (gens : List (List String × Document))
    (h : ∀ g ∈ gens, g.2.breakable = true) (sep : String) :
    (gens.foldl
      (fun (generators : Document) (g : List String × Document) =>
        generators.addDocumentToList
          ((((newDocumentList "" "" "" true).addDocumentToList
            (g.1.foldl Document.addStringToList (newDocumentList "" sep "" true))).addStringToList
              " in ").addDocumentToList g.2))
      (newDocumentList "" ", " "" true)).breakable = true := by
  apply breakable_foldl
  · intro acc g hg hacc
    repeat' (first
      | assumption
      | exact h g hg
      | exact breakable_new _ _ _ _
      | apply breakable_addBreakPoint
      | apply breakable_addString
      | apply breakable_add)
    apply breakable_foldl
    · intro acc s _ hacc
      exact breakable_addString acc s hacc
    · exact breakable_new _ _ _ _
  · exact breakable_new _ _ _ _

theorem breakable_mapCallCompOf (id : String) (gens : List (List String × Document))
    (whr : Option Document) (body : Document)
    (h : ∀ g ∈ gens, g.2.breakable = true) (hw : ∀ w, whr = some w → w.breakable = true)
    (hb : body.breakable = true) : (mapCallCompOf id gens whr body).breakable = true := by
  unfold mapCallCompOf
  dsimp only
  have hg := breakable_generators gens h ","
  cases whr with
  | none =>
    dsimp only
    repeat' (first
      | assumption
      | exact breakable_new _ _ _ _
      | apply breakable_addBreakPoint
      | apply breakable_addString
      | apply breakable_add)
  | some w =>
    have := hw w rfl
    dsimp only
    repeat' (first
      | assumption
      | exact breakable_new _ _ _ _
      | apply breakable_addBreakPoint
      | apply breakable_addString
      | apply breakable_add)

theorem breakable_mapComprehensionOf (set : Bool) (e : Document)
    (gens : List (List String × Document)) (whr : Option Document)
    (he : e.breakable = true) (h : ∀ g ∈ gens, g.2.breakable = true)
    (hw : ∀ w, whr = some w → w.breakable = true) :
    (mapComprehensionOf set e gens whr).breakable = true := by
  unfold mapComprehensionOf
  dsimp only
  have hg := breakable_generators gens h ", "
  cases whr with
  | none =>
    dsimp only
    split_ifs <;>
    repeat' (first
      | assumption
      | exact breakable_new _ _ _ _
      | apply breakable_addBreakPoint
      | apply breakable_addString
      | apply breakable_add)
  | some w =>
    have := hw w rfl
    dsimp only
    split_ifs <;>
    repeat' (first
      | assumption
      | exact breakable_new _ _ _ _
      | apply breakable_addBreakPoint
      | apply breakable_addString
      | apply breakable_add)

theorem breakable_getD (v : List Document) (h : ∀ d ∈ v, d.breakable = true) (n : Nat) :
    (v.getD n default).breakable = true := by
  by_cases hn : n < v.length
  · rw [List.getD_eq_getElem _ _ hn]
    exact h _ (List.getElem_mem hn)
  · rw [List.getD_eq_default _ _ (by omega)]
    rfl

theorem breakable_mapArrayLitOf (dims : List (Int × Int)) (v : List Document)
    (h : ∀ d ∈ v, d.breakable = true) : (mapArrayLitOf dims v).breakable = true := by
  unfold mapArrayLitOf
  dsimp only
  split_ifs
  · exact breakable_addDocuments _ _ (breakable_new _ _ _ _) h
  · apply breakable_foldl
    · intro acc i _ hacc
      dsimp only
      have hrow : ((List.range (dims.getD 1 default).2.toNat).foldl
          (fun (row : Document) (j : Nat) =>
            row.addDocumentToList
              (v.getD ((i : Int) * (dims.getD 1 default).2 + (j : Int)).toNat default))
          (newDocumentList "" ", " "" true)).breakable = true := by
        apply breakable_foldl
        · intro acc j _ hacc
          exact breakable_add _ _ hacc (breakable_getD v h _)
        · exact breakable_new _ _ _ _
      split_ifs <;>
      repeat' (first
        | assumption
        | exact breakable_new _ _ _ _
        | apply breakable_addBreakPoint
        | apply breakable_addString
        | apply breakable_add)
    · exact breakable_new _ _ _ _
  · have ha := breakable_addDocuments (newDocumentList "[" ", " "]" true) v
      (breakable_new _ _ _ _) h
    repeat' (first
      | assumption
      | exact breakable_new _ _ _ _
      | apply breakable_addBreakPoint
      | apply breakable_addString
      | apply breakable_add)
    apply breakable_foldl
    · intro acc d _ hacc
      exact breakable_addString acc _ hacc
    · exact breakable_new _ _ _ _

theorem breakable_mapLetOf (lets_ : List (Bool × Document)) (inDoc : Document)
    (h : ∀ p ∈ lets_, p.2.breakable = true) (hi : inDoc.breakable = true) :
    (mapLetOf lets_ inDoc).breakable = true := by
  unfold mapLetOf
  dsimp only
  have hl : (((List.range lets_.length).zip lets_).foldl
      (fun (lets : Document) (p : Nat × Bool × Document) =>
        (if p.1 ≠ 0 then lets.addBreakPoint (decide (lets_.length > 1)) else lets).addDocumentToList
          ((if (!p.2.1) = true then (newDocumentList "" " " "," true).addStringToList "constraint"
            else newDocumentList "" " " "," true).addDocumentToList p.2.2))
      (newDocumentList "" " " "" true)).breakable = true := by
    apply breakable_foldl
    · intro acc p hp hacc
      have hp2 := h p.2 (List.of_mem_zip hp).2
      split_ifs <;>
      repeat' (first
        | assumption
        | exact breakable_new _ _ _ _
        | apply breakable_addBreakPoint
        | apply breakable_addString
        | apply breakable_add)
    · exact breakable_new _ _ _ _
  repeat' (first
    | assumption
    | exact breakable_new _ _ _ _
    | apply breakable_addBreakPoint
    | apply breakable_addString
    | apply breakable_add)

theorem breakable_mapAnnotationOf (chain : List Document)
    (h : ∀ d ∈ chain, d.breakable = true) : (mapAnnotationOf chain).breakable = true :=
  breakable_addDocuments _ _ (breakable_new _ _ _ _) h

theorem breakable_tiexpressionToDocumentOf (type : Type_) (e : Option Document)
    (h : ∀ d, e = some d → d.breakable = true) :
    (tiexpressionToDocumentOf type e).breakable = true := by
  unfold tiexpressionToDocumentOf
  cases e with
  | none =>
    cases type._ti <;> cases type._bt <;> dsimp only <;> split_ifs <;>
      repeat' (first
        | exact breakable_new _ _ _ _
        | apply breakable_addString)
  | some d =>
    have hd := h d rfl
    cases type._ti <;> dsimp only <;> split_ifs <;>
      repeat' (first
        | assumption
        | exact breakable_new _ _ _ _
        | apply breakable_addString
        | apply breakable_add)

theorem mem_zip_isVarDecl (l : List Expression) (ds : List Document)
    (h : ∀ d ∈ ds, d.breakable = true) :
    ∀ p ∈ (l.map Expression.isVarDecl).zip ds, p.2.breakable = true :=
  fun p hp => h p.2 (List.of_mem_zip hp).2

theorem breakable_call (id : String) (args ann : List Expression)
    (h : ∀ e ∈ args, (expressionToDocument e).breakable = true ∧ e.node.partsBreakable) :
    (ExpressionMapper.map (.Call id args) ann).breakable = true := by
  have hd : ∀ d ∈ mapExpressions args, d.breakable = true := by
    intro d hd
    rw [mapExpressions_eq] at hd
    obtain ⟨e, he, rfl⟩ := List.mem_map.1 hd
    exact (h e he).1
  have h1 := breakable_addDocuments (newDocumentList (id ++ "(") ", " ")" true)
    (mapExpressions args) (breakable_new _ _ _ _) hd
  unfold ExpressionMapper.map
  split <;> try exact h1
  all_goals rename_i heq
  all_goals try exact ExpressionNode.noConfusion heq
  · injection heq with e1 e2
    subst e1 e2
    obtain ⟨-, p1, p2, p3⟩ := h _ (List.mem_singleton_self _)
    exact breakable_mapCallCompOf _ _ _ _ p2 p3 p1
  · injection heq with e1 e2
    subst e1 e2
    exact h1

mutual
/-- No document that `expressionToDocument` builds holds an unbreakable list. -/
theorem breakable_expression : ∀ (e : Expression),
    (expressionToDocument e).breakable = true ∧ e.node.partsBreakable
  | .mk node [] => by
    rw [expressionToDocument]
    exact ⟨breakable_add _ _ (breakable_new _ _ _ _) (breakable_map node []).1,
      (breakable_map node []).2⟩
  | .mk node (a :: as) => by
    rw [expressionToDocument]
    refine ⟨breakable_add _ _
      (breakable_add _ _ (breakable_new _ _ _ _) (breakable_map node (a :: as)).1)
      (breakable_mapAnnotationOf _ ?_), (breakable_map node (a :: as)).2⟩
    intro d hd
    rw [mapExpressions_eq] at hd
    obtain ⟨e, he, rfl⟩ := List.mem_map.1 hd
    exact (breakable_expressions (a :: as) e he).1
theorem breakable_map : ∀ (node : ExpressionNode) (ann : List Expression),
    (ExpressionMapper.map node ann).breakable = true ∧ node.partsBreakable
  | .IntLit _, _ => by simp only [ExpressionMapper.map]; exact ⟨rfl, trivial⟩
  | .FloatLit _, _ => by simp only [ExpressionMapper.map]; exact ⟨rfl, trivial⟩
  | .SetLit (some v) _, _ => by
    simp only [ExpressionMapper.map]
    refine ⟨breakable_addDocuments _ _ (breakable_new _ _ _ _) ?_, trivial⟩
    intro d hd
    rw [mapExpressions_eq] at hd
    obtain ⟨e, he, rfl⟩ := List.mem_map.1 hd
    exact (breakable_expressions v e he).1
  | .SetLit none isv, _ => by
    simp only [ExpressionMapper.map]
    refine ⟨?_, trivial⟩
    split_ifs
    · exact breakable_add _ _ (breakable_add _ _ (breakable_new _ _ _ _) rfl) rfl
    · apply breakable_addDocuments _ _ (breakable_new _ _ _ _)
      intro d hd
      obtain ⟨k, -, rfl⟩ := List.mem_map.1 hd
      rfl
  | .BoolLit _, _ => by simp only [ExpressionMapper.map]; exact ⟨rfl, trivial⟩
  | .StringLit _, _ => by simp only [ExpressionMapper.map]; exact ⟨rfl, trivial⟩
  | .Id _, _ => by simp only [ExpressionMapper.map]; exact ⟨rfl, trivial⟩
  | .TIId _, _ => by simp only [ExpressionMapper.map]; exact ⟨rfl, trivial⟩
  | .AnonVar, _ => by simp only [ExpressionMapper.map]; exact ⟨rfl, trivial⟩
  | .ArrayLit v dims, _ => by
    simp only [ExpressionMapper.map]
    refine ⟨breakable_mapArrayLitOf dims _ ?_, trivial⟩
    intro d hd
    rw [mapExpressions_eq] at hd
    obtain ⟨e, he, rfl⟩ := List.mem_map.1 hd
    exact (breakable_expressions v e he).1
  | .ArrayAccess v idx, _ => by
    simp only [ExpressionMapper.map]
    refine ⟨breakable_add _ _
      (breakable_add _ _ (breakable_new _ _ _ _) (breakable_expression v).1)
      (breakable_addDocuments _ _ (breakable_new _ _ _ _) ?_), trivial⟩
    intro d hd
    rw [mapExpressions_eq] at hd
    obtain ⟨e, he, rfl⟩ := List.mem_map.1 hd
    exact (breakable_expressions idx e he).1
  | .Comprehension e g w set, _ => by
    simp only [ExpressionMapper.map]
    exact ⟨breakable_mapComprehensionOf set _ _ _ (breakable_expression e).1
      (breakable_mapGenerators g) (breakable_mapOptional w),
      (breakable_expression e).1, breakable_mapGenerators g, breakable_mapOptional w⟩
  | .ITE ifs els, _ => by
    simp only [ExpressionMapper.map]
    exact ⟨breakable_mapITEOf _ _ (breakable_mapIfs ifs) (breakable_expression els).1, trivial⟩
  | .BinOp e0 op e1, ann => by
    simp only [ExpressionMapper.map]
    exact ⟨breakable_mapBinOpOf _ op _ _ (breakable_expression e0).1
      (breakable_expression e1).1, trivial⟩
  | .UnOp op e0, _ => by
    simp only [ExpressionMapper.map]
    exact ⟨breakable_mapUnOpOf op _ _ (breakable_expression e0).1, trivial⟩
  | .Call id args, ann =>
    ⟨breakable_call id args ann (breakable_expressions args), trivial⟩
  | .VarDecl ti id introduced e, _ => by
    simp only [ExpressionMapper.map]
    refine ⟨?_, trivial⟩
    have h1 : (if introduced = true then
        ((((newDocumentList "" "" "" true).addDocumentToList
          (expressionToDocument ti)).addStringToList ": ").addStringToList id).addStringToList
            " ::var_is_introduced "
        else (((newDocumentList "" "" "" true).addDocumentToList
          (expressionToDocument ti)).addStringToList ": ").addStringToList id).breakable
        = true := by
      have := (breakable_expression ti).1
      split_ifs <;>
      repeat' (first
        | assumption
        | exact breakable_new _ _ _ _
        | apply breakable_addString
        | apply breakable_add)
    cases hq : mapOptional e with
    | none => exact h1
    | some d =>
      exact breakable_add _ _ (breakable_addString _ _ h1) (breakable_mapOptional e d hq)
  | .Let l i, _ => by
    simp only [ExpressionMapper.map]
    refine ⟨breakable_mapLetOf _ _ (mem_zip_isVarDecl l _ ?_) (breakable_expression i).1,
      trivial⟩
    intro d hd
    rw [mapExpressions_eq] at hd
    obtain ⟨e, he, rfl⟩ := List.mem_map.1 hd
    exact (breakable_expressions l e he).1
  | .Annotation_ e a, _ => by
    simp only [ExpressionMapper.map]
    refine ⟨breakable_mapAnnotationOf _ ?_, trivial⟩
    intro d hd
    rcases List.mem_cons.1 hd with rfl | hd
    · exact (breakable_expression e).1
    · rw [mapExpressions_eq] at hd
      obtain ⟨x, hx, rfl⟩ := List.mem_map.1 hd
      exact (breakable_expressions a x hx).1
  | .TypeInst ranges type domain, _ => by
    simp only [ExpressionMapper.map]
    refine ⟨?_, trivial⟩
    apply breakable_add
    · split_ifs
      · apply breakable_addString
        apply breakable_add
        · exact breakable_addString _ _ (breakable_new _ _ _ _)
        · apply breakable_addDocuments _ _ (breakable_new _ _ _ _)
          intro d hd
          obtain ⟨x, hx, rfl⟩ := List.mem_map.1 hd
          rw [mapExpressions_eq] at hx
          obtain ⟨y, hy, rfl⟩ := List.mem_map.1 hx
          exact breakable_tiexpressionToDocumentOf _ _
            (fun z hz => by rw [← Option.some.inj hz]; exact (breakable_expressions ranges y hy).1)
      · exact breakable_new _ _ _ _
    · exact breakable_tiexpressionToDocumentOf _ _ (breakable_mapOptional domain)
theorem breakable_expressions : ∀ (es : List Expression),
    ∀ e ∈ es, (expressionToDocument e).breakable = true ∧ e.node.partsBreakable
  | [], e, h => absurd h (List.not_mem_nil e)
  | x :: es, e, h => by
    rcases List.mem_cons.1 h with rfl | h
    · exact breakable_expression e
    · exact breakable_expressions es e h
theorem breakable_mapOptional : ∀ (o : Option Expression) (d : Document),
    mapOptional o = some d → d.breakable = true
  | none, d, h => by simp [mapOptional] at h
  | some e, d, h => by
    simp only [mapOptional, Option.some.injEq] at h
    rw [← h]
    exact (breakable_expression e).1
theorem breakable_mapGenerators : ∀ (gs : List (List String × Expression)),
    ∀ g ∈ mapGenerators gs, g.2.breakable = true
  | [], g, h => by simp [mapGenerators] at h
  | (ids, e) :: gs, g, h => by
    simp only [mapGenerators, List.mem_cons] at h
    rcases h with rfl | h
    · exact (breakable_expression e).1
    · exact breakable_mapGenerators gs g h
theorem breakable_mapIfs : ∀ (ifs : List (Expression × Expression)),
    ∀ p ∈ mapIfs ifs, p.1.breakable = true ∧ p.2.breakable = true
  | [], p, h => by simp [mapIfs] at h
  | (c, b) :: r, p, h => by
    simp only [mapIfs, List.mem_cons] at h
    rcases h with rfl | h
    · exact ⟨(breakable_expression c).1, (breakable_expression b).1⟩
    · exact breakable_mapIfs r p h
end

/-- No document that `expressionToDocument` builds holds an unbreakable list. -/
theorem breakable_expressionToDocument (e : Expression) :
    (expressionToDocument e).breakable = true :=
  (breakable_expression e).1

/-! ## The facade on items and models, as calls that may not return -/

/-- The text of a list of lines, line by line. -/
theorem renderLines_eq (ls : List Line) :
    renderLines ls = concatStrings (ls.map (fun l =>
      String.mk (List.replicate l.indentation.toNat ' ') ++ concatStrings l.text ++ "\n")) :=
  rfl

/-- A subtraction step does not return exactly when chains of parent links of every length
start at a line recorded in `other`. -/
theorem removeAll_none_iff (lts other : LinesToSimplify) :
    lts.removeAll other = none ↔
      ∃ i ∈ allCandidates other, ∀ n, LinkChain lts.parent n i := by
  unfold LinesToSimplify.removeAll allCandidates
  have key : ∀ (is : List Int) (acc : LinesToSimplify), acc.parent = lts.parent →
      (is.foldl (fun (acc : Option LinesToSimplify) (i : Int) =>
          match acc with
          | none => none
          | some a => (a.remove none i false).map Prod.fst) (some acc) = none ↔
        ∃ i ∈ is, ∀ n, LinkChain lts.parent n i) := by
    intro is
    induction is with
    | nil =>
      intro acc _
      simp
    | cons i is ih =>
      intro acc hacc
      simp only [List.foldl_cons, List.mem_cons, exists_eq_or_imp]
      cases hq : acc.remove none i false with
      | none =>
        simp only [Option.map_none']
        refine ⟨fun _ => Or.inl ?_, fun _ => foldl_removeAll_none is⟩
        intro n
        have := (remove_none_iff acc none i false).1 hq n
        rw [removeFuel_none_iff, hacc] at this
        exact this
      | some q =>
        simp only [Option.map_some']
        rw [ih q.1 ((removeFuel_parent _ acc none i false q hq).trans hacc)]
        constructor
        · intro h
          exact Or.inr h
        · rintro (h | h)
          · have h1 : acc.remove none i false = none := by
              rw [remove_none_iff]
              intro n
              rw [removeFuel_none_iff, hacc]
              exact h n
            rw [hq] at h1
            exact Option.noConfusion h1
          · exact h
  exact key _ lts rfl

theorem Kept.then {a b c : LinesToSimplify} (h1 : Kept a b) (h2 : Kept b c) : Kept a c :=
  ⟨h2.1.trans h1.1, h2.2.trans h1.2⟩

/-- A call of `simplify` whose test passes returns: its call of `remove` makes no nested
call. -/
theorem simplify_of_canJoin (pp : PrettyPrinter) (l : Int) (vec : Option (List Int))
    (hc : canJoin pp.maxwidth pp.L l = true) :
    pp.simplify 0 l vec = some (pp.simplifyTotal 0 l vec) := by
  simp only [canJoin, Bool.and_eq_true, decide_eq_true_eq, Bool.not_eq_true',
    decide_eq_false_iff_not] at hc
  obtain ⟨h0, h1⟩ := hc
  have h2 : ¬ (pp.line 0 l).getLength > (pp.line 0 (l - 1)).getSpaceLeft pp.maxwidth := h1
  unfold PrettyPrinter.simplify PrettyPrinter.simplifyTotal
  rw [if_neg h0, if_neg h2, if_neg h0, if_neg h2, remove_true]

/-- When no attempt fails the loop of `simplifyItem` returns. -/
theorem simplifyLoop_all_some (mw : Int) : ∀ (n : Nat) (pp : PrettyPrinter) (vec : List Int),
    Single pp → pp.maxwidth = mw → allAttemptsSucceed mw n pp.L vec = true →
    PrettyPrinter.simplifyLoop n pp 0 vec = some (PrettyPrinter.simplifyLoopTotal n pp 0 vec)
  | 0, pp, [], _, _, _ => by simp [PrettyPrinter.simplifyLoop, PrettyPrinter.simplifyLoopTotal]
  | 0, pp, _ :: _, _, _, ha => by simp [allAttemptsSucceed] at ha
  | n + 1, pp, [], _, _, _ => by
    simp [PrettyPrinter.simplifyLoop, PrettyPrinter.simplifyLoopTotal]
  | n + 1, pp, l :: rest, h, hmw, ha => by
    simp only [allAttemptsSucceed, Bool.and_eq_true] at ha
    obtain ⟨hc, ha2⟩ := ha
    rw [← hmw] at hc
    obtain ⟨g0, g1, g2, g3, -⟩ := simplify_spec pp h l (some (l :: rest))
    have hL : (pp.simplifyTotal 0 l (some (l :: rest))).2.1.L = joinLines pp.L l := by
      rw [g3, joinAt, hc]; rfl
    have hv := simplify_vec_true pp 0 l (l :: rest) _
      (simplify_of_canJoin pp l (some (l :: rest)) hc) (g0.trans hc)
    rw [simplifyLoop_cons pp h, hc]
    simp only [PrettyPrinter.simplifyLoop, simplify_of_canJoin pp l (some (l :: rest)) hc]
    rw [g0, hc, hv]
    simp only [Bool.not_true, Bool.false_eq_true, if_false, if_true, Option.getD_some]
    exact simplifyLoop_all_some mw n _ _ g1 (g2.1.trans hmw) (by rw [hL]; exact ha2)

/-! ## The loop of `printDocList` over the children before and after a Break -/

theorem printDocument_indentationBase_some (d : Document) (pp : PrettyPrinter) (u : Int)
    (al : Bool) (col : Int) (be af : String) (q : PrettyPrinter)
    (h : pp.printDocument u d al col be af = some q) :
    q.indentationBase = pp.indentationBase := by
  rw [← printDocument_eq_some d pp u al col be af q h]
  exact printDocument_indentationBase d pp u al col be af

theorem printDocListLoop_indentationBase_some (ld : List Document) (pp : PrettyPrinter)
    (u : Int) (i vs lv : Int) (al : Bool) (nac : Int) (sep la fb : String) (q : PrettyPrinter)
    (h : PrettyPrinter.printDocListLoop pp u ld i vs lv al nac sep la fb = some q) :
    q.indentationBase = pp.indentationBase := by
  rw [← printDocListLoop_eq_some ld pp u i vs lv al nac sep la fb q h]
  exact printDocListLoop_indentationBase ld pp u i vs lv al nac sep la fb

/-- The loop of `printDocList` over the children `pre ++ rest`, as calls that may not
return: the loop over `pre`, then the loop over `rest`. -/
theorem printDocListLoop_append_some (u : Int) (rest : List Document) (vs lv : Int)
    (al : Bool) (sep la fb : String) :
    ∀ (pre : List Document) (pp : PrettyPrinter) (i nac : Int),
      PrettyPrinter.printDocListLoop pp u (pre ++ rest) i vs lv al nac sep la fb =
        (PrettyPrinter.printDocListLoop pp u pre i vs lv al nac sep la fb).bind (fun q =>
          PrettyPrinter.printDocListLoop q u rest (i + pre.length) vs lv al
            (if al then nac else nac + (breakCount pre : Int) * pp.indentationBase) sep la fb)
  | [], pp, i, nac => by
    simp [PrettyPrinter.printDocListLoop, breakCount]
  | d :: pre, pp, i, nac => by
    simp only [List.cons_append, PrettyPrinter.printDocListLoop, List.append_eq]
    cases hq : pp.printDocument u d al
        (if (d.isBreakPoint && !al) = true then nac + pp.indentationBase else nac)
        (if i = 0 then fb else "")
        (if i ≠ vs - 1 then if (d.isBreakPoint || decide (lv ≤ i)) = true then "" else sep
          else la) with
    | none => rfl
    | some q =>
      simp only
      rw [printDocListLoop_append_some u rest vs lv al sep la fb pre]
      rw [printDocument_indentationBase_some d pp u al _ _ _ q hq, breakCount_cons]
      have e1 : i + 1 + (pre.length : Int) = i + ((d :: pre).length : Int) := by
        simp only [List.length_cons]; push_cast; omega
      rw [e1]
      congr 1
      funext q1
      congr 1
      cases al <;> cases d.isBreakPoint <;> simp
      ring

/-- The walk of a list whose children are `pre`, a Break and `post`, as calls that may
not return. -/
theorem printDocument_break_child_some (pp : PrettyPrinter) (u : Int) (lvl0 : Nat)
    (pre post : List Document) (lvl : Nat) (ds : Bool) (b sep e : String) (unb al al0 : Bool)
    (a : Int) (sb sa : String) :
    pp.printDocument u (.DocumentList lvl0 (pre ++ Document.BreakPoint lvl ds :: post) b sep e
        unb al) al0 a sb sa =
      (PrettyPrinter.printDocListLoop (pp.enterList unb a) u pre 0
        ((pre ++ Document.BreakPoint lvl ds :: post).length : Nat)
        (lastVisibleElementIndex u (pre ++ Document.BreakPoint lvl ds :: post)) al
        (if al then (pp.enterList unb a).cursor + size b else a) sep (e ++ sa)
        (sb ++ b)).bind (fun q0 =>
          (PrettyPrinter.printDocListLoop
            ((((q0.printString (if pre.isEmpty then sb ++ b else "") al
                (breakColumn al (pp.enterList unb a).cursor a pp.indentationBase b
                  (breakCount pre + 1))).addLine
                (breakColumn al (pp.enterList unb a).cursor a pp.indentationBase b
                  (breakCount pre + 1))
                (q0.printString (if pre.isEmpty then sb ++ b else "") al
                  (breakColumn al (pp.enterList unb a).cursor a pp.indentationBase b
                    (breakCount pre + 1))).deeplySimp (!ds) lvl).printString
              (if post.isEmpty then e ++ sa else "") al
              (breakColumn al (pp.enterList unb a).cursor a pp.indentationBase b
                (breakCount pre + 1)))) u post (pre.length + 1)
            ((pre ++ Document.BreakPoint lvl ds :: post).length : Nat)
            (lastVisibleElementIndex u (pre ++ Document.BreakPoint lvl ds :: post)) al
            (breakColumn al (pp.enterList unb a).cursor a pp.indentationBase b
              (breakCount pre + 1)) sep (e ++ sa) (sb ++ b)).bind
            (fun r => if unb then r.simplifyCurrent else some r)) := by
  generalize hld : pre ++ Document.BreakPoint lvl ds :: post = ld
  generalize hpp0 : pp.enterList unb a = pp0
  have hlen : (ld.length : Int) = pre.length + 1 + post.length := by
    rw [← hld]
    simp only [List.length_append, List.length_cons]
    push_cast
    omega
  have h0 : ¬ (ld.length : Int) = 0 := by omega
  have hunf : pp.printDocument u (.DocumentList lvl0 ld b sep e unb al) al0 a sb sa =
      (PrettyPrinter.printDocListLoop pp0 u ld 0 ld.length
          (lastVisibleElementIndex u ld) al (if al then pp0.cursor + size b else a) sep
          (e ++ sa) (sb ++ b)).bind (fun r => if unb then r.simplifyCurrent else some r) := by
    rw [← hpp0]
    simp only [PrettyPrinter.printDocument, if_neg h0]
    cases hq : PrettyPrinter.printDocListLoop (pp.enterList unb a) u ld 0 ld.length
        (lastVisibleElementIndex u ld) al
        (if al then (pp.enterList unb a).cursor + size b else a) sep (e ++ sa) (sb ++ b) with
    | none =>
      have hq1 := hq
      simp only [PrettyPrinter.enterList, PrettyPrinter.cursor] at hq1
      rw [hq1]
      rfl
    | some r =>
      have hq1 := hq
      simp only [PrettyPrinter.enterList, PrettyPrinter.cursor] at hq1
      rw [hq1]
      simp only [Option.some_bind, PrettyPrinter.simplifyCurrent]
      cases unb
      · rfl
      · simp only [if_true]
        cases r.simplify r.currentItem r.currentLine none <;> rfl
  rw [hunf]
  have hloop : PrettyPrinter.printDocListLoop pp0 u ld 0 ld.length
      (lastVisibleElementIndex u ld) al (if al then pp0.cursor + size b else a) sep
      (e ++ sa) (sb ++ b) =
      (PrettyPrinter.printDocListLoop pp0 u pre 0 ld.length (lastVisibleElementIndex u ld) al
        (if al then pp0.cursor + size b else a) sep (e ++ sa) (sb ++ b)).bind (fun q0 =>
          PrettyPrinter.printDocListLoop
            ((((q0.printString (if pre.isEmpty then sb ++ b else "") al
                (breakColumn al pp0.cursor a pp.indentationBase b (breakCount pre + 1))).addLine
                (breakColumn al pp0.cursor a pp.indentationBase b (breakCount pre + 1))
                (q0.printString (if pre.isEmpty then sb ++ b else "") al
                  (breakColumn al pp0.cursor a pp.indentationBase b
                    (breakCount pre + 1))).deeplySimp (!ds) lvl).printString
              (if post.isEmpty then e ++ sa else "") al
              (breakColumn al pp0.cursor a pp.indentationBase b (breakCount pre + 1)))) u post
            (pre.length + 1) ld.length (lastVisibleElementIndex u ld) al
            (breakColumn al pp0.cursor a pp.indentationBase b (breakCount pre + 1)) sep
            (e ++ sa) (sb ++ b)) := by
    conv_lhs => rw [← hld]
    rw [printDocListLoop_append_some, hld]
    cases hq : PrettyPrinter.printDocListLoop pp0 u pre 0 ld.length
        (lastVisibleElementIndex u ld) al (if al then pp0.cursor + size b else a) sep
        (e ++ sa) (sb ++ b) with
    | none => rfl
    | some q0 =>
      have hib : q0.indentationBase = pp.indentationBase := by
        rw [printDocListLoop_indentationBase_some _ _ _ _ _ _ _ _ _ _ _ q0 hq, ← hpp0,
          enterList_indentationBase]
      have hib0 : pp0.indentationBase = pp.indentationBase := by
        rw [← hpp0, enterList_indentationBase]
      simp only [Option.some_bind, PrettyPrinter.printDocListLoop, Document.isBreakPoint,
        Bool.true_and, Bool.true_or, if_true, PrettyPrinter.printDocument, zero_add]
      rw [hib, hib0]
      have hcol : (if (!al) = true then
          (if al = true then (if al = true then pp0.cursor + size b else a)
            else (if al = true then pp0.cursor + size b else a) +
              (breakCount pre : Int) * pp.indentationBase) + pp.indentationBase
          else (if al = true then (if al = true then pp0.cursor + size b else a)
            else (if al = true then pp0.cursor + size b else a) +
              (breakCount pre : Int) * pp.indentationBase)) =
          breakColumn al pp0.cursor a pp.indentationBase b (breakCount pre + 1) := by
        simp only [breakColumn]
        cases al
        · simp; ring
        · simp
      rw [hcol]
      have hbe : (if (pre.length : Int) = 0 then sb ++ b else "") =
          (if pre.isEmpty then sb ++ b else "") := by
        cases pre with
        | nil => simp
        | cons x xs =>
          have hx : ¬ (((x :: xs).length : Nat) : Int) = 0 := by
            simp only [List.length_cons]; push_cast; omega
          rw [if_neg hx]
          simp
      have haf : (if (pre.length : Int) ≠ (ld.length : Int) - 1 then "" else e ++ sa) =
          (if post.isEmpty then e ++ sa else "") := by
        rw [hlen]
        cases post with
        | nil => simp
        | cons x xs => simp; omega
      rw [hbe, haf]
  rw [hloop, Option.bind_assoc]

/-- The loop of `simplifyItem`, allowed as many iterations as the working vector is long,
never runs out of iterations: when it has no result, a call of `simplify` made by the loop
does not return. -/
theorem simplifyLoop_none : ∀ (k : Nat) (pp : PrettyPrinter) (item : Int) (vec : List Int),
    vec.length ≤ k → PrettyPrinter.simplifyLoop k pp item vec = none →
    ∃ (q : PrettyPrinter) (l : Int) (v : List Int), q.simplify item l (some v) = none
  | k, pp, item, [], _, h => by
    cases k <;> simp [PrettyPrinter.simplifyLoop] at h
  | 0, _, _, _ :: _, hk, _ => by simp at hk
  | k + 1, pp, item, l :: rest, hk, h => by
    simp only [PrettyPrinter.simplifyLoop] at h
    cases hs : pp.simplify item l (some (l :: rest)) with
    | none => exact ⟨pp, l, l :: rest, hs⟩
    | some s =>
      rw [hs] at h
      simp only at h
      cases hf : s.1 with
      | false =>
        rw [hf] at h
        simp at h
      | true =>
        rw [hf] at h
        simp only [Bool.not_true, Bool.false_eq_true, if_false] at h
        rw [simplify_vec_true pp item l _ s hs hf] at h
        have hlen := length_vec_after_join l rest
        simp only [List.length_cons] at hk
        exact simplifyLoop_none k _ item _ (by simp only [Option.getD_some]; omega) h

/-! # The claims about the layout engine -/

/-- C7: for every tree of binary operators over identifier and non-negative integer-literal
leaves whose flat rendering is at most `maxwidth` bytes long, the layout of its document with
`simp` and `deeplySimp` on is exactly one line, at indentation 0, whose text is that flat
rendering. -/
theorem opTree_fits_on_one_line (t : OpTree) (maxwidth indentationBase u : Int)
    (h : size t.render ≤ maxwidth) :
    (layout maxwidth indentationBase true true u
      (expressionToDocument t.toExpression)).map (List.map lineView) =
        some [(0, t.render)] := by
  rw [layout_plain _ _ _ _ _ _ t.plain_document, Option.map_some']
  rw [← t.flatten_eq_render] at h ⊢
  rw [plain_layout_one_line maxwidth indentationBase u _ t.plain_document h]

/-- Witness for C7, at width 80: `+(1, *(2,3))` gives `1+2*3`, `*(+(1,2), 3)` gives
`(1+2)*3`, and `++(a, ++(b,c))` gives `a++b++c`. -/
theorem opTree_fits_on_one_line_witness :
    (layout 80 4 true true 0 (expressionToDocument exampleSum.toExpression)).map
      (List.map lineView) = some [(0, "1+2*3")] ∧
    (layout 80 4 true true 0 (expressionToDocument exampleProduct.toExpression)).map
      (List.map lineView) = some [(0, "(1+2)*3")] ∧
    (layout 80 4 true true 0 (expressionToDocument exampleConcat.toExpression)).map
      (List.map lineView) = some [(0, "a++b++c")] :=
  ⟨(opTree_fits_on_one_line exampleSum 80 4 0 (by decide!)).trans (by decide!),
    (opTree_fits_on_one_line exampleProduct 80 4 0 (by decide!)).trans (by decide!),
    (opTree_fits_on_one_line exampleConcat 80 4 0 (by decide!)).trans (by decide!)⟩

/-! # The scenarios -/

/-- C4 (evaluation at the failing input): on a freshly constructed `Printer`, printing
`a ++ (b ++ c)` with `width = 3` writes the layout for width 80, one line; the width 3 is used
by the next call only, whatever width that call asks for. An engine configured with
`maxwidth = 3` lays the same document out on three lines. -/
theorem printer_first_call_ignores_width (u : Int) :
    (Printer.new.printExpression u exampleConcat.toExpression 3).map Prod.snd =
      some "a++b++c\n" ∧
    ((Printer.new.printExpression u exampleConcat.toExpression 3).bind
      (fun r => r.1.printExpression u exampleConcat.toExpression 80)).map Prod.snd =
      some "a++\nb++\nc\n" ∧
    ((PrettyPrinter.new 3 4 true true).print u
      (expressionToDocument exampleConcat.toExpression)).map PrettyPrinter.printOs =
      some "a++\nb++\nc\n" := by
  simp only [printExpression_initial _ u 0, print_initial _ u 0]
  exact ⟨by decide!, by decide!, by decide!⟩

/-- C8 (as stated, refuted): the layout of `a ++ (b ++ c)` with `maxwidth = 3` and
`indentationBase = 4` is not the three lines `a++`, `b++`, `c` with the second and third
indented by three spaces, and the text written is not the specification's literal. -/
theorem concat_width3_not_indented :
    (layout 3 4 true true 0 (expressionToDocument exampleConcat.toExpression)).map
      (List.map lineView) ≠ some [(0, "a++"), (3, "b++"), (3, "c")] ∧
    ((PrettyPrinter.new 3 4 true true).print 0
      (expressionToDocument exampleConcat.toExpression)).map PrettyPrinter.printOs ≠
      some "a++\n   b++\n   c\n" :=
  ⟨by decide!, by decide!⟩

/-- C8 (amended): the layout of `a ++ (b ++ c)` with `maxwidth = 3` and
`indentationBase = 4`, `simp` and `deeplySimp` on, is three lines with texts `a++`, `b++`,
`c`, each at indentation 0 (the column at which the aligned operator list starts); the text
written is `a++`, `b++`, `c`, each followed by a newline. -/
theorem concat_width3_layout (u : Int) :
    (layout 3 4 true true u (expressionToDocument exampleConcat.toExpression)).map
      (List.map lineView) = some [(0, "a++"), (0, "b++"), (0, "c")] ∧
    ((PrettyPrinter.new 3 4 true true).print u
      (expressionToDocument exampleConcat.toExpression)).map PrettyPrinter.printOs =
      some "a++\nb++\nc\n" := by
  rw [layout_initial _ _ _ _ u 0, print_initial _ u 0]
  exact ⟨by decide!, by decide!⟩

/-- C10: the layout of `if b then 1 else 2 endif` at `maxwidth = 80` (`indentationBase = 4`,
`simp` and `deeplySimp` on) is exactly one line, at indentation 0, with text
`if b then 1 else 2 endif`. The walk alone (`simp` off) leaves five lines, four of them
started by a break, and the simplification pass joins all four back. -/
theorem ite_width80_one_line (u : Int) :
    (layout 80 4 true true u (expressionToDocument exampleIte)).map (List.map lineView)
      = some [(0, "if b then 1 else 2 endif")] ∧
    (layout 80 4 false true u (expressionToDocument exampleIte)).map (List.map lineView)
      = some [(0, "if b then "), (4, "1 "), (0, "else "), (4, "2 "), (0, "endif")] := by
  rw [layout_initial _ _ _ _ u 0, layout_initial _ _ false _ u 0]
  exact ⟨by decide!, by decide!⟩

/-- C9 (as stated, refuted): at width 80 the layout of `forall([f(i) | i in 1..10])` is not
the single line `forall (i in 1..10) (f(i))`. -/
theorem forall_not_compact :
    (layout 80 4 true true 0 (expressionToDocument exampleForall)).map (List.map lineView)
      ≠ some [(0, "forall (i in 1..10) (f(i))")] := by
  decide!

/-- C9 (amended): for every call whose only argument is a list-form comprehension with
body `B`, generators `G` and no where clause, the text laid out (the strings of all lines in
order, at every width and configuration) is the call name, one space, `(`, one space, `G`,
one space, `)`, one space, `(`, one space, `B`, one space, `)`; and the layout of
`forall([f(i) | i in 1..10])` at width 80 is exactly the one line
`forall ( i in 1..10 ) ( f(i) )`. -/
theorem call_comprehension_text :
    (∀ (id : String) (B : Expression) (G : List (List String × Expression))
      (ann : List Expression) (maxwidth indentationBase : Int) (simp deeplySimp : Bool)
      (u : Int),
      (layout maxwidth indentationBase simp deeplySimp u
        (expressionToDocument (.mk (.Call id [.mk (.Comprehension B G none false) ann])
          []))).map allText =
        some (id ++ " " ++ "(" ++ " " ++ generatorsText G ++ " " ++ ")" ++ " " ++ "(" ++ " " ++
          flatten (expressionToDocument B) ++ " " ++ ")")) ∧
    (∀ u : Int, (layout 80 4 true true u (expressionToDocument exampleForall)).map
      (List.map lineView) = some [(0, "forall ( i in 1..10 ) ( f(i) )")]) := by
  constructor
  · intro id B G ann mw ib sim ds u
    rw [layout_breakable _ _ _ _ _ _ (breakable_expressionToDocument _), Option.map_some',
      layout_allText, flatten_expressionToDocument_nil]
    congr 1
    simp only [ExpressionMapper.map, mapOptional]
    rw [flatten_mapCallCompOf _ _ _ _ (isBreakPoint_expressionToDocument B), mapGenerators_eq]
    · simp [generatorsText, Function.comp_def]
    · intro g hg
      rw [mapGenerators_eq] at hg
      simp only [List.mem_map] at hg
      obtain ⟨p, -, rfl⟩ := hg
      exact isBreakPoint_expressionToDocument p.2
  · intro u
    rw [layout_initial _ _ _ _ u 0]
    decide!

/-- C1: for every expression tree built only from binary operators over identifier leaves,
the reference operator-precedence parser (table of section 4.1, a smaller number binds
tighter, every operator groups to the left except `++`, parentheses override) reads the flat
text of the document that `expressionToDocument` builds for the tree, and also the text
that the layout engine produces from that document at any width, as the same tree. -/
theorem parse_flat_text_roundtrip (t : OpTree) (h : t.identifierLeaves = true) :
    Reference.parse (flatten (expressionToDocument t.toExpression)) = some t ∧
    ∀ (maxwidth indentationBase : Int) (simp deeplySimp : Bool) (u : Int),
      ∃ r, layout maxwidth indentationBase simp deeplySimp u
          (expressionToDocument t.toExpression) = some r ∧
        Reference.parse (allText r) = some t := by
  refine ⟨?_, fun mw ib sim ds u => ?_⟩
  · rw [OpTree.flatten_eq_render]
    exact parse_render t h
  · refine ⟨_, layout_plain mw ib sim ds u _ t.plain_document, ?_⟩
    rw [layout_allText, OpTree.flatten_eq_render]
    exact parse_render t h

/-- Witness for C1: the leaves of `(a + b) * (c div d)` are identifiers, and its flat text parses
back to it. -/
theorem parse_flat_text_roundtrip_witness :
    exampleGrouped.identifierLeaves = true ∧
    Reference.parse (flatten (expressionToDocument exampleGrouped.toExpression)) =
      some exampleGrouped :=
  ⟨by decide, (parse_flat_text_roundtrip exampleGrouped (by decide)).1⟩

/-- C14: for each unary operator, with prefix `not ` for `UOT_NOT`, `+` for `UOT_PLUS` and
`-` for `UOT_MINUS`, the document `mapUnOp` builds is the prefix string followed by a list
that holds the document of the operand. When the operand is a binary operation or a unary
operation that list has the tokens `(` and `)` and the flat text is the prefix, `(`, the
text of the operand, `)`; for an operand of every other kind (a let and an if-then-else
among them) the tokens are empty and the flat text is the prefix followed by the text of
the operand. -/
theorem mapUnOp_parentheses (op : UnOpType) (p : String) (ann : List Expression)
    (hp : (op, p) ∈ [(UnOpType.UOT_NOT, "not "), (UnOpType.UOT_PLUS, "+"),
      (UnOpType.UOT_MINUS, "-")]) :
    (∀ (a : Expression) (bo : BinOpType) (b : Expression) (an : List Expression),
      (ExpressionMapper.map (.UnOp op (.mk (.BinOp a bo b) an)) ann).shape =
        .DocumentList 0 [.StringDocument 0 p,
          .DocumentList 0 [(expressionToDocument (.mk (.BinOp a bo b) an)).shape]
            "(" " " ")" false true] "" "" "" false true ∧
      flatten (ExpressionMapper.map (.UnOp op (.mk (.BinOp a bo b) an)) ann) =
        p ++ "(" ++ flatten (expressionToDocument (.mk (.BinOp a bo b) an)) ++ ")") ∧
    (∀ (uo : UnOpType) (a : Expression) (an : List Expression),
      (ExpressionMapper.map (.UnOp op (.mk (.UnOp uo a) an)) ann).shape =
        .DocumentList 0 [.StringDocument 0 p,
          .DocumentList 0 [(expressionToDocument (.mk (.UnOp uo a) an)).shape]
            "(" " " ")" false true] "" "" "" false true ∧
      flatten (ExpressionMapper.map (.UnOp op (.mk (.UnOp uo a) an)) ann) =
        p ++ "(" ++ flatten (expressionToDocument (.mk (.UnOp uo a) an)) ++ ")") ∧
    (∀ (n : ExpressionNode) (an : List Expression),
      (∀ a bo b, n ≠ .BinOp a bo b) → (∀ uo a, n ≠ .UnOp uo a) →
      (ExpressionMapper.map (.UnOp op (.mk n an)) ann).shape =
        .DocumentList 0 [.StringDocument 0 p,
          .DocumentList 0 [(expressionToDocument (.mk n an)).shape]
            "" " " "" false true] "" "" "" false true ∧
      flatten (ExpressionMapper.map (.UnOp op (.mk n an)) ann) =
        p ++ flatten (expressionToDocument (.mk n an))) ∧
    (∀ (l : List Expression) (i : Expression) (an : List Expression),
      flatten (ExpressionMapper.map (.UnOp op (.mk (.Let l i) an)) ann) =
        p ++ flatten (expressionToDocument (.mk (.Let l i) an))) ∧
    (∀ (ifs : List (Expression × Expression)) (els : Expression) (an : List Expression),
      flatten (ExpressionMapper.map (.UnOp op (.mk (.ITE ifs els) an)) ann) =
        p ++ flatten (expressionToDocument (.mk (.ITE ifs els) an))) := by
  have hop : unOpText op = p := by
    simp only [List.mem_cons, Prod.mk.injEq, List.mem_singleton, List.not_mem_nil,
      or_false] at hp
    rcases hp with ⟨rfl, rfl⟩ | ⟨rfl, rfl⟩ | ⟨rfl, rfl⟩ <;> rfl
  have hflat : ∀ e : Expression, flatten (ExpressionMapper.map (.UnOp op e) ann) =
      unOpText op ++ (if e.isBinOp || e.isUnOp then "(" ++ flatten (expressionToDocument e) ++ ")"
        else flatten (expressionToDocument e)) := by
    intro e
    simp only [ExpressionMapper.map, mapUnOpOf]
    by_cases hc : (e.isBinOp || e.isUnOp) = true
    · simp only [hc, if_true, new_list, add_list, addString_list, List.nil_append,
        List.cons_append, flatten_list, flattenDocs_cons_string, flattenDocs_cons_setParent,
        flattenDocs_cons_list, flattenDocs_cons_expression, flattenDocs_nil, joinSep,
        String.empty_append, String.append_empty, flatten_string, flatten_setParent]
    · simp only [hc, if_false, Bool.false_eq_true, new_list, add_list, addString_list,
        List.nil_append, List.cons_append, flatten_list, flattenDocs_cons_string,
        flattenDocs_cons_setParent, flattenDocs_cons_list, flattenDocs_cons_expression,
        flattenDocs_nil, joinSep, String.empty_append, String.append_empty, flatten_string,
        flatten_setParent]
  have hshape : ∀ e : Expression, (ExpressionMapper.map (.UnOp op e) ann).shape =
      .DocumentList 0 [.StringDocument 0 (unOpText op),
        .DocumentList 0 [(expressionToDocument e).shape]
          (if e.isBinOp || e.isUnOp then "(" else "") " "
          (if e.isBinOp || e.isUnOp then ")" else "") false true] "" "" "" false true := by
    intro e
    simp only [ExpressionMapper.map, mapUnOpOf]
    by_cases hc : (e.isBinOp || e.isUnOp) = true
    · simp only [hc, if_true]
      exact shape_add _ _ _ _ _ _ _ _ _
        (shape_addString _ _ _ _ _ _ _ _ _ (shape_new _ _ _ _)) |>.trans
        (by rw [shape_add _ _ _ _ _ _ _ _ _ (shape_new _ _ _ _)]; rfl)
    · simp only [hc, if_false, Bool.false_eq_true]
      exact shape_add _ _ _ _ _ _ _ _ _
        (shape_addString _ _ _ _ _ _ _ _ _ (shape_new _ _ _ _)) |>.trans
        (by rw [shape_add _ _ _ _ _ _ _ _ _ (shape_new _ _ _ _)]; rfl)
  have hother : ∀ (n : ExpressionNode) (an : List Expression),
      (∀ a bo b, n ≠ .BinOp a bo b) → (∀ uo a, n ≠ .UnOp uo a) →
      ((Expression.mk n an).isBinOp || (Expression.mk n an).isUnOp) = false := by
    intro n an h1 h2
    cases n
    case BinOp a bo b => exact absurd rfl (h1 a bo b)
    case UnOp uo a => exact absurd rfl (h2 uo a)
    all_goals rfl
  rw [← hop]
  refine ⟨fun a bo b an => ⟨?_, ?_⟩, fun uo a an => ⟨?_, ?_⟩, fun n an h1 h2 => ⟨?_, ?_⟩,
    fun l i an => ?_, fun ifs els an => ?_⟩
  · rw [hshape]; rfl
  · rw [hflat]; simp [Expression.isBinOp, Expression.isUnOp, String.append_assoc]
  · rw [hshape]; rfl
  · rw [hflat]; simp [Expression.isBinOp, Expression.isUnOp, String.append_assoc]
  · rw [hshape, hother n an h1 h2]; rfl
  · rw [hflat, hother n an h1 h2]; rfl
  · rw [hflat]; simp [Expression.isBinOp, Expression.isUnOp]
  · rw [hflat]; simp [Expression.isBinOp, Expression.isUnOp]

/-- Witness for C14: `not (a + b)` is written `not (a+b)`, `-(-x)` is written `-(-x)`, and
`+` applied to the identifier `x` is written `+x`. -/
theorem mapUnOp_parentheses_witness :
    (UnOpType.UOT_NOT, "not ") ∈ [(UnOpType.UOT_NOT, "not "), (UnOpType.UOT_PLUS, "+"),
      (UnOpType.UOT_MINUS, "-")] ∧
    flatten (ExpressionMapper.map (.UnOp .UOT_NOT
      (.mk (.BinOp (.mk (.Id "a") []) .BOT_PLUS (.mk (.Id "b") [])) [])) []) =
        "not " ++ "(" ++ "a+b" ++ ")" ∧
    flatten (ExpressionMapper.map (.UnOp .UOT_MINUS
      (.mk (.UnOp .UOT_MINUS (.mk (.Id "x") [])) [])) []) = "-" ++ "(" ++ "-x" ++ ")" ∧
    flatten (ExpressionMapper.map (.UnOp .UOT_PLUS (.mk (.Id "x") [])) []) = "+" ++ "x" :=
  ⟨by decide,
    ((mapUnOp_parentheses .UOT_NOT "not " [] (by decide)).1 (.mk (.Id "a") []) .BOT_PLUS
      (.mk (.Id "b") []) []).2.trans (by decide!),
    ((mapUnOp_parentheses .UOT_MINUS "-" [] (by decide)).2.1 .UOT_MINUS (.mk (.Id "x") [])
      []).2.trans (by decide!),
    ((mapUnOp_parentheses .UOT_PLUS "+" [] (by decide)).2.2.1 (.Id "x") []
      (fun _ _ _ h => ExpressionNode.noConfusion h)
      (fun _ _ h => ExpressionNode.noConfusion h)).2.trans (by decide!)⟩

/-- C16: the flat text of the document of a 1-D array literal with index range `lo..hi` and
elements `e1..ek` is `[e1, ..., ek]` when `lo = 1` and `array1d(lo..hi, [e1, ..., ek])` for
every other `lo`, whatever `hi` and `k` are. -/
theorem arrayLit_1d_text (v : List Expression) (lo hi : Int) (ann : List Expression) :
    flatten (ExpressionMapper.map (.ArrayLit v [(lo, hi)]) ann) =
      if lo = 1 then "[" ++ joinSep ", " (textsOf v) ++ "]"
      else "array1d(" ++ toString lo ++ ".." ++ toString hi ++ ", " ++
        ("[" ++ joinSep ", " (textsOf v) ++ "]") ++ ")" := by
  simp only [ExpressionMapper.map, mapArrayLitOf]
  by_cases h : lo = 1
  · simp only [h, List.length_singleton, List.getD_cons_zero, and_self, if_true, new_list,
      addDocuments_list, flatten_list, List.nil_append, flattenDocs_map_setParent,
      flattenDocs_mapExpressions]
  · have h3 : ¬ ((1 : Nat) = 2) := by decide
    simp only [h, h3, List.length_singleton, List.getD_cons_zero, and_false, false_and,
      if_false, List.foldl_cons, List.foldl_nil, new_list, add_list, addString_list,
      addDocuments_list, List.nil_append, List.cons_append, flatten_list,
      flattenDocs_cons_string, flattenDocs_cons_setParent, flattenDocs_cons_list,
      flattenDocs_nil, flattenDocs_map_setParent, flattenDocs_mapExpressions, joinSep,
      String.empty_append, String.append_empty, flatten_string, flatten_setParent]
    have e1 : "array1d(" = "array" ++ toString (1 : Nat) ++ "d" ++ "(" := by decide
    rw [e1]
    simp only [String.append_assoc]

/-- C17: the flat text of the document of an array literal with `n >= 2` dimensions that is
not a 2-D literal with both starting indices 1 is `array`, the decimal `n`, `d(`, then one
`lo..hi` per dimension in dimension order and the bracketed element list `[e1, ..., ek]`
in storage order, all joined by `, `, then `)`. -/
theorem arrayLit_nd_text (v : List Expression) (dims : List (Int × Int))
    (ann : List Expression) (hn : 2 ≤ dims.length)
    (h2 : ¬ (dims.length = 2 ∧ (dims.getD 0 default).1 = 1 ∧ (dims.getD 1 default).1 = 1)) :
    flatten (ExpressionMapper.map (.ArrayLit v dims) ann) =
      "array" ++ toString dims.length ++ "d(" ++
        joinSep ", " (dims.map rangeText ++ ["[" ++ joinSep ", " (textsOf v) ++ "]"]) ++ ")" := by
  have h1 : ¬ (dims.length = 1 ∧ (dims.getD 0 default).1 = 1) := by omega
  have e1 : "d(" = "d" ++ "(" := by decide
  simp only [ExpressionMapper.map, mapArrayLitOf, h1, h2, if_false, new_list, add_list,
    addString_list, addDocuments_list, foldl_addString_list, List.nil_append,
    List.cons_append, flatten_list, flattenDocs_cons_string, flattenDocs_cons_setParent,
    flattenDocs_cons_list, flattenDocs_nil, flattenDocs_map_setParent,
    flattenDocs_mapExpressions, flattenDocs_append, flattenDocs_map_string, joinSep,
    String.empty_append, String.append_empty, flatten_string, flatten_setParent, e1]
  have hr : rangeText = fun x => toString x.1 ++ (".." ++ toString x.2) := by
    funext x
    simp only [rangeText, String.append_assoc]
  simp only [hr, String.append_assoc]

/-- Witness for C17: a 2-D literal whose second index range starts at 0. -/
theorem arrayLit_nd_text_witness :
    2 ≤ [((1 : Int), (1 : Int)), (0, 1)].length ∧
    flatten (ExpressionMapper.map (.ArrayLit [.mk (.Id "a") [], .mk (.Id "b") []]
      [(1, 1), (0, 1)]) []) =
      "array" ++ toString 2 ++ "d(" ++
        joinSep ", " ([(1, 1), (0, 1)].map rangeText ++
          ["[" ++ joinSep ", " (textsOf [.mk (.Id "a") [], .mk (.Id "b") []]) ++ "]"]) ++ ")" :=
  ⟨by decide, arrayLit_nd_text _ [(1, 1), (0, 1)] [] (by decide) (by decide)⟩

/-- C11 (evaluation at the failing input): the flat text of the document that `mapITE` builds
for `if a then 1 elseif b then 2 else 3 endif` has two spaces between the branch `1` and
`elseif`, the one added after every branch and the one that opens ` elseif `; with a single
condition the clauses are one space apart. -/
theorem ite_elseif_two_spaces :
    flatten (expressionToDocument exampleElseif) = "if a then 1  elseif b then 2 else 3 endif" ∧
    flatten (expressionToDocument exampleIte) = "if b then 1 else 2 endif" := by
  decide!

/-- C15: the begin text of the document of a function-like item is `annotation ` when the
return type is ann and there is no body; else `test ` when the return type is par bool;
else `predicate ` when it is var bool; else `function `, and then the first children of the
document are the return type-inst, `: ` and the name, while in the three other forms the
first child is the name. An ann-typed item that has a body gets the `function` form, and a
bodiless par bool item gets `test `. -/
theorem mapFunctionI_begin_text (ti : TypeInst) (id : String) (params : List Expression)
    (ann e : Option Expression) :
    (mapFunctionI ti id params ann e).getBeginToken =
      (if ti._type.isann && e.isNone then "annotation "
       else if ti._type = Type_.parbool then "test "
       else if ti._type = Type_.varbool then "predicate "
       else "function ") ∧
    ((mapFunctionI ti id params ann e).getBeginToken = "function " →
      ((mapFunctionI ti id params ann e).getDocs.take 3).map Document.shape =
        [(expressionToDocument ti.toExpression).shape, .StringDocument 0 ": ",
          .StringDocument 0 id]) ∧
    ((mapFunctionI ti id params ann e).getBeginToken ≠ "function " →
      ((mapFunctionI ti id params ann e).getDocs.take 1).map Document.shape =
        [.StringDocument 0 id]) ∧
    (ti._type.isann = true → e.isSome = true →
      (mapFunctionI ti id params ann e).getBeginToken = "function ") ∧
    (ti._type = Type_.parbool → e = none →
      (mapFunctionI ti id params ann e).getBeginToken = "test ") := by
  obtain ⟨ranges, ty, dom, tann⟩ := ti
  unfold mapFunctionI
  dsimp only
  have hpb : Type_.parbool.isann = false := by decide
  have hvb : Type_.varbool.isann = false := by decide
  have hne : Type_.varbool ≠ Type_.parbool := by decide
  by_cases h2 : ty = Type_.parbool
  · subst h2
    cases ann <;> cases e <;> by_cases hp : params.isEmpty = true <;>
      simp [hpb, hp, new_list, add_list, addString_list, addBreakPoint_list,
        Document.getBeginToken, Document.getDocs, setParent_string, Document.shape]
  · by_cases h3 : ty = Type_.varbool
    · subst h3
      cases ann <;> cases e <;> by_cases hp : params.isEmpty = true <;>
        simp [hvb, hne, hp, new_list, add_list, addString_list, addBreakPoint_list,
          Document.getBeginToken, Document.getDocs, setParent_string, Document.shape]
    · by_cases h1 : ty.isann = true <;>
        cases ann <;> cases e <;> by_cases hp : params.isEmpty = true <;>
        simp [h1, h2, h3, hp, new_list, add_list, addString_list, addBreakPoint_list,
          Document.getBeginToken, Document.getDocs, setParent_string, Document.shape,
          shape_setParent]

/-- C18: for a 2-D array literal with both starting indices 1, `r` rows, `c` columns and
`r * c` stored elements, the children of the document `mapArrayLit` builds are the `r` row
lists with one Break between two consecutive rows (so `r - 1` Breaks, none after the last
row), every Break with do-not-simplify set; row `i` (0-based) holds the documents of the
elements `i * c .. i * c + c - 1` in that order, and the rows one after the other hold the
stored elements once each in storage order. Levels are left out (`shape`). -/
theorem arrayLit_2d_rows (v : List Expression) (r c : Nat) (ann : List Expression)
    (hlen : v.length = r * c) :
    (ExpressionMapper.map (.ArrayLit v [(1, (r : Int)), (1, (c : Int))]) ann).shape =
      .DocumentList 0 (List.intersperse (.BreakPoint 0 true)
        ((List.range r).map (fun i =>
          Document.DocumentList 0
            (((v.drop (i * c)).take c).map (fun e => (expressionToDocument e).shape))
            "" ", " "" false true))) "[| " " | " " |]" false true ∧
    (List.range r).flatMap (fun i => (v.drop (i * c)).take c) = v := by
  constructor
  · simp only [ExpressionMapper.map]
    rw [shape_mapArrayLitOf_2d _ r c (by rw [mapExpressions_eq, List.length_map, hlen])]
    simp only [mapExpressions_eq, ← List.map_drop, ← List.map_take, List.map_map,
      Function.comp_def]
  · rw [flatMap_chunks, ← hlen, List.take_length]

/-- Witness for C18: the literal `[| a | b |]` with two rows and one column. -/
theorem arrayLit_2d_rows_witness :
    [Expression.mk (.Id "a") [], Expression.mk (.Id "b") []].length = 2 * 1 ∧
    (ExpressionMapper.map (.ArrayLit [.mk (.Id "a") [], .mk (.Id "b") []]
      [(1, ((2 : Nat) : Int)), (1, ((1 : Nat) : Int))]) []).shape =
      .DocumentList 0 (List.intersperse (.BreakPoint 0 true)
        ((List.range 2).map (fun i =>
          Document.DocumentList 0
            ((([Expression.mk (.Id "a") [], Expression.mk (.Id "b") []].drop (i * 1)).take 1).map
              (fun e => (expressionToDocument e).shape))
            "" ", " "" false true))) "[| " " | " " |]" false true :=
  ⟨rfl, (arrayLit_2d_rows [.mk (.Id "a") [], .mk (.Id "b") []] 2 1 [] rfl).1⟩

/-- C19: the document `mapLet` builds for a let with bindings `l` is `let {`, a list with a
Break and the list of the bindings with one Break between two consecutive bindings, a
Break, `} in (`, a list with a Break and the body, and `)`. The Break after `let {`, the
Breaks between bindings and the Break before `} in (` all carry the do-not-simplify flag
`2 <= n` for `n` bindings, and the Break before the body never carries it: with one
binding no Break created by `mapLet` has the flag, with two or more each of the `n - 1`
separating Breaks has it. Levels are left out (`shape`). -/
theorem mapLet_breaks (l : List Expression) (i : Expression) (ann : List Expression) :
    (ExpressionMapper.map (.Let l i) ann).shape =
      .DocumentList 0 [.StringDocument 0 "let \x7b",
        .DocumentList 0 [.BreakPoint 0 (decide (2 ≤ l.length)),
          .DocumentList 0 (List.intersperse (.BreakPoint 0 (decide (2 ≤ l.length)))
            (l.map (fun e => Document.DocumentList 0
              ((if e.isVarDecl then [] else [.StringDocument 0 "constraint"]) ++
                [(expressionToDocument e).shape]) "" " " "," false true)))
            "" " " "" false true] "" "" "" false false,
        .BreakPoint 0 (decide (2 ≤ l.length)),
        .StringDocument 0 "\x7d in (",
        .DocumentList 0 [.BreakPoint 0 false,
          .DocumentList 0 [(expressionToDocument i).shape] "" "" "" false true]
          "" "" "" false false,
        .StringDocument 0 ")"] "" "" "" false true ∧
    ((List.intersperse (Document.BreakPoint 0 (decide (2 ≤ l.length)))
      (l.map (fun e => Document.DocumentList 0
        ((if e.isVarDecl then [] else [.StringDocument 0 "constraint"]) ++
          [(expressionToDocument e).shape]) "" " " "," false true))).filter
        Document.isBreakPoint).length = l.length - 1 ∧
    (∀ e : Expression, (ExpressionMapper.map (.Let [e] i) ann).shape =
      .DocumentList 0 [.StringDocument 0 "let \x7b",
        .DocumentList 0 [.BreakPoint 0 false,
          .DocumentList 0 [Document.DocumentList 0
              ((if e.isVarDecl then [] else [.StringDocument 0 "constraint"]) ++
                [(expressionToDocument e).shape]) "" " " "," false true]
            "" " " "" false true] "" "" "" false false,
        .BreakPoint 0 false,
        .StringDocument 0 "\x7d in (",
        .DocumentList 0 [.BreakPoint 0 false,
          .DocumentList 0 [(expressionToDocument i).shape] "" "" "" false true]
          "" "" "" false false,
        .StringDocument 0 ")"] "" "" "" false true) := by
  have key : ∀ l : List Expression, (ExpressionMapper.map (.Let l i) ann).shape =
      .DocumentList 0 [.StringDocument 0 "let \x7b",
        .DocumentList 0 [.BreakPoint 0 (decide (2 ≤ l.length)),
          .DocumentList 0 (List.intersperse (.BreakPoint 0 (decide (2 ≤ l.length)))
            (l.map (fun e => Document.DocumentList 0
              ((if e.isVarDecl then [] else [.StringDocument 0 "constraint"]) ++
                [(expressionToDocument e).shape]) "" " " "," false true)))
            "" " " "" false true] "" "" "" false false,
        .BreakPoint 0 (decide (2 ≤ l.length)),
        .StringDocument 0 "\x7d in (",
        .DocumentList 0 [.BreakPoint 0 false,
          .DocumentList 0 [(expressionToDocument i).shape] "" "" "" false true]
          "" "" "" false false,
        .StringDocument 0 ")"] "" "" "" false true := by
    intro l
    simp only [ExpressionMapper.map]
    rw [letBindings_eq, shape_mapLetOf]
    simp only [List.length_map, List.map_map, Function.comp_def, gt_iff_lt]
    have e : decide (1 < l.length) = decide (2 ≤ l.length) := by
      by_cases h : 1 < l.length <;> simp [h] <;> omega
    rw [e]
  refine ⟨key l, ?_, fun e => ?_⟩
  · generalize decide (2 ≤ l.length) = ds
    cases l with
    | nil => simp
    | cons e l =>
      rw [List.map_cons, intersperse_cons_flatMap]
      simp only [List.length_cons, Nat.add_sub_cancel]
      induction l with
      | nil => simp [Document.isBreakPoint]
      | cons e2 l ih =>
        simp only [List.map_cons, List.flatMap_cons, List.length_cons] at ih ⊢
        simp [List.filter_cons, Document.isBreakPoint] at ih ⊢
        omega
  · rw [key [e]]
    simp

/-- C20 (as stated, refuted): the rendering `:: x` of an identifier holds no ` :: `, yet in
the flat text ` :: :: x` of the chain made of that one expression ` :: ` occurs twice, at
offsets 0 and 3, not once. -/
theorem annotation_separator_overlap :
    countOccurrences " :: " (flatten (expressionToDocument exampleColonId)) = 0 ∧
    flatten (ExpressionMapper.map (.Annotation_ exampleColonId []) []) = " :: :: x" ∧
    countOccurrences " :: "
      (flatten (ExpressionMapper.map (.Annotation_ exampleColonId []) [])) = 2 := by
  decide!

/-- C20 (amended): for every annotation chain of `n >= 1` expressions `a1..an`, the
document `mapAnnotation` builds has exactly `n` children, the `i`-th being the document of
`ai` in chain order (levels left out), and its flat text is ` :: ` ++ text(a1) ++ ` :: ` ++
... ++ ` :: ` ++ text(an); when no rendering holds ` :: `, starts with `::` or ends with
` ::`, the text ` :: ` occurs in it exactly `n` times. -/
theorem annotation_chain_text (e : Expression) (a ann : List Expression) :
    (ExpressionMapper.map (.Annotation_ e a) ann).shape =
      .DocumentList 0 ((e :: a).map (fun x => (expressionToDocument x).shape))
        " :: " " :: " "" false true ∧
    flatten (ExpressionMapper.map (.Annotation_ e a) ann) =
      concatStrings ((e :: a).map (fun x => " :: " ++ flatten (expressionToDocument x))) ∧
    ((∀ x ∈ e :: a,
        countOccurrences " :: " (flatten (expressionToDocument x)) = 0 ∧
        startsWith "::" (flatten (expressionToDocument x)) = false ∧
        endsWith " ::" (flatten (expressionToDocument x)) = false) →
      countOccurrences " :: " (flatten (ExpressionMapper.map (.Annotation_ e a) ann)) =
        (e :: a).length) := by
  have hb : ∀ d ∈ expressionToDocument e :: mapExpressions a, d.isBreakPoint = false := by
    intro d hd
    rcases List.mem_cons.1 hd with rfl | hd
    · exact isBreakPoint_expressionToDocument e
    · exact isBreakPoint_mapExpressions a d hd
  obtain ⟨h1, h2⟩ := mapAnnotationOf_spec _ hb
  have hflat : flatten (ExpressionMapper.map (.Annotation_ e a) ann) =
      concatStrings ((e :: a).map (fun x => " :: " ++ flatten (expressionToDocument x))) := by
    simp only [ExpressionMapper.map]
    rw [h2, List.map_cons, joinSep_begin, mapExpressions_eq]
    simp [List.map_map, Function.comp_def]
  refine ⟨?_, hflat, fun h => ?_⟩
  · simp only [ExpressionMapper.map]
    rw [h1, mapExpressions_eq]
    simp [List.map_map, Function.comp_def]
  · rw [hflat]
    unfold countOccurrences
    rw [data_concatStrings, List.flatMap_map]
    have := occurrences_chain ((e :: a).map (fun x => (flatten (expressionToDocument x)).data))
      (by
        intro t ht
        obtain ⟨x, hx, rfl⟩ := List.mem_map.1 ht
        obtain ⟨g1, g2, g3⟩ := h x hx
        refine ⟨g1, ?_, ?_⟩
        · intro hp
          have : startsWith "::" (flatten (expressionToDocument x)) = true :=
            List.isPrefixOf_iff_prefix.2 hp
          rw [g2] at this
          exact Bool.false_ne_true this
        · intro hs
          have : endsWith " ::" (flatten (expressionToDocument x)) = true :=
            List.isSuffixOf_iff_suffix.2 hs
          rw [g3] at this
          exact Bool.false_ne_true this)
    rw [List.flatMap_map, List.length_map] at this
    rw [← this]
    rfl

/-- Witness for C20: the chain `a`, `b` gives ` :: a :: b`, in which ` :: ` occurs twice. -/
theorem annotation_chain_text_witness :
    (∀ x ∈ [Expression.mk (.Id "a") [], Expression.mk (.Id "b") []],
        countOccurrences " :: " (flatten (expressionToDocument x)) = 0 ∧
        startsWith "::" (flatten (expressionToDocument x)) = false ∧
        endsWith " ::" (flatten (expressionToDocument x)) = false) ∧
    countOccurrences " :: " (flatten (ExpressionMapper.map
      (.Annotation_ (.mk (.Id "a") []) [.mk (.Id "b") []]) [])) = 2 :=
  ⟨by decide!, (annotation_chain_text (.mk (.Id "a") []) [.mk (.Id "b") []] []).2.2
    (by decide!)⟩

/-- C12: for every document that contains no unbreakable list, laid out with `simp` and
`deeplySimp` on at any width, the layout exists and every Break whose do-not-simplify flag
is true still starts a line in it: at the place of the Break in the flat text (the number
of bytes of text before it) a line other than the first begins, so the line it started was
not joined to the line before it. The text of all lines is the flat text of the
document. -/
theorem dontSimplify_breaks_start_lines (maxwidth indentationBase u : Int) (d : Document)
    (h : d.breakable = true) :
    ∃ r, layout maxwidth indentationBase true true u d = some r ∧
      (∀ k ∈ dsBreakOffsets d, ∃ j : Nat, 1 ≤ j ∧ j < r.length ∧ textBefore r j = k) ∧
      allText r = flatten d :=
  ⟨_, layout_breakable maxwidth indentationBase true true u d h,
    layout_dsBreaks maxwidth indentationBase u d h,
    layout_allText maxwidth indentationBase true true u d⟩

/-- Witness for C12: in `a`, Break (do not simplify), `b` the Break stands after one byte,
and at width 80, where `ab` would fit on one line, the layout has the two lines `a` and
`b`. -/
theorem dontSimplify_breaks_start_lines_witness :
    exampleHardBreak.breakable = true ∧ (1 : Int) ∈ dsBreakOffsets exampleHardBreak ∧
    (layout 80 4 true true 0 exampleHardBreak).map (List.map lineView) =
      some [(0, "a"), (0, "b")] ∧
    ∃ r, layout 80 4 true true 0 exampleHardBreak = some r ∧
      (∀ k ∈ dsBreakOffsets exampleHardBreak,
        ∃ j : Nat, 1 ≤ j ∧ j < r.length ∧ textBefore r j = k) ∧
      allText r = flatten exampleHardBreak :=
  ⟨by decide, by decide!, by decide!,
    dontSimplify_breaks_start_lines 80 4 0 exampleHardBreak (by decide)⟩

/-! # Levels of the document tree and the step `simplify` -/

/-- C21: in every document tree built with the constructors and `addDocumentToList`,
whatever the order in which children are attached to lists and lists to their parents
(`Build` lets a document be attached to the root of a tree or to any list below it), the
root has level 0 and every other node has the level of its parent plus one, so the level of
a node is its depth. A call `addDocumentToList(d)` on a list of level `l` appends
`d` with level `l + 1` and re-levels every descendant of `d`: whatever the levels in `d`
were, afterwards each node of `d` has level `l + 1` plus its depth in `d`. -/
theorem built_tree_levels (w : Build) (l : Nat) (docs : List Document) (b s e : String)
    (u a : Bool) (d : Document) :
    (Build.run w).getLevel = 0 ∧ (Build.run w).leveled 0 = true ∧
    (Document.DocumentList l docs b s e u a).addDocumentToList d =
      .DocumentList l (docs ++ [d.setParent l]) b s e u a ∧
    (d.setParent l).getLevel = l + 1 ∧ (d.setParent l).leveled (l + 1) = true :=
  ⟨getLevel_of_leveled _ 0 (run_leveled w), run_leveled w, rfl,
    getLevel_of_leveled _ _ (setParent_leveled d l), setParent_leveled d l⟩

/-- Counterexample to C22: the walk of [unbreakable [unbreakable [`p`, Break, `q`]],
[[[Break, `rrrrrr`, [Break, `sssss`]]]]] at width 12 leaves the lines ``, `pq`, `rrrrrr`
(indentation 2) and `sssss`, and the parent pairs `(2, 3)` and `(3, 2)`. Line 3 has length
5, greater than `12 - 6 - 2 = 4`, so `simplify(0, 3, vec)` is in the case of failure; its
call `remove(vec, 3, false)` calls itself on line 2, then on line 3, and so on, and
`simplify` does not return: it does not return false. -/
theorem simplify_failure_no_return :
    ((PrettyPrinter.new 12 4 true true).walk 0 exampleCycleAttempt).map
      (fun W => (W.L.map lineView, (W.line 0 3).getLength,
        W.maxwidth - (W.line 0 (3 - 1)).getLength - (W.line 0 (3 - 1)).getIndentation,
        W.T.parent)) =
      some ([(0, ""), (0, "pq"), (2, "rrrrrr"), (6, "sssss")], 5, 4, [(2, 3), (3, 2)]) ∧
    ((PrettyPrinter.new 12 4 true true).walk 0 exampleCycleAttempt).bind
      (fun W => W.simplify 0 3 (some [3, 2])) = none :=
  ⟨by decide!, by decide!⟩

/-- C22, amended: for a line `line` of the item `item`, every call
`simplify(item, line, vec)` that returns, returns false exactly when `line = 0` or the
length of the line is greater than `maxwidth` minus the length and the indentation of the
line before it, and then the lines of every item are unchanged. Otherwise it returns true
and, with the lines of the item being `pre ++ p :: x :: post` where `x` is line `line`,
they become `pre ++ p1 :: post`, where `p1` has the indentation of `p`, the text of `p`
followed by the text of `x` and the sum of both lengths: line `line` is gone, the item has
one line less, the other lines are unchanged and in the same order, and the other items are
unchanged. The call returns unless it is in the case of failure and chains of parent links
of every length start at `line` in the ledger of the item. -/
theorem simplify_joins_line (pp : PrettyPrinter) (item line : Int) (vec : Option (List Int))
    (hi : 0 ≤ item) (hil : item < pp.items.length) (hl0 : 0 ≤ line)
    (hl : line < (vecGet pp.items item).length) :
    (pp.simplify item line vec = none ↔
      ((line = 0 ∨ (pp.line item line).getLength >
        pp.maxwidth - (pp.line item (line - 1)).getLength
          - (pp.line item (line - 1)).getIndentation) ∧
        ∀ n, LinkChain (vecGet pp.linesToSimplify item).parent n line)) ∧
    (∀ r, pp.simplify item line vec = some r →
      (r.1 = false ↔
        (line = 0 ∨ (pp.line item line).getLength >
          pp.maxwidth - (pp.line item (line - 1)).getLength
            - (pp.line item (line - 1)).getIndentation)) ∧
      (r.1 = false → r.2.1.items = pp.items) ∧
      (r.1 = true →
        ∃ pre p x post, vecGet pp.items item = pre ++ p :: x :: post ∧
          (pre.length : Int) + 1 = line ∧
          vecGet r.2.1.items item =
            pre ++ ⟨p.indentation, p.lineLength + x.lineLength, p.text ++ x.text⟩ :: post ∧
          (vecGet r.2.1.items item).length + 1 = (vecGet pp.items item).length ∧
          ∀ j, j ≠ item → vecGet r.2.1.items j = vecGet pp.items j)) := by
  constructor
  · rw [simplify_eq_none_iff]
    by_cases hc : line = 0 ∨ (pp.line item line).getLength >
        pp.maxwidth - (pp.line item (line - 1)).getLength
          - (pp.line item (line - 1)).getIndentation
    · have hc1 : line = 0 ∨ (pp.line item line).getLength >
          (pp.line item (line - 1)).getSpaceLeft pp.maxwidth := hc
      have hb : (!(decide (line = 0) || decide ((pp.line item line).getLength >
          (pp.line item (line - 1)).getSpaceLeft pp.maxwidth))) = false := by
        rcases hc1 with h | h <;> simp [h]
      rw [hb, remove_none_iff]
      simp only [removeFuel_none_iff, hc, true_and]
    · have hc1 : ¬ (line = 0 ∨ (pp.line item line).getLength >
          (pp.line item (line - 1)).getSpaceLeft pp.maxwidth) := hc
      have hb : (!(decide (line = 0) || decide ((pp.line item line).getLength >
          (pp.line item (line - 1)).getSpaceLeft pp.maxwidth))) = true := by
        rw [not_or] at hc1
        simp [hc1.1, hc1.2]
      rw [hb, remove_true]
      simp only [hc, false_and, iff_false]
      exact fun h => Option.noConfusion h
  intro r hr
  have hr1 := simplify_eq_some pp item line vec r hr
  subst hr1
  obtain ⟨h1, h2⟩ := simplify_items pp item line vec
  refine ⟨?_, ?_, ?_⟩
  · rw [h1]
    simp only [canJoin, PrettyPrinter.line, Line.getSpaceLeft, Line.getLength,
      Line.getIndentation, Bool.and_eq_false_iff, decide_eq_false_iff_not, ne_eq, not_not,
      Bool.not_eq_false', decide_eq_true_eq, gt_iff_lt]
  · intro hf
    rw [h1] at hf
    rw [h2, hf]
    simp
  · intro ht
    rw [h1] at ht
    have hne : line ≠ 0 := by
      intro h0
      rw [h0, canJoin_zero] at ht
      exact Bool.noConfusion ht
    obtain ⟨pre, p, x, post, hL, hpre⟩ :=
      exists_mid (vecGet pp.items item) line (by omega) (by omega)
    have hget : vecGet (pp.simplifyTotal item line vec).2.1.items item =
        joinLines (vecGet pp.items item) line := by
      rw [h2, ht]
      simp only [if_true]
      rw [vecGet_vecModify_same _ _ _ hi (by rw [length_vecModify]; exact hil),
        vecGet_vecModify_same _ _ _ hi hil]
      rfl
    have hj := joinLines_mid pre post p x line hpre
    refine ⟨pre, p, x, post, hL, by omega, ?_, ?_, ?_⟩
    · rw [hget, hL, hj]
      rfl
    · rw [hget, hL, hj]
      simp only [List.length_append, List.length_cons]
      omega
    · intro j hj1
      rw [h2, ht]
      simp only [if_true]
      rw [vecGet_vecModify_ne _ _ _ _ hj1, vecGet_vecModify_ne _ _ _ _ hj1]

/-- Witness for C22: in an item with the lines `a` and `b` at width 80, `simplify(0, 1,
NULL)` returns true and leaves the one line `ab`. -/
theorem simplify_joins_line_witness :
    (0 : Int) ≤ 0 ∧ (0 : Int) < exampleEngine.items.length ∧ (0 : Int) ≤ 1 ∧
    (1 : Int) < (vecGet exampleEngine.items 0).length ∧
    (exampleEngine.simplify 0 1 none).map (fun r => (r.1, r.2.1.items)) =
      some (true, [[⟨0, 2, ["a", "b"]⟩]]) ∧
    (exampleEngine.simplify 0 1 none = none ↔
      (((1 : Int) = 0 ∨ (exampleEngine.line 0 1).getLength >
        exampleEngine.maxwidth - (exampleEngine.line 0 (1 - 1)).getLength
          - (exampleEngine.line 0 (1 - 1)).getIndentation) ∧
        ∀ n, LinkChain (vecGet exampleEngine.linesToSimplify 0).parent n 1)) :=
  ⟨by decide, by decide, by decide, by decide, by decide!,
    (simplify_joins_line exampleEngine 0 1 none (by decide) (by decide) (by decide)
      (by decide)).1⟩

/-! # The ledgers: renumbering, subtraction, inferred parents, cascade -/

/-- C23: the engine at inputs on which the claim fails. The walk of the unbreakable list
`p`, Break (do not simplify), `q` at width 80 records line 2 in `linesNotToSimplify` and
ends with `simplify(0, 2, NULL)`, which joins line 2 to line 1: the item then has two
lines, an empty one and `pq`, and `linesNotToSimplify` still holds the index 2, not 1.
When that list is followed by a Break and `r`, the new line 2 is recorded as a candidate,
the stale index 2 takes it out of the candidates in the subtraction step, and `r` stays on
a line of its own although `pqr` fits. The same happens in the function item
`function int: f(int: x = [| 1, 2 | 3, 4 |]) = x;`, whose parameter is an unbreakable
list: the body `x;` stays on a line of its own at width 80. -/
theorem simplify_keeps_excluded_index :
    ((PrettyPrinter.new 80 4 true true).walk 0 exampleUnbreakable).map
      (fun W => W.L.map lineView) = some [(0, ""), (0, "pq")] ∧
    ((PrettyPrinter.new 80 4 true true).walk 0 exampleUnbreakable).map
      (fun W => allCandidates W.N) = some [2] ∧
    ((PrettyPrinter.new 80 4 true true).walk 0 exampleStale).map
      (fun W => allCandidates W.T) = some [2] ∧
    ((PrettyPrinter.new 80 4 true true).walk 0 exampleStale).map
      (fun W => allCandidates W.N) = some [2] ∧
    (layout 80 4 true true 0 exampleStale).map (List.map lineView) =
      some [(0, ""), (0, "pq"), (0, "r")] ∧
    ((PrettyPrinter.new 80 4 true true).walk 0 (itemToDocument exampleStaleItem)).map
      (fun W => allCandidates W.T) = some [2] ∧
    ((PrettyPrinter.new 80 4 true true).walk 0 (itemToDocument exampleStaleItem)).map
      (fun W => allCandidates W.N) = some [2] ∧
    (layout 80 4 true true 0 (itemToDocument exampleStaleItem)).map (List.map lineView) =
      some [(0, "function int: f"), (16, "(int: x = [| 1, 2 | 3, 4 |]) = "), (4, "x;")] :=
  ⟨by decide!, by decide!, by decide!, by decide!, by decide!, by decide!, by decide!,
    by decide!⟩

/-- Counterexample to C24: in Break, `a`, [Break (do not simplify), `b`] the walk at width
80 records the candidates 1 and 2, line 1 being the parent of line 2, and excludes line 2
only; the subtraction step leaves no candidate, so line 1, whose Break has
do-not-simplify false, is not a candidate any more and `a` is not joined to line 0. And
after the walk of [unbreakable [unbreakable [`p`, Break, `q`]], [[[Break, `r`, [Break (do
not simplify), `s`]]]]], which leaves the parent pairs `(2, 3)` and `(3, 2)` and excludes
line 3, the subtraction step does not return, so it leaves no set of candidates. -/
theorem subtraction_removes_parent :
    ((PrettyPrinter.new 80 4 true true).walk 0 exampleExcludedChild).map
      (fun W => (allCandidates W.T, W.T.parent, allCandidates W.N)) =
        some ([1, 2], [(2, 1)], [2]) ∧
    (((PrettyPrinter.new 80 4 true true).walk 0 exampleExcludedChild).bind
      (fun W => W.T.removeAll W.N)).map allCandidates = some [] ∧
    (layout 80 4 true true 0 exampleExcludedChild).map (List.map lineView) =
      some [(0, ""), (0, "a"), (1, "b")] ∧
    ((PrettyPrinter.new 80 4 true true).walk 0 exampleCycle).map
      (fun W => (allCandidates W.T, W.T.parent, allCandidates W.N)) =
        some ([2, 3], [(2, 3), (3, 2)], [3]) ∧
    ((PrettyPrinter.new 80 4 true true).walk 0 exampleCycle).bind
      (fun W => W.T.removeAll W.N) = none :=
  ⟨by decide!, by decide!, by decide!, by decide!, by decide!⟩

/-- C24, amended: when the subtraction step `remove(linesNotToSimplify[item])` that opens
`simplifyItem` returns, a line is a candidate of `linesToSimplify` afterwards exactly when
it was a candidate before and no line recorded in `linesNotToSimplify` is that line or
reaches it by a chain of parent links (its parent, the parent of its parent, and so on).
The step returns unless chains of parent links of every length start at a line recorded in
`linesNotToSimplify`. -/
theorem subtraction_leaves (lts other : LinesToSimplify) :
    (lts.removeAll other = none ↔
      ∃ i ∈ allCandidates other, ∀ n, LinkChain lts.parent n i) ∧
    ∀ r, lts.removeAll other = some r → ∀ x : Int,
      (x ∈ allCandidates r ↔
        x ∈ allCandidates lts ∧ ∀ i ∈ allCandidates other, ¬ Reaches lts.parent i x) := by
  refine ⟨removeAll_none_iff lts other, ?_⟩
  intro r hr x
  rw [← removeAll_eq_some lts other r hr]
  exact mem_removeAll lts other x

/-- Witness for C24: with the candidates 1 and 2, line 1 being the parent of line 2, and
line 2 excluded, the subtraction step returns and leaves no candidate: line 1 is reached
from line 2. -/
theorem subtraction_leaves_witness :
    exampleLedger.removeAll ((default : LinesToSimplify).addLine 0 2 (-1)) =
      some ⟨[(1, []), (2, [])], [(2, 1)], [(1, 1), (2, 2)]⟩ ∧
    ((1 : Int) ∈ allCandidates ⟨[(1, []), (2, [])], [(2, 1)], [(1, 1), (2, 2)]⟩ ↔
      (1 : Int) ∈ allCandidates exampleLedger ∧
        ∀ i ∈ allCandidates ((default : LinesToSimplify).addLine 0 2 (-1)),
          ¬ Reaches exampleLedger.parent i 1) :=
  ⟨by decide!,
    (subtraction_leaves exampleLedger ((default : LinesToSimplify).addLine 0 2 (-1))).2
      ⟨[(1, []), (2, [])], [(2, 1)], [(1, 1), (2, 2)]⟩ (by decide!) 1⟩

/-- C25: the ledger at inputs on which the claim fails. After `addLine(1, 1)` and
`addLine(1, 2)`, the call `addLine(2, 3)` records the pair `(3, 1)`: the parent of line 3
is line 1, the first line added at priority 1, not line 2, the most recent one, because
`mostRecentlyAdded.insert` leaves the entry of priority 1 at line 1. The walk of Break,
`a`, Break, `b`, [Break, `c`] makes these calls. In the walk of the expression
`if c then x else y ++ z endif` the lines 1 and 3 are recorded at level 3 and then line 4
at level 5, and the parent recorded for line 4 is line 1, not line 3. -/
theorem addLine_parent_is_first_added :
    (((default : LinesToSimplify).addLine 1 1 (-1)).addLine 1 2 (-1)).addLine 2 3 (-1) =
      ⟨[(1, [1, 2]), (2, [3])], [(3, 1)], [(1, 1), (2, 3)]⟩ ∧
    ((PrettyPrinter.new 80 4 true true).walk 0 exampleTwoBreaks).map PrettyPrinter.T =
      some ⟨[(1, [1, 2]), (2, [3])], [(3, 1)], [(1, 1), (2, 3)]⟩ ∧
    ((PrettyPrinter.new 80 4 true true).walk 0
      (expressionToDocument exampleIteConcat)).map PrettyPrinter.T =
      some ⟨[(2, [2, 5]), (3, [1, 3]), (5, [4])], [(3, 2), (4, 1)],
        [(2, 2), (3, 1), (5, 4)]⟩ :=
  ⟨by decide!, by decide!, by decide!⟩

/-- Counterexample to C26: the walk of `x`, Break, `aaaa`, [`bbbbbbbb`, Break,
`cccccccc`] at width 14 records the candidates 1 and 2, line 1 being the parent of line 2.
The simplification of line 2 fails, and afterwards line 1, whose chain of parent links
does not reach line 2, is no candidate any more. In the ledger with the same two lines a
failure of line 1 leaves line 2, whose parent is line 1, a candidate. -/
theorem cascade_removes_parent_not_child :
    ((PrettyPrinter.new 14 4 true true).walk 0 exampleStop).map
      (fun W => (allCandidates W.T, W.T.parent)) = some ([1, 2], [(2, 1)]) ∧
    (((PrettyPrinter.new 14 4 true true).walk 0 exampleStop).bind
      (fun W => W.simplify 0 2 (some [2, 1]))).map
        (fun r => (r.1, allCandidates r.2.1.T)) = some (false, []) ∧
    exampleLedger.parent = [(2, 1)] ∧
    (exampleLedger.remove (some [2, 1]) 1 false).map (fun r => allCandidates r.1) =
      some [2] :=
  ⟨by decide!, by decide!, by decide!, by decide!⟩

/-- C26, amended: when the simplification of a candidate `c` fails (`simplify(0, c, vec)`
returns false), a line is a candidate of the ledger afterwards exactly when it was one
before and it is neither `c` nor reached from `c` by a chain of parent links (the parent
that `addLine` inferred for `c`, the parent of that line, and so on); the same holds of
the working vector. -/
theorem failed_simplify_cascade (pp : PrettyPrinter) (h : Single pp) (c : Int)
    (vec : Option (List Int)) (r : Bool × PrettyPrinter × Option (List Int))
    (hr : pp.simplify 0 c vec = some r) (hf : r.1 = false) (x : Int) :
    (x ∈ allCandidates r.2.1.T ↔
      x ∈ allCandidates pp.T ∧ ¬ Reaches pp.T.parent c x) ∧
    (x ∈ r.2.2.getD [] ↔ x ∈ vec.getD [] ∧ ¬ Reaches pp.T.parent c x) := by
  have hr1 := simplify_eq_some pp 0 c vec r hr
  subst hr1
  obtain ⟨g1, -, -, -, -, -, g7⟩ := simplify_spec pp h c vec
  rw [g1] at hf
  rw [hf] at g7
  have e1 : (pp.simplifyTotal 0 c vec).2.1.T = (pp.T.removeTotal vec c false).1 :=
    congrArg Prod.fst g7
  have e2 : (pp.simplifyTotal 0 c vec).2.2 = (pp.T.removeTotal vec c false).2 :=
    congrArg Prod.snd g7
  rw [e1, e2]
  obtain ⟨r1, r2, -⟩ := mem_remove_false pp.T vec c x
  exact ⟨r1, r2⟩

/-- Witness for C26: at width 14 the walk of `x`, Break, `aaaa`, [`bbbbbbbb`, Break,
`cccccccc`] leaves the candidates 1 and 2; the simplification of line 2 returns false,
and line 1 is a candidate afterwards exactly when it is not reached from line 2, which
it is. -/
theorem failed_simplify_cascade_witness :
    (PrettyPrinter.new 14 4 true true).walk 0 exampleStop = some exampleStopWalk ∧
    Single exampleStopWalk ∧
    exampleStopWalk.simplify 0 2 (some [2, 1]) =
      some (false, { exampleStopWalk with
        linesToSimplify := [⟨[(1, []), (2, [])], [(2, 1)], [(1, 1), (2, 2)]⟩] }, some []) ∧
    ((1 : Int) ∈ allCandidates (PrettyPrinter.T { exampleStopWalk with
        linesToSimplify := [⟨[(1, []), (2, [])], [(2, 1)], [(1, 1), (2, 2)]⟩] }) ↔
      (1 : Int) ∈ allCandidates exampleStopWalk.T ∧
        ¬ Reaches exampleStopWalk.T.parent 2 1) :=
  ⟨by decide!, ⟨by decide!, by decide!, by decide!, by decide!⟩, by decide!,
    (failed_simplify_cascade exampleStopWalk ⟨by decide!, by decide!, by decide!, by decide!⟩
      2 (some [2, 1]) (false, { exampleStopWalk with
        linesToSimplify := [⟨[(1, []), (2, [])], [(2, 1)], [(1, 1), (2, 2)]⟩] }, some [])
      (by decide!) rfl 1).1⟩

/-! # The working vector, the loop of `simplifyItem`, `printString` and the columns of
breaks -/

/-- C28: `simplifyItem` runs its loop on the working vector of the ledger left by the
subtraction step. Each iteration attempts the first entry `l` of the vector. When the
attempt fails (the call of `simplify` returns false) the loop ends and the lines stay as
they are, whatever the later entries are. When the test of `simplify` passes, the attempt
returns, line `l` is joined and the loop goes on with the other entries, in their order
and renumbered. When no attempt fails the loop returns with an empty vector, and for a
vector of distinct lines of the item it has joined one line for each entry. -/
theorem simplifyItem_stops_at_first_failure (pp : PrettyPrinter) (h : Single pp) (n : Nat)
    (l : Int) (rest vec : List Int) :
    pp.simplifyItem 0 =
      (pp.T.removeAll pp.N).bind (fun lts =>
        (PrettyPrinter.simplifyLoop lts.getLinesToSimplify.length
          { pp with linesToSimplify := vecModify pp.linesToSimplify 0 (fun _ => lts) } 0
          lts.getLinesToSimplify).map Prod.fst) ∧
    (∀ r, pp.simplify 0 l (some (l :: rest)) = some r → r.1 = false →
      canJoin pp.maxwidth pp.L l = false ∧
      PrettyPrinter.simplifyLoop (n + 1) pp 0 (l :: rest) = some (r.2.1, r.2.2.getD []) ∧
      r.2.1.L = pp.L) ∧
    (canJoin pp.maxwidth pp.L l = true →
      ∃ r, pp.simplify 0 l (some (l :: rest)) = some r ∧ r.1 = true ∧
        r.2.1.L = joinLines pp.L l ∧
        PrettyPrinter.simplifyLoop (n + 1) pp 0 (l :: rest) =
          PrettyPrinter.simplifyLoop n r.2.1 0 (decrementVec (eraseValue (l :: rest) l) l)) ∧
    (allAttemptsSucceed pp.maxwidth vec.length pp.L vec = true →
      ∃ r, PrettyPrinter.simplifyLoop vec.length pp 0 vec = some r ∧ r.2 = [] ∧
        (vec.Nodup → (∀ x ∈ vec, 1 ≤ x ∧ x < (pp.L.length : Int)) →
          r.1.L.length + vec.length = pp.L.length)) := by
  obtain ⟨g0, -, -, g3, -⟩ := simplify_spec pp h l (some (l :: rest))
  refine ⟨?_, ?_, ?_, ?_⟩
  · unfold PrettyPrinter.simplifyItem
    simp only [PrettyPrinter.T, PrettyPrinter.N]
    cases hq : (vecGet pp.linesToSimplify 0).removeAll (vecGet pp.linesNotToSimplify 0) with
    | none => rfl
    | some lts =>
      obtain ⟨-, -, -, s4, -⟩ := setLedger_spec pp h lts
      simp only [PrettyPrinter.T] at s4
      simp only [s4]
      rfl
  · intro r hr hf
    have hr1 := simplify_eq_some pp 0 l _ r hr
    subst hr1
    have hc : canJoin pp.maxwidth pp.L l = false := g0.symm.trans hf
    refine ⟨hc, ?_, ?_⟩
    · simp only [PrettyPrinter.simplifyLoop, hr, hf, Bool.not_false, if_true]
    · rw [g3, joinAt, hc]
      rfl
  · intro hc
    have hr := simplify_of_canJoin pp l (some (l :: rest)) hc
    refine ⟨_, hr, g0.trans hc, ?_, ?_⟩
    · rw [g3, joinAt, hc]
      rfl
    · have hv := simplify_vec_true pp 0 l (l :: rest) _ hr (g0.trans hc)
      simp only [PrettyPrinter.simplifyLoop, hr]
      rw [g0, hc, hv]
      simp only [Bool.not_true, Bool.false_eq_true, if_false, Option.getD_some]
  · intro ha
    exact ⟨_, simplifyLoop_all_some pp.maxwidth vec.length pp vec h rfl ha,
      simplifyLoop_all pp.maxwidth vec.length pp vec h rfl ha⟩

/-- Witness for C28: after the walk of `x`, Break, `aaaa`, [`bbbbbbbb`, Break,
`cccccccc`] at width 14 the working vector is 2, 1. Line 2 does not fit on line 1, the
attempt returns false and the loop ends with the lines as they are, although line 1 would
fit on line 0: the layout keeps its three lines. -/
theorem simplifyItem_stops_at_first_failure_witness :
    (PrettyPrinter.new 14 4 true true).walk 0 exampleStop = some exampleStopWalk ∧
    Single exampleStopWalk ∧
    exampleStopWalk.T.getLinesToSimplify = [2, 1] ∧
    canJoin exampleStopWalk.maxwidth exampleStopWalk.L 1 = true ∧
    exampleStopWalk.simplify 0 2 (some (2 :: [1])) =
      some (false, { exampleStopWalk with
        linesToSimplify := [⟨[(1, []), (2, [])], [(2, 1)], [(1, 1), (2, 2)]⟩] }, some []) ∧
    (canJoin exampleStopWalk.maxwidth exampleStopWalk.L 2 = false ∧
      PrettyPrinter.simplifyLoop (1 + 1) exampleStopWalk 0 (2 :: [1]) =
        some ({ exampleStopWalk with
          linesToSimplify := [⟨[(1, []), (2, [])], [(2, 1)], [(1, 1), (2, 2)]⟩] }, []) ∧
      PrettyPrinter.L { exampleStopWalk with
        linesToSimplify := [⟨[(1, []), (2, [])], [(2, 1)], [(1, 1), (2, 2)]⟩] } =
          exampleStopWalk.L) ∧
    (layout 14 4 true true 0 exampleStop).map (List.map lineView) =
      some [(0, "x"), (0, "aaaabbbbbbbb"), (4, "cccccccc")] :=
  ⟨by decide!, ⟨by decide!, by decide!, by decide!, by decide!⟩, by decide!, by decide!,
    by decide!,
    (simplifyItem_stops_at_first_failure exampleStopWalk
      ⟨by decide!, by decide!, by decide!, by decide!⟩ 1 2 [1] []).2.1
      (false, { exampleStopWalk with
        linesToSimplify := [⟨[(1, []), (2, [])], [(2, 1)], [(1, 1), (2, 2)]⟩] }, some [])
      (by decide!) rfl,
    by decide!⟩

/-- C29: with `x` the current line, the last line of the item, `printString(s, alignment,
alignmentCol)` appends `s` to `x` and adds no line when the size of `s` is at most
`maxwidth` minus the length and the indentation of `x`; otherwise it appends exactly one
line that holds only `s`, with indentation `alignmentCol` when `alignment` is true and
the size of `s` is at most `maxwidth - alignmentCol`, and `indentationBase` otherwise. In
both cases `s` is one string of one line. -/
theorem printString_fits_or_starts_line (pp : PrettyPrinter) (h : Good pp) (s : String)
    (alignment : Bool) (alignmentCol : Int) (a : List Line) (x : Line)
    (hL : pp.L = a ++ [x]) :
    pp.line pp.currentItem pp.currentLine = x ∧
    (size s ≤ pp.maxwidth - x.getLength - x.getIndentation →
      (pp.printString s alignment alignmentCol).L =
        a ++ [⟨x.indentation, x.lineLength + size s, x.text ++ [s]⟩]) ∧
    (¬ size s ≤ pp.maxwidth - x.getLength - x.getIndentation →
      (pp.printString s alignment alignmentCol).L =
        a ++ [x, ⟨if alignment = true ∧ size s ≤ pp.maxwidth - alignmentCol then alignmentCol
          else pp.indentationBase, size s, [s]⟩]) := by
  obtain ⟨-, -, -, -, g5⟩ := printString_spec pp h s alignment alignmentCol a x hL
  have hline : pp.line pp.currentItem pp.currentLine = x := by
    unfold PrettyPrinter.line
    rw [h.single.item]
    have : vecGet pp.items 0 = a ++ [x] := hL
    rw [this]
    exact vecGet_append_last a x _ (h.currentLine_eq hL)
  refine ⟨hline, ?_, ?_⟩
  · intro hfit
    have hfit1 : size s ≤ x.getSpaceLeft pp.maxwidth := hfit
    rw [g5, if_pos hfit1]
    rfl
  · intro hfit
    have hfit1 : ¬ size s ≤ x.getSpaceLeft pp.maxwidth := hfit
    rw [g5, if_neg hfit1]
    simp only [overflowCol, Line.new, Line.addString, zero_add, List.nil_append,
      Bool.and_eq_true, decide_eq_true_eq, ge_iff_le]

/-- Witness for C29: at width 3 the string `abcde` does not fit on the empty first
line, and a second line with indentation 4 holds it. -/
theorem printString_fits_or_starts_line_witness :
    Good (PrettyPrinter.mk 3 4 0 0 [[Line.new 0]] [default] [default] true true) ∧
    (PrettyPrinter.mk 3 4 0 0 [[Line.new 0]] [default] [default] true true).L =
      [] ++ [Line.new 0] ∧
    ¬ size "abcde" ≤ (PrettyPrinter.mk 3 4 0 0 [[Line.new 0]] [default] [default] true
      true).maxwidth - (Line.new 0).getLength - (Line.new 0).getIndentation ∧
    ((PrettyPrinter.mk 3 4 0 0 [[Line.new 0]] [default] [default] true true).printString
      "abcde" true 0).L =
        [] ++ [Line.new 0, ⟨if true = true ∧ size "abcde" ≤
          (PrettyPrinter.mk 3 4 0 0 [[Line.new 0]] [default] [default] true true).maxwidth - 0
          then 0
          else (PrettyPrinter.mk 3 4 0 0 [[Line.new 0]] [default] [default] true
            true).indentationBase, size "abcde", ["abcde"]⟩] :=
  ⟨start_good 3 4 true true, by decide!, by decide!,
    (printString_fits_or_starts_line _ (start_good 3 4 true true) "abcde" true 0 []
      (Line.new 0) (by decide!)).2.2 (by decide!)⟩

/-! # The indentation of the lines that the Break children of a list start -/

/-- Counterexample to C30: in `abc`, [`yyyy`, Break, `xxxx`] with the inner list aligned,
unbreakable and with an empty begin token, laid out at width 6, the cursor column on
entering the inner list is 3, after `abc`, and the line that the Break of the inner list
starts has indentation 0, the alignment column at which the unbreakable list first starts
a line, not 3. -/
theorem forced_line_resets_cursor :
    ((PrettyPrinter.mk 6 4 0 0 [[Line.new 0]] [default] [default] true true).printDocument 0
      (.StringDocument 1 "abc") true 0 "" "").map PrettyPrinter.cursor = some 3 ∧
    (layout 6 4 true true 0 exampleForcedLine).map (List.map lineView) =
      some [(0, "abc"), (0, "yyyy"), (0, "xxxx")] :=
  ⟨by decide!, by decide!⟩

/-- C30, amended: in `printDocList` on a list whose children are `pre`, a Break and `post`,
the Break being the `k`-th Break child (`k` is the number of Breaks in `pre` plus one),
the line that the Break starts is appended to the lines with indentation
`c + |beginToken|` when the list is aligned and `a + k * indentationBase` when it is not,
where `a` is the alignment column passed in by the parent and `c` is the cursor column
(indentation plus length of the current line) when the children are entered: the cursor
column on entering the list when the list is not unbreakable, and `a`, the column of the
line that the list first starts, when it is unbreakable. The walk of the list is the walk
of `pre`, the text before, this line, the text after and the walk of `post`, followed by
the simplification of the current line when the list is unbreakable; it returns exactly
when these walks and this simplification return. -/
theorem break_child_indentation (pp : PrettyPrinter) (h : Good pp) (u : Int) (lvl0 : Nat)
    (pre post : List Document) (lvl : Nat) (ds : Bool) (b sep e : String) (unb al al0 : Bool)
    (a : Int) (sb sa : String) :
    let ld := pre ++ Document.BreakPoint lvl ds :: post
    let pp0 := pp.enterList unb a
    let col := breakColumn al pp0.cursor a pp.indentationBase b (breakCount pre + 1)
    pp.printDocument u (.DocumentList lvl0 ld b sep e unb al) al0 a sb sa =
      (PrettyPrinter.printDocListLoop pp0 u pre 0 ld.length
        (lastVisibleElementIndex u ld) al (if al then pp0.cursor + size b else a) sep (e ++ sa)
        (sb ++ b)).bind (fun q0 =>
          let q := q0.printString (if pre.isEmpty then sb ++ b else "") al col
          (PrettyPrinter.printDocListLoop
            ((q.addLine col q.deeplySimp (!ds) lvl).printString
              (if post.isEmpty then e ++ sa else "") al col) u post (pre.length + 1) ld.length
            (lastVisibleElementIndex u ld) al col sep (e ++ sa) (sb ++ b)).bind
            (fun r => if unb then r.simplifyCurrent else some r)) ∧
    (∀ q0, PrettyPrinter.printDocListLoop pp0 u pre 0 ld.length
        (lastVisibleElementIndex u ld) al (if al then pp0.cursor + size b else a) sep (e ++ sa)
        (sb ++ b) = some q0 →
      let q := q0.printString (if pre.isEmpty then sb ++ b else "") al col
      (q.addLine col q.deeplySimp (!ds) lvl).L = q.L ++ [Line.new col]) ∧
    (Line.new col).getIndentation = col ∧
    (unb = false → pp0.cursor = pp.cursor) ∧
    (unb = true → pp0.cursor = a) := by
  intro ld pp0 col
  have hg0 : Good pp0 := enterList_good pp h unb a
  refine ⟨printDocument_break_child_some pp u lvl0 pre post lvl ds b sep e unb al al0 a sb sa,
    ?_, rfl, ?_, ?_⟩
  · intro q0 hq0 q
    have hq1 : Good q0 := by
      rw [← printDocListLoop_eq_some _ _ _ _ _ _ _ _ _ _ _ q0 hq0]
      exact printDocListLoop_good _ _ _ _ _ _ _ _ _ _ _ hg0
    have hq : Good q := printString_good _ hq1 _ _ _
    exact (addLine_spec q hq.single col q.deeplySimp (!ds) lvl).2.2.1
  · intro hu
    simp only [pp0, PrettyPrinter.enterList, hu, Bool.false_eq_true, if_false]
  · intro hu
    have hL := (addLine_spec pp h.single a false false 0).2.2.1
    have e0 : pp0 = pp.addLine a false false 0 := by
      simp only [pp0, PrettyPrinter.enterList, hu, if_true]
    rw [e0, (addLine_good pp h a false false 0).cursor_eq hL]
    simp [Line.new]

/-- Witness for C30: in the list `(a`, Break, `b)` that is not aligned, entered at the
start of the first line with alignment column 0, the walk leaves the lines `(a,` and `b)`,
and the line that the Break starts has indentation 0 + 1 * 4. -/
theorem break_child_indentation_witness :
    Good exampleStart ∧
    breakColumn false (exampleStart.enterList false 0).cursor 0 exampleStart.indentationBase
      "(" (breakCount [Document.StringDocument 1 "a"] + 1) = 4 ∧
    (exampleStart.printDocument 0 (.DocumentList 0 ([Document.StringDocument 1 "a"] ++
        Document.BreakPoint 1 false :: [Document.StringDocument 1 "b"]) "(" "," ")" false
        false) true 0 "" "").map (fun r => r.L.map lineView) =
      some [(0, "(a,"), (4, "b)")] ∧
    (let pp0 := exampleStart.enterList false 0
     let col := breakColumn false pp0.cursor 0 exampleStart.indentationBase "("
        (breakCount [Document.StringDocument 1 "a"] + 1)
     let q := (PrettyPrinter.mk 80 4 0 0 [[⟨0, 3, ["(a,"]⟩]] [default] [default] true
        true).printString
          (if [Document.StringDocument 1 "a"].isEmpty then "" ++ "(" else "") false col
     (q.addLine col q.deeplySimp (!false) 1).L = q.L ++ [Line.new col]) :=
  ⟨start_good 80 4 true true, by decide!, by decide!,
    (break_child_indentation exampleStart (start_good 80 4 true true) 0 0
      [Document.StringDocument 1 "a"] [Document.StringDocument 1 "b"] 1 false "(" "," ")"
      false false true 0 "" "").2.1
      (PrettyPrinter.mk 80 4 0 0 [[⟨0, 3, ["(a,"]⟩]] [default] [default] true true)
      (by decide!)⟩

/-! # The unassigned variable, the bounds of the indices, termination, and the legacy
engine -/

/-- C31: for every document, and so for every list document at every depth, the walk in
which `lastVisibleElementIndex` starts unassigned never reaches a read of the unassigned
variable (`printDocumentRead` returns `some`), and its result is the result of
`printDocument` for every value `u` that the variable could hold before it is assigned:
the layout does not depend on that value. When the children of a list are all Breaks, or
there are none, the variable stays unassigned, and the choice of the after-text of a Break
does not read it; otherwise the variable holds the index of the last child that is not a
Break. The choice for a child that is not a Break reads the variable, and would read it
unassigned only if it were `none`. -/
theorem lastVisible_read_only_when_assigned (pp : PrettyPrinter) (u u1 : Int) (d : Document)
    (al : Bool) (col : Int) (be af : String) (ld pre post : List Document) (x : Document)
    (i vs : Int) (o : Option Int) (sep la : String) :
    pp.printDocumentRead d al col be af = some (pp.printDocument u d al col be af) ∧
    pp.printDocument u d al col be af = pp.printDocument u1 d al col be af ∧
    ((∀ y ∈ ld, y.isBreakPoint = true) → lastVisibleElementIndexOpt ld = none) ∧
    (x.isBreakPoint = false → (∀ y ∈ post, y.isBreakPoint = true) →
      lastVisibleElementIndexOpt (pre ++ x :: post) = some (pre.length : Int)) ∧
    afterChoice i vs true o sep la = some (if i ≠ vs - 1 then "" else la) ∧
    (afterChoice i vs false o sep la = none ↔ i ≠ vs - 1 ∧ o = none) := by
  refine ⟨printDocumentRead_eq d pp u al col be af, ?_, ?_, ?_, ?_, ?_⟩
  · exact printDocument_initial pp u u1 d al col be af
  · intro h
    exact lastVisibleOptFrom_breaks ld 0 none h
  · intro hx hp
    have := lastVisibleOptFrom_last pre post x 0 none hx hp
    simpa [lastVisibleElementIndexOpt] using this
  · unfold afterChoice
    split <;> simp
  · unfold afterChoice
    cases o with
    | none => simp
    | some v =>
      simp only [Bool.false_eq_true, if_false, reduceCtorEq, and_false, iff_false]
      split <;> exact Option.some_ne_none _

/-- C32: for every document and every configuration of a new engine, `print` with checked
indices returns what `print` returns: the index passed to `simplify` at the end of every
unbreakable list and every index that the loop of `simplifyItem` takes from the working
vector is an index of a line of the item, `0 <= L < number of lines`; the checked
`simplify` fails exactly on the other indices. -/
theorem simplify_indices_in_bounds (mw ib : Int) (sim deepsim : Bool) (u : Int)
    (d : Document) (pp : PrettyPrinter) (item line : Int) (vec : Option (List Int)) :
    (PrettyPrinter.new mw ib sim deepsim).printBounded u d =
      some ((PrettyPrinter.new mw ib sim deepsim).print u d) ∧
    (pp.simplifyBounded item line vec = none ↔
      ¬ (0 ≤ line ∧ line < ((vecGet pp.items item).length : Int))) := by
  refine ⟨printBounded_eq mw ib sim deepsim u d, ?_⟩
  unfold PrettyPrinter.simplifyBounded
  split <;> simp_all

/-- C33: on the item left by the walk of a document that contains no unbreakable list,
`simplifyItem` ends: the walk returns, the subtraction step returns, `simplifyItem`
returns, and run with its loop bounded by any number of iterations that is at least the
length of the working vector and with the recursion of every removal bounded by any depth
greater than the number of parent pairs, it reaches no bound and returns the same result.
Every pair of the parent table leads from a line to a line with a strictly smaller index;
a `simplify` returns and keeps the second component of every pair at most the first, so
every link that a cascade follows leads to a strictly smaller index; and an iteration
whose `simplify` returns true leaves a strictly shorter working vector, the others end the
loop. -/
theorem simplifyItem_terminates (mw ib : Int) (sim deepsim : Bool) (u : Int) (d : Document)
    (hb : d.breakable = true) (k n : Nat) (pp : PrettyPrinter) (l : Int) (rest : List Int) :
    (∃ W lts r, (PrettyPrinter.new mw ib sim deepsim).walk u d = some W ∧
      W.T.removeAll W.N = some lts ∧ W.simplifyItem 0 = some r ∧
      (lts.getLinesToSimplify.length ≤ k → W.T.parent.length + 1 ≤ n →
        W.simplifyItemFuel k n 0 = some r) ∧
      (∀ pr ∈ W.T.parent, 1 ≤ pr.2 ∧ pr.2 < pr.1)) ∧
    (Single pp → (∀ pr ∈ pp.T.parent, pr.2 ≤ pr.1) →
      ∃ r, pp.simplify 0 l (some (l :: rest)) = some r ∧
        ∀ i j, Link r.2.1.T.parent i j → j < i) ∧
    (Single pp → ∀ r, pp.simplify 0 l (some (l :: rest)) = some r → r.1 = true →
      (r.2.2.getD []).length < (l :: rest).length) := by
  have hW := walk_linkRange mw ib sim deepsim u d hb
  have hP : ∀ pr ∈ ((PrettyPrinter.new mw ib sim deepsim).walkTotal u d).T.parent,
      pr.2 ≤ pr.1 := fun pr hpr => by
    have := hW.2.2 pr hpr
    omega
  refine ⟨⟨_, _, _, walk_breakable _ u d hb, removeAll_of_le _ _ hP,
    simplifyItem_of_le _ hW.1.single hP, fun hk hn => simplifyItemFuel_eq _ hW k n hk hn,
    hW.2.2⟩, ?_, ?_⟩
  · intro hs hP1
    refine ⟨_, simplify_of_le pp l (some (l :: rest)) hP1, ?_⟩
    intro i j hl
    have := (simplify_parent pp hs l (some (l :: rest)) hP1).1 (i, j) hl.1
    have hne := hl.2.1
    simp only at this
    omega
  · intro hs r hr ht
    have hr1 := simplify_eq_some pp 0 l _ r hr
    subst hr1
    exact simplify_shortens pp hs l rest ht

/-- Witness for C33: in `x`, Break, `aaaa`, [`bbbbbbbb`, Break, `cccccccc`] at width
14 the working vector has two entries and the parent table one pair; the first attempt
fails and its cascade follows the pair; `simplifyItem` returns, and with two iterations
and depth 2 as bounds it returns the same result. -/
theorem simplifyItem_terminates_witness :
    exampleStop.breakable = true ∧
    (PrettyPrinter.new 14 4 true true).walk 0 exampleStop = some exampleStopWalk ∧
    exampleStopWalk.T.parent = [(2, 1)] ∧
    exampleStopWalk.simplifyItem 0 = exampleStopWalk.simplifyItemFuel 2 2 0 ∧
    exampleStopWalk.simplifyItem 0 = some { exampleStopWalk with
      linesToSimplify := [⟨[(1, []), (2, [])], [(2, 1)], [(1, 1), (2, 2)]⟩] } ∧
    ∃ W lts r, (PrettyPrinter.new 14 4 true true).walk 0 exampleStop = some W ∧
      W.T.removeAll W.N = some lts ∧ W.simplifyItem 0 = some r ∧
      (lts.getLinesToSimplify.length ≤ 2 → W.T.parent.length + 1 ≤ 2 →
        W.simplifyItemFuel 2 2 0 = some r) ∧
      (∀ pr ∈ W.T.parent, 1 ≤ pr.2 ∧ pr.2 < pr.1) :=
  ⟨by decide, by decide!, by decide!, by decide!, by decide!,
    (simplifyItem_terminates 14 4 true true 0 exampleStop (by decide) 2 2 exampleEngine 0
      []).1⟩

end MiniZinc
